import Mathlib

/-!
# Flow-Importance-Index: column-subset enumeration

A shallow embedding of the C++ sources

* `foundfeasible.cpp`  (class `FoundFeasible`, an insertion-sorted list of column numbers),
* `checkedcolumnstree.cpp` (class `CheckedColumnsTree`, the trie of checked column sets),
* `vector.h` (classes `Vector`, `Matrix`, `SquareMatrix`),
* `main.cpp` (`columnExists`, `testFullColumnSet`, `checkColumns`, `combinations`,
  `main`),

followed by theorems about them.

Modelling conventions.

* `int` is `Int` (no wrap-around: the counters of a run stay far below `2^31`),
  `Vector<int>` is `List Int`, `std::list<int>` is `List Int`.
* `long` is `Int`; `combinations` is embedded twice, without overflow
  (`combinationsLoop`) and with the products reduced to 64 bits (`wrapLong`,
  `combinationsLoopLong`).
* `double` is `ℚ`: arithmetic is exact, the literal `1e-9` is `1 / 10^9`. `RREF` is
  embedded a second time with every arithmetic result rounded (`Rounded.RREF`), which
  with the rounding `binary64` is `RREF` in `double` (`doubleRREF`) and with no
  rounding is the exact `RREF`.
* A raw array `ColumnTree[width]` is a `List ColumnTree`; a null `nextColumn` is `none`.
* An access outside an array of the trie (undefined behaviour in C++) makes the
  embedded function return `none`.
* The LAPACK routines `dgetrf_`, `dlange_`, `dgecon_` are `extern "C"` declarations
  only; they are a parameter (`Lapack`) of everything that calls them.
* `RunState` carries, besides the variables that `main` threads through
  `checkColumns`, two ghost lists (`calls`, `factored`) that log the index buffers
  handed to `testFullColumnSet` and to `dgetrf`; no embedded function reads them.
  The index buffer `indicies` is passed next to the state.
-/

/-- An `R` by `C` array of rationals, with the sum, product and unit of matrices (the
name `Matrix` stands for the class of `vector.h` below). -/
abbrev RatMatrix (R C : Nat) := Matrix (Fin R) (Fin C) ℚ

namespace FlowImportance

/-! ## `FoundFeasible` (foundfeasible.cpp) -/

/-- The class `FoundFeasible`: the member `columns` (`std::list<int>`). The cursor
`currentPos` is modelled by the functions that iterate (they walk the list). -/
structure FoundFeasible where
  columns : List Int
deriving DecidableEq

namespace FoundFeasible

/-- `FoundFeasible::clearList`: erase every entry. -/
def clearList (_ff : FoundFeasible) : FoundFeasible := ⟨[]⟩

/-- The loop of `FoundFeasible::addColumn`: walk from the front, insert `value`
before the first entry that is greater than it, append when there is none. -/
def insertColumn (value : Int) : List Int → List Int
  | [] => [value]
  | x :: xs => if value < x then value :: x :: xs else x :: insertColumn value xs

/-- `FoundFeasible::addColumn`. -/
def addColumn (ff : FoundFeasible) (value : Int) : FoundFeasible :=
  ⟨insertColumn value ff.columns⟩

/-- The loop of `FoundFeasible::columnExists`: scan while the entries are `<= value`. -/
def scanColumn (value : Int) : List Int → Bool
  | [] => false
  | x :: xs => if x ≤ value then (if x = value then true else scanColumn value xs) else false

/-- `FoundFeasible::columnExists`. -/
def columnExists (ff : FoundFeasible) (value : Int) : Bool :=
  scanColumn value ff.columns

/-- The inner loop of `FoundFeasible::allColumnsExist`: is `listValue` one of
`indicies[0 .. min(length, depth) - 1]`? -/
def foundIt (listValue : Int) (indicies : List Int) (depth : Nat) : Bool :=
  (indicies.take depth).any (fun x => decide (listValue = x))

/-- `FoundFeasible::allColumnsExist`: every entry of the list occurs among the
first `depth` entries of `indicies`; the first missing one returns `false`. -/
def allColumnsExist (ff : FoundFeasible) (indicies : List Int) (depth : Nat) : Bool :=
  ff.columns.all (fun listValue => foundIt listValue indicies depth)

/-- `FoundFeasible::length`. -/
def length (ff : FoundFeasible) : Int := (ff.columns.length : Int)

/-- The inner loop of `FoundFeasible::match` for the value `(*indicies)[columnLupe]`:
walk the list while `located` is false and the entry is `<= value`; each step sets
`located = located || (value == entry)`. -/
def matchLocate (value : Int) : List Int → Bool → Bool
  | [], located => located
  | x :: xs, located =>
    if !located && decide (x ≤ value) then
      matchLocate value xs (located || decide (value = x))
    else located

/-- The outer loop of `FoundFeasible::match` over the remaining entries of the
vector: it runs while `found` holds, and each step sets `found = found && located`. -/
def matchLoop (columns : List Int) : List Int → Bool → Bool
  | [], found => found
  | value :: rest, found =>
    if found then matchLoop columns rest (found && matchLocate value columns false)
    else found

/-- `FoundFeasible::match` (the name is a keyword here, hence `matchColumns`):
`found` starts as the comparison of the two lengths. -/
def matchColumns (ff : FoundFeasible) (indicies : List Int) : Bool :=
  matchLoop ff.columns indicies (decide (indicies.length = ff.columns.length))

end FoundFeasible

/-! ## `CheckedColumnsTree` (checkedcolumnstree.cpp) -/

/-- The struct `CheckedColumnsTree::ColumnTree`: a flag and a pointer to the next
array of `ColumnTree` (null = `none`). -/
inductive ColumnTree where
  | mk (value : Bool) (nextColumn : Option (List ColumnTree)) : ColumnTree

/-- The array a constructor or `checkColumn` allocates: `width` entries, each with
`value = false` and `nextColumn = nullptr`. -/
def newBranch (width : Nat) : List ColumnTree :=
  List.replicate width (ColumnTree.mk false none)

/-- The read `current[v]`; `none` when `v` is outside the array. -/
def slotAt (current : List ColumnTree) (v : Int) : Option ColumnTree :=
  if v < 0 then none else current[v.toNat]?

/-- The class `CheckedColumnsTree`. -/
structure CheckedColumnsTree where
  maxWidth : Int
  maxDepth : Int
  checked : List ColumnTree

namespace CheckedColumnsTree

/-- `CheckedColumnsTree::getWidth`. -/
def getWidth (t : CheckedColumnsTree) : Int := t.maxWidth

/-- `CheckedColumnsTree::getDepth`. -/
def getDepth (t : CheckedColumnsTree) : Int := t.maxDepth

/-- `CheckedColumnsTree::CheckedColumnsTree(int width,int depth)`. -/
def create (width depth : Int) : CheckedColumnsTree :=
  { maxWidth := width, maxDepth := depth, checked := newBranch width.toNat }

/-- The body of `checkColumn` below `current`: `levels` iterations of the `for`
loop (each one reads the cursor, allocates the branch when it is null and clears
`exists`, descends and advances the cursor), then the check of the last node.
Returns the value of `exists` and the array `current` as it is afterwards. -/
def descend (width : Nat) :
    Nat → List ColumnTree → List Int → Bool → Option (Bool × List ColumnTree)
  | 0, current, cursor, ex =>
    match cursor with
    | [] => none
    | v :: _ =>
      match slotAt current v with
      | none => none
      | some (ColumnTree.mk value next) =>
        some (ex && value, current.set v.toNat (ColumnTree.mk true next))
  | levels + 1, current, cursor, ex =>
    match cursor with
    | [] => none
    | v :: rest =>
      match slotAt current v with
      | none => none
      | some (ColumnTree.mk value none) =>
        match descend width levels (newBranch width) rest false with
        | none => none
        | some (r, branch) =>
          some (r, current.set v.toNat (ColumnTree.mk value (some branch)))
      | some (ColumnTree.mk value (some branch)) =>
        match descend width levels branch rest ex with
        | none => none
        | some (r, branch1) =>
          some (r, current.set v.toNat (ColumnTree.mk value (some branch1)))

/-- `CheckedColumnsTree::checkColumn`: the `for` loop runs `depth - 1` times. -/
def checkColumn (t : CheckedColumnsTree) (indicies : FoundFeasible) :
    Option (Bool × CheckedColumnsTree) :=
  match descend t.getWidth.toNat (t.getDepth - 1).toNat t.checked indicies.columns true with
  | none => none
  | some (r, root) => some (r, { t with checked := root })

end CheckedColumnsTree

/-! ## `Matrix` and `SquareMatrix` (vector.h) -/

/-- The literal `1e-9` of `RREF` and `checkColumns`. -/
def tol : ℚ := 1 / 10 ^ 9

/-- `fabs`. -/
def fabs (x : ℚ) : ℚ := |x|

/-- The class `Matrix<double>`: the buffer `u` (a list of rows), `rows`, `columns`
and the two lists `unknowableColumns` and `knownColumns`. The member `index` is
only an output buffer of `dgetrf_` and is not modelled. -/
structure Matrix where
  u : List (List ℚ)
  rows : Nat
  columns : Nat
  unknowableColumns : FoundFeasible
  knownColumns : FoundFeasible

namespace Matrix

/-- `getNumberRows`. -/
def getNumberRows (m : Matrix) : Nat := m.rows

/-- `getNumberColumns`. -/
def getNumberColumns (m : Matrix) : Nat := m.columns

/-- The read `m[r][c]`. -/
def entry (m : Matrix) (r c : Nat) : ℚ := (m.u.getD r []).getD c 0

/-- What the constructor `Matrix(std::string fileName)` leaves, the parsing of the
text aside: the rows read, `columns` counted on the first line, and every number
of the `unknowable:` / `known:` lines passed to `addColumn`. -/
def load (u : List (List ℚ)) (unknowable known : List Int) : Matrix :=
  { u := u, rows := u.length, columns := (u.headD []).length,
    unknowableColumns := unknowable.foldl FoundFeasible.addColumn ⟨[]⟩,
    knownColumns := known.foldl FoundFeasible.addColumn ⟨[]⟩ }

/-- The copy constructor `Matrix(Matrix<field>& other)`: the entries are copied and
the values of both lists are pushed one by one with `addColumn`. -/
def copy (other : Matrix) : Matrix :=
  { u := other.u, rows := other.getNumberRows, columns := other.getNumberColumns,
    unknowableColumns := other.unknowableColumns.columns.foldl FoundFeasible.addColumn ⟨[]⟩,
    knownColumns := other.knownColumns.columns.foldl FoundFeasible.addColumn ⟨[]⟩ }

/-- `columnEntryInKnown`. -/
def columnEntryInKnown (m : Matrix) (value : Int) : Bool :=
  m.knownColumns.columnExists value

/-- `allColumnsInList`: an empty list defaults to `true`. -/
def allColumnsInList (columnList : FoundFeasible) (indicies : List Int) (depth : Nat) : Bool :=
  if columnList.length = 0 then true else columnList.allColumnsExist indicies depth

/-- `allColumnsInUnknowable`. -/
def allColumnsInUnknowable (m : Matrix) (indicies : List Int) (depth : Nat) : Bool :=
  allColumnsInList m.unknowableColumns indicies depth

/-- `swapRows`: exchange the entries of two rows. -/
def swapRows (m : Matrix) (firstRow secondRow : Nat) : Matrix :=
  { m with u := (m.u.set firstRow (m.u.getD secondRow [])).set secondRow (m.u.getD firstRow []) }

/-- The pointer walk of `daxpy`: skip `startColumn` entries of both rows, then add
`scaleValue` times the source entry to each remaining entry. -/
def axpyRow (scaleValue : ℚ) : Nat → List ℚ → List ℚ → List ℚ
  | _, [], _ => []
  | 0, x :: xs, src => (x + scaleValue * src.headD 0) :: axpyRow scaleValue 0 xs src.tail
  | k + 1, x :: xs, src => x :: axpyRow scaleValue k xs src.tail

/-- The pointer walk of `dscal`: skip `startColumn` entries, scale the remaining ones. -/
def scalRow (scaleValue : ℚ) : Nat → List ℚ → List ℚ
  | _, [] => []
  | 0, x :: xs => (x * scaleValue) :: scalRow scaleValue 0 xs
  | k + 1, x :: xs => x :: scalRow scaleValue k xs

/-- `daxpy`: add `scaleValue` times row `sourceRow` to row `changedRow`, from column
`startColumn` on. -/
def daxpy (m : Matrix) (scaleValue : ℚ) (changedRow sourceRow startColumn : Nat) : Matrix :=
  { m with u := (m.u.set changedRow
      (axpyRow scaleValue startColumn (m.u.getD changedRow []) (m.u.getD sourceRow []))) }

/-- `dscal`: multiply row `whichRow` by `scaleValue`, from column `startColumn` on. -/
def dscal (m : Matrix) (scaleValue : ℚ) (whichRow startColumn : Nat) : Matrix :=
  { m with u := (m.u.set whichRow (scalRow scaleValue startColumn (m.u.getD whichRow []))) }

/-- The `while(currentPivotColumn < columns)` loop of `RREF`: from `(innerLupe,
currentPivotColumn)` go down the column, then to the next column from row
`outerLupe`, until an entry is above `1e-9` in absolute value or the columns are
exhausted. Returns `(innerLupe, currentPivotColumn)`. -/
def findPivot (m : Matrix) (outerLupe : Nat) : Nat → Nat → Nat → Nat × Nat
  | 0, innerLupe, currentPivotColumn => (innerLupe, currentPivotColumn)
  | fuel + 1, innerLupe, currentPivotColumn =>
    if currentPivotColumn < m.columns then
      if fabs (m.entry innerLupe currentPivotColumn) > tol then
        (innerLupe, currentPivotColumn)
      else if innerLupe + 1 ≥ m.rows then
        findPivot m outerLupe fuel outerLupe (currentPivotColumn + 1)
      else
        findPivot m outerLupe fuel (innerLupe + 1) currentPivotColumn
    else (innerLupe, currentPivotColumn)

/-- One of the two elimination loops of `RREF`: for each row `lupe` of `which`,
when its entry in the pivot column is above `1e-9`, subtract the multiple of the
pivot row. -/
def eliminate (m : Matrix) (outerLupe currentPivotColumn : Nat) (which : List Nat) : Matrix :=
  which.foldl (fun m lupe =>
    if fabs (m.entry lupe currentPivotColumn) > tol then
      m.daxpy (-(m.entry lupe currentPivotColumn) / m.entry outerLupe currentPivotColumn)
        lupe outerLupe currentPivotColumn
    else m) m

/-- The body of the `for` loop of `RREF` once the pivot is located. -/
def reduceAt (m : Matrix) (outerLupe innerLupe currentPivotColumn : Nat) : Matrix :=
  if currentPivotColumn < m.columns then
    let m1 := if innerLupe ≠ outerLupe then m.swapRows innerLupe outerLupe else m
    let m2 := m1.eliminate outerLupe currentPivotColumn (List.range outerLupe)
    let m3 := m2.eliminate outerLupe currentPivotColumn
      (List.range' (outerLupe + 1) (m.rows - (outerLupe + 1)))
    m3.dscal (1 / m3.entry outerLupe currentPivotColumn) outerLupe currentPivotColumn
  else m

/-- The `for(outerLupe...)` loop of `RREF`. -/
def rrefLoop : Nat → Nat → Nat → Matrix → Matrix
  | 0, _, _, m => m
  | fuel + 1, outerLupe, currentPivotColumn, m =>
    if outerLupe < m.rows ∧ currentPivotColumn < m.columns then
      let p := m.findPivot outerLupe (m.rows * m.columns + 1) outerLupe currentPivotColumn
      rrefLoop fuel (outerLupe + 1) (p.2 + 1) (m.reduceAt outerLupe p.1 p.2)
    else m

/-- `Matrix::RREF`: at most `rows` iterations of the outer loop. -/
def RREF (m : Matrix) : Matrix := rrefLoop m.rows 0 0 m

end Matrix

/-- The LAPACK routines the source declares `extern "C"`: `dgetrf_` gives the
factors written over the buffer and `info`; `dlange_` gives the norm of the buffer;
`dgecon_` gives, for the factors and `anorm`, the estimate `rcond` and `info`. -/
structure Lapack where
  dgetrf_ : List (List ℚ) → List (List ℚ) × Int
  dlange_ : List (List ℚ) → ℚ
  dgecon_ : List (List ℚ) → ℚ → ℚ × Int

/-- The class `SquareMatrix<double>`: a `Matrix` with as many columns as rows (the
workspace arrays `work` and `iwork` are scratch space of LAPACK and not modelled). -/
abbrev SquareMatrix := Matrix

namespace SquareMatrix

/-- `SquareMatrix(int numberRows, field initialValue)`. -/
def create (numberRows : Nat) (initialValue : ℚ) : SquareMatrix :=
  { u := List.replicate numberRows (List.replicate numberRows initialValue),
    rows := numberRows, columns := numberRows,
    unknowableColumns := ⟨[]⟩, knownColumns := ⟨[]⟩ }

/-- `SquareMatrix::copyColumnsToRows`: entry `[rowLupe][lupe]` of this matrix becomes
`source[rowLupe][indicies[lupe]]`. -/
def copyColumnsToRows (tb : SquareMatrix) (source : Matrix) (indicies : List Int) :
    SquareMatrix :=
  { tb with u := (List.range tb.rows).map (fun rowLupe =>
      (List.range tb.columns).map (fun lupe =>
        source.entry rowLupe (indicies.getD lupe 0).toNat)) }

/-- `SquareMatrix::dgetrf`: the matrix with the factors written over its buffer, and
the result code of `dgetrf_`. -/
def dgetrf (K : Lapack) (tb : SquareMatrix) : SquareMatrix × Int :=
  ({ tb with u := (K.dgetrf_ tb.u).1 }, (K.dgetrf_ tb.u).2)

/-- `SquareMatrix::dlange`. -/
def dlange (K : Lapack) (tb : SquareMatrix) : ℚ := K.dlange_ tb.u

/-- `SquareMatrix::dgecon`: with `performLU` the matrix is factored first (`0.0`
when that fails); `dgecon_` is called with `norm = 1.0`; the estimate is returned
when its result code is `0`, else `0.0`. -/
def dgecon (K : Lapack) (tb : SquareMatrix) (performLU : Bool) : ℚ :=
  if performLU && decide ((dgetrf K tb).2 ≠ 0) then 0
  else
    let factors := if performLU then (dgetrf K tb).1 else tb
    let r := K.dgecon_ factors.u 1
    if r.2 = 0 then r.1 else 0

end SquareMatrix

/-! ## The search (main.cpp) -/

/-- The free function `columnExists` of main.cpp: is `value` one of
`indicies[0 .. currentRow - 1]`? -/
def columnExists (indicies : List Int) (currentRow : Nat) (value : Int) : Bool :=
  (indicies.take currentRow).any (fun x => decide (x = value))

/-- The variables of `main` that `checkColumns` and `testFullColumnSet` receive by
pointer and update (the index buffer `indicies` is passed next to it), and the two
ghost logs `calls` (index buffers handed to `testFullColumnSet`) and `factored`
(index buffers whose matrix was handed to `dgetrf`). -/
structure RunState where
  testBasis : SquareMatrix
  numberFeasible : Int
  numberRepeats : Int
  feasibleByColumn : List Int
  conditionNumbers : List ℚ
  sumConditionNumbers : List ℚ
  sumInvConditionNumbers : List ℚ
  previouslyChecked : CheckedColumnsTree
  calls : List (List Int)
  factored : List (List Int)

/-- The three statements
`(*feasibleByColumn)[lupe] += 1; (*sumInvConditionNumbers)[lupe] += conditionNumber;
(*sumConditionNumbers)[lupe] += 1.0/conditionNumber;` of `testFullColumnSet`. -/
def bumpColumn (conditionNumber : ℚ) (lupe : Nat) (st : RunState) : RunState :=
  { st with
    feasibleByColumn := st.feasibleByColumn.set lupe (st.feasibleByColumn.getD lupe 0 + 1),
    sumInvConditionNumbers :=
      st.sumInvConditionNumbers.set lupe (st.sumInvConditionNumbers.getD lupe 0 + conditionNumber),
    sumConditionNumbers :=
      st.sumConditionNumbers.set lupe (st.sumConditionNumbers.getD lupe 0 + 1 / conditionNumber) }

/-- The inner loop `while((lupe<feasibleByColumn->getLength())&&(lupe<newColumns.currentValue()))`
of `testFullColumnSet`; returns `lupe` and the state when the loop is left. The
first argument bounds the number of iterations (the length of the vector is enough). -/
def tallyBelow (conditionNumber : ℚ) (currentValue : Int) : Nat → Nat → RunState → Nat × RunState
  | 0, lupe, st => (lupe, st)
  | fuel + 1, lupe, st =>
    if lupe < st.feasibleByColumn.length ∧ (lupe : Int) < currentValue then
      tallyBelow conditionNumber currentValue fuel (lupe + 1) (bumpColumn conditionNumber lupe st)
    else (lupe, st)

/-- The loop `for(newColumns.startIteration();newColumns.iterationDone();newColumns.next())`
of `testFullColumnSet` over the remaining values of the cursor. -/
def tallyFor (conditionNumber : ℚ) : List Int → Nat → RunState → Nat × RunState
  | [], lupe, st => (lupe, st)
  | currentValue :: rest, lupe, st =>
    let r := tallyBelow conditionNumber currentValue st.feasibleByColumn.length lupe st
    tallyFor conditionNumber rest (r.1 + 1) r.2

/-- The last loop `while(lupe<feasibleByColumn->getLength())` of `testFullColumnSet`. -/
def tallyRest (conditionNumber : ℚ) : Nat → Nat → RunState → RunState
  | 0, _, st => st
  | fuel + 1, lupe, st =>
    if lupe < st.feasibleByColumn.length then
      tallyRest conditionNumber fuel (lupe + 1) (bumpColumn conditionNumber lupe st)
    else st

/-- `testFullColumnSet`: the value returned and the state afterwards. -/
def testFullColumnSet (K : Lapack) (originalStoichiometry : Matrix) (indicies : List Int)
    (st : RunState) : Option (Bool × RunState) :=
  let newColumns : FoundFeasible :=
    indicies.foldl FoundFeasible.addColumn (FoundFeasible.clearList ⟨[]⟩)
  match st.previouslyChecked.checkColumn newColumns with
  | none => none
  | some (true, tree) =>
    some (false, { st with
      numberRepeats := st.numberRepeats + 1,
      previouslyChecked := tree,
      calls := st.calls ++ [indicies] })
  | some (false, tree) =>
    let copied := SquareMatrix.copyColumnsToRows st.testBasis originalStoichiometry indicies
    let originalCopy : SquareMatrix := Matrix.copy copied
    let lu := SquareMatrix.dgetrf K copied
    let st1 : RunState := { st with
      testBasis := lu.1,
      previouslyChecked := tree,
      calls := st.calls ++ [indicies],
      factored := st.factored ++ [indicies] }
    if lu.2 = 0 then
      let matrixNorm := SquareMatrix.dlange K originalCopy
      let inverseNorm := SquareMatrix.dgecon K lu.1 false
      let conditionNumber := matrixNorm * inverseNorm
      let st2 : RunState := { st1 with
        conditionNumbers := st1.conditionNumbers ++ [conditionNumber],
        numberFeasible := st1.numberFeasible + 1 }
      let r := tallyFor conditionNumber newColumns.columns 0 st2
      some (true, tallyRest conditionNumber r.2.feasibleByColumn.length r.1 r.2)
    else some (true, st1)

/-- The body of the `for` loop of `checkColumns` for the column `lupe`, on the index
buffer and the state; `recurse` is the recursive call
`checkColumns(..., currentRow+1, ...)`. -/
def checkColumnsStep (K : Lapack) (rref originalStoichiometry : Matrix)
    (recurse : List Int × RunState → Option (List Int × RunState)) (currentRow : Nat)
    (p : List Int × RunState) (lupe : Nat) : Option (List Int × RunState) :=
  let indicies := p.1.set currentRow (lupe : Int)
  if decide (fabs (rref.entry currentRow lupe) > tol)
      && !columnExists indicies currentRow (lupe : Int)
      && !originalStoichiometry.columnEntryInKnown (lupe : Int) then
    if currentRow + 1 ≥ rref.getNumberRows then
      if originalStoichiometry.allColumnsInUnknowable indicies (currentRow + 1) then
        (testFullColumnSet K originalStoichiometry indicies p.2).map
          (fun r => (indicies, r.2))
      else some (indicies, p.2)
    else recurse (indicies, p.2)
  else some (indicies, p.2)

/-- `checkColumns`, on the index buffer and the state. The first argument bounds the
nesting of the recursion; `main` passes the number of rows, and a call at
`currentRow` needs `rows - currentRow`. -/
def checkColumns (K : Lapack) (rref originalStoichiometry : Matrix) :
    Nat → Nat → List Int × RunState → Option (List Int × RunState)
  | 0, _, _ => none
  | fuel + 1, currentRow, p =>
    (List.range rref.getNumberColumns).foldlM
      (checkColumnsStep K rref originalStoichiometry
        (checkColumns K rref originalStoichiometry fuel (currentRow + 1)) currentRow) p

/-- The variables of `main` before `checkColumns` is called. -/
def initialState (stoichiometry : Matrix) : RunState :=
  { testBasis := SquareMatrix.create stoichiometry.getNumberRows 0,
    numberFeasible := 0,
    numberRepeats := 0,
    feasibleByColumn := List.replicate stoichiometry.getNumberColumns 0,
    conditionNumbers := [],
    sumConditionNumbers := List.replicate stoichiometry.getNumberColumns 0,
    sumInvConditionNumbers := List.replicate stoichiometry.getNumberColumns 0,
    previouslyChecked :=
      CheckedColumnsTree.create stoichiometry.getNumberColumns stoichiometry.getNumberRows,
    calls := [],
    factored := [] }

/-- The computation of `main` up to the report: copy the matrix, reduce the working
copy with `RREF`, search from row `0` with the index buffer filled with `-1`. -/
def main (K : Lapack) (stoichiometry : Matrix) : Option (List Int × RunState) :=
  let originalStoich := Matrix.copy stoichiometry
  checkColumns K stoichiometry.RREF originalStoich stoichiometry.getNumberRows 0
    (List.replicate stoichiometry.getNumberRows (-1), initialState stoichiometry)

/-- The `for` loop of `combinations`: while `lupe > bound` (`bound` is `n - k`),
`combinations = combinations*lupe/(denominator++)` with the division of `long`
(towards zero), then `--lupe`. The first argument bounds the number of iterations. -/
def combinationsLoop (bound : Int) : Nat → Int → Int → Int → Int
  | 0, _, combinations, _ => combinations
  | fuel + 1, lupe, combinations, denominator =>
    if lupe > bound then
      combinationsLoop bound fuel (lupe - 1) (Int.tdiv (combinations * lupe) denominator)
        (denominator + 1)
    else combinations

/-- The body of `combinations(n, k)`; the first argument bounds the nesting of the
recursive call `combinations(n, n-k)`. The loop runs from `n` down to `n - k + 1`,
so `k` iterations are enough. -/
def combinationsDepth : Nat → Int → Int → Option Int
  | 0, _, _ => none
  | depth + 1, n, k =>
    if n < k then some 0
    else if 2 * k < n then combinationsDepth depth n (n - k)
    else some (combinationsLoop (n - k) k.toNat n 1 1)

/-- The function `combinations` of main.cpp (`long` without overflow); one nested
call is all the recursion ever makes. -/
def combinations (n k : Int) : Option Int := combinationsDepth 2 n k

/-- The number of times the body of the `for` loop of `combinations` runs: the loop
of `combinationsLoop` with the iterations counted instead of the product formed. -/
def combinationsLoopCount (bound : Int) : Nat → Int → Nat
  | 0, _ => 0
  | fuel + 1, lupe =>
    if lupe > bound then combinationsLoopCount bound fuel (lupe - 1) + 1 else 0

/-- The number of iterations of the `for` loop in a call `combinations(n, k)`, the
nested call `combinations(n, n-k)` included: the branches of `combinationsDepth`. -/
def combinationsIterations : Nat → Int → Int → Option Nat
  | 0, _, _ => none
  | depth + 1, n, k =>
    if n < k then some 0
    else if 2 * k < n then combinationsIterations depth n (n - k)
    else some (combinationsLoopCount (n - k) k.toNat n)

/-! ## An exact interpretation of the LAPACK routines -/

/-- The determinant by expansion along the first row (the first argument bounds the
number of rows). -/
def detRows : Nat → List (List ℚ) → ℚ
  | 0, _ => 1
  | _ + 1, [] => 1
  | n + 1, r :: rs =>
    ((List.range r.length).map (fun j =>
      (-1) ^ j * r.getD j 0 * detRows n (rs.map (fun row => row.eraseIdx j)))).sum

/-- Entry `(i, j)` of the inverse: the cofactor of `(j, i)` over the determinant. -/
def inverseEntry (a : List (List ℚ)) (i j : Nat) : ℚ :=
  (-1) ^ (i + j) * detRows a.length ((a.eraseIdx j).map (fun row => row.eraseIdx i))
    / detRows a.length a

/-- The largest sum of absolute values along one line of the buffer. LAPACK reads
the buffer column by column, so its columns are the rows of the list. -/
def lineNorm (a : List (List ℚ)) : ℚ :=
  (a.map (fun line => (line.map fabs).sum)).foldl max 0

/-- Modelled from the spec: the LAPACK routines are declared `extern "C"` and their
code is not part of the sources. This is their exact-arithmetic reading: `dgetrf_`
succeeds (`info = 0`) exactly when the matrix is invertible and leaves the matrix
standing for its factors; `dlange_` is the 1-norm; `dgecon_` is
`1 / (anorm * norm of the inverse)`. -/
def exactLapack : Lapack :=
  { dgetrf_ := fun a => (a, if detRows a.length a = 0 then 1 else 0),
    dlange_ := fun a => lineNorm a,
    dgecon_ := fun a anorm =>
      (1 / (anorm * lineNorm ((List.range a.length).map (fun i =>
          (List.range a.length).map (fun j => inverseEntry a i j)))), 0) }

/-! ## Definitions used in the statements and proofs -/

/-- The flag the trie below `current` holds for the sequence `cursor`, read along
`levels` branches (`false` when a branch on the way is missing). -/
def markedAt : Nat → List ColumnTree → List Int → Bool
  | _, _, [] => false
  | 0, current, v :: _ =>
    match slotAt current v with
    | some (ColumnTree.mk value _) => value
    | none => false
  | levels + 1, current, v :: rest =>
    match slotAt current v with
    | some (ColumnTree.mk _ (some branch)) => markedAt levels branch rest
    | _ => false

/-- Every array of the trie, down to `levels` branches below `current`, has `width`
entries. -/
def WellFormed (width : Nat) : Nat → List ColumnTree → Prop
  | 0, current => current.length = width
  | levels + 1, current =>
    current.length = width ∧
      ∀ value branch, ColumnTree.mk value (some branch) ∈ current →
        WellFormed width levels branch

/-- A sequence a trie of width `width` and depth `depth` is keyed by: `depth`
values, each in `[0, width)`. -/
def ValidKey (width depth : Nat) (s : List Int) : Prop :=
  s.length = depth ∧ ∀ v ∈ s, 0 ≤ v ∧ v < (width : Int)

instance (width depth : Nat) (s : List Int) : Decidable (ValidKey width depth s) := by
  unfold ValidKey; infer_instance

/-- A sequence of `checkColumn` calls on one trie, the results dropped. -/
def checkAll (t : CheckedColumnsTree) (keys : List (List Int)) : Option CheckedColumnsTree :=
  keys.foldlM (fun t s => (t.checkColumn ⟨s⟩).map Prod.snd) t

/-- The trie has width `W` and depth `D`, arrays of the right width, and flags
exactly the keys of `seen` (among the keys of length `D`). -/
def TreeHolds (W D : Nat) (t : CheckedColumnsTree) (seen : List (List Int)) : Prop :=
  t.maxWidth = (W : Int) ∧ t.maxDepth = (D : Int) ∧ WellFormed W (D - 1) t.checked ∧
    ∀ s : List Int, s.length = D → markedAt (D - 1) t.checked s = decide (s ∈ seen)

/-- The contents of `newColumns` after the first loop of `testFullColumnSet`. -/
def sortedKey (indicies : List Int) : List Int :=
  (indicies.foldl FoundFeasible.addColumn (FoundFeasible.clearList ⟨[]⟩)).columns

/-- The state with the three per-column vectors replaced. -/
def withStats (st : RunState) (f : List Int) (sc si : List ℚ) : RunState :=
  { st with feasibleByColumn := f, sumConditionNumbers := sc, sumInvConditionNumbers := si }

/-- The buffer `copyColumnsToRows` writes into a test matrix of `n` rows and columns. -/
def submatrix (n : Nat) (source : Matrix) (indicies : List Int) : List (List ℚ) :=
  (List.range n).map (fun rowLupe =>
    (List.range n).map (fun lupe => source.entry rowLupe (indicies.getD lupe 0).toNat))

/-- Does `dgetrf` report `0` for the columns `indicies` of `source`? -/
def fullRank (K : Lapack) (n : Nat) (source : Matrix) (indicies : List Int) : Bool :=
  decide ((K.dgetrf_ (submatrix n source indicies)).2 = 0)

/-- The value `testFullColumnSet` computes as `conditionNumber` for the columns
`indicies` of `source`: `dlange` of the copy times `dgecon(false)` of the factors. -/
def recordedNumber (K : Lapack) (n : Nat) (source : Matrix) (indicies : List Int) : ℚ :=
  K.dlange_ (submatrix n source indicies)
    * (if (K.dgecon_ (K.dgetrf_ (submatrix n source indicies)).1 1).2 = 0
        then (K.dgecon_ (K.dgetrf_ (submatrix n source indicies)).1 1).1 else 0)

/-- What holds of the state between two calls of `testFullColumnSet` in a run on
`W` columns and `D` rows: the trie flags the keys `seen`, the test matrix is
`n` by `n`, and `feasibleByColumn` has `W` entries. -/
def RunInv (W D n : Nat) (st : RunState) (seen : List (List Int)) : Prop :=
  TreeHolds W D st.previouslyChecked seen ∧ st.testBasis.rows = n ∧
    st.testBasis.columns = n ∧ st.feasibleByColumn.length = W

/-- The state of `testFullColumnSet` in front of the tally loops, for a new key of
full rank: `tree` is the trie after `checkColumn`. -/
def countedState (K : Lapack) (n : Nat) (orig : Matrix) (buf : List Int) (st : RunState)
    (tree : CheckedColumnsTree) : RunState :=
  { st with
    testBasis := { st.testBasis with u := (K.dgetrf_ (submatrix n orig buf)).1 },
    previouslyChecked := tree,
    calls := st.calls ++ [buf],
    factored := st.factored ++ [buf],
    conditionNumbers := st.conditionNumbers ++ [recordedNumber K n orig buf],
    numberFeasible := st.numberFeasible + 1 }

/-- The state `testFullColumnSet` returns for a new key that is not of full rank. -/
def discardedState (K : Lapack) (n : Nat) (orig : Matrix) (buf : List Int) (st : RunState)
    (tree : CheckedColumnsTree) : RunState :=
  { st with
    testBasis := { st.testBasis with u := (K.dgetrf_ (submatrix n orig buf)).1 },
    previouslyChecked := tree,
    calls := st.calls ++ [buf],
    factored := st.factored ++ [buf] }

/-- Successive calls of `testFullColumnSet` on one state, one per index buffer. -/
def testAll (K : Lapack) (orig : Matrix) (bufs : List (List Int)) (st : RunState) :
    Option RunState :=
  bufs.foldlM (fun st buf => (testFullColumnSet K orig buf st).map Prod.snd) st

/-- The test `checkColumns` applies to column `lupe` in row `currentRow`, when the
columns in `pre` are the ones chosen for the rows before. -/
def admissible (rref orig : Matrix) (currentRow : Nat) (pre : List Int) (lupe : Nat) : Bool :=
  decide (fabs (rref.entry currentRow lupe) > tol)
    && !(pre.any (fun x => decide (x = (lupe : Int))))
    && !orig.columnEntryInKnown (lupe : Int)

/-- The index buffers the body of the loop of `checkColumns` hands to
`testFullColumnSet` for the column `lupe`; `below` stands for the recursive call. -/
def candidatesStep (rref orig : Matrix) (below : List Int → List (List Int))
    (currentRow : Nat) (pre : List Int) (lupe : Nat) : List (List Int) :=
  if admissible rref orig currentRow pre lupe then
    if currentRow + 1 ≥ rref.getNumberRows then
      if orig.allColumnsInUnknowable (pre ++ [(lupe : Int)]) (currentRow + 1) then
        [pre ++ [(lupe : Int)]]
      else []
    else below (pre ++ [(lupe : Int)])
  else []

/-- The index buffers that `checkColumns` at `currentRow`, with the columns `pre`
chosen for the rows before, hands to `testFullColumnSet`, in the order of the calls. -/
def candidates (rref orig : Matrix) : Nat → Nat → List Int → List (List Int)
  | 0, _, _ => []
  | fuel + 1, currentRow, pre =>
    (List.range rref.getNumberColumns).flatMap
      (candidatesStep rref orig (candidates rref orig fuel (currentRow + 1)) currentRow pre)

/-- The index buffers among `bufs` whose sorted key is neither in `seen` nor the key
of an earlier buffer of `bufs`. -/
def firstsFrom : List (List Int) → List (List Int) → List (List Int)
  | _, [] => []
  | seen, b :: bs =>
    if sortedKey b ∈ seen then firstsFrom (seen ++ [sortedKey b]) bs
    else b :: firstsFrom (seen ++ [sortedKey b]) bs

/-- The column the index buffer `b` holds for row `r` is one `checkColumns` admits
there: a column `c < columns` that passes the test of the loop, the columns of the
rows before being `b[0 .. r-1]`. -/
def ChosenAt (rref orig : Matrix) (b : List Int) (r : Nat) : Prop :=
  ∃ c : Nat, c < rref.getNumberColumns ∧ b[r]? = some (c : Int) ∧
    admissible rref orig r (b.take r) c = true

/-- The index buffer `b` is one the search from row `0` hands to
`testFullColumnSet`: it has `rows` entries, an admitted column in every row, and
contains every unknowable column. -/
def Reached (rref orig : Matrix) (b : List Int) : Prop :=
  b.length = rref.getNumberRows ∧
    (∀ r, r < rref.getNumberRows → ChosenAt rref orig b r) ∧
    orig.allColumnsInUnknowable b rref.getNumberRows = true

/-- The columns `0, ..., C-1` as the `int` values the index buffer holds. -/
def columnList (C : Nat) : List Int := (List.range C).map (fun (c : Nat) => (c : Int))

/-- Some assignment of the columns `S` to the rows `0, 1, ...` (a buffer `b` that is
a permutation of `S`) has every entry of `rref` at `(r, b[r])` above `1e-9` in
absolute value. -/
def ThresholdReachable (rref : Matrix) (S : List Int) : Prop :=
  ∃ b ∈ S.permutations,
    ∀ r, r < rref.getNumberRows → fabs (rref.entry r (b.getD r 0).toNat) > tol

instance (rref : Matrix) (S : List Int) : Decidable (ThresholdReachable rref S) := by
  unfold ThresholdReachable; infer_instance

/-- The count in the words of the specification: the number of `rows`-element
subsets `S` of the columns (ascending lists) that contain no known column, contain
every unknowable column, and whose submatrix of the original matrix is reported
invertible by `dgetrf`. -/
def claimedFeasible (K : Lapack) (m : Matrix) : Nat :=
  ((List.sublistsLen m.rows (columnList m.columns)).filter (fun S =>
    decide ((∀ c ∈ S, c ∉ m.knownColumns.columns) ∧
      (∀ v ∈ m.unknowableColumns.columns, v ∈ S))
    && fullRank K m.rows m.copy S)).length

/-- The count of `claimedFeasible` restricted to the subsets the search can reach
through the entries of the reduced matrix that are above `1e-9`. -/
def reachedFeasible (K : Lapack) (m : Matrix) : Nat :=
  ((List.sublistsLen m.rows (columnList m.columns)).filter (fun S =>
    decide ((∀ c ∈ S, c ∉ m.knownColumns.columns) ∧
      (∀ v ∈ m.unknowableColumns.columns, v ∈ S))
    && decide (ThresholdReachable m.RREF S)
    && fullRank K m.rows m.copy S)).length

/-- The buffer of the matrix has `rows` rows of `columns` entries each. -/
def WellShaped (m : Matrix) : Prop :=
  m.u.length = m.rows ∧ ∀ row ∈ m.u, row.length = m.columns

instance (m : Matrix) : Decidable (WellShaped m) := by
  unfold WellShaped; infer_instance

/-- The pivot columns `RREF` chooses, one per iteration of its outer loop that finds
a pivot, in the order of the rows: the loop of `rrefLoop` with the columns logged. -/
def rrefPivots : Nat → Nat → Nat → Matrix → List Nat
  | 0, _, _, _ => []
  | fuel + 1, outerLupe, currentPivotColumn, m =>
    if outerLupe < m.rows ∧ currentPivotColumn < m.columns then
      let p := m.findPivot outerLupe (m.rows * m.columns + 1) outerLupe currentPivotColumn
      if p.2 < m.columns then
        p.2 :: rrefPivots fuel (outerLupe + 1) (p.2 + 1) (m.reduceAt outerLupe p.1 p.2)
      else []
    else []

/-- The pivot column of row `r` in `RREF` is entry `r` of this list; rows from its
length on received no pivot. -/
def pivotColumns (m : Matrix) : List Nat := rrefPivots m.rows 0 0 m

/-- The staircase the outer loop of `RREF` builds, read from row `i` and column `s`
on: for each pivot column `p` of the list in turn, the entries of the rows from
`i` on in the columns `s .. p-1` are at most `1e-9` in absolute value, the entry at
`(i, p)` is `1`, the other entries of column `p` are at most `1e-9`, and the rest
of the list continues from row `i+1` and column `p+1`; after the last pivot the
entries of the remaining rows in the columns up to `c-1` are at most `1e-9`. -/
def Gaps (m : Matrix) : Nat → Nat → List Nat → Nat → Prop
  | i, s, [], c =>
    ∀ j, s ≤ j → j < c → ∀ l, i ≤ l → l < m.rows → fabs (m.entry l j) ≤ tol
  | i, s, p :: ps, c =>
    s ≤ p ∧ p < c ∧ p < m.columns ∧
    (∀ j, s ≤ j → j < p → ∀ l, i ≤ l → l < m.rows → fabs (m.entry l j) ≤ tol) ∧
    i < m.rows ∧ m.entry i p = 1 ∧
    (∀ l, l < m.rows → l ≠ i → fabs (m.entry l p) ≤ tol) ∧
    Gaps m (i + 1) (p + 1) ps c

/-- What the pivot search of `RREF` has looked at when it is at `(i, c)`, having
started at row `o` and column `c0`: the rows from `o` on in the columns
`c0 .. c-1`, and the rows `o .. i-1` in column `c`; all these entries are at most
`1e-9` in absolute value. -/
def Scanned (m : Matrix) (o c0 i c : Nat) : Prop :=
  (∀ j, c0 ≤ j → j < c → ∀ l, o ≤ l → l < m.rows → fabs (m.entry l j) ≤ tol) ∧
  (∀ l, o ≤ l → l < i → fabs (m.entry l c) ≤ tol)

/-- What a call of `checkColumns` at row `r` keeps, from the pair `p` (index buffer
and state) it receives to the pair `q` it returns: the slots `0 .. r-1` of the buffer
and its length, and of the log of `calls` everything that was there; each buffer
added to the log agrees with the buffer received on the slots `0 .. r-1`. -/
def KeepsBelow (r : Nat) (p q : List Int × RunState) : Prop :=
  q.1.take r = p.1.take r ∧ q.1.length = p.1.length ∧
    ∃ added : List (List Int), q.2.calls = p.2.calls ++ added ∧
      ∀ b ∈ added, b.take r = p.1.take r

/-- The number of arrays (`new ColumnTree[width]`) the trie holds at and below
`current`, on `levels` levels of branches: the array itself and, for each slot with a
branch, the arrays of that branch. The arrays of the last level hold flags only. -/
def arrays : Nat → List ColumnTree → Nat
  | 0, _ => 1
  | levels + 1, current =>
    1 + (current.map (fun slot =>
      match slot with
      | ColumnTree.mk _ (some branch) => arrays levels branch
      | ColumnTree.mk _ none => 0)).sum

/-- Is there an array at the end of the path `path` below `current`? The empty path
ends at `current` itself; a path of more than `levels` steps ends nowhere. -/
def branchAt : Nat → List ColumnTree → List Int → Bool
  | _, _, [] => true
  | 0, _, _ :: _ => false
  | levels + 1, current, v :: rest =>
    match slotAt current v with
    | some (ColumnTree.mk _ (some branch)) => branchAt levels branch rest
    | _ => false

/-- The number of prefixes of `cursor` of length `1, ..., levels` at whose end the
trie below `current` has no array yet. -/
def unbranched (levels : Nat) (current : List ColumnTree) (cursor : List Int) : Nat :=
  (List.range' 1 levels).countP (fun j => !branchAt levels current (cursor.take j))

/-- The non-empty prefixes of length at most `L` of the sequences `keys` (with
repetitions). -/
def prefixesUpTo (L : Nat) (keys : List (List Int)) : List (List Int) :=
  keys.flatMap (fun k => (List.range' 1 L).map (fun j => k.take j))

/-- The index buffers the body of the loop of `checkColumns` brings to a leaf for the
column `lupe` (the last row reached with an admitted column), before the unknowable
check; `below` stands for the recursive call. -/
def leavesStep (rref orig : Matrix) (below : List Int → List (List Int))
    (currentRow : Nat) (pre : List Int) (lupe : Nat) : List (List Int) :=
  if admissible rref orig currentRow pre lupe then
    if currentRow + 1 ≥ rref.getNumberRows then [pre ++ [(lupe : Int)]]
    else below (pre ++ [(lupe : Int)])
  else []

/-- The index buffers that `checkColumns` at `currentRow`, with the columns `pre`
chosen for the rows before, brings to a leaf, in the order it reaches them. -/
def leaves (rref orig : Matrix) : Nat → Nat → List Int → List (List Int)
  | 0, _, _ => []
  | fuel + 1, currentRow, pre =>
    (List.range rref.getNumberColumns).flatMap
      (leavesStep rref orig (leaves rref orig fuel (currentRow + 1)) currentRow pre)

/-- The matrix with its list of unknowable columns emptied. -/
def withoutUnknowable (orig : Matrix) : Matrix :=
  { orig with unknowableColumns := ⟨[]⟩ }

/-- The loop of `combinations` with its divisions logged: for each iteration the
dividend `combinations*lupe`, the divisor `denominator` and the quotient stored back
in `combinations`. -/
def combinationsSteps (bound : Int) : Nat → Int → Int → Int → List (Int × Int × Int)
  | 0, _, _, _ => []
  | fuel + 1, lupe, combinations, denominator =>
    if lupe > bound then
      (combinations * lupe, denominator, Int.tdiv (combinations * lupe) denominator) ::
        combinationsSteps bound fuel (lupe - 1) (Int.tdiv (combinations * lupe) denominator)
          (denominator + 1)
    else []

/-- The cursor of `FoundFeasible`: the list and the position of `currentPos`, counted
from `begin()`; the position `columns.length` is `end()`. -/
structure Cursor where
  columns : List Int
  currentPos : Nat

/-- `FoundFeasible::startIteration`: `currentPos = begin()`. -/
def FoundFeasible.startIteration (ff : FoundFeasible) : Cursor := ⟨ff.columns, 0⟩

/-- `FoundFeasible::next`: `++currentPos`. -/
def Cursor.next (c : Cursor) : Cursor := { c with currentPos := c.currentPos + 1 }

/-- `FoundFeasible::iterationDone`: `currentPos != end()`. -/
def Cursor.iterationDone (c : Cursor) : Bool := decide (c.currentPos ≠ c.columns.length)

/-- `FoundFeasible::currentValue`: `*currentPos`; `none` at `end()`. -/
def Cursor.currentValue (c : Cursor) : Option Int := c.columns[c.currentPos]?

/-- The loop `for(startIteration(); iterationDone(); next()) body(currentValue())`
from the cursor `c` on, with the state `s` of the body threaded through. The first
argument bounds the number of tests of `iterationDone()`. -/
def Cursor.iterate {σ : Type} (body : Int → σ → σ) : Nat → Cursor → σ → Option σ
  | 0, _, _ => none
  | fuel + 1, c, s =>
    if c.iterationDone then
      match c.currentValue with
      | none => none
      | some v => Cursor.iterate body fuel c.next (body v s)
    else some s

/-- The vector `f` comes from `f0` by adding `1` to some of the entries with index in
`[lo, hi)` and leaving every other entry as it is. -/
def Bumped (lo hi : Nat) (f0 f : List Int) : Prop :=
  f.length = f0.length ∧
    (∀ c, c < lo ∨ hi ≤ c → f.getD c 0 = f0.getD c 0) ∧
    ∀ c, f0.getD c 0 ≤ f.getD c 0 ∧ f.getD c 0 ≤ f0.getD c 0 + 1

/-- The entries of `m`, rows `0 .. R-1` and columns `0 .. C-1`. -/
def toEntries (R C : Nat) (m : Matrix) : RatMatrix R C :=
  fun i j => m.entry i.val j.val

/-- The array `B` is `E * A` for some invertible `E`. -/
def RowEquivalent {R C : Nat} (A B : RatMatrix R C) : Prop :=
  ∃ E F : RatMatrix R R, E * F = 1 ∧ F * E = 1 ∧ B = E * A

/-- The run of the outer loop of `RREF` (the recursion of `rrefLoop`) with this check
at each iteration that finds a pivot: the row the pivot is found in holds `0` in
every column to the left of the pivot column. -/
def pivotRowsClean : Nat → Nat → Nat → Matrix → Bool
  | 0, _, _, _ => true
  | fuel + 1, outerLupe, currentPivotColumn, m =>
    if outerLupe < m.rows ∧ currentPivotColumn < m.columns then
      let p := m.findPivot outerLupe (m.rows * m.columns + 1) outerLupe currentPivotColumn
      (!decide (p.2 < m.columns) ||
          (List.range p.2).all (fun j => decide (m.entry p.1 j = 0))) &&
        pivotRowsClean fuel (outerLupe + 1) (p.2 + 1) (m.reduceAt outerLupe p.1 p.2)
    else true

/-- The value a 64-bit `long` holds for the integer `x`: `x` reduced modulo `2^64`
into the range from `-2^63` to `2^63 - 1` (two's complement; what the multiplication
instruction leaves when a signed product does not fit). -/
def wrapLong (x : Int) : Int := (x + 2 ^ 63) % 2 ^ 64 - 2 ^ 63

/-- The `for` loop of `combinations` with `long` of 64 bits: the product
`combinations*lupe` is formed in `long` (`wrapLong`) and then divided towards zero by
`denominator`. The first argument bounds the number of iterations. -/
def combinationsLoopLong (bound : Int) : Nat → Int → Int → Int → Int
  | 0, _, combinations, _ => combinations
  | fuel + 1, lupe, combinations, denominator =>
    if lupe > bound then
      combinationsLoopLong bound fuel (lupe - 1)
        (Int.tdiv (wrapLong (combinations * lupe)) denominator) (denominator + 1)
    else combinations

/-- The body of `combinations(n, k)` with `long` of 64 bits; the first argument bounds
the nesting of the recursive call `combinations(n, n-k)`. -/
def combinationsDepthLong : Nat → Int → Int → Option Int
  | 0, _, _ => none
  | depth + 1, n, k =>
    if n < k then some 0
    else if 2 * k < n then combinationsDepthLong depth n (n - k)
    else some (combinationsLoopLong (n - k) k.toNat n 1 1)

/-- The function `combinations` of main.cpp with `long` of 64 bits. -/
def combinationsLong (n k : Int) : Option Int := combinationsDepthLong 2 n k

/-- The loop of `combinations` with `long` of 64 bits and its divisions logged: for
each iteration the dividend (the product as `long` holds it), the divisor
`denominator` and the quotient stored back in `combinations`. -/
def combinationsStepsLong (bound : Int) : Nat → Int → Int → Int → List (Int × Int × Int)
  | 0, _, _, _ => []
  | fuel + 1, lupe, combinations, denominator =>
    if lupe > bound then
      (wrapLong (combinations * lupe), denominator,
          Int.tdiv (wrapLong (combinations * lupe)) denominator) ::
        combinationsStepsLong bound fuel (lupe - 1)
          (Int.tdiv (wrapLong (combinations * lupe)) denominator) (denominator + 1)
    else []

/-- The matrices in which `RREF` eliminates: for each iteration of the outer loop
that finds a pivot, the matrix right after the exchange of rows (the matrix of the
iteration when no exchange is made), before the two elimination loops. The loop of
`rrefLoop` with these matrices logged. -/
def rrefSwapped : Nat → Nat → Nat → Matrix → List Matrix
  | 0, _, _, _ => []
  | fuel + 1, outerLupe, currentPivotColumn, m =>
    if outerLupe < m.rows ∧ currentPivotColumn < m.columns then
      let p := m.findPivot outerLupe (m.rows * m.columns + 1) outerLupe currentPivotColumn
      if p.2 < m.columns then
        (if p.1 ≠ outerLupe then m.swapRows p.1 outerLupe else m) ::
          rrefSwapped fuel (outerLupe + 1) (p.2 + 1) (m.reduceAt outerLupe p.1 p.2)
      else []
    else []

/-- Entry `r` of this list is the matrix in which `RREF` eliminates the pivot column
of row `r`. -/
def swappedStates (m : Matrix) : List Matrix := rrefSwapped m.rows 0 0 m

/-- A 3 x 2 matrix on which `RREF` exchanges rows, eliminates entries and leaves an
entry of `1e-10` in place. -/
def exampleThreeByTwo : Matrix := Matrix.load [[0, 1], [2, 1], [1 / 10 ^ 10, 1]] [] []

/-! ## `RREF` with every arithmetic result rounded -/

/-- Round the fraction `num / den` to the nearest integer, a tie to the even one. -/
def roundHalfEven (num den : Nat) : Nat :=
  if 2 * (num % den) < den then num / den
  else if 2 * (num % den) > den then num / den + 1
  else if (num / den) % 2 = 0 then num / den
  else num / den + 1

/-- The position of the leading bit of `n`: the `k` with `2^k <= n < 2^(k+1)`, and `0`
for `n = 0`. The first argument bounds the number of halvings. -/
def leadingBit : Nat → Nat → Nat
  | 0, _ => 0
  | fuel + 1, n => if n < 2 then 0 else leadingBit fuel (n / 2) + 1

/-- The exponent `e` with `2^e <= a / b < 2^(e+1)`, for `a` and `b` positive. -/
def binade (a b : Nat) : Int :=
  let e0 : Int := (leadingBit a a : Int) - (leadingBit b b : Int)
  if (if 0 ≤ e0 then 2 ^ e0.toNat * b ≤ a else b ≤ a * 2 ^ (-e0).toNat) then e0 else e0 - 1

/-- The `double` nearest to `x`: IEEE 754 binary64, 53 significant bits, round to
nearest, ties to even. The exponent is not bounded: overflow and subnormal numbers
are outside this function. -/
def binary64 (x : ℚ) : ℚ :=
  if x = 0 then 0
  else
    let a := x.num.natAbs
    let b := x.den
    let s : Int := binade a b - 52
    let v : ℚ :=
      if s ≤ 0 then (roundHalfEven (a * 2 ^ (-s).toNat) b : ℚ) / 2 ^ (-s).toNat
      else (roundHalfEven a (b * 2 ^ s.toNat) : ℚ) * 2 ^ s.toNat
    if x < 0 then -v else v

namespace Rounded

/-- The pointer walk of `daxpy` with the product and the sum each rounded by `fl`. -/
def axpyRow (fl : ℚ → ℚ) (scaleValue : ℚ) : Nat → List ℚ → List ℚ → List ℚ
  | _, [], _ => []
  | 0, x :: xs, src =>
    fl (x + fl (scaleValue * src.headD 0)) :: axpyRow fl scaleValue 0 xs src.tail
  | k + 1, x :: xs, src => x :: axpyRow fl scaleValue k xs src.tail

/-- The pointer walk of `dscal` with each product rounded by `fl`. -/
def scalRow (fl : ℚ → ℚ) (scaleValue : ℚ) : Nat → List ℚ → List ℚ
  | _, [] => []
  | 0, x :: xs => fl (x * scaleValue) :: scalRow fl scaleValue 0 xs
  | k + 1, x :: xs => x :: scalRow fl scaleValue k xs

/-- `daxpy` with rounding `fl`. -/
def daxpy (fl : ℚ → ℚ) (m : Matrix) (scaleValue : ℚ)
    (changedRow sourceRow startColumn : Nat) : Matrix :=
  { m with u := (m.u.set changedRow
      (axpyRow fl scaleValue startColumn (m.u.getD changedRow []) (m.u.getD sourceRow []))) }

/-- `dscal` with rounding `fl`. -/
def dscal (fl : ℚ → ℚ) (m : Matrix) (scaleValue : ℚ) (whichRow startColumn : Nat) : Matrix :=
  { m with u := (m.u.set whichRow (scalRow fl scaleValue startColumn (m.u.getD whichRow []))) }

/-- The pivot search of `RREF` with the threshold `t` in the place of `1e-9`. -/
def findPivot (t : ℚ) (m : Matrix) (outerLupe : Nat) : Nat → Nat → Nat → Nat × Nat
  | 0, innerLupe, currentPivotColumn => (innerLupe, currentPivotColumn)
  | fuel + 1, innerLupe, currentPivotColumn =>
    if currentPivotColumn < m.columns then
      if fabs (m.entry innerLupe currentPivotColumn) > t then
        (innerLupe, currentPivotColumn)
      else if innerLupe + 1 ≥ m.rows then
        findPivot t m outerLupe fuel outerLupe (currentPivotColumn + 1)
      else
        findPivot t m outerLupe fuel (innerLupe + 1) currentPivotColumn
    else (innerLupe, currentPivotColumn)

/-- One of the two elimination loops of `RREF` with rounding `fl` and threshold `t`:
the quotient `-u[lupe][p]/u[outerLupe][p]` is rounded, then `daxpy` is applied. -/
def eliminate (fl : ℚ → ℚ) (t : ℚ) (m : Matrix) (outerLupe currentPivotColumn : Nat)
    (which : List Nat) : Matrix :=
  which.foldl (fun m lupe =>
    if fabs (m.entry lupe currentPivotColumn) > t then
      daxpy fl m (fl (-(m.entry lupe currentPivotColumn) / m.entry outerLupe currentPivotColumn))
        lupe outerLupe currentPivotColumn
    else m) m

/-- The body of the `for` loop of `RREF` once the pivot is located, with rounding
`fl` and threshold `t`; the quotient `1.0/u[outerLupe][p]` is rounded. -/
def reduceAt (fl : ℚ → ℚ) (t : ℚ) (m : Matrix)
    (outerLupe innerLupe currentPivotColumn : Nat) : Matrix :=
  if currentPivotColumn < m.columns then
    let m1 := if innerLupe ≠ outerLupe then m.swapRows innerLupe outerLupe else m
    let m2 := eliminate fl t m1 outerLupe currentPivotColumn (List.range outerLupe)
    let m3 := eliminate fl t m2 outerLupe currentPivotColumn
      (List.range' (outerLupe + 1) (m.rows - (outerLupe + 1)))
    dscal fl m3 (fl (1 / m3.entry outerLupe currentPivotColumn)) outerLupe currentPivotColumn
  else m

/-- The `for(outerLupe...)` loop of `RREF` with rounding `fl` and threshold `t`. -/
def rrefLoop (fl : ℚ → ℚ) (t : ℚ) : Nat → Nat → Nat → Matrix → Matrix
  | 0, _, _, m => m
  | fuel + 1, outerLupe, currentPivotColumn, m =>
    if outerLupe < m.rows ∧ currentPivotColumn < m.columns then
      let p := findPivot t m outerLupe (m.rows * m.columns + 1) outerLupe currentPivotColumn
      rrefLoop fl t fuel (outerLupe + 1) (p.2 + 1) (reduceAt fl t m outerLupe p.1 p.2)
    else m

/-- `Matrix::RREF` with rounding `fl` and threshold `t`. -/
def RREF (fl : ℚ → ℚ) (t : ℚ) (m : Matrix) : Matrix := rrefLoop fl t m.rows 0 0 m

/-- The pivot columns `RREF` chooses with rounding `fl` and threshold `t`: the loop
of `rrefLoop` with the columns logged. -/
def rrefPivots (fl : ℚ → ℚ) (t : ℚ) : Nat → Nat → Nat → Matrix → List Nat
  | 0, _, _, _ => []
  | fuel + 1, outerLupe, currentPivotColumn, m =>
    if outerLupe < m.rows ∧ currentPivotColumn < m.columns then
      let p := findPivot t m outerLupe (m.rows * m.columns + 1) outerLupe currentPivotColumn
      if p.2 < m.columns then
        p.2 :: rrefPivots fl t fuel (outerLupe + 1) (p.2 + 1) (reduceAt fl t m outerLupe p.1 p.2)
      else []
    else []

/-- The pivot column of row `r` in `RREF` with rounding `fl` and threshold `t`. -/
def pivotColumns (fl : ℚ → ℚ) (t : ℚ) (m : Matrix) : List Nat := rrefPivots fl t m.rows 0 0 m

end Rounded

/-- `Matrix::RREF` in `double`: every product, sum and quotient rounded to binary64,
each operation on its own (no fused multiply-add, no wider intermediate format), the
threshold the `double` nearest to `1e-9`. -/
def doubleRREF (m : Matrix) : Matrix := Rounded.RREF binary64 (binary64 tol) m

/-- The pivot columns `RREF` chooses in `double`. -/
def doublePivotColumns (m : Matrix) : List Nat := Rounded.pivotColumns binary64 (binary64 tol) m

/-- A 3 x 4 matrix whose first column is zero. -/
def exampleThreeByFour : Matrix :=
  Matrix.load [[0, 0, 2, 4], [0, 1, 1, 1], [0, 3, 3, 4]] [] []

/-- The columns `S` of `m`, in the order of `S`, as a square array of `R` rows. -/
def selectColumns (R : Nat) (m : Matrix) (S : List Int) : RatMatrix R R :=
  fun i j => m.entry i.val (S.getD j.val 0).toNat

/-- The run of `main` with `RREF` in `double`: the search of `main` on the matrix
`doubleRREF` leaves. -/
def mainDouble (K : Lapack) (stoichiometry : Matrix) : Option (List Int × RunState) :=
  let originalStoich := Matrix.copy stoichiometry
  checkColumns K (doubleRREF stoichiometry) originalStoich stoichiometry.getNumberRows 0
    (List.replicate stoichiometry.getNumberRows (-1), initialState stoichiometry)

/-- A 2 x 3 matrix whose first two columns are proportional. -/
def exampleTwoByThree : Matrix := Matrix.load [[1, 2, 1], [1, 2, 3]] [] []

/-! ## The trie: what a sequence of `checkColumn` calls leaves -/

theorem slotAt_of_lt {current : List ColumnTree} {v : Int} (h0 : 0 ≤ v)
    (h1 : v < (current.length : Int)) :
    ∃ slot, slotAt current v = some slot ∧ current[v.toNat]? = some slot := by
  have hlt : v.toNat < current.length := by omega
  refine ⟨current[v.toNat], ?_, ?_⟩
  · unfold slotAt
    rw [if_neg (by omega)]
    exact List.getElem?_eq_getElem hlt
  · exact List.getElem?_eq_getElem hlt

theorem slotAt_set_self {current : List ColumnTree} {v : Int} {slot : ColumnTree}
    (h0 : 0 ≤ v) (h1 : v < (current.length : Int)) :
    slotAt (current.set v.toNat slot) v = some slot := by
  unfold slotAt
  rw [if_neg (by omega)]
  exact List.getElem?_set_self (by omega)

theorem slotAt_set_ne {current : List ColumnTree} {v w : Int} {slot : ColumnTree}
    (h0 : 0 ≤ v) (hne : w ≠ v) :
    slotAt (current.set v.toNat slot) w = slotAt current w := by
  unfold slotAt
  by_cases hw : w < 0
  · simp [hw]
  · rw [if_neg hw, if_neg hw]
    exact List.getElem?_set_ne (by omega)

theorem set_eq_self_of_getElem? {α : Type} {l : List α} {i : Nat} {a : α}
    (h : l[i]? = some a) : l.set i a = l := by
  induction l generalizing i with
  | nil => rfl
  | cons x xs ih =>
    cases i with
    | zero => simp at h; simp [h]
    | succ j => simp at h; simp [ih h]

theorem wellFormed_length {width levels : Nat} {current : List ColumnTree}
    (h : WellFormed width levels current) : current.length = width := by
  cases levels with
  | zero => exact h
  | succ n => exact h.1

theorem wellFormed_newBranch (width levels : Nat) :
    WellFormed width levels (newBranch width) := by
  cases levels with
  | zero => simp [WellFormed, newBranch]
  | succ n =>
    refine ⟨by simp [newBranch], ?_⟩
    intro value branch hmem
    simp [newBranch, List.mem_replicate] at hmem

theorem slotAt_newBranch {width : Nat} {v : Int} {slot : ColumnTree}
    (h : slotAt (newBranch width) v = some slot) : slot = ColumnTree.mk false none := by
  unfold slotAt at h
  split at h
  · cases h
  · have hmem := List.getElem?_mem h
    simp [newBranch, List.mem_replicate] at hmem
    exact hmem.2

theorem markedAt_newBranch (width levels : Nat) (s : List Int) :
    markedAt levels (newBranch width) s = false := by
  cases s with
  | nil => cases levels <;> rfl
  | cons v rest =>
    cases levels with
    | zero =>
      unfold markedAt
      split
      · next value nx heq => have := slotAt_newBranch heq; cases this; rfl
      · rfl
    | succ n =>
      unfold markedAt
      split
      · next value branch heq => have := slotAt_newBranch heq; cases this
      · rfl

/-- What the walk of `checkColumn` returns and leaves, for a key of the right length
whose values are in range: the result is `exists && (flag of the key)`, the arrays
keep their width, the key is flagged afterwards, no other key changes its flag, and
an already flagged key leaves the trie as it was. -/
theorem descend_spec (width : Nat) :
    ∀ (levels : Nat) (current : List ColumnTree) (cursor : List Int) (ex : Bool),
      WellFormed width levels current → cursor.length = levels + 1 →
      (∀ v ∈ cursor, 0 ≤ v ∧ v < (width : Int)) →
      ∃ current1,
        CheckedColumnsTree.descend width levels current cursor ex
            = some (ex && markedAt levels current cursor, current1) ∧
          WellFormed width levels current1 ∧
          markedAt levels current1 cursor = true ∧
          (∀ other : List Int, other.length = levels + 1 → other ≠ cursor →
              markedAt levels current1 other = markedAt levels current other) ∧
          (markedAt levels current cursor = true → current1 = current) := by
  intro levels
  induction levels with
  | zero =>
    intro current cursor ex hwf hlen hrange
    match cursor, hlen with
    | [v], _ =>
      have hv := hrange v (by simp)
      have hw : current.length = width := hwf
      have hvl : v < (current.length : Int) := by rw [hw]; exact hv.2
      obtain ⟨slot, hs, hg⟩ := slotAt_of_lt hv.1 hvl
      cases slot with
      | mk value next =>
        refine ⟨current.set v.toNat (ColumnTree.mk true next), ?_, ?_, ?_, ?_, ?_⟩
        · simp [CheckedColumnsTree.descend, markedAt, hs]
        · show (current.set v.toNat (ColumnTree.mk true next)).length = width
          simp [hw]
        · simp [markedAt, slotAt_set_self hv.1 hvl]
        · intro other hol hne
          match other, hol with
          | [w], _ =>
            have hwv : w ≠ v := by intro h; apply hne; rw [h]
            simp [markedAt, slotAt_set_ne hv.1 hwv]
        · intro hm
          simp [markedAt, hs] at hm
          subst hm
          exact set_eq_self_of_getElem? hg
  | succ n ih =>
    intro current cursor ex hwf hlen hrange
    match cursor, hlen with
    | v :: rest, hlen =>
      have hv := hrange v (by simp)
      have hrest : ∀ x ∈ rest, 0 ≤ x ∧ x < (width : Int) :=
        fun x hx => hrange x (List.mem_cons_of_mem _ hx)
      have hrl : rest.length = n + 1 := by simpa using hlen
      have hw : current.length = width := hwf.1
      have hvl : v < (current.length : Int) := by rw [hw]; exact hv.2
      obtain ⟨slot, hs, hg⟩ := slotAt_of_lt hv.1 hvl
      cases slot with
      | mk value next =>
        cases next with
        | none =>
          obtain ⟨b1, hd, hwf1, hm1, hother, _⟩ :=
            ih (newBranch width) rest false (wellFormed_newBranch width n) hrl hrest
          refine ⟨current.set v.toNat (ColumnTree.mk value (some b1)), ?_, ?_, ?_, ?_, ?_⟩
          · simp [CheckedColumnsTree.descend, markedAt, hs, hd]
          · refine ⟨by simp [hw], ?_⟩
            intro value1 branch hmem
            rcases List.mem_or_eq_of_mem_set hmem with h | h
            · exact hwf.2 value1 branch h
            · cases h; exact hwf1
          · simp [markedAt, slotAt_set_self hv.1 hvl, hm1]
          · intro other hol hne
            match other, hol with
            | w :: orest, hol =>
              by_cases hwv : w = v
              · subst hwv
                have hor : orest ≠ rest := by intro h; apply hne; rw [h]
                have horl : orest.length = n + 1 := by simpa using hol
                simp [markedAt, slotAt_set_self hv.1 hvl, hs, hother orest horl hor,
                  markedAt_newBranch]
              · simp [markedAt, slotAt_set_ne hv.1 hwv]
          · intro hm
            simp [markedAt, hs] at hm
        | some branch =>
          have hbr : WellFormed width n branch := hwf.2 value branch (List.getElem?_mem hg)
          obtain ⟨b1, hd, hwf1, hm1, hother, hsame⟩ := ih branch rest ex hbr hrl hrest
          refine ⟨current.set v.toNat (ColumnTree.mk value (some b1)), ?_, ?_, ?_, ?_, ?_⟩
          · simp [CheckedColumnsTree.descend, markedAt, hs, hd]
          · refine ⟨by simp [hw], ?_⟩
            intro value1 branch1 hmem
            rcases List.mem_or_eq_of_mem_set hmem with h | h
            · exact hwf.2 value1 branch1 h
            · cases h; exact hwf1
          · simp [markedAt, slotAt_set_self hv.1 hvl, hm1]
          · intro other hol hne
            match other, hol with
            | w :: orest, hol =>
              by_cases hwv : w = v
              · subst hwv
                have hor : orest ≠ rest := by intro h; apply hne; rw [h]
                have horl : orest.length = n + 1 := by simpa using hol
                simp [markedAt, slotAt_set_self hv.1 hvl, hs, hother orest horl hor]
              · simp [markedAt, slotAt_set_ne hv.1 hwv]
          · intro hm
            simp [markedAt, hs] at hm
            rw [hsame hm]
            exact set_eq_self_of_getElem? hg

theorem treeHolds_create (W D : Nat) :
    TreeHolds W D (CheckedColumnsTree.create (W : Int) (D : Int)) [] := by
  refine ⟨rfl, rfl, ?_, ?_⟩
  · simpa [CheckedColumnsTree.create] using wellFormed_newBranch W (D - 1)
  · intro s _
    simp [CheckedColumnsTree.create, markedAt_newBranch]

/-- One `checkColumn` on a trie that flags `seen`: it returns whether the key is in
`seen`, flags it, and leaves the trie as it was when the key was flagged already. -/
theorem checkColumn_spec {W D : Nat} {t : CheckedColumnsTree} {seen : List (List Int)}
    {s : List Int} (hD : 1 ≤ D) (ht : TreeHolds W D t seen) (hs : ValidKey W D s) :
    ∃ t1, t.checkColumn ⟨s⟩ = some (decide (s ∈ seen), t1) ∧
      TreeHolds W D t1 (seen ++ [s]) ∧ (s ∈ seen → t1 = t) := by
  obtain ⟨hw, hd, hwf, hmark⟩ := ht
  have hlen : s.length = (D - 1) + 1 := by rw [hs.1]; omega
  obtain ⟨c1, hdesc, hwf1, hm1, hother, hsame⟩ :=
    descend_spec W (D - 1) t.checked s true hwf hlen hs.2
  have hwn : t.getWidth.toNat = W := by simp [CheckedColumnsTree.getWidth, hw]
  have hdn : (t.getDepth - 1).toNat = D - 1 := by
    simp [CheckedColumnsTree.getDepth, hd]
  refine ⟨{ t with checked := c1 }, ?_, ⟨hw, hd, hwf1, ?_⟩, ?_⟩
  · unfold CheckedColumnsTree.checkColumn
    rw [hwn, hdn]
    show (match CheckedColumnsTree.descend W (D - 1) t.checked s true with
      | none => none
      | some (r, root) => some (r, { t with checked := root })) = _
    rw [hdesc]
    simp [hmark s hs.1]
  · intro k hk
    show markedAt (D - 1) c1 k = _
    by_cases hks : k = s
    · subst hks; simp [hm1]
    · rw [hother k (by rw [hk]; omega) hks, hmark k hk]
      simp [hks]
  · intro hin
    have : markedAt (D - 1) t.checked s = true := by rw [hmark s hs.1]; simpa using hin
    have hc := hsame this
    cases t
    simp at hc
    simp [hc]

theorem checkAll_nil (t : CheckedColumnsTree) : checkAll t [] = some t := rfl

theorem checkAll_cons (t : CheckedColumnsTree) (s : List Int) (keys : List (List Int)) :
    checkAll t (s :: keys) =
      (match t.checkColumn ⟨s⟩ with
        | none => none
        | some r => checkAll r.2 keys) := by
  unfold checkAll
  rw [List.foldlM_cons]
  cases t.checkColumn ⟨s⟩ <;> rfl

/-- A sequence of `checkColumn` calls with valid keys succeeds and flags its keys. -/
theorem checkAll_spec {W D : Nat} (hD : 1 ≤ D) (keys : List (List Int)) :
    ∀ {t : CheckedColumnsTree} {seen : List (List Int)}, TreeHolds W D t seen →
      (∀ k ∈ keys, ValidKey W D k) →
      ∃ t1, checkAll t keys = some t1 ∧ TreeHolds W D t1 (seen ++ keys) := by
  induction keys with
  | nil => intro t seen ht _; exact ⟨t, rfl, by simpa using ht⟩
  | cons s keys ih =>
    intro t seen ht hk
    obtain ⟨t1, hc, ht1, _⟩ := checkColumn_spec hD ht (hk s (by simp))
    obtain ⟨t2, hc2, ht2⟩ := ih ht1 (fun k h => hk k (List.mem_cons_of_mem _ h))
    refine ⟨t2, ?_, by simpa using ht2⟩
    rw [checkAll_cons, hc]
    exact hc2

/-! ## The sorted list `testFullColumnSet` builds from the index buffer -/

theorem insertColumn_perm (value : Int) (l : List Int) :
    (FoundFeasible.insertColumn value l).Perm (value :: l) := by
  induction l with
  | nil => exact List.Perm.refl _
  | cons x xs ih =>
    unfold FoundFeasible.insertColumn
    split
    · exact List.Perm.refl _
    · exact (List.Perm.cons x ih).trans (List.Perm.swap value x xs)

theorem insertColumn_sorted (value : Int) (l : List Int) (h : l.Sorted (· ≤ ·)) :
    (FoundFeasible.insertColumn value l).Sorted (· ≤ ·) := by
  induction l with
  | nil => simp [FoundFeasible.insertColumn]
  | cons x xs ih =>
    unfold FoundFeasible.insertColumn
    have hx := List.sorted_cons.mp h
    split
    · next hlt =>
      refine List.sorted_cons.mpr ⟨?_, h⟩
      intro b hb
      rcases List.mem_cons.mp hb with rfl | hb
      · omega
      · have := hx.1 b hb; omega
    · next hge =>
      refine List.sorted_cons.mpr ⟨?_, ih hx.2⟩
      intro b hb
      rcases List.mem_cons.mp ((insertColumn_perm value xs).subset hb) with rfl | hb
      · omega
      · exact hx.1 b hb

theorem foldl_addColumn_spec (indicies : List Int) :
    ∀ ff : FoundFeasible, ff.columns.Sorted (· ≤ ·) →
      (indicies.foldl FoundFeasible.addColumn ff).columns.Sorted (· ≤ ·) ∧
      (indicies.foldl FoundFeasible.addColumn ff).columns.Perm (ff.columns ++ indicies) := by
  induction indicies with
  | nil => intro ff h; exact ⟨h, by simp⟩
  | cons v rest ih =>
    intro ff h
    have h1 : (ff.addColumn v).columns.Sorted (· ≤ ·) := insertColumn_sorted v ff.columns h
    obtain ⟨hs, hp⟩ := ih (ff.addColumn v) h1
    refine ⟨hs, hp.trans ?_⟩
    have h2 : (ff.addColumn v).columns.Perm (v :: ff.columns) := insertColumn_perm v ff.columns
    have h3 : (v :: ff.columns ++ rest).Perm (ff.columns ++ v :: rest) :=
      List.perm_middle.symm
    exact (List.Perm.append_right rest h2).trans h3

theorem sortedKey_sorted (indicies : List Int) : (sortedKey indicies).Sorted (· ≤ ·) :=
  (foldl_addColumn_spec indicies ⟨[]⟩ (by simp)).1

theorem sortedKey_perm (indicies : List Int) : (sortedKey indicies).Perm indicies := by
  simpa using (foldl_addColumn_spec indicies ⟨[]⟩ (by simp)).2

theorem sortedKey_eq_of_perm {a b : List Int} (h : a.Perm b) : sortedKey a = sortedKey b :=
  List.eq_of_perm_of_sorted (((sortedKey_perm a).trans h).trans (sortedKey_perm b).symm)
    (sortedKey_sorted a) (sortedKey_sorted b)

theorem sortedKey_valid {W D : Nat} {indicies : List Int} (h : ValidKey W D indicies) :
    ValidKey W D (sortedKey indicies) :=
  ⟨by rw [(sortedKey_perm indicies).length_eq]; exact h.1,
    fun v hv => h.2 v ((sortedKey_perm indicies).subset hv)⟩

theorem sortedKey_strict {indicies : List Int} (h : indicies.Nodup) :
    (sortedKey indicies).Sorted (· < ·) :=
  (sortedKey_sorted indicies).lt_of_le ((sortedKey_perm indicies).nodup_iff.mpr h)

/-! ## The tally loops of `testFullColumnSet` -/

theorem sum_set_succ (l : List Int) (i : Nat) (h : i < l.length) :
    (l.set i (l.getD i 0 + 1)).sum = l.sum + 1 := by
  induction l generalizing i with
  | nil => simp at h
  | cons x xs ih =>
    cases i with
    | zero => simp; omega
    | succ j =>
      have hj : j < xs.length := by simpa using h
      have := ih j hj
      simp only [List.set_cons_succ, List.sum_cons, List.getD_cons_succ] at this ⊢
      omega

theorem tallyBelow_spec (cn : ℚ) (cur : Int) :
    ∀ (fuel lupe : Nat) (st : RunState), (lupe : Int) ≤ cur →
      cur < (st.feasibleByColumn.length : Int) → st.feasibleByColumn.length ≤ fuel + lupe →
      ∃ f sc si, tallyBelow cn cur fuel lupe st = (cur.toNat, withStats st f sc si) ∧
        f.length = st.feasibleByColumn.length ∧
        f.sum = st.feasibleByColumn.sum + (cur - lupe) := by
  intro fuel
  induction fuel with
  | zero => intro lupe st h1 h2 h3; omega
  | succ n ih =>
    intro lupe st h1 h2 h3
    unfold tallyBelow
    by_cases hg : lupe < st.feasibleByColumn.length ∧ (lupe : Int) < cur
    · rw [if_pos hg]
      have hlen : (bumpColumn cn lupe st).feasibleByColumn.length
          = st.feasibleByColumn.length := by simp [bumpColumn]
      obtain ⟨f, sc, si, he, hl, hsum⟩ := ih (lupe + 1) (bumpColumn cn lupe st)
        (by push_cast; omega) (by rw [hlen]; exact h2) (by rw [hlen]; omega)
      refine ⟨f, sc, si, ?_, by rw [hl, hlen], ?_⟩
      · rw [he]; rfl
      · rw [hsum]
        have : (bumpColumn cn lupe st).feasibleByColumn.sum
            = st.feasibleByColumn.sum + 1 := sum_set_succ _ _ hg.1
        rw [this]; push_cast; ring
    · rw [if_neg hg]
      have hcur : cur = (lupe : Int) := by omega
      refine ⟨st.feasibleByColumn, st.sumConditionNumbers, st.sumInvConditionNumbers,
        ?_, rfl, ?_⟩
      · rw [hcur]; rfl
      · rw [hcur]; simp

theorem tallyFor_spec (cn : ℚ) :
    ∀ (rest : List Int) (lupe : Nat) (st : RunState), rest.Sorted (· < ·) →
      (∀ c ∈ rest, (lupe : Int) ≤ c ∧ c < (st.feasibleByColumn.length : Int)) →
      lupe ≤ st.feasibleByColumn.length →
      ∃ lupe1 f sc si, tallyFor cn rest lupe st = (lupe1, withStats st f sc si) ∧
        f.length = st.feasibleByColumn.length ∧ lupe1 ≤ st.feasibleByColumn.length ∧
        f.sum = st.feasibleByColumn.sum + ((lupe1 : Int) - lupe - rest.length) := by
  intro rest
  induction rest with
  | nil =>
    intro lupe st _ _ hl
    exact ⟨lupe, st.feasibleByColumn, st.sumConditionNumbers, st.sumInvConditionNumbers,
      rfl, rfl, hl, by simp⟩
  | cons c rest ih =>
    intro lupe st hs hr hl
    have hc := hr c (by simp)
    have hsc := List.sorted_cons.mp hs
    obtain ⟨f1, sc1, si1, he1, hl1, hsum1⟩ :=
      tallyBelow_spec cn c st.feasibleByColumn.length lupe st hc.1 hc.2 (by omega)
    have hlen1 : (withStats st f1 sc1 si1).feasibleByColumn.length
        = st.feasibleByColumn.length := hl1
    obtain ⟨lupe2, f2, sc2, si2, he2, hl2, hle2, hsum2⟩ :=
      ih (c.toNat + 1) (withStats st f1 sc1 si1) hsc.2
        (by
          intro d hd
          have h1 := hsc.1 d hd
          have h2 := hr d (List.mem_cons_of_mem _ hd)
          rw [hlen1]
          constructor
          · push_cast; omega
          · exact h2.2)
        (by rw [hlen1]; omega)
    refine ⟨lupe2, f2, sc2, si2, ?_, by rw [hl2, hlen1], by rw [← hlen1]; exact hle2, ?_⟩
    · show tallyFor cn rest
          ((tallyBelow cn c st.feasibleByColumn.length lupe st).1 + 1)
          (tallyBelow cn c st.feasibleByColumn.length lupe st).2 = _
      rw [he1]
      exact he2
    · rw [hsum2]
      have : (withStats st f1 sc1 si1).feasibleByColumn.sum = f1.sum := rfl
      rw [this, hsum1]
      simp only [List.length_cons]
      push_cast
      have : ((c.toNat : Nat) : Int) = c := Int.toNat_of_nonneg (by omega)
      rw [this]; ring

theorem tallyRest_spec (cn : ℚ) :
    ∀ (fuel lupe : Nat) (st : RunState), lupe ≤ st.feasibleByColumn.length →
      st.feasibleByColumn.length ≤ fuel + lupe →
      ∃ f sc si, tallyRest cn fuel lupe st = withStats st f sc si ∧
        f.length = st.feasibleByColumn.length ∧
        f.sum = st.feasibleByColumn.sum + ((st.feasibleByColumn.length : Int) - lupe) := by
  intro fuel
  induction fuel with
  | zero =>
    intro lupe st h1 h2
    have : lupe = st.feasibleByColumn.length := by omega
    exact ⟨st.feasibleByColumn, st.sumConditionNumbers, st.sumInvConditionNumbers,
      rfl, rfl, by rw [this]; simp⟩
  | succ n ih =>
    intro lupe st h1 h2
    unfold tallyRest
    by_cases hg : lupe < st.feasibleByColumn.length
    · rw [if_pos hg]
      have hlen : (bumpColumn cn lupe st).feasibleByColumn.length
          = st.feasibleByColumn.length := by simp [bumpColumn]
      obtain ⟨f, sc, si, he, hl, hsum⟩ := ih (lupe + 1) (bumpColumn cn lupe st)
        (by rw [hlen]; omega) (by rw [hlen]; omega)
      refine ⟨f, sc, si, ?_, by rw [hl, hlen], ?_⟩
      · rw [he]; rfl
      · rw [hsum, hlen]
        have : (bumpColumn cn lupe st).feasibleByColumn.sum
            = st.feasibleByColumn.sum + 1 := sum_set_succ _ _ hg
        rw [this]; push_cast; ring
    · rw [if_neg hg]
      have : lupe = st.feasibleByColumn.length := by omega
      exact ⟨st.feasibleByColumn, st.sumConditionNumbers, st.sumInvConditionNumbers,
        rfl, rfl, by rw [this]; simp⟩

/-- Both tally loops together, for a strictly ascending list of columns in range:
only the three per-column vectors change, and the counts gain the number of columns
that are not in the list. -/
theorem tally_spec (cn : ℚ) (key : List Int) (st : RunState) (hs : key.Sorted (· < ·))
    (hr : ∀ c ∈ key, 0 ≤ c ∧ c < (st.feasibleByColumn.length : Int)) :
    ∃ f sc si,
      tallyRest cn (tallyFor cn key 0 st).2.feasibleByColumn.length
          (tallyFor cn key 0 st).1 (tallyFor cn key 0 st).2 = withStats st f sc si ∧
        f.length = st.feasibleByColumn.length ∧
        f.sum = st.feasibleByColumn.sum
          + ((st.feasibleByColumn.length : Int) - key.length) := by
  obtain ⟨lupe1, f1, sc1, si1, he1, hl1, hle1, hsum1⟩ :=
    tallyFor_spec cn key 0 st hs (by simpa using hr) (Nat.zero_le _)
  have hlen1 : (withStats st f1 sc1 si1).feasibleByColumn.length
      = st.feasibleByColumn.length := hl1
  obtain ⟨f2, sc2, si2, he2, hl2, hsum2⟩ :=
    tallyRest_spec cn (withStats st f1 sc1 si1).feasibleByColumn.length lupe1
      (withStats st f1 sc1 si1) (by rw [hlen1]; exact hle1) (by omega)
  refine ⟨f2, sc2, si2, ?_, by rw [hl2, hlen1], ?_⟩
  · rw [he1]; exact he2
  · rw [hsum2, hlen1]
    have : (withStats st f1 sc1 si1).feasibleByColumn.sum = f1.sum := rfl
    rw [this, hsum1]; push_cast; ring

theorem tallyBelow_frame (cn : ℚ) (cur : Int) :
    ∀ (fuel lupe : Nat) (st : RunState),
      ∃ f sc si, (tallyBelow cn cur fuel lupe st).2 = withStats st f sc si ∧
        f.length = st.feasibleByColumn.length := by
  intro fuel
  induction fuel with
  | zero =>
    intro lupe st
    exact ⟨st.feasibleByColumn, st.sumConditionNumbers, st.sumInvConditionNumbers, rfl, rfl⟩
  | succ n ih =>
    intro lupe st
    unfold tallyBelow
    split
    · obtain ⟨f, sc, si, he, hl⟩ := ih (lupe + 1) (bumpColumn cn lupe st)
      refine ⟨f, sc, si, ?_, by rw [hl]; simp [bumpColumn]⟩
      rw [he]; rfl
    · exact ⟨st.feasibleByColumn, st.sumConditionNumbers, st.sumInvConditionNumbers, rfl, rfl⟩

theorem tallyFor_frame (cn : ℚ) :
    ∀ (rest : List Int) (lupe : Nat) (st : RunState),
      ∃ f sc si, (tallyFor cn rest lupe st).2 = withStats st f sc si ∧
        f.length = st.feasibleByColumn.length := by
  intro rest
  induction rest with
  | nil =>
    intro lupe st
    exact ⟨st.feasibleByColumn, st.sumConditionNumbers, st.sumInvConditionNumbers, rfl, rfl⟩
  | cons c rest ih =>
    intro lupe st
    obtain ⟨f1, sc1, si1, he1, hl1⟩ :=
      tallyBelow_frame cn c st.feasibleByColumn.length lupe st
    obtain ⟨f2, sc2, si2, he2, hl2⟩ :=
      ih ((tallyBelow cn c st.feasibleByColumn.length lupe st).1 + 1)
        (tallyBelow cn c st.feasibleByColumn.length lupe st).2
    refine ⟨f2, sc2, si2, ?_, ?_⟩
    · show (tallyFor cn rest
          ((tallyBelow cn c st.feasibleByColumn.length lupe st).1 + 1)
          (tallyBelow cn c st.feasibleByColumn.length lupe st).2).2 = _
      rw [he2, he1]; rfl
    · rw [hl2, he1]; exact hl1

theorem tallyRest_frame (cn : ℚ) :
    ∀ (fuel lupe : Nat) (st : RunState),
      ∃ f sc si, tallyRest cn fuel lupe st = withStats st f sc si ∧
        f.length = st.feasibleByColumn.length := by
  intro fuel
  induction fuel with
  | zero =>
    intro lupe st
    exact ⟨st.feasibleByColumn, st.sumConditionNumbers, st.sumInvConditionNumbers, rfl, rfl⟩
  | succ n ih =>
    intro lupe st
    unfold tallyRest
    split
    · obtain ⟨f, sc, si, he, hl⟩ := ih (lupe + 1) (bumpColumn cn lupe st)
      refine ⟨f, sc, si, ?_, by rw [hl]; simp [bumpColumn]⟩
      rw [he]; rfl
    · exact ⟨st.feasibleByColumn, st.sumConditionNumbers, st.sumInvConditionNumbers, rfl, rfl⟩

/-- Both tally loops change nothing but the three per-column vectors, whatever the
list of columns is. -/
theorem tally_frame (cn : ℚ) (key : List Int) (st : RunState) :
    ∃ f sc si,
      tallyRest cn (tallyFor cn key 0 st).2.feasibleByColumn.length
          (tallyFor cn key 0 st).1 (tallyFor cn key 0 st).2 = withStats st f sc si ∧
        f.length = st.feasibleByColumn.length := by
  obtain ⟨f1, sc1, si1, he1, hl1⟩ := tallyFor_frame cn key 0 st
  obtain ⟨f2, sc2, si2, he2, hl2⟩ :=
    tallyRest_frame cn (tallyFor cn key 0 st).2.feasibleByColumn.length
      (tallyFor cn key 0 st).1 (tallyFor cn key 0 st).2
  refine ⟨f2, sc2, si2, ?_, ?_⟩
  · rw [he2, he1]; rfl
  · rw [hl2, he1]; exact hl1

/-! ## One call of `testFullColumnSet` -/

theorem testFull_repeat (K : Lapack) (orig : Matrix) {st : RunState} {buf : List Int}
    {tree : CheckedColumnsTree}
    (hc : st.previouslyChecked.checkColumn ⟨sortedKey buf⟩ = some (true, tree)) :
    testFullColumnSet K orig buf st = some (false, { st with
      numberRepeats := st.numberRepeats + 1,
      previouslyChecked := tree,
      calls := st.calls ++ [buf] }) := by
  have hkey : (buf.foldl FoundFeasible.addColumn (FoundFeasible.clearList ⟨[]⟩))
      = ⟨sortedKey buf⟩ := rfl
  unfold testFullColumnSet
  simp only [hkey, hc]

theorem testFull_discarded (K : Lapack) (orig : Matrix) {n : Nat} {st : RunState}
    {buf : List Int} {tree : CheckedColumnsTree}
    (hrows : st.testBasis.rows = n) (hcols : st.testBasis.columns = n)
    (hc : st.previouslyChecked.checkColumn ⟨sortedKey buf⟩ = some (false, tree))
    (hlu : ¬ (K.dgetrf_ (submatrix n orig buf)).2 = 0) :
    testFullColumnSet K orig buf st = some (true, discardedState K n orig buf st tree) := by
  have hkey : (buf.foldl FoundFeasible.addColumn (FoundFeasible.clearList ⟨[]⟩))
      = ⟨sortedKey buf⟩ := rfl
  have hsub : (SquareMatrix.copyColumnsToRows st.testBasis orig buf).u
      = submatrix n orig buf := by
    simp [SquareMatrix.copyColumnsToRows, submatrix, hrows, hcols]
  unfold testFullColumnSet
  simp only [hkey, hc]
  simp only [SquareMatrix.dgetrf, hsub, hlu, if_false]
  rfl

theorem testFull_counted (K : Lapack) (orig : Matrix) {n : Nat} {st : RunState}
    {buf : List Int} {tree : CheckedColumnsTree}
    (hrows : st.testBasis.rows = n) (hcols : st.testBasis.columns = n)
    (hc : st.previouslyChecked.checkColumn ⟨sortedKey buf⟩ = some (false, tree))
    (hlu : (K.dgetrf_ (submatrix n orig buf)).2 = 0) :
    testFullColumnSet K orig buf st = some (true,
      tallyRest (recordedNumber K n orig buf)
        (tallyFor (recordedNumber K n orig buf) (sortedKey buf) 0
          (countedState K n orig buf st tree)).2.feasibleByColumn.length
        (tallyFor (recordedNumber K n orig buf) (sortedKey buf) 0
          (countedState K n orig buf st tree)).1
        (tallyFor (recordedNumber K n orig buf) (sortedKey buf) 0
          (countedState K n orig buf st tree)).2) := by
  have hkey : (buf.foldl FoundFeasible.addColumn (FoundFeasible.clearList ⟨[]⟩))
      = ⟨sortedKey buf⟩ := rfl
  have hsub : (SquareMatrix.copyColumnsToRows st.testBasis orig buf).u
      = submatrix n orig buf := by
    simp [SquareMatrix.copyColumnsToRows, submatrix, hrows, hcols]
  unfold testFullColumnSet
  simp only [hkey, hc]
  simp only [SquareMatrix.dgetrf, hsub, hlu, if_true, SquareMatrix.dlange,
    SquareMatrix.dgecon, Matrix.copy, Bool.false_and, Bool.false_eq_true, if_false]
  rfl

/-- What one call of `testFullColumnSet` does, for an index buffer of `D` columns in
range: a repeat only counts; a new key is factored and, when of full rank, counted
and tallied. -/
theorem testFull_spec (K : Lapack) (orig : Matrix) {W D n : Nat} {st : RunState}
    {seen : List (List Int)} {buf : List Int} (hD : 1 ≤ D)
    (hinv : RunInv W D n st seen) (hb : ValidKey W D buf) :
    ∃ st1, testFullColumnSet K orig buf st = some (!decide (sortedKey buf ∈ seen), st1) ∧
      RunInv W D n st1 (seen ++ [sortedKey buf]) ∧
      st1.calls = st.calls ++ [buf] ∧
      (sortedKey buf ∈ seen →
        st1 = { st with numberRepeats := st.numberRepeats + 1, calls := st.calls ++ [buf] }) ∧
      (sortedKey buf ∉ seen →
        st1.numberRepeats = st.numberRepeats ∧ st1.factored = st.factored ++ [buf] ∧
        (fullRank K n orig buf = false →
          st1.numberFeasible = st.numberFeasible ∧
          st1.feasibleByColumn = st.feasibleByColumn ∧
          st1.conditionNumbers = st.conditionNumbers ∧
          st1.sumConditionNumbers = st.sumConditionNumbers ∧
          st1.sumInvConditionNumbers = st.sumInvConditionNumbers) ∧
        (fullRank K n orig buf = true →
          st1.numberFeasible = st.numberFeasible + 1 ∧
          st1.conditionNumbers = st.conditionNumbers ++ [recordedNumber K n orig buf] ∧
          (buf.Nodup → st1.feasibleByColumn.sum
            = st.feasibleByColumn.sum + ((W : Int) - D)))) := by
  obtain ⟨ht, hrows, hcols, hlen⟩ := hinv
  obtain ⟨t1, hc, ht1, hsame⟩ := checkColumn_spec hD ht (sortedKey_valid hb)
  by_cases hin : sortedKey buf ∈ seen
  · refine ⟨{ st with numberRepeats := st.numberRepeats + 1, calls := st.calls ++ [buf] },
      ?_, ⟨?_, hrows, hcols, hlen⟩, rfl, fun _ => rfl, fun h => absurd hin h⟩
    · simp only [hin, decide_True] at hc
      rw [testFull_repeat K orig hc, hsame hin]
      simp [hin]
    · have := hsame hin
      rw [this] at ht1
      exact ht1
  · simp only [hin, decide_False] at hc
    by_cases hfr : fullRank K n orig buf = true
    · have hlu : (K.dgetrf_ (submatrix n orig buf)).2 = 0 := by
        simpa [fullRank] using hfr
      obtain ⟨f, sc, si, he, hl⟩ := tally_frame (recordedNumber K n orig buf)
        (sortedKey buf) (countedState K n orig buf st t1)
      refine ⟨withStats (countedState K n orig buf st t1) f sc si, ?_,
        ⟨ht1, hrows, hcols, ?_⟩, rfl, fun h => absurd h hin,
        fun _ => ⟨rfl, rfl, ?_, ?_⟩⟩
      · rw [testFull_counted K orig hrows hcols hc hlu, he]
        simp [hin]
      · show f.length = W
        rw [hl]; exact hlen
      · intro h; rw [hfr] at h; cases h
      · intro _
        refine ⟨rfl, rfl, ?_⟩
        intro hnd
        obtain ⟨f2, sc2, si2, he2, hl2, hsum2⟩ := tally_spec (recordedNumber K n orig buf)
          (sortedKey buf) (countedState K n orig buf st t1)
          (sortedKey_strict hnd)
          (by
            intro c hc
            have := (sortedKey_valid hb).2 c hc
            show 0 ≤ c ∧ c < (st.feasibleByColumn.length : Int)
            rw [hlen]; exact this)
        have hff : f = f2 := by
          have := he.symm.trans he2
          exact congrArg RunState.feasibleByColumn this
        show f.sum = _
        rw [hff, hsum2]
        show st.feasibleByColumn.sum + ((st.feasibleByColumn.length : Int)
          - (sortedKey buf).length) = _
        rw [hlen, (sortedKey_valid hb).1]
    · have hfr' : fullRank K n orig buf = false := by simpa using hfr
      have hlu : ¬ (K.dgetrf_ (submatrix n orig buf)).2 = 0 := by
        simpa [fullRank] using hfr'
      refine ⟨discardedState K n orig buf st t1, ?_, ⟨ht1, hrows, hcols, hlen⟩, rfl,
        fun h => absurd h hin, fun _ => ⟨rfl, rfl, fun _ => ⟨rfl, rfl, rfl, rfl, rfl⟩, ?_⟩⟩
      · rw [testFull_discarded K orig hrows hcols hc hlu]
        simp [hin]
      · intro h; rw [hfr'] at h; cases h

/-! ## A sequence of calls of `testFullColumnSet`, and the search as such a sequence -/

theorem testAll_nil (K : Lapack) (orig : Matrix) (st : RunState) :
    testAll K orig [] st = some st := rfl

theorem testAll_cons (K : Lapack) (orig : Matrix) (buf : List Int) (bufs : List (List Int))
    (st : RunState) :
    testAll K orig (buf :: bufs) st =
      (testFullColumnSet K orig buf st).bind (fun r => testAll K orig bufs r.2) := by
  unfold testAll
  rw [List.foldlM_cons]
  cases testFullColumnSet K orig buf st <;> rfl

theorem testAll_append (K : Lapack) (orig : Matrix) (as bs : List (List Int))
    (st : RunState) :
    testAll K orig (as ++ bs) st = (testAll K orig as st).bind (testAll K orig bs) := by
  unfold testAll
  rw [List.foldlM_append]
  rfl

theorem take_set_self {α : Type} (l : List α) (i : Nat) (a : α) :
    (l.set i a).take i = l.take i := by
  induction l generalizing i with
  | nil => simp
  | cons x xs ih =>
    cases i with
    | zero => simp
    | succ j => simp [ih]

theorem take_succ_set {α : Type} (l : List α) (i : Nat) (a : α) (h : i < l.length) :
    (l.set i a).take (i + 1) = l.take i ++ [a] := by
  induction l generalizing i with
  | nil => simp at h
  | cons x xs ih =>
    cases i with
    | zero => simp
    | succ j => simp [ih j (by simpa using h)]

theorem columnExists_set (buf : List Int) (currentRow : Nat) (lupe : Int) :
    columnExists (buf.set currentRow lupe) currentRow lupe
      = (buf.take currentRow).any (fun x => decide (x = lupe)) := by
  unfold columnExists
  rw [take_set_self]

theorem checkColumnsStep_eq (K : Lapack) (rref orig : Matrix)
    (recurse : List Int × RunState → Option (List Int × RunState)) (currentRow : Nat)
    (buf : List Int) (st : RunState) (lupe : Nat) :
    checkColumnsStep K rref orig recurse currentRow (buf, st) lupe =
      if admissible rref orig currentRow (buf.take currentRow) lupe then
        if currentRow + 1 ≥ rref.getNumberRows then
          if orig.allColumnsInUnknowable (buf.set currentRow (lupe : Int)) (currentRow + 1) then
            (testFullColumnSet K orig (buf.set currentRow (lupe : Int)) st).map
              (fun r => (buf.set currentRow (lupe : Int), r.2))
          else some (buf.set currentRow (lupe : Int), st)
        else recurse (buf.set currentRow (lupe : Int), st)
      else some (buf.set currentRow (lupe : Int), st) := by
  unfold checkColumnsStep admissible
  simp only [columnExists_set]

theorem set_last_eq {buf : List Int} {currentRow : Nat} (lupe : Int)
    (hlen : buf.length = currentRow + 1) :
    buf.set currentRow lupe = buf.take currentRow ++ [lupe] := by
  have h := take_succ_set buf currentRow lupe (by omega)
  rw [← h]
  exact (List.take_of_length_le (by simp [hlen])).symm

/-- The loop of `checkColumns` over the columns `cols`, as a sequence of calls of
`testFullColumnSet`, given that the recursive call is such a sequence. -/
theorem checkColumns_loop (K : Lapack) (rref orig : Matrix) (currentRow : Nat)
    (hrow : currentRow < rref.getNumberRows)
    (recurse : List Int × RunState → Option (List Int × RunState))
    (below : List Int → List (List Int))
    (hrec : ¬ currentRow + 1 ≥ rref.getNumberRows → ∀ buf : List Int,
      buf.length = rref.getNumberRows →
      ∃ buf1 : List Int, buf1.length = rref.getNumberRows ∧
        buf1.take (currentRow + 1) = buf.take (currentRow + 1) ∧
        ∀ st, recurse (buf, st)
          = (testAll K orig (below (buf.take (currentRow + 1))) st).map (fun s => (buf1, s))) :
    ∀ (cols : List Nat) (buf : List Int), buf.length = rref.getNumberRows →
      ∃ buf1 : List Int, buf1.length = rref.getNumberRows ∧
        buf1.take currentRow = buf.take currentRow ∧
        ∀ st, cols.foldlM (checkColumnsStep K rref orig recurse currentRow) (buf, st)
          = (testAll K orig
              (cols.flatMap (candidatesStep rref orig below currentRow (buf.take currentRow)))
              st).map (fun s => (buf1, s)) := by
  intro cols
  induction cols with
  | nil =>
    intro buf hlen
    exact ⟨buf, hlen, rfl, fun st => rfl⟩
  | cons lupe cols ih =>
    intro buf hlen
    have hilen : (buf.set currentRow (lupe : Int)).length = rref.getNumberRows := by
      simpa using hlen
    have hitake : (buf.set currentRow (lupe : Int)).take currentRow = buf.take currentRow :=
      take_set_self _ _ _
    by_cases hadm : admissible rref orig currentRow (buf.take currentRow) lupe = true
    · by_cases hleaf : currentRow + 1 ≥ rref.getNumberRows
      · have hset : buf.set currentRow (lupe : Int) = buf.take currentRow ++ [(lupe : Int)] :=
          set_last_eq _ (by omega)
        obtain ⟨buf1, hl1, ht1, h1⟩ := ih (buf.set currentRow (lupe : Int)) hilen
        rw [hitake] at ht1 h1
        by_cases hcov : orig.allColumnsInUnknowable (buf.set currentRow (lupe : Int))
            (currentRow + 1) = true
        · refine ⟨buf1, hl1, ht1, ?_⟩
          intro st
          have hc : candidatesStep rref orig below currentRow (buf.take currentRow) lupe
              = [buf.set currentRow (lupe : Int)] := by
            unfold candidatesStep
            rw [if_pos hadm, if_pos hleaf, ← hset, if_pos hcov]
          rw [List.foldlM_cons, checkColumnsStep_eq, if_pos hadm, if_pos hleaf, if_pos hcov,
            List.flatMap_cons, hc, List.singleton_append, testAll_cons]
          cases testFullColumnSet K orig (buf.set currentRow (lupe : Int)) st with
          | none => rfl
          | some r => exact h1 r.2
        · refine ⟨buf1, hl1, ht1, ?_⟩
          intro st
          have hc : candidatesStep rref orig below currentRow (buf.take currentRow) lupe
              = [] := by
            unfold candidatesStep
            rw [if_pos hadm, if_pos hleaf, ← hset, if_neg hcov]
          rw [List.foldlM_cons, checkColumnsStep_eq, if_pos hadm, if_pos hleaf, if_neg hcov,
            List.flatMap_cons, hc, List.nil_append]
          exact h1 st
      · obtain ⟨buf2, hl2, ht2, h2⟩ := hrec hleaf (buf.set currentRow (lupe : Int)) hilen
        rw [take_succ_set buf currentRow (lupe : Int) (by omega)] at ht2 h2
        have ht2' : buf2.take currentRow = buf.take currentRow := by
          have := congrArg (List.take currentRow) ht2
          rw [List.take_take, Nat.min_eq_left (Nat.le_succ _)] at this
          rw [this, List.take_append_of_le_length (by simp [List.length_take]; omega)]
          simp
        obtain ⟨buf1, hl1, ht1, h1⟩ := ih buf2 hl2
        rw [ht2'] at ht1 h1
        refine ⟨buf1, hl1, ht1, ?_⟩
        intro st
        have hc : candidatesStep rref orig below currentRow (buf.take currentRow) lupe
            = below (buf.take currentRow ++ [(lupe : Int)]) := by
          unfold candidatesStep
          rw [if_pos hadm, if_neg hleaf]
        rw [List.foldlM_cons, checkColumnsStep_eq, if_pos hadm, if_neg hleaf,
          List.flatMap_cons, hc, testAll_append, h2 st]
        cases testAll K orig (below (buf.take currentRow ++ [(lupe : Int)])) st with
        | none => rfl
        | some s => exact h1 s
    · obtain ⟨buf1, hl1, ht1, h1⟩ := ih (buf.set currentRow (lupe : Int)) hilen
      rw [hitake] at ht1 h1
      refine ⟨buf1, hl1, ht1, ?_⟩
      intro st
      have hc : candidatesStep rref orig below currentRow (buf.take currentRow) lupe = [] := by
        unfold candidatesStep
        rw [if_neg hadm]
      rw [List.foldlM_cons, checkColumnsStep_eq, if_neg hadm, List.flatMap_cons, hc,
        List.nil_append]
      exact h1 st

/-- `checkColumns` at `currentRow` is the sequence of calls of `testFullColumnSet`
on `candidates`; it leaves the first `currentRow` slots of the index buffer. -/
theorem checkColumns_eq_testAll (K : Lapack) (rref orig : Matrix) :
    ∀ (fuel currentRow : Nat) (buf : List Int), buf.length = rref.getNumberRows →
      currentRow < rref.getNumberRows → rref.getNumberRows ≤ fuel + currentRow →
      ∃ buf1 : List Int, buf1.length = rref.getNumberRows ∧
        buf1.take currentRow = buf.take currentRow ∧
        ∀ st, checkColumns K rref orig fuel currentRow (buf, st)
          = (testAll K orig (candidates rref orig fuel currentRow (buf.take currentRow))
              st).map (fun s => (buf1, s)) := by
  intro fuel
  induction fuel with
  | zero => intro currentRow buf _ h1 h2; omega
  | succ n ih =>
    intro currentRow buf hlen hrow hfuel
    exact checkColumns_loop K rref orig currentRow hrow
      (checkColumns K rref orig n (currentRow + 1))
      (candidates rref orig n (currentRow + 1))
      (fun hleaf b hb => ih (currentRow + 1) b hb (by omega) (by omega))
      (List.range rref.getNumberColumns) buf hlen

/-- A sequence of calls of `testFullColumnSet` with index buffers of `D` distinct
columns in range succeeds; it logs the calls, factors the first buffer of each key,
counts the ones of full rank, and keeps `sum feasibleByColumn = numberFeasible * (W - D)`. -/
theorem testAll_spec (K : Lapack) (orig : Matrix) {W D n : Nat} (hD : 1 ≤ D)
    (bufs : List (List Int)) :
    ∀ {st : RunState} {seen : List (List Int)}, RunInv W D n st seen →
      (∀ b ∈ bufs, ValidKey W D b ∧ b.Nodup) →
      ∃ st1, testAll K orig bufs st = some st1 ∧
        RunInv W D n st1 (seen ++ bufs.map sortedKey) ∧
        st1.calls = st.calls ++ bufs ∧
        st1.factored = st.factored ++ firstsFrom seen bufs ∧
        st1.numberFeasible = st.numberFeasible
          + (((firstsFrom seen bufs).filter (fullRank K n orig)).length : Int) ∧
        (st.feasibleByColumn.sum = st.numberFeasible * ((W : Int) - D) →
          st1.feasibleByColumn.sum = st1.numberFeasible * ((W : Int) - D)) := by
  induction bufs with
  | nil =>
    intro st seen hinv _
    exact ⟨st, rfl, by simpa using hinv, by simp, by simp [firstsFrom],
      by simp [firstsFrom], fun h => h⟩
  | cons b bs ih =>
    intro st seen hinv hb
    have hb0 := hb b (by simp)
    obtain ⟨st1, h1, hinv1, hcalls1, hrep, hnew⟩ := testFull_spec K orig hD hinv hb0.1
    obtain ⟨st2, h2, hinv2, hcalls2, hfact2, hnf2, hsum2⟩ :=
      ih hinv1 (fun x hx => hb x (List.mem_cons_of_mem _ hx))
    refine ⟨st2, ?_, by simpa using hinv2, ?_, ?_, ?_, ?_⟩
    · rw [testAll_cons, h1]; exact h2
    · rw [hcalls2, hcalls1]; simp
    · by_cases hin : sortedKey b ∈ seen
      · rw [hfact2, hrep hin]
        simp [firstsFrom, hin]
      · rw [hfact2, (hnew hin).2.1]
        simp [firstsFrom, hin]
    · by_cases hin : sortedKey b ∈ seen
      · rw [hnf2, hrep hin]
        simp [firstsFrom, hin]
      · by_cases hfr : fullRank K n orig b = true
        · rw [hnf2, ((hnew hin).2.2.2 hfr).1]
          simp [firstsFrom, hin, List.filter_cons, hfr]
          ring
        · have hfr' : fullRank K n orig b = false := by simpa using hfr
          rw [hnf2, ((hnew hin).2.2.1 hfr').1]
          simp [firstsFrom, hin, List.filter_cons, hfr']
    · intro hsum
      apply hsum2
      by_cases hin : sortedKey b ∈ seen
      · rw [hrep hin]; exact hsum
      · by_cases hfr : fullRank K n orig b = true
        · obtain ⟨hn, _, hs⟩ := (hnew hin).2.2.2 hfr
          rw [hs hb0.2, hn, hsum]
          ring
        · have hfr' : fullRank K n orig b = false := by simpa using hfr
          obtain ⟨hn, hf, _⟩ := (hnew hin).2.2.1 hfr'
          rw [hn, hf]; exact hsum

/-! ## The index buffers the search reaches -/

theorem take_succ_eq_append {b pre : List Int} {row : Nat} {c : Int}
    (h : b.take (row + 1) = pre ++ [c]) (hpre : pre.length = row) :
    b.take row = pre ∧ b[row]? = some c := by
  constructor
  · have := congrArg (List.take row) h
    rw [List.take_take, Nat.min_eq_left (Nat.le_succ _)] at this
    rw [this, List.take_left' hpre]
  · have h1 : (b.take (row + 1))[row]? = b[row]? := List.getElem?_take_of_succ
    rw [← h1, h, List.getElem?_append_right (by omega)]
    simp [hpre]

theorem take_succ_of_getElem? {b pre : List Int} {row : Nat} {c : Int}
    (h1 : b.take row = pre) (h2 : b[row]? = some c) : b.take (row + 1) = pre ++ [c] := by
  rw [List.take_succ, h1, h2]; rfl

/-- Membership in `candidates`: the buffers of `rows` entries that extend `pre`,
hold an admitted column for every row from `currentRow` on, and contain every
unknowable column. -/
theorem mem_candidates (rref orig : Matrix) :
    ∀ (fuel currentRow : Nat) (pre b : List Int), pre.length = currentRow →
      currentRow < rref.getNumberRows → rref.getNumberRows ≤ fuel + currentRow →
      (b ∈ candidates rref orig fuel currentRow pre ↔
        b.take currentRow = pre ∧ b.length = rref.getNumberRows ∧
        (∀ r, currentRow ≤ r → r < rref.getNumberRows → ChosenAt rref orig b r) ∧
        orig.allColumnsInUnknowable b rref.getNumberRows = true) := by
  intro fuel
  induction fuel with
  | zero => intro currentRow pre b _ h1 h2; omega
  | succ n ih =>
    intro currentRow pre b hpre hrow hfuel
    simp only [candidates, List.mem_flatMap, List.mem_range]
    constructor
    · rintro ⟨lupe, hl, hm⟩
      unfold candidatesStep at hm
      by_cases hadm : admissible rref orig currentRow pre lupe = true
      · rw [if_pos hadm] at hm
        by_cases hleaf : currentRow + 1 ≥ rref.getNumberRows
        · rw [if_pos hleaf] at hm
          have hR : rref.getNumberRows = currentRow + 1 := by omega
          by_cases hcov : orig.allColumnsInUnknowable (pre ++ [(lupe : Int)])
              (currentRow + 1) = true
          · rw [if_pos hcov] at hm
            have hb : b = pre ++ [(lupe : Int)] := by simpa using hm
            have hbl : b.length = currentRow + 1 := by rw [hb]; simp [hpre]
            have htk : b.take (currentRow + 1) = pre ++ [(lupe : Int)] := by
              rw [hb]; exact List.take_of_length_le (by simp [hpre])
            obtain ⟨ht, hg⟩ := take_succ_eq_append htk hpre
            refine ⟨ht, by rw [hR]; exact hbl, ?_, by rw [hR, hb]; exact hcov⟩
            intro r h1 h2
            have : r = currentRow := by omega
            subst this
            exact ⟨lupe, hl, hg, by rw [ht]; exact hadm⟩
          · rw [if_neg hcov] at hm
            simp at hm
        · rw [if_neg hleaf] at hm
          obtain ⟨htk, hbl, hch, hcov⟩ :=
            (ih (currentRow + 1) (pre ++ [(lupe : Int)]) b (by simp [hpre]) (by omega)
              (by omega)).mp hm
          obtain ⟨ht, hg⟩ := take_succ_eq_append htk hpre
          refine ⟨ht, hbl, ?_, hcov⟩
          intro r h1 h2
          by_cases hr : r = currentRow
          · subst hr
            exact ⟨lupe, hl, hg, by rw [ht]; exact hadm⟩
          · exact hch r (by omega) h2
      · rw [if_neg hadm] at hm
        simp at hm
    · rintro ⟨ht, hbl, hch, hcov⟩
      obtain ⟨c, hc, hg, hadm⟩ := hch currentRow (Nat.le_refl _) hrow
      rw [ht] at hadm
      have htk : b.take (currentRow + 1) = pre ++ [(c : Int)] := take_succ_of_getElem? ht hg
      refine ⟨c, hc, ?_⟩
      unfold candidatesStep
      rw [if_pos hadm]
      by_cases hleaf : currentRow + 1 ≥ rref.getNumberRows
      · rw [if_pos hleaf]
        have hR : rref.getNumberRows = currentRow + 1 := by omega
        have hb : b = pre ++ [(c : Int)] := by
          rw [← htk]; exact (List.take_of_length_le (by omega)).symm
        rw [← hb, ← hR, if_pos hcov]
        simp
      · rw [if_neg hleaf]
        exact (ih (currentRow + 1) (pre ++ [(c : Int)]) b (by simp [hpre]) (by omega)
          (by omega)).mpr ⟨htk, hbl, fun r h1 h2 => hch r (by omega) h2, hcov⟩

theorem mem_candidates_top (rref orig : Matrix) (hR : 1 ≤ rref.getNumberRows) (b : List Int) :
    b ∈ candidates rref orig rref.getNumberRows 0 [] ↔ Reached rref orig b := by
  rw [mem_candidates rref orig rref.getNumberRows 0 [] b rfl (by omega) (by omega)]
  unfold Reached
  constructor
  · rintro ⟨_, h1, h2, h3⟩
    exact ⟨h1, fun r hr => h2 r (Nat.zero_le _) hr, h3⟩
  · rintro ⟨h1, h2, h3⟩
    exact ⟨by simp, h1, fun r _ hr => h2 r hr, h3⟩

theorem admissible_iff (rref orig : Matrix) (r : Nat) (pre : List Int) (c : Nat) :
    admissible rref orig r pre c = true ↔
      fabs (rref.entry r c) > tol ∧ (c : Int) ∉ pre ∧
        orig.columnEntryInKnown (c : Int) = false := by
  unfold admissible
  simp only [Bool.and_eq_true, decide_eq_true_eq, Bool.not_eq_true', List.any_eq_false]
  constructor
  · rintro ⟨⟨h1, h2⟩, h3⟩
    refine ⟨h1, ?_, h3⟩
    intro hmem
    exact h2 _ hmem rfl
  · rintro ⟨h1, h2, h3⟩
    refine ⟨⟨h1, ?_⟩, h3⟩
    intro x hx hxc
    exact h2 (hxc ▸ hx)

theorem Reached.validKey {rref orig : Matrix} {b : List Int} (h : Reached rref orig b) :
    ValidKey rref.getNumberColumns rref.getNumberRows b := by
  refine ⟨h.1, ?_⟩
  intro v hv
  obtain ⟨r, hr⟩ := List.mem_iff_getElem?.mp hv
  have hlt : r < b.length := by
    by_contra hge
    rw [List.getElem?_eq_none (by omega)] at hr
    cases hr
  obtain ⟨c, hc, hg, _⟩ := h.2.1 r (by rw [← h.1]; exact hlt)
  rw [hr] at hg
  cases hg
  omega

theorem Reached.nodup {rref orig : Matrix} {b : List Int} (h : Reached rref orig b) :
    b.Nodup := by
  rw [List.nodup_iff_getElem?_ne_getElem?]
  intro i j hij hj heq
  obtain ⟨c, _, hg, hadm⟩ := h.2.1 j (by rw [← h.1]; exact hj)
  have hnot := ((admissible_iff rref orig j (b.take j) c).mp hadm).2.1
  apply hnot
  rw [hg] at heq
  have : (b.take j)[i]? = some (c : Int) := by
    rw [List.getElem?_take_of_lt hij]; exact heq
  exact List.getElem?_mem this

theorem Reached.not_known {rref orig : Matrix} {b : List Int} (h : Reached rref orig b) :
    ∀ v ∈ b, orig.columnEntryInKnown v = false := by
  intro v hv
  obtain ⟨r, hr⟩ := List.mem_iff_getElem?.mp hv
  have hlt : r < b.length := by
    by_contra hge
    rw [List.getElem?_eq_none (by omega)] at hr
    cases hr
  obtain ⟨c, _, hg, hadm⟩ := h.2.1 r (by rw [← h.1]; exact hlt)
  rw [hr] at hg
  cases hg
  exact ((admissible_iff rref orig r (b.take r) c).mp hadm).2.2

/-! ## `RREF` keeps the dimensions -/

theorem eliminate_dims (m : Matrix) (o c : Nat) (which : List Nat) :
    (m.eliminate o c which).rows = m.rows ∧ (m.eliminate o c which).columns = m.columns := by
  unfold Matrix.eliminate
  induction which generalizing m with
  | nil => exact ⟨rfl, rfl⟩
  | cons x xs ih =>
    rw [List.foldl_cons]
    split
    · obtain ⟨h1, h2⟩ := ih (m.daxpy (-(m.entry x c) / m.entry o c) x o c)
      exact ⟨h1, h2⟩
    · exact ih m

theorem reduceAt_dims (m : Matrix) (o i c : Nat) :
    (m.reduceAt o i c).rows = m.rows ∧ (m.reduceAt o i c).columns = m.columns := by
  unfold Matrix.reduceAt
  split
  · simp only [Matrix.dscal]
    constructor
    · rw [(eliminate_dims _ _ _ _).1, (eliminate_dims _ _ _ _).1]
      split <;> rfl
    · rw [(eliminate_dims _ _ _ _).2, (eliminate_dims _ _ _ _).2]
      split <;> rfl
  · exact ⟨rfl, rfl⟩

theorem rrefLoop_dims :
    ∀ (fuel o c : Nat) (m : Matrix),
      (Matrix.rrefLoop fuel o c m).rows = m.rows ∧
        (Matrix.rrefLoop fuel o c m).columns = m.columns := by
  intro fuel
  induction fuel with
  | zero => intro o c m; exact ⟨rfl, rfl⟩
  | succ n ih =>
    intro o c m
    unfold Matrix.rrefLoop
    split
    · obtain ⟨h1, h2⟩ := ih (o + 1)
        ((m.findPivot o (m.rows * m.columns + 1) o c).2 + 1)
        (m.reduceAt o (m.findPivot o (m.rows * m.columns + 1) o c).1
          (m.findPivot o (m.rows * m.columns + 1) o c).2)
      rw [(reduceAt_dims _ _ _ _).1] at h1
      rw [(reduceAt_dims _ _ _ _).2] at h2
      exact ⟨h1, h2⟩
    · exact ⟨rfl, rfl⟩

theorem RREF_rows (m : Matrix) : m.RREF.getNumberRows = m.rows :=
  (rrefLoop_dims m.rows 0 0 m).1

theorem RREF_columns (m : Matrix) : m.RREF.getNumberColumns = m.columns :=
  (rrefLoop_dims m.rows 0 0 m).2

/-! ## The whole run -/

theorem runInv_initial (m : Matrix) :
    RunInv m.columns m.rows m.rows (initialState m) [] :=
  ⟨treeHolds_create m.columns m.rows, rfl, rfl, by simp [initialState, Matrix.getNumberColumns]⟩

/-- The run of `main` on a matrix with at least one row: it ends, and the state it
ends in is the one the calls of `testFullColumnSet` on `candidates` leave. -/
theorem main_spec (K : Lapack) (m : Matrix) (hR : 1 ≤ m.rows) :
    ∃ buf st, main K m = some (buf, st) ∧
      st.calls = candidates m.RREF m.copy m.rows 0 [] ∧
      st.factored = firstsFrom [] (candidates m.RREF m.copy m.rows 0 []) ∧
      st.numberFeasible = (((firstsFrom [] (candidates m.RREF m.copy m.rows 0 [])).filter
        (fullRank K m.rows m.copy)).length : Int) ∧
      st.feasibleByColumn.sum = st.numberFeasible * ((m.columns : Int) - m.rows) ∧
      RunInv m.columns m.rows m.rows st
        ((candidates m.RREF m.copy m.rows 0 []).map sortedKey) := by
  have hrr := RREF_rows m
  have hrc := RREF_columns m
  obtain ⟨buf1, _, _, hrun⟩ := checkColumns_eq_testAll K m.RREF m.copy m.rows 0
    (List.replicate m.rows (-1)) (by simp [hrr]) (by omega) (by omega)
  have hvalid : ∀ b ∈ candidates m.RREF m.copy m.rows 0 [],
      ValidKey m.columns m.rows b ∧ b.Nodup := by
    intro b hb
    have hre : Reached m.RREF m.copy b := by
      rw [← hrr] at hb
      exact (mem_candidates_top m.RREF m.copy (by omega) b).mp hb
    have hv := hre.validKey
    rw [hrr, hrc] at hv
    exact ⟨hv, hre.nodup⟩
  obtain ⟨st1, h1, hinv1, hcalls, hfact, hnf, hsum⟩ :=
    testAll_spec K m.copy hR (candidates m.RREF m.copy m.rows 0 []) (runInv_initial m) hvalid
  refine ⟨buf1, st1, ?_, ?_, ?_, ?_, ?_, ?_⟩
  · unfold main
    have := hrun (initialState m)
    simp only [List.take_zero] at this
    simp only [Matrix.getNumberRows] at this ⊢
    rw [this, h1]
    rfl
  · rw [hcalls]; rfl
  · rw [hfact]; rfl
  · rw [hnf]; simp [initialState]
  · exact hsum (by simp [initialState])
  · simpa using hinv1

/-! ## The two marked lists of the matrix -/

theorem scanColumn_iff (value : Int) (l : List Int) (h : l.Sorted (· ≤ ·)) :
    FoundFeasible.scanColumn value l = true ↔ value ∈ l := by
  induction l with
  | nil => simp [FoundFeasible.scanColumn]
  | cons x xs ih =>
    have hx := List.sorted_cons.mp h
    unfold FoundFeasible.scanColumn
    by_cases hle : x ≤ value
    · rw [if_pos hle]
      by_cases heq : x = value
      · simp [heq]
      · rw [if_neg heq, ih hx.2]
        constructor
        · intro hm; exact List.mem_cons_of_mem _ hm
        · intro hm
          rcases List.mem_cons.mp hm with h1 | h1
          · exact absurd h1.symm heq
          · exact h1
    · rw [if_neg hle]
      constructor
      · intro hf; cases hf
      · intro hm
        rcases List.mem_cons.mp hm with h1 | h1
        · omega
        · have := hx.1 value h1; omega

/-- In the copy `main` makes of the matrix, `columnEntryInKnown` is membership in the
known list of the matrix. -/
theorem copy_columnEntryInKnown (m : Matrix) (value : Int) :
    m.copy.columnEntryInKnown value = true ↔ value ∈ m.knownColumns.columns := by
  obtain ⟨hs, hp⟩ := foldl_addColumn_spec m.knownColumns.columns ⟨[]⟩ (by simp)
  unfold Matrix.columnEntryInKnown FoundFeasible.columnExists
  show FoundFeasible.scanColumn value
    (m.knownColumns.columns.foldl FoundFeasible.addColumn ⟨[]⟩).columns = true ↔ _
  rw [scanColumn_iff value _ hs]
  simpa using hp.mem_iff

theorem allColumnsInUnknowable_iff (orig : Matrix) (indicies : List Int) (depth : Nat) :
    orig.allColumnsInUnknowable indicies depth = true ↔
      ∀ v ∈ orig.unknowableColumns.columns, v ∈ indicies.take depth := by
  unfold Matrix.allColumnsInUnknowable Matrix.allColumnsInList FoundFeasible.allColumnsExist
    FoundFeasible.foundIt FoundFeasible.length
  by_cases h0 : ((orig.unknowableColumns.columns.length : Int)) = 0
  · rw [if_pos h0]
    have : orig.unknowableColumns.columns = [] := by
      apply List.eq_nil_of_length_eq_zero; omega
    simp [this]
  · rw [if_neg h0]
    simp only [List.all_eq_true, List.any_eq_true, decide_eq_true_eq]
    constructor
    · intro h v hv
      obtain ⟨x, hx, hvx⟩ := h v hv
      exact hvx ▸ hx
    · intro h v hv
      exact ⟨v, h v hv, rfl⟩

/-! ## Counting the column sets of full rank -/

theorem firstsFrom_spec (bufs : List (List Int)) :
    ∀ seen : List (List Int),
      (∀ b ∈ firstsFrom seen bufs, b ∈ bufs) ∧
      ((firstsFrom seen bufs).map sortedKey).Nodup ∧
      (∀ k ∈ (firstsFrom seen bufs).map sortedKey, k ∉ seen) ∧
      (∀ b ∈ bufs, sortedKey b ∈ seen ∨ sortedKey b ∈ (firstsFrom seen bufs).map sortedKey) := by
  induction bufs with
  | nil => intro seen; simp [firstsFrom]
  | cons b bs ih =>
    intro seen
    obtain ⟨h1, h2, h3, h4⟩ := ih (seen ++ [sortedKey b])
    have h3' : ∀ k ∈ (firstsFrom (seen ++ [sortedKey b]) bs).map sortedKey,
        k ∉ seen ∧ k ≠ sortedKey b := by
      intro k hk
      have := h3 k hk
      simp only [List.mem_append, List.mem_singleton, not_or] at this
      exact this
    by_cases hin : sortedKey b ∈ seen
    · have hF : firstsFrom seen (b :: bs) = firstsFrom (seen ++ [sortedKey b]) bs := by
        simp [firstsFrom, hin]
      rw [hF]
      refine ⟨fun x hx => List.mem_cons_of_mem _ (h1 x hx), h2, fun k hk => (h3' k hk).1, ?_⟩
      intro x hx
      rcases List.mem_cons.mp hx with rfl | hx
      · exact Or.inl hin
      · rcases h4 x hx with h | h
        · rcases List.mem_append.mp h with h | h
          · exact Or.inl h
          · rw [List.mem_singleton.mp h]; exact Or.inl hin
        · exact Or.inr h
    · have hF : firstsFrom seen (b :: bs) = b :: firstsFrom (seen ++ [sortedKey b]) bs := by
        simp [firstsFrom, hin]
      rw [hF]
      refine ⟨?_, ?_, ?_, ?_⟩
      · intro x hx
        rcases List.mem_cons.mp hx with rfl | hx
        · exact List.mem_cons_self _ _
        · exact List.mem_cons_of_mem _ (h1 x hx)
      · rw [List.map_cons, List.nodup_cons]
        exact ⟨fun hk => (h3' _ hk).2 rfl, h2⟩
      · intro k hk
        rw [List.map_cons] at hk
        rcases List.mem_cons.mp hk with rfl | hk
        · exact hin
        · exact (h3' k hk).1
      · intro x hx
        rw [List.map_cons]
        rcases List.mem_cons.mp hx with rfl | hx
        · exact Or.inr (List.mem_cons_self _ _)
        · rcases h4 x hx with h | h
          · rcases List.mem_append.mp h with h | h
            · exact Or.inl h
            · rw [List.mem_singleton.mp h]; exact Or.inr (List.mem_cons_self _ _)
          · exact Or.inr (List.mem_cons_of_mem _ h)

theorem mem_columnList (C : Nat) (v : Int) : v ∈ columnList C ↔ 0 ≤ v ∧ v < (C : Int) := by
  unfold columnList
  simp only [List.mem_map, List.mem_range]
  constructor
  · rintro ⟨c, hc, rfl⟩; omega
  · rintro ⟨h0, h1⟩
    exact ⟨v.toNat, by omega, by omega⟩

theorem columnList_sorted (C : Nat) : (columnList C).Sorted (· < ·) := by
  unfold columnList
  have h := List.sorted_lt_range C
  exact (List.pairwise_map.mpr (h.imp (fun hab => by omega)))

theorem mem_sublistsLen_columnList (R C : Nat) (S : List Int) :
    S ∈ List.sublistsLen R (columnList C) ↔
      S.Sorted (· < ·) ∧ S.length = R ∧ ∀ v ∈ S, 0 ≤ v ∧ v < (C : Int) := by
  rw [List.mem_sublistsLen]
  constructor
  · rintro ⟨hsub, hlen⟩
    refine ⟨(columnList_sorted C).sublist hsub, hlen, ?_⟩
    intro v hv
    exact (mem_columnList C v).mp (hsub.subset hv)
  · rintro ⟨hs, hlen, hr⟩
    refine ⟨?_, hlen⟩
    have hnd : S.Nodup := hs.nodup
    have hsub : S ⊆ columnList C := fun v hv => (mem_columnList C v).mpr (hr v hv)
    exact List.sublist_of_subperm_of_sorted (List.subperm_of_subset hnd hsub)
      (hs.imp (fun h => le_of_lt h)) ((columnList_sorted C).imp (fun h => le_of_lt h))

theorem copy_unknowable_mem (m : Matrix) (v : Int) :
    v ∈ m.copy.unknowableColumns.columns ↔ v ∈ m.unknowableColumns.columns := by
  obtain ⟨_, hp⟩ := foldl_addColumn_spec m.unknowableColumns.columns ⟨[]⟩ (by simp)
  show v ∈ (m.unknowableColumns.columns.foldl FoundFeasible.addColumn ⟨[]⟩).columns ↔ _
  simpa using hp.mem_iff

/-- The sorted keys of the buffers the search reaches are the ascending lists of
`rows` columns without a known column, with every unknowable column, that some
assignment to the rows carries through entries above `1e-9`. -/
theorem reached_key_iff (m : Matrix) (S : List Int) :
    (∃ b, Reached m.RREF m.copy b ∧ sortedKey b = S) ↔
      S ∈ List.sublistsLen m.rows (columnList m.columns) ∧
      (∀ c ∈ S, c ∉ m.knownColumns.columns) ∧
      (∀ v ∈ m.unknowableColumns.columns, v ∈ S) ∧
      ThresholdReachable m.RREF S := by
  have hrr := RREF_rows m
  have hrc := RREF_columns m
  constructor
  · rintro ⟨b, hre, rfl⟩
    have hv := sortedKey_valid hre.validKey
    rw [hrr, hrc] at hv
    have hperm := sortedKey_perm b
    refine ⟨(mem_sublistsLen_columnList _ _ _).mpr ⟨sortedKey_strict hre.nodup, hv.1, hv.2⟩,
      ?_, ?_, ?_⟩
    · intro c hc hmem
      have hk := hre.not_known c (hperm.subset hc)
      rw [(copy_columnEntryInKnown m c).mpr hmem] at hk
      cases hk
    · intro v hv'
      have hcov := (allColumnsInUnknowable_iff m.copy b m.RREF.getNumberRows).mp hre.2.2 v
        ((copy_unknowable_mem m v).mpr hv')
      rw [List.take_of_length_le (by rw [hre.1])] at hcov
      exact hperm.symm.subset hcov
    · refine ⟨b, List.mem_permutations.mpr hperm.symm, ?_⟩
      intro r hr
      obtain ⟨c, _, hg, hadm⟩ := hre.2.1 r hr
      have : b.getD r 0 = (c : Int) := by simp [hg]
      rw [this]
      simpa using ((admissible_iff m.RREF m.copy r (b.take r) c).mp hadm).1
  · rintro ⟨hmem, hknown, hunk, b, hb, hthr⟩
    obtain ⟨hs, hlen, hrange⟩ := (mem_sublistsLen_columnList _ _ _).mp hmem
    have hperm : b.Perm S := List.mem_permutations.mp hb
    have hbl : b.length = m.RREF.getNumberRows := by rw [hperm.length_eq, hlen, hrr]
    have hnd : b.Nodup := hperm.nodup_iff.mpr hs.nodup
    refine ⟨b, ⟨hbl, ?_, ?_⟩, ?_⟩
    · intro r hr
      have hrl : r < b.length := by rw [hbl]; exact hr
      have hget : b[r]? = some b[r] := List.getElem?_eq_getElem hrl
      have hin : b[r] ∈ S := hperm.subset (List.getElem_mem hrl)
      have hrg := hrange _ hin
      refine ⟨(b[r]).toNat, by rw [hrc]; omega, ?_, ?_⟩
      · rw [hget, Int.toNat_of_nonneg hrg.1]
      · rw [admissible_iff]
        refine ⟨?_, ?_, ?_⟩
        · have := hthr r hr
          have hd : b.getD r 0 = b[r] := by simp [hget]
          rw [hd] at this
          exact this
        · rw [Int.toNat_of_nonneg hrg.1]
          intro hmt
          obtain ⟨i, hi, hieq⟩ := List.mem_take_iff_getElem.mp hmt
          have hir : i < r := by
            have := hi; simp only [Nat.lt_min] at this; exact this.1
          have := hnd.getElem_inj_iff.mp hieq
          omega
        · rw [Int.toNat_of_nonneg hrg.1]
          have hk := hknown _ hin
          cases hval : m.copy.columnEntryInKnown b[r] with
          | false => rfl
          | true => exact absurd ((copy_columnEntryInKnown m _).mp hval) hk
    · rw [allColumnsInUnknowable_iff]
      intro v hv
      rw [List.take_of_length_le (by rw [hbl])]
      exact hperm.symm.subset (hunk v ((copy_unknowable_mem m v).mp hv))
    · exact List.eq_of_perm_of_sorted ((sortedKey_perm b).trans hperm) (sortedKey_sorted b)
        (hs.imp (fun h => le_of_lt h))

/-- When the verdict of `dgetrf` does not depend on the order of the columns, the
number of first buffers of full rank is the number of reachable column sets of full
rank. -/
theorem firsts_count_eq_reached (K : Lapack) (m : Matrix) (hR : 1 ≤ m.rows)
    (hK : ∀ a b : List Int, a.Perm b → ValidKey m.columns m.rows a →
      fullRank K m.rows m.copy a = fullRank K m.rows m.copy b) :
    ((firstsFrom [] (candidates m.RREF m.copy m.rows 0 [])).filter
        (fullRank K m.rows m.copy)).length = reachedFeasible K m := by
  have hrr := RREF_rows m
  have hrc := RREF_columns m
  obtain ⟨hF1, hF2, _, hF4⟩ := firstsFrom_spec (candidates m.RREF m.copy m.rows 0 []) []
  have hcand : ∀ b, b ∈ candidates m.RREF m.copy m.rows 0 [] ↔ Reached m.RREF m.copy b := by
    intro b
    have := mem_candidates_top m.RREF m.copy (by rw [hrr]; exact hR) b
    rw [hrr] at this
    exact this
  have hfr : ∀ b ∈ firstsFrom [] (candidates m.RREF m.copy m.rows 0 []),
      fullRank K m.rows m.copy (sortedKey b) = fullRank K m.rows m.copy b := by
    intro b hb
    have hre := (hcand b).mp (hF1 b hb)
    have hv := sortedKey_valid hre.validKey
    rw [hrr, hrc] at hv
    exact hK _ _ (sortedKey_perm b) hv
  have hlen : ((firstsFrom [] (candidates m.RREF m.copy m.rows 0 [])).filter
        (fullRank K m.rows m.copy)).length
      = (((firstsFrom [] (candidates m.RREF m.copy m.rows 0 [])).map sortedKey).filter
        (fullRank K m.rows m.copy)).length := by
    rw [List.filter_map, List.length_map]
    congr 1
    apply List.filter_congr
    intro b hb
    exact (hfr b hb).symm
  rw [hlen]
  unfold reachedFeasible
  apply List.Perm.length_eq
  rw [List.perm_ext_iff_of_nodup (hF2.filter _)
    ((List.nodup_sublistsLen _ (columnList_sorted m.columns).nodup).filter _)]
  intro S
  simp only [List.mem_filter, Bool.and_eq_true, decide_eq_true_eq]
  have hkey : S ∈ (firstsFrom [] (candidates m.RREF m.copy m.rows 0 [])).map sortedKey ↔
      ∃ b, Reached m.RREF m.copy b ∧ sortedKey b = S := by
    constructor
    · intro h
      obtain ⟨b, hb, rfl⟩ := List.mem_map.mp h
      exact ⟨b, (hcand b).mp (hF1 b hb), rfl⟩
    · rintro ⟨b, hre, rfl⟩
      rcases hF4 b ((hcand b).mpr hre) with h | h
      · simp at h
      · exact h
  rw [hkey, reached_key_iff]
  constructor
  · rintro ⟨⟨h1, h2, h3, h4⟩, h5⟩
    exact ⟨h1, ⟨⟨h2, h3⟩, h4⟩, h5⟩
  · rintro ⟨h1, ⟨⟨h2, h3⟩, h4⟩, h5⟩
    exact ⟨⟨h1, h2, h3, h4⟩, h5⟩

/-! ## Claim on the count of the whole run -/

/-- The keys of a trie of width 3 and depth 2. -/
theorem validKey_3_2_cases (a : List Int) (hv : ValidKey 3 2 a) :
    a ∈ ([[0, 0], [0, 1], [0, 2], [1, 0], [1, 1], [1, 2], [2, 0], [2, 1], [2, 2]] :
      List (List Int)) := by
  obtain ⟨hlen, hr⟩ := hv
  match a, hlen with
  | [x, y], _ =>
    obtain ⟨hx0, hx1⟩ := hr x (by simp)
    obtain ⟨hy0, hy1⟩ := hr y (by simp)
    have hx2 : x < 3 := hx1
    have hy2 : y < 3 := hy1
    interval_cases x <;> interval_cases y <;> simp

/-- C1, as stated, fails: for the 1 x 1 matrix with the entry `1e-10` (no known, no
unknowable column) the run ends with `numberFeasible = 0`, while the subset `{0}`
has an invertible submatrix, so the count of the claim is `1`. -/
theorem C1_counterexample_small_entry :
    (main exactLapack (Matrix.load [[1 / 10 ^ 10]] [] [])).map
        (fun p => p.2.numberFeasible) = some 0 ∧
      claimedFeasible exactLapack (Matrix.load [[1 / 10 ^ 10]] [] []) = 1 := by
  decide!

/-! ## Claims on the trie -/

/-- C2. On a trie built with width `W` and depth `D ≥ 1` and used with keys of `D`
values in `[0, W)` (so `W ≥ 1`): when the key `s` was not passed by any of the
earlier calls `before`, `checkColumn(s)` returns `false`; and after any further
calls `between`, `checkColumn(s)` returns `true`. The key need not be ascending. -/
theorem C2_first_check_new_later_seen (W D : Nat) (hD : 1 ≤ D)
    (before between : List (List Int)) (s : List Int)
    (hbefore : ∀ k ∈ before, ValidKey W D k) (hbetween : ∀ k ∈ between, ValidKey W D k)
    (hs : ValidKey W D s) (hnew : s ∉ before) :
    ∃ t1 t2 t3 t4,
      checkAll (CheckedColumnsTree.create (W : Int) (D : Int)) before = some t1 ∧
      t1.checkColumn ⟨s⟩ = some (false, t2) ∧
      checkAll t2 between = some t3 ∧
      t3.checkColumn ⟨s⟩ = some (true, t4) := by
  obtain ⟨t1, h1, ht1⟩ := checkAll_spec hD before (treeHolds_create W D) hbefore
  obtain ⟨t2, h2, ht2, _⟩ := checkColumn_spec hD ht1 hs
  obtain ⟨t3, h3, ht3⟩ := checkAll_spec hD between ht2 hbetween
  obtain ⟨t4, h4, _, _⟩ := checkColumn_spec hD ht3 hs
  refine ⟨t1, t2, t3, t4, h1, ?_, h3, ?_⟩
  · rw [h2]; simp [hnew]
  · rw [h4]; simp

theorem C2_first_check_new_later_seen_witness :
    ∃ t1 t2 t3 t4,
      checkAll (CheckedColumnsTree.create ((3 : Nat) : Int) ((2 : Nat) : Int)) [[0, 1]]
        = some t1 ∧
      t1.checkColumn ⟨[0, 2]⟩ = some (false, t2) ∧
      checkAll t2 [[1, 2], [0, 1]] = some t3 ∧
      t3.checkColumn ⟨[0, 2]⟩ = some (true, t4) :=
  C2_first_check_new_later_seen 3 2 (by decide) [[0, 1]] [[1, 2], [0, 1]] [0, 2]
    (by decide) (by decide) (by decide) (by decide)

/-- C3. On a trie of width `W` and depth `D ≥ 1` reached by the calls `before`, for
two different keys `a` and `b` of `D` values in `[0, W)`: `checkColumn(b)` returns
the same result after `checkColumn(a)` as without it, and that result is `true`
exactly when `b` itself is one of the keys of `before`. -/
theorem C3_distinct_keys_independent (W D : Nat) (hD : 1 ≤ D)
    (before : List (List Int)) (a b : List Int)
    (hbefore : ∀ k ∈ before, ValidKey W D k)
    (ha : ValidKey W D a) (hb : ValidKey W D b) (hne : a ≠ b) :
    ∃ t1 ra t2 t3 t4,
      checkAll (CheckedColumnsTree.create (W : Int) (D : Int)) before = some t1 ∧
      t1.checkColumn ⟨a⟩ = some (ra, t2) ∧
      t2.checkColumn ⟨b⟩ = some (decide (b ∈ before), t3) ∧
      t1.checkColumn ⟨b⟩ = some (decide (b ∈ before), t4) := by
  obtain ⟨t1, h1, ht1⟩ := checkAll_spec hD before (treeHolds_create W D) hbefore
  obtain ⟨t2, h2, ht2, _⟩ := checkColumn_spec hD ht1 ha
  obtain ⟨t3, h3, _, _⟩ := checkColumn_spec hD ht2 hb
  obtain ⟨t4, h4, _, _⟩ := checkColumn_spec hD ht1 hb
  refine ⟨t1, _, t2, t3, t4, h1, h2, ?_, h4⟩
  rw [h3]
  have : b ≠ a := fun h => hne h.symm
  simp [this]

theorem C3_distinct_keys_independent_witness :
    ∃ t1 ra t2 t3 t4,
      checkAll (CheckedColumnsTree.create ((3 : Nat) : Int) ((2 : Nat) : Int)) [[0, 1]]
        = some t1 ∧
      t1.checkColumn ⟨[0, 2]⟩ = some (ra, t2) ∧
      t2.checkColumn ⟨[1, 2]⟩ = some (decide ([1, 2] ∈ [[(0 : Int), 1]]), t3) ∧
      t1.checkColumn ⟨[1, 2]⟩ = some (decide ([1, 2] ∈ [[(0 : Int), 1]]), t4) :=
  C3_distinct_keys_independent 3 2 (by decide) [[0, 1]] [0, 2] [1, 2]
    (by decide) (by decide) (by decide) (by decide)

/-! ## Claims on the search -/

/-- C5. In the run of `main` on a matrix with at least one row, no index buffer
handed to `testFullColumnSet` (the log `calls`) contains a column of the known list:
`columnEntryInKnown` is `false` for each of its columns, and none is a member of
the known list of the matrix. -/
theorem C5_no_known_column_in_tested_buffer (K : Lapack) (m : Matrix) (hR : 1 ≤ m.rows) :
    ∃ buf st, main K m = some (buf, st) ∧
      ∀ b ∈ st.calls, ∀ c ∈ b,
        m.copy.columnEntryInKnown c = false ∧ c ∉ m.knownColumns.columns := by
  obtain ⟨buf, st, hmain, hcalls, _⟩ := main_spec K m hR
  refine ⟨buf, st, hmain, ?_⟩
  intro b hb c hc
  rw [hcalls, ← RREF_rows m] at hb
  have hre := (mem_candidates_top m.RREF m.copy (by rw [RREF_rows]; exact hR) b).mp hb
  have hk := hre.not_known c hc
  refine ⟨hk, ?_⟩
  intro hmem
  rw [(copy_columnEntryInKnown m c).mpr hmem] at hk
  cases hk

theorem C5_no_known_column_in_tested_buffer_witness :
    ∃ buf st, main exactLapack (Matrix.load [[1, 1, 1], [1, 2, 3]] [] [0]) = some (buf, st) ∧
      ∀ b ∈ st.calls, ∀ c ∈ b,
        (Matrix.load [[1, 1, 1], [1, 2, 3]] [] [0]).copy.columnEntryInKnown c = false ∧
          c ∉ (Matrix.load [[1, 1, 1], [1, 2, 3]] [] [0]).knownColumns.columns :=
  C5_no_known_column_in_tested_buffer exactLapack (Matrix.load [[1, 1, 1], [1, 2, 3]] [] [0])
    (by decide)

/-- C6. The body of the loop of `checkColumns` at a leaf (`currentRow + 1` is the
number of rows, which is the length of the index buffer), for a column `lupe` that
passes the test of the loop: when every member of the unknowable list is among the
entries of the buffer (with `lupe` written in its last slot), the body is the call
of `testFullColumnSet` on that buffer; when some member is missing, the state is
returned unchanged (trie, counters, statistics and logs). -/
theorem C6_leaf_tests_iff_unknowable_covered (K : Lapack) (rref orig : Matrix)
    (recurse : List Int × RunState → Option (List Int × RunState)) (currentRow : Nat)
    (buf : List Int) (st : RunState) (lupe : Nat)
    (hleaf : rref.getNumberRows = currentRow + 1) (hlen : buf.length = rref.getNumberRows)
    (hadm : admissible rref orig currentRow (buf.take currentRow) lupe = true) :
    ((∀ v ∈ orig.unknowableColumns.columns, v ∈ buf.set currentRow (lupe : Int)) →
      checkColumnsStep K rref orig recurse currentRow (buf, st) lupe
        = (testFullColumnSet K orig (buf.set currentRow (lupe : Int)) st).map
            (fun r => (buf.set currentRow (lupe : Int), r.2))) ∧
    (¬ (∀ v ∈ orig.unknowableColumns.columns, v ∈ buf.set currentRow (lupe : Int)) →
      checkColumnsStep K rref orig recurse currentRow (buf, st) lupe
        = some (buf.set currentRow (lupe : Int), st)) := by
  have htake : (buf.set currentRow (lupe : Int)).take (currentRow + 1)
      = buf.set currentRow (lupe : Int) :=
    List.take_of_length_le (by simp; omega)
  have hiff := allColumnsInUnknowable_iff orig (buf.set currentRow (lupe : Int))
    (currentRow + 1)
  rw [htake] at hiff
  rw [checkColumnsStep_eq, if_pos hadm, if_pos (by omega)]
  constructor
  · intro h
    rw [if_pos (hiff.mpr h)]
  · intro h
    rw [if_neg (fun hc => h (hiff.mp hc))]

theorem C6_leaf_tests_iff_unknowable_covered_witness :
    ((∀ v ∈ (Matrix.load [[1, 1, 1], [1, 2, 3]] [2] []).copy.unknowableColumns.columns,
        v ∈ ([0, -1] : List Int).set 1 ((2 : Nat) : Int)) →
      checkColumnsStep exactLapack (Matrix.load [[1, 1, 1], [1, 2, 3]] [2] []).RREF
          (Matrix.load [[1, 1, 1], [1, 2, 3]] [2] []).copy (fun _ => none) 1
          ([0, -1], initialState (Matrix.load [[1, 1, 1], [1, 2, 3]] [2] [])) 2
        = (testFullColumnSet exactLapack (Matrix.load [[1, 1, 1], [1, 2, 3]] [2] []).copy
            (([0, -1] : List Int).set 1 ((2 : Nat) : Int))
            (initialState (Matrix.load [[1, 1, 1], [1, 2, 3]] [2] []))).map
            (fun r => (([0, -1] : List Int).set 1 ((2 : Nat) : Int), r.2))) ∧
    (¬ (∀ v ∈ (Matrix.load [[1, 1, 1], [1, 2, 3]] [2] []).copy.unknowableColumns.columns,
        v ∈ ([0, -1] : List Int).set 1 ((2 : Nat) : Int)) →
      checkColumnsStep exactLapack (Matrix.load [[1, 1, 1], [1, 2, 3]] [2] []).RREF
          (Matrix.load [[1, 1, 1], [1, 2, 3]] [2] []).copy (fun _ => none) 1
          ([0, -1], initialState (Matrix.load [[1, 1, 1], [1, 2, 3]] [2] [])) 2
        = some (([0, -1] : List Int).set 1 ((2 : Nat) : Int),
            initialState (Matrix.load [[1, 1, 1], [1, 2, 3]] [2] []))) :=
  C6_leaf_tests_iff_unknowable_covered exactLapack
    (Matrix.load [[1, 1, 1], [1, 2, 3]] [2] []).RREF
    (Matrix.load [[1, 1, 1], [1, 2, 3]] [2] []).copy (fun _ => none) 1 [0, -1]
    (initialState (Matrix.load [[1, 1, 1], [1, 2, 3]] [2] [])) 2
    (by decide!) (by decide!) (by decide!)

/-- C8. In the run of `main` on a matrix with at least one row (any known and
unknowable lists), the run ends and the entries of `feasibleByColumn` add up to
`numberFeasible * (columns - rows)`. -/
theorem C8_feasible_counts_sum (K : Lapack) (m : Matrix) (hR : 1 ≤ m.rows) :
    ∃ buf st, main K m = some (buf, st) ∧
      st.feasibleByColumn.sum = st.numberFeasible * ((m.columns : Int) - m.rows) := by
  obtain ⟨buf, st, hmain, _, _, _, hsum, _⟩ := main_spec K m hR
  exact ⟨buf, st, hmain, hsum⟩

theorem C8_feasible_counts_sum_witness :
    ∃ buf st, main exactLapack (Matrix.load [[1, 0, 1], [0, 1, 1]] [] []) = some (buf, st) ∧
      st.feasibleByColumn.sum = st.numberFeasible
        * (((Matrix.load [[1, 0, 1], [0, 1, 1]] [] []).columns : Int)
          - (Matrix.load [[1, 0, 1], [0, 1, 1]] [] []).rows) :=
  C8_feasible_counts_sum exactLapack (Matrix.load [[1, 0, 1], [0, 1, 1]] [] []) (by decide)

/-! ## Claims on the recorded numbers -/

/-- C7. The code at the 1 x 2 matrix `[2 2]`, index buffer `[0]`, first call: the
candidate is new and of full rank, the recorded number is `k = 4`, column `0` (in
the candidate) keeps its three entries, column `1` (not in the candidate) gets
`feasibleByColumn + 1`, but `sumConditionNumbers[1]` gains `1/k = 1/4` and
`sumInvConditionNumbers[1]` gains `k = 4`: the two sums are exchanged with respect
to their names. -/
theorem C7_sums_exchanged_at_input :
    (testFullColumnSet exactLapack (Matrix.load [[2, 2]] [] []) [0]
        (initialState (Matrix.load [[2, 2]] [] []))).map
      (fun r => (r.1, r.2.conditionNumbers, r.2.feasibleByColumn,
        r.2.sumConditionNumbers, r.2.sumInvConditionNumbers))
      = some (true, [4], [0, 1], [0, 1 / 4], [0, 4]) := by
  decide!

/-- C9. The code at the 1 x 1 matrix `[2]`, index buffer `[0]`: `dlange` gives the
norm `2`, `dgecon(false)` gives the estimate `2` (`dgecon_` is called with
`norm = 1.0`), and the number recorded in `conditionNumbers` is their product `4`,
whereas norm times the reciprocal of the estimate is `1`. -/
theorem C9_recorded_product_at_input :
    (testFullColumnSet exactLapack (Matrix.load [[2]] [] []) [0]
        (initialState (Matrix.load [[2]] [] []))).map (fun r => r.2.conditionNumbers)
      = some [4] ∧
    SquareMatrix.dlange exactLapack
        (SquareMatrix.copyColumnsToRows (SquareMatrix.create 1 0) (Matrix.load [[2]] [] []) [0])
      = 2 ∧
    SquareMatrix.dgecon exactLapack
        (SquareMatrix.dgetrf exactLapack (SquareMatrix.copyColumnsToRows
          (SquareMatrix.create 1 0) (Matrix.load [[2]] [] []) [0])).1 false
      = 2 ∧
    (2 : ℚ) * (1 / 2) = 1 := by
  decide!

/-- C10. The run of `main` on the 2 x 3 matrix with rows `[1,0,1]` and `[0,1,1]`,
no known and no unknowable column, with the exact reading of LAPACK: the buffers
handed to `testFullColumnSet` are `[0,1]`, `[0,2]`, `[2,1]`, each is new and
factored; after `[0,1]` the counts are `numberFeasible = 1`,
`feasibleByColumn = [0,0,1]`; after `[0,2]` they are `2` and `[0,1,1]` and after
`[2,1]` they are `3` and `[1,1,1]`, so column 2 is counted by `{0,1}` only; the run
ends with `numberFeasible = 3`, `numberRepeats = 0`, `feasibleByColumn = [1,1,1]`. -/
theorem C10_example_run :
    (main exactLapack (Matrix.load [[1, 0, 1], [0, 1, 1]] [] [])).map
      (fun p => (p.2.calls, p.2.factored, p.2.numberFeasible, p.2.numberRepeats,
        p.2.feasibleByColumn))
      = some ([[0, 1], [0, 2], [2, 1]], [[0, 1], [0, 2], [2, 1]], 3, 0, [1, 1, 1]) ∧
    (testAll exactLapack (Matrix.load [[1, 0, 1], [0, 1, 1]] [] []).copy [[0, 1]]
        (initialState (Matrix.load [[1, 0, 1], [0, 1, 1]] [] []))).map
      (fun st => (st.numberFeasible, st.feasibleByColumn)) = some (1, [0, 0, 1]) ∧
    (testAll exactLapack (Matrix.load [[1, 0, 1], [0, 1, 1]] [] []).copy [[0, 1], [0, 2]]
        (initialState (Matrix.load [[1, 0, 1], [0, 1, 1]] [] []))).map
      (fun st => (st.numberFeasible, st.feasibleByColumn)) = some (2, [0, 1, 1]) ∧
    (testAll exactLapack (Matrix.load [[1, 0, 1], [0, 1, 1]] [] []).copy
        [[0, 1], [0, 2], [2, 1]]
        (initialState (Matrix.load [[1, 0, 1], [0, 1, 1]] [] []))).map
      (fun st => (st.numberFeasible, st.feasibleByColumn)) = some (3, [1, 1, 1]) := by
  decide!

/-! ## Claims on `FoundFeasible` -/

/-- C11. For every finite sequence of integers passed one by one to `addColumn`,
starting from an empty `FoundFeasible` (any order, duplicates allowed), the stored
list is in non-decreasing order and is a permutation of the sequence; and on any
`FoundFeasible` one `addColumn` increases `length()` by exactly one. -/
theorem C11_addColumn_sorted_permutation (values : List Int) :
    (values.foldl FoundFeasible.addColumn ⟨[]⟩).columns.Sorted (· ≤ ·) ∧
    (values.foldl FoundFeasible.addColumn ⟨[]⟩).columns.Perm values ∧
    ∀ (ff : FoundFeasible) (value : Int), (ff.addColumn value).length = ff.length + 1 := by
  obtain ⟨hs, hp⟩ := foldl_addColumn_spec values ⟨[]⟩ (by simp)
  refine ⟨hs, by simpa using hp, ?_⟩
  intro ff value
  have := (insertColumn_perm value ff.columns).length_eq
  simp only [FoundFeasible.length, FoundFeasible.addColumn, this, List.length_cons]
  push_cast
  ring

/-- C12. For every `FoundFeasible` built from the empty one by a sequence of
`addColumn` calls and every integer `v`, `columnExists(v)` returns `true` exactly
when `v` is one of the inserted values. -/
theorem C12_columnExists_iff_inserted (values : List Int) (v : Int) :
    (values.foldl FoundFeasible.addColumn ⟨[]⟩).columnExists v = true ↔ v ∈ values := by
  obtain ⟨hs, hp⟩ := foldl_addColumn_spec values ⟨[]⟩ (by simp)
  unfold FoundFeasible.columnExists
  rw [scanColumn_iff v _ hs]
  simpa using hp.mem_iff

theorem foundIt_iff (listValue : Int) (indicies : List Int) (depth : Nat) :
    FoundFeasible.foundIt listValue indicies depth = true ↔
      listValue ∈ indicies.take depth := by
  unfold FoundFeasible.foundIt
  simp only [List.any_eq_true, decide_eq_true_eq]
  constructor
  · rintro ⟨x, hx, rfl⟩; exact hx
  · intro h; exact ⟨listValue, h, rfl⟩

theorem mem_take_iff_position (v : Int) (indicies : List Int) (depth : Nat) :
    v ∈ indicies.take depth ↔
      ∃ i, i < min depth indicies.length ∧ indicies[i]? = some v := by
  rw [List.mem_take_iff_getElem]
  constructor
  · rintro ⟨i, hi, rfl⟩
    exact ⟨i, hi, List.getElem?_eq_getElem _⟩
  · rintro ⟨i, hi, hg⟩
    have hlt : i < indicies.length := lt_of_lt_of_le hi (Nat.min_le_right _ _)
    rw [List.getElem?_eq_getElem hlt] at hg
    exact ⟨i, hi, Option.some.inj hg⟩

/-- C13. For every `FoundFeasible`, every index vector and every depth,
`allColumnsExist(indicies, depth)` returns `true` exactly when every member of the
list equals one of the first `min(depth, length)` entries of the vector. So it is
`true` for the empty list at any depth, `false` for a non-empty list at depth `0`,
and at `depth = length` it says that every member occurs in the vector. The wrapper
`Matrix::allColumnsInList` returns the same value. -/
theorem C13_allColumnsExist_iff_in_prefix (ff : FoundFeasible) (indicies : List Int)
    (depth : Nat) :
    (ff.allColumnsExist indicies depth = true ↔
      ∀ v ∈ ff.columns, ∃ i, i < min depth indicies.length ∧ indicies[i]? = some v) ∧
    (ff.columns = [] → ff.allColumnsExist indicies depth = true) ∧
    (ff.columns ≠ [] → ff.allColumnsExist indicies 0 = false) ∧
    (ff.allColumnsExist indicies indicies.length = true ↔ ∀ v ∈ ff.columns, v ∈ indicies) ∧
    Matrix.allColumnsInList ff indicies depth = ff.allColumnsExist indicies depth := by
  have hall : ∀ d : Nat, ff.allColumnsExist indicies d = true ↔
      ∀ v ∈ ff.columns, v ∈ indicies.take d := by
    intro d
    unfold FoundFeasible.allColumnsExist
    rw [List.all_eq_true]
    constructor
    · intro h v hv; exact (foundIt_iff v indicies d).mp (h v hv)
    · intro h v hv; exact (foundIt_iff v indicies d).mpr (h v hv)
  refine ⟨?_, ?_, ?_, ?_, ?_⟩
  · rw [hall]
    constructor
    · intro h v hv; exact (mem_take_iff_position v indicies depth).mp (h v hv)
    · intro h v hv; exact (mem_take_iff_position v indicies depth).mpr (h v hv)
  · intro h
    rw [hall, h]
    intro v hv
    cases hv
  · intro h
    cases hc : ff.allColumnsExist indicies 0 with
    | false => rfl
    | true =>
      exfalso
      obtain ⟨x, xs, hx⟩ := List.exists_cons_of_ne_nil h
      have := (hall 0).mp hc x (by rw [hx]; exact List.mem_cons_self _ _)
      simp at this
  · rw [hall, List.take_length]
  · unfold Matrix.allColumnsInList
    split
    · next h0 =>
      have hnil : ff.columns = [] := by
        apply List.eq_nil_of_length_eq_zero
        have : (ff.columns.length : Int) = 0 := h0
        omega
      symm
      rw [hall, hnil]
      intro v hv
      cases hv
    · rfl

/-! ## Claims on the candidates and on one call of `testFullColumnSet` -/

/-- C14. In the run of `main` on a matrix with at least one row, for every index
buffer handed to `testFullColumnSet` the list `newColumns` built from it holds
exactly `rows` values, strictly ascending, each in `[0, columns)`; and any other
order of the same columns gives the same list. -/
theorem C14_candidate_key_shape (K : Lapack) (m : Matrix) (hR : 1 ≤ m.rows) :
    ∃ buf st, main K m = some (buf, st) ∧
      ∀ b ∈ st.calls,
        (sortedKey b).length = m.rows ∧ (sortedKey b).Sorted (· < ·) ∧
        (∀ v ∈ sortedKey b, 0 ≤ v ∧ v < (m.columns : Int)) ∧
        ∀ b1 : List Int, b1.Perm b → sortedKey b1 = sortedKey b := by
  obtain ⟨buf, st, hmain, hcalls, _⟩ := main_spec K m hR
  refine ⟨buf, st, hmain, ?_⟩
  intro b hb
  rw [hcalls, ← RREF_rows m] at hb
  have hre := (mem_candidates_top m.RREF m.copy (by rw [RREF_rows]; exact hR) b).mp hb
  have hv := sortedKey_valid hre.validKey
  rw [RREF_rows, RREF_columns] at hv
  exact ⟨hv.1, sortedKey_strict hre.nodup, hv.2, fun b1 h => sortedKey_eq_of_perm h⟩

theorem C14_candidate_key_shape_witness :
    ∃ buf st, main exactLapack (Matrix.load [[1, 0, 1], [0, 1, 1]] [] []) = some (buf, st) ∧
      ∀ b ∈ st.calls,
        (sortedKey b).length = (Matrix.load [[1, 0, 1], [0, 1, 1]] [] []).rows ∧
        (sortedKey b).Sorted (· < ·) ∧
        (∀ v ∈ sortedKey b,
          0 ≤ v ∧ v < ((Matrix.load [[1, 0, 1], [0, 1, 1]] [] []).columns : Int)) ∧
        ∀ b1 : List Int, b1.Perm b → sortedKey b1 = sortedKey b :=
  C14_candidate_key_shape exactLapack (Matrix.load [[1, 0, 1], [0, 1, 1]] [] []) (by decide)

theorem combinationsLoop_choose (n k : Nat) (hk : k ≤ n) :
    ∀ (fuel i : Nat), i + fuel = k →
      combinationsLoop ((n : Int) - k) fuel ((n : Int) - i) (Nat.choose n i) ((i : Int) + 1)
        = (Nat.choose n k : Int) := by
  intro fuel
  induction fuel with
  | zero =>
    intro i hi
    have : i = k := by omega
    subst this
    rfl
  | succ f ih =>
    intro i hi
    unfold combinationsLoop
    rw [if_pos (by omega)]
    have hstep : Int.tdiv ((Nat.choose n i : Int) * ((n : Int) - i)) ((i : Int) + 1)
        = (Nat.choose n (i + 1) : Int) := by
      have h := Nat.choose_succ_right_eq n i
      have hcast : (Nat.choose n i : Int) * ((n : Int) - i)
          = (Nat.choose n (i + 1) : Int) * ((i : Int) + 1) := by
        have h2 : ((Nat.choose n (i + 1) * (i + 1) : Nat) : Int)
            = ((Nat.choose n i * (n - i) : Nat) : Int) := by rw [h]
        have hsub : ((n - i : Nat) : Int) = (n : Int) - i := by omega
        push_cast at h2
        rw [hsub] at h2
        exact h2.symm
      rw [hcast]
      exact Int.mul_tdiv_cancel _ (by omega)
    rw [hstep]
    have := ih (i + 1) (by omega)
    have e1 : (n : Int) - i - 1 = (n : Int) - ((i + 1 : Nat) : Int) := by push_cast; ring
    have e2 : (i : Int) + 1 + 1 = ((i + 1 : Nat) : Int) + 1 := by push_cast; ring
    rw [e1, e2]
    exact this

theorem combinationsLoop_full (n k : Nat) (hk : k ≤ n) :
    combinationsLoop ((n : Int) - k) ((k : Int)).toNat (n : Int) 1 1 = (Nat.choose n k : Int) := by
  have := combinationsLoop_choose n k hk k 0 (by omega)
  simpa using this

theorem combinations_eq_choose (n k : Nat) :
    combinations (n : Int) (k : Int) = some (Nat.choose n k : Int) := by
  unfold combinations
  by_cases hlt : n < k
  · simp only [combinationsDepth]
    rw [if_pos (by omega), Nat.choose_eq_zero_of_lt hlt]
    rfl
  · have hk : k ≤ n := by omega
    by_cases h2 : 2 * k < n
    · simp only [combinationsDepth]
      rw [if_neg (by omega), if_pos (by omega), if_neg (by omega), if_neg (by omega)]
      have hsub : (n : Int) - (k : Int) = ((n - k : Nat) : Int) := by omega
      rw [hsub]
      have := combinationsLoop_full n (n - k) (Nat.sub_le n k)
      rw [this, Nat.choose_symm hk]
    · simp only [combinationsDepth]
      rw [if_neg (by omega), if_neg (by omega)]
      rw [combinationsLoop_full n k hk]

/-- C17. For all integers `n ≥ 0` and `k ≥ 0` (with `long` unbounded),
`combinations(n, k)` returns the binomial coefficient `C(n, k)`; it returns `0`
whenever `k > n` and `1` whenever `k = 0`. -/
theorem C17_combinations_is_binomial (n k : Nat) :
    combinations (n : Int) (k : Int) = some (Nat.choose n k : Int) ∧
    (n < k → combinations (n : Int) (k : Int) = some 0) ∧
    combinations (n : Int) 0 = some 1 := by
  refine ⟨combinations_eq_choose n k, ?_, ?_⟩
  · intro h
    rw [combinations_eq_choose, Nat.choose_eq_zero_of_lt h]
    rfl
  · have := combinations_eq_choose n 0
    simpa using this

/-- C18. For all integers `n` and `k` with `0 ≤ k ≤ n` (with `long` unbounded),
`combinations(n, k)` and `combinations(n, n - k)` return the same value. -/
theorem C18_combinations_symmetric (n k : Nat) (hk : k ≤ n) :
    combinations (n : Int) (k : Int) = combinations (n : Int) ((n : Int) - (k : Int)) ∧
    ∃ v, combinations (n : Int) (k : Int) = some v := by
  have hsub : (n : Int) - (k : Int) = ((n - k : Nat) : Int) := by omega
  refine ⟨?_, _, combinations_eq_choose n k⟩
  rw [hsub, combinations_eq_choose, combinations_eq_choose, Nat.choose_symm hk]

theorem C18_combinations_symmetric_witness :
    combinations ((5 : Nat) : Int) ((2 : Nat) : Int)
        = combinations ((5 : Nat) : Int) (((5 : Nat) : Int) - ((2 : Nat) : Int)) ∧
    ∃ v, combinations ((5 : Nat) : Int) ((2 : Nat) : Int) = some v :=
  C18_combinations_symmetric 5 2 (by decide)

/-! ## Row operations of `RREF`: shape and entries -/

theorem getD_set_eq {α : Type} (l : List α) (i r : Nat) (x d : α) :
    (l.set i x).getD r d = if r = i ∧ i < l.length then x else l.getD r d := by
  simp only [List.getD_eq_getElem?_getD, List.getElem?_set]
  by_cases hri : i = r
  · subst hri
    by_cases hlt : i < l.length
    · simp [hlt]
    · simp [hlt, List.getElem?_eq_none (Nat.le_of_not_lt hlt)]
  · have : ¬ r = i := fun h => hri h.symm
    simp [hri, this]

theorem getD_row_length {m : Matrix} (hm : WellShaped m) {r : Nat} (hr : r < m.rows) :
    (m.u.getD r []).length = m.columns := by
  have hlt : r < m.u.length := by rw [hm.1]; exact hr
  rw [List.getD_eq_getElem _ _ hlt]
  exact hm.2 _ (List.getElem_mem hlt)

theorem wellShaped_set {m : Matrix} (hm : WellShaped m) (i : Nat) (row : List ℚ)
    (hrow : row.length = m.columns) :
    WellShaped { m with u := (m.u.set i row) } := by
  refine ⟨by simp [hm.1], ?_⟩
  intro x hx
  rcases List.mem_or_eq_of_mem_set hx with h | h
  · exact hm.2 x h
  · rw [h]; exact hrow

theorem axpyRow_length (s : ℚ) : ∀ (k : Nat) (row src : List ℚ),
    (Matrix.axpyRow s k row src).length = row.length := by
  intro k row
  induction row generalizing k with
  | nil => intro src; cases k <;> rfl
  | cons x xs ih =>
    intro src
    cases k with
    | zero => simp [Matrix.axpyRow, ih]
    | succ k => simp [Matrix.axpyRow, ih]

theorem scalRow_length (s : ℚ) : ∀ (k : Nat) (row : List ℚ),
    (Matrix.scalRow s k row).length = row.length := by
  intro k row
  induction row generalizing k with
  | nil => cases k <;> rfl
  | cons x xs ih =>
    cases k with
    | zero => simp [Matrix.scalRow, ih]
    | succ k => simp [Matrix.scalRow, ih]

theorem axpyRow_getD (s : ℚ) : ∀ (row src : List ℚ) (k c : Nat), c < row.length →
    (Matrix.axpyRow s k row src).getD c 0
      = if k ≤ c then row.getD c 0 + s * src.getD c 0 else row.getD c 0 := by
  intro row
  induction row with
  | nil => intro src k c hc; simp at hc
  | cons x xs ih =>
    intro src k c hc
    cases k with
    | zero =>
      cases c with
      | zero =>
        cases src <;> simp [Matrix.axpyRow]
      | succ c =>
        have := ih src.tail 0 c (by simpa using hc)
        cases src with
        | nil => simpa [Matrix.axpyRow] using this
        | cons y ys => simpa [Matrix.axpyRow] using this
    | succ k =>
      cases c with
      | zero => simp [Matrix.axpyRow]
      | succ c =>
        have := ih src.tail k c (by simpa using hc)
        cases src with
        | nil => simpa [Matrix.axpyRow] using this
        | cons y ys => simpa [Matrix.axpyRow] using this

theorem scalRow_getD (s : ℚ) : ∀ (row : List ℚ) (k c : Nat), c < row.length →
    (Matrix.scalRow s k row).getD c 0
      = if k ≤ c then row.getD c 0 * s else row.getD c 0 := by
  intro row
  induction row with
  | nil => intro k c hc; simp at hc
  | cons x xs ih =>
    intro k c hc
    cases k with
    | zero =>
      cases c with
      | zero => simp [Matrix.scalRow]
      | succ c =>
        have := ih 0 c (by simpa using hc)
        simpa [Matrix.scalRow] using this
    | succ k =>
      cases c with
      | zero => simp [Matrix.scalRow]
      | succ c =>
        have := ih k c (by simpa using hc)
        simpa [Matrix.scalRow] using this

theorem scalRow_one : ∀ (k : Nat) (row : List ℚ), Matrix.scalRow 1 k row = row := by
  intro k row
  induction row generalizing k with
  | nil => cases k <;> rfl
  | cons x xs ih =>
    cases k with
    | zero => simp [Matrix.scalRow, ih]
    | succ k => simp [Matrix.scalRow, ih]

theorem wellShaped_swapRows {m : Matrix} (hm : WellShaped m) {a b : Nat}
    (ha : a < m.rows) (hb : b < m.rows) : WellShaped (m.swapRows a b) := by
  unfold Matrix.swapRows
  have h1 : WellShaped { m with u := (m.u.set a (m.u.getD b [])) } :=
    wellShaped_set hm a _ (getD_row_length hm hb)
  exact wellShaped_set h1 b _ (getD_row_length hm ha)

theorem entry_swapRows {m : Matrix} (hm : WellShaped m) {a b : Nat}
    (ha : a < m.rows) (hb : b < m.rows) (r c : Nat) :
    (m.swapRows a b).entry r c
      = if r = b then m.entry a c else if r = a then m.entry b c else m.entry r c := by
  unfold Matrix.swapRows Matrix.entry
  simp only
  rw [getD_set_eq, getD_set_eq]
  have hal : a < m.u.length := by rw [hm.1]; exact ha
  have hbl : b < (m.u.set a (m.u.getD b [])).length := by simp [hm.1]; exact hb
  by_cases hrb : r = b
  · rw [if_pos ⟨hrb, hbl⟩, if_pos hrb]
  · rw [if_neg (fun h => hrb h.1), if_neg hrb]
    by_cases hra : r = a
    · rw [if_pos ⟨hra, hal⟩, if_pos hra]
    · rw [if_neg (fun h => hra h.1), if_neg hra]

theorem wellShaped_daxpy {m : Matrix} (hm : WellShaped m) (s : ℚ) {ch : Nat}
    (hch : ch < m.rows) (src k : Nat) : WellShaped (m.daxpy s ch src k) := by
  unfold Matrix.daxpy
  exact wellShaped_set hm ch _ (by rw [axpyRow_length]; exact getD_row_length hm hch)

theorem entry_daxpy {m : Matrix} (hm : WellShaped m) (s : ℚ) {ch : Nat}
    (hch : ch < m.rows) (src k r c : Nat) (hc : c < m.columns) :
    (m.daxpy s ch src k).entry r c
      = if r = ch ∧ k ≤ c then m.entry ch c + s * m.entry src c else m.entry r c := by
  unfold Matrix.daxpy Matrix.entry
  simp only
  rw [getD_set_eq]
  have hl : ch < m.u.length := by rw [hm.1]; exact hch
  by_cases hr : r = ch
  · subst hr
    rw [if_pos ⟨rfl, hl⟩, axpyRow_getD _ _ _ _ _ (by rw [getD_row_length hm hch]; exact hc)]
    by_cases hk : k ≤ c
    · simp [hk]
    · simp [hk]
  · simp [hr]

theorem wellShaped_dscal {m : Matrix} (hm : WellShaped m) (s : ℚ) {w : Nat}
    (hw : w < m.rows) (k : Nat) : WellShaped (m.dscal s w k) := by
  unfold Matrix.dscal
  exact wellShaped_set hm w _ (by rw [scalRow_length]; exact getD_row_length hm hw)

theorem entry_dscal {m : Matrix} (hm : WellShaped m) (s : ℚ) {w : Nat}
    (hw : w < m.rows) (k r c : Nat) (hc : c < m.columns) :
    (m.dscal s w k).entry r c
      = if r = w ∧ k ≤ c then m.entry w c * s else m.entry r c := by
  unfold Matrix.dscal Matrix.entry
  simp only
  rw [getD_set_eq]
  have hl : w < m.u.length := by rw [hm.1]; exact hw
  by_cases hr : r = w
  · subst hr
    rw [if_pos ⟨rfl, hl⟩, scalRow_getD _ _ _ _ (by rw [getD_row_length hm hw]; exact hc)]
    by_cases hk : k ≤ c
    · simp [hk]
    · simp [hk]
  · simp [hr]

theorem dscal_one {m : Matrix} (hm : WellShaped m) {w : Nat} (hw : w < m.rows) (k : Nat) :
    m.dscal 1 w k = m := by
  unfold Matrix.dscal
  rw [scalRow_one]
  have hl : w < m.u.length := by rw [hm.1]; exact hw
  have : m.u.set w (m.u.getD w []) = m.u := by
    apply set_eq_self_of_getElem?
    rw [List.getD_eq_getElem _ _ hl]
    exact List.getElem?_eq_getElem hl
  rw [this]

/-- One elimination loop of `RREF`, entry by entry: a row of `which` whose entry in
the pivot column is above `1e-9` gets the multiple of the pivot row added from the
pivot column on; nothing else changes. -/
theorem eliminate_spec (o p : Nat) :
    ∀ (which : List Nat) (m : Matrix), WellShaped m → p < m.columns → which.Nodup →
      o ∉ which → (∀ l ∈ which, l < m.rows) →
      WellShaped (m.eliminate o p which) ∧
      ∀ l c, c < m.columns →
        (m.eliminate o p which).entry l c
          = if l ∈ which ∧ fabs (m.entry l p) > tol ∧ p ≤ c then
              m.entry l c + (-(m.entry l p) / m.entry o p) * m.entry o c
            else m.entry l c := by
  intro which
  induction which with
  | nil =>
    intro m hm _ _ _ _
    refine ⟨hm, ?_⟩
    intro l c _
    simp [Matrix.eliminate]
  | cons x xs ih =>
    intro m hm hp hnd ho hlt
    have hx : x < m.rows := hlt x (List.mem_cons_self _ _)
    have hxo : x ≠ o := fun h => ho (h ▸ List.mem_cons_self _ _)
    have hxs : x ∉ xs := (List.nodup_cons.mp hnd).1
    have hstep : ∃ m1 : Matrix, m.eliminate o p (x :: xs) = m1.eliminate o p xs ∧
        WellShaped m1 ∧ m1.rows = m.rows ∧ m1.columns = m.columns ∧
        ∀ l c, c < m.columns →
          m1.entry l c = if l = x ∧ fabs (m.entry x p) > tol ∧ p ≤ c then
              m.entry x c + (-(m.entry x p) / m.entry o p) * m.entry o c
            else m.entry l c := by
      by_cases hbig : fabs (m.entry x p) > tol
      · refine ⟨m.daxpy (-(m.entry x p) / m.entry o p) x o p, ?_,
          wellShaped_daxpy hm _ hx _ _, rfl, rfl, ?_⟩
        · simp only [Matrix.eliminate, List.foldl_cons, if_pos hbig]
        · intro l c hc
          rw [entry_daxpy hm _ hx _ _ _ _ hc]
          by_cases hl : l = x
          · subst hl
            by_cases hpc : p ≤ c
            · rw [if_pos ⟨rfl, hpc⟩, if_pos ⟨rfl, hbig, hpc⟩]
            · rw [if_neg (fun h => hpc h.2), if_neg (fun h => hpc h.2.2)]
          · rw [if_neg (fun h => hl h.1), if_neg (fun h => hl h.1)]
      · refine ⟨m, ?_, hm, rfl, rfl, ?_⟩
        · simp only [Matrix.eliminate, List.foldl_cons, if_neg hbig]
        · intro l c _
          rw [if_neg (fun h => hbig h.2.1)]
    obtain ⟨m1, heq, hm1, hr1, hc1, he1⟩ := hstep
    obtain ⟨hw, he⟩ := ih m1 hm1 (by rw [hc1]; exact hp) (List.nodup_cons.mp hnd).2
      (fun h => ho (List.mem_cons_of_mem _ h))
      (fun l hl => by rw [hr1]; exact hlt l (List.mem_cons_of_mem _ hl))
    rw [heq]
    refine ⟨hw, ?_⟩
    intro l c hc
    rw [he l c (by rw [hc1]; exact hc)]
    have hop : m1.entry o p = m.entry o p := by
      rw [he1 o p hp, if_neg (fun h => hxo h.1.symm)]
    have hoc : m1.entry o c = m.entry o c := by
      rw [he1 o c hc, if_neg (fun h => hxo h.1.symm)]
    by_cases hl : l = x
    · subst hl
      rw [if_neg (fun h => hxs h.1), he1 l c hc]
      by_cases hcond : fabs (m.entry l p) > tol ∧ p ≤ c
      · rw [if_pos ⟨rfl, hcond⟩, if_pos ⟨List.mem_cons_self _ _, hcond⟩]
      · rw [if_neg (fun h => hcond h.2), if_neg (fun h => hcond h.2)]
    · have hlp : m1.entry l p = m.entry l p := by
        rw [he1 l p hp, if_neg (fun h => hl h.1)]
      have hlc : m1.entry l c = m.entry l c := by
        rw [he1 l c hc, if_neg (fun h => hl h.1)]
      rw [hlp, hlc, hop, hoc]
      by_cases hmem : l ∈ xs
      · by_cases hcond : fabs (m.entry l p) > tol ∧ p ≤ c
        · rw [if_pos ⟨hmem, hcond⟩, if_pos ⟨List.mem_cons_of_mem _ hmem, hcond⟩]
        · rw [if_neg (fun h => hcond h.2), if_neg (fun h => hcond h.2)]
      · have hmem2 : l ∉ x :: xs := by
          intro h
          rcases List.mem_cons.mp h with h | h
          · exact hl h
          · exact hmem h
        rw [if_neg (fun h => hmem h.1), if_neg (fun h => hmem2 h.1)]

/-- An elimination loop over rows whose entries in the pivot column are all at most
`1e-9` leaves the matrix as it is. -/
theorem eliminate_id (o p : Nat) :
    ∀ (which : List Nat) (m : Matrix),
      (∀ l ∈ which, fabs (m.entry l p) ≤ tol) → m.eliminate o p which = m := by
  intro which
  induction which with
  | nil => intro m _; rfl
  | cons x xs ih =>
    intro m h
    have hx : ¬ fabs (m.entry x p) > tol := not_lt.mpr (h x (List.mem_cons_self _ _))
    have : m.eliminate o p (x :: xs) = m.eliminate o p xs := by
      simp only [Matrix.eliminate, List.foldl_cons, if_neg hx]
    rw [this]
    exact ih m (fun l hl => h l (List.mem_cons_of_mem _ hl))

/-! ## The pivot search of `RREF` -/

/-- The pivot search with enough iterations left: it stops at the first entry above
`1e-9` in the order of the search, or at `(outerLupe, columns)` when there is none. -/
theorem findPivot_spec (m : Matrix) (o c0 : Nat) (ho : o < m.rows) :
    ∀ (fuel i c : Nat), o ≤ i → i < m.rows → c0 ≤ c → c ≤ m.columns →
      (c = m.columns → i = o) → Scanned m o c0 i c →
      (m.columns - c) * (m.rows - o) + o < fuel + i →
      Scanned m o c0 (m.findPivot o fuel i c).1 (m.findPivot o fuel i c).2 ∧
      o ≤ (m.findPivot o fuel i c).1 ∧ (m.findPivot o fuel i c).1 < m.rows ∧
      c0 ≤ (m.findPivot o fuel i c).2 ∧ (m.findPivot o fuel i c).2 ≤ m.columns ∧
      ((m.findPivot o fuel i c).2 < m.columns →
        fabs (m.entry (m.findPivot o fuel i c).1 (m.findPivot o fuel i c).2) > tol) ∧
      ((m.findPivot o fuel i c).2 = m.columns → (m.findPivot o fuel i c).1 = o) := by
  intro fuel
  induction fuel with
  | zero =>
    intro i c hoi hi hc0 hc hend hsc hfuel
    exfalso
    by_cases hcc : c = m.columns
    · have := hend hcc
      subst hcc
      simp at hfuel
      omega
    · have hlt : c < m.columns := lt_of_le_of_ne hc hcc
      have h1 : m.rows - o ≤ (m.columns - c) * (m.rows - o) :=
        Nat.le_mul_of_pos_left _ (by omega)
      omega
  | succ f ih =>
    intro i c hoi hi hc0 hc hend hsc hfuel
    unfold Matrix.findPivot
    by_cases hcc : c < m.columns
    · rw [if_pos hcc]
      by_cases hbig : fabs (m.entry i c) > tol
      · rw [if_pos hbig]
        exact ⟨hsc, hoi, hi, hc0, hc, fun _ => hbig, fun h => absurd h (Nat.ne_of_lt hcc)⟩
      · rw [if_neg hbig]
        have hsmall : fabs (m.entry i c) ≤ tol := not_lt.mp hbig
        by_cases hlast : i + 1 ≥ m.rows
        · rw [if_pos hlast]
          have hmul : (m.columns - c) * (m.rows - o)
              = (m.columns - (c + 1)) * (m.rows - o) + (m.rows - o) := by
            have : m.columns - c = (m.columns - (c + 1)) + 1 := by omega
            rw [this, Nat.succ_mul]
          apply ih o (c + 1) (Nat.le_refl _) ho (by omega) (by omega) (fun _ => rfl)
          · refine ⟨?_, fun l h1 h2 => absurd h2 (by omega)⟩
            intro j hj1 hj2 l hl1 hl2
            by_cases hjc : j = c
            · subst hjc
              by_cases hli : l = i
              · subst hli; exact hsmall
              · exact hsc.2 l hl1 (by omega)
            · exact hsc.1 j hj1 (by omega) l hl1 hl2
          · omega
        · rw [if_neg hlast]
          apply ih (i + 1) c (by omega) (by omega) hc0 hc
            (fun h => absurd h (Nat.ne_of_lt hcc))
          · refine ⟨hsc.1, ?_⟩
            intro l hl1 hl2
            by_cases hli : l = i
            · subst hli; exact hsmall
            · exact hsc.2 l hl1 (by omega)
          · omega
    · rw [if_neg hcc]
      have hceq : c = m.columns := by omega
      exact ⟨hsc, hoi, hi, hc0, hc, fun h => absurd h hcc, fun _ => hend hceq⟩

/-- The pivot search as `RREF` starts it, at `(outerLupe, currentPivotColumn)` with
`rows * columns + 1` iterations allowed. -/
theorem findPivot_start (m : Matrix) (o c0 : Nat) (ho : o < m.rows) (hc0 : c0 ≤ m.columns) :
    Scanned m o c0 (m.findPivot o (m.rows * m.columns + 1) o c0).1
        (m.findPivot o (m.rows * m.columns + 1) o c0).2 ∧
      o ≤ (m.findPivot o (m.rows * m.columns + 1) o c0).1 ∧
      (m.findPivot o (m.rows * m.columns + 1) o c0).1 < m.rows ∧
      c0 ≤ (m.findPivot o (m.rows * m.columns + 1) o c0).2 ∧
      (m.findPivot o (m.rows * m.columns + 1) o c0).2 ≤ m.columns ∧
      ((m.findPivot o (m.rows * m.columns + 1) o c0).2 < m.columns →
        fabs (m.entry (m.findPivot o (m.rows * m.columns + 1) o c0).1
          (m.findPivot o (m.rows * m.columns + 1) o c0).2) > tol) ∧
      ((m.findPivot o (m.rows * m.columns + 1) o c0).2 = m.columns →
        (m.findPivot o (m.rows * m.columns + 1) o c0).1 = o) := by
  apply findPivot_spec m o c0 ho (m.rows * m.columns + 1) o c0 (Nat.le_refl _) ho
    (Nat.le_refl _) hc0 (fun _ => rfl)
  · exact ⟨fun j h1 h2 => absurd h2 (by omega), fun l h1 h2 => absurd h2 (by omega)⟩
  · have h1 : (m.columns - c0) * (m.rows - o) ≤ m.columns * m.rows :=
      Nat.mul_le_mul (Nat.sub_le _ _) (Nat.sub_le _ _)
    have h2 : m.columns * m.rows = m.rows * m.columns := Nat.mul_comm _ _
    omega

theorem tol_pos : (0 : ℚ) < tol := by
  unfold tol; norm_num

theorem fabs_zero_le : fabs 0 ≤ tol := by
  unfold fabs; simp [le_of_lt tol_pos]

theorem fabs_one_gt : fabs 1 > tol := by
  unfold fabs tol; norm_num

theorem ne_zero_of_big {x : ℚ} (h : fabs x > tol) : x ≠ 0 := by
  intro hx
  rw [hx] at h
  exact absurd fabs_zero_le (not_le.mpr h)

/-- When the entries the search meets before `(o, p)` are at most `1e-9` and the
entry at `(o, p)` is above, the search stops at `(o, p)`. -/
theorem findPivot_found_eq (m : Matrix) (o s p : Nat) (ho : o < m.rows) (hsp : s ≤ p)
    (hp : p < m.columns)
    (hgap : ∀ j, s ≤ j → j < p → ∀ l, o ≤ l → l < m.rows → fabs (m.entry l j) ≤ tol)
    (hbig : fabs (m.entry o p) > tol) :
    m.findPivot o (m.rows * m.columns + 1) o s = (o, p) := by
  obtain ⟨hsc, h1, h2, h3, h4, h5, h6⟩ := findPivot_start m o s ho (by omega)
  have hcol : (m.findPivot o (m.rows * m.columns + 1) o s).2 = p := by
    by_contra hne
    rcases Nat.lt_or_gt_of_ne hne with hlt | hgt
    · have hb := h5 (by omega)
      exact absurd (hgap _ h3 hlt _ h1 h2) (not_le.mpr hb)
    · exact absurd (hsc.1 p hsp hgt o (Nat.le_refl _) ho) (not_le.mpr hbig)
  have hrow : (m.findPivot o (m.rows * m.columns + 1) o s).1 = o := by
    by_contra hne
    have hgt : o < (m.findPivot o (m.rows * m.columns + 1) o s).1 := by omega
    have := hsc.2 o (Nat.le_refl _) hgt
    rw [hcol] at this
    exact absurd this (not_le.mpr hbig)
  exact Prod.ext hrow hcol

/-- When every entry the search can meet is at most `1e-9`, the search ends at
`(o, columns)`. -/
theorem findPivot_none_eq (m : Matrix) (o s : Nat) (ho : o < m.rows) (hs : s ≤ m.columns)
    (hgap : ∀ j, s ≤ j → j < m.columns → ∀ l, o ≤ l → l < m.rows →
      fabs (m.entry l j) ≤ tol) :
    m.findPivot o (m.rows * m.columns + 1) o s = (o, m.columns) := by
  obtain ⟨_, h1, h2, h3, h4, h5, h6⟩ := findPivot_start m o s ho hs
  have hcol : (m.findPivot o (m.rows * m.columns + 1) o s).2 = m.columns := by
    by_contra hne
    have hlt : (m.findPivot o (m.rows * m.columns + 1) o s).2 < m.columns := by omega
    exact absurd (hgap _ h3 hlt _ h1 h2) (not_le.mpr (h5 hlt))
  exact Prod.ext (h6 hcol) hcol

/-! ## One iteration of the outer loop of `RREF` -/

theorem reduceAt_eq (m : Matrix) (o i p : Nat) (hp : p < m.columns) :
    m.reduceAt o i p =
      (((if i ≠ o then m.swapRows i o else m).eliminate o p (List.range o)).eliminate o p
          (List.range' (o + 1) (m.rows - (o + 1)))).dscal
        (1 / (((if i ≠ o then m.swapRows i o else m).eliminate o p
          (List.range o)).eliminate o p
            (List.range' (o + 1) (m.rows - (o + 1)))).entry o p) o p := by
  unfold Matrix.reduceAt
  rw [if_pos hp]

theorem swap_or_keep_spec (m : Matrix) (hm : WellShaped m) (o i : Nat) (ho : o < m.rows)
    (hi : i < m.rows) :
    WellShaped (if i ≠ o then m.swapRows i o else m) ∧
    (if i ≠ o then m.swapRows i o else m).rows = m.rows ∧
    (if i ≠ o then m.swapRows i o else m).columns = m.columns ∧
    ∀ l c, (if i ≠ o then m.swapRows i o else m).entry l c
      = if l = o then m.entry i c else if l = i then m.entry o c else m.entry l c := by
  by_cases hio : i ≠ o
  · rw [if_pos hio]
    exact ⟨wellShaped_swapRows hm hi ho, rfl, rfl, fun l c => entry_swapRows hm hi ho l c⟩
  · rw [if_neg hio]
    have hio' : i = o := not_not.mp hio
    refine ⟨hm, rfl, rfl, ?_⟩
    intro l c
    by_cases hl : l = o
    · rw [if_pos hl, hl, hio']
    · rw [if_neg hl, if_neg (by rw [hio']; exact hl)]

theorem cancel_pivot (x v : ℚ) (hv : v ≠ 0) : x + -x / v * v = 0 := by
  field_simp

/-- One iteration of the outer loop of `RREF` with the pivot found at `(i, p)`: the
shape is kept; left of column `p` only the rows `o` and `i` are exchanged; the
entry at `(o, p)` becomes `1`; every other entry of column `p` ends at most `1e-9`
in absolute value. -/
theorem reduceAt_spec (m : Matrix) (hm : WellShaped m) (o i p : Nat) (ho : o < m.rows)
    (hi : i < m.rows) (hp : p < m.columns) (hbig : fabs (m.entry i p) > tol) :
    WellShaped (m.reduceAt o i p) ∧
    (∀ l c, c < p → (m.reduceAt o i p).entry l c
        = if l = o then m.entry i c else if l = i then m.entry o c else m.entry l c) ∧
    (m.reduceAt o i p).entry o p = 1 ∧
    (∀ l, l < m.rows → l ≠ o → fabs ((m.reduceAt o i p).entry l p) ≤ tol) := by
  rw [reduceAt_eq m o i p hp]
  obtain ⟨hw1, hr1, hc1, he1⟩ := swap_or_keep_spec m hm o i ho hi
  generalize (if i ≠ o then m.swapRows i o else m) = m1 at hw1 hr1 hc1 he1 ⊢
  have hv1 : m1.entry o p = m.entry i p := by rw [he1, if_pos rfl]
  obtain ⟨hw2, he2⟩ := eliminate_spec o p (List.range o) m1 hw1 (by rw [hc1]; exact hp)
    (List.nodup_range o) (by simp)
    (fun l hl => by rw [hr1]; exact lt_trans (List.mem_range.mp hl) ho)
  have hr2 := (eliminate_dims m1 o p (List.range o)).1
  have hc2 := (eliminate_dims m1 o p (List.range o)).2
  generalize m1.eliminate o p (List.range o) = m2 at hw2 he2 hr2 hc2 ⊢
  have hc2' : m2.columns = m.columns := by rw [hc2, hc1]
  have hr2' : m2.rows = m.rows := by rw [hr2, hr1]
  obtain ⟨hw3, he3⟩ := eliminate_spec o p (List.range' (o + 1) (m.rows - (o + 1))) m2 hw2
    (by rw [hc2']; exact hp) (List.nodup_range' _ _)
    (by simp)
    (fun l hl => by
      rw [hr2']
      have := List.mem_range'_1.mp hl
      omega)
  have hr3 := (eliminate_dims m2 o p (List.range' (o + 1) (m.rows - (o + 1)))).1
  have hc3 := (eliminate_dims m2 o p (List.range' (o + 1) (m.rows - (o + 1)))).2
  generalize m2.eliminate o p (List.range' (o + 1) (m.rows - (o + 1))) = m3
    at hw3 he3 hr3 hc3 ⊢
  have hc3' : m3.columns = m.columns := by rw [hc3, hc2']
  have hr3' : m3.rows = m.rows := by rw [hr3, hr2']
  have ho3 : o < m3.rows := by rw [hr3']; exact ho
  have hv2 : m2.entry o p = m.entry i p := by
    rw [he2 o p (by rw [hc1]; exact hp), if_neg (by simp), hv1]
  have hv3 : m3.entry o p = m.entry i p := by
    rw [he3 o p (by rw [hc2']; exact hp), if_neg (by simp), hv2]
  have hvne : m.entry i p ≠ 0 := ne_zero_of_big hbig
  refine ⟨wellShaped_dscal hw3 _ ho3 _, ?_, ?_, ?_⟩
  · intro l c hcp
    have hcm : c < m.columns := lt_trans hcp hp
    rw [entry_dscal hw3 _ ho3 _ _ _ (by rw [hc3']; exact hcm),
      if_neg (fun h => absurd hcp (not_lt.mpr h.2)),
      he3 l c (by rw [hc2']; exact hcm), if_neg (fun h => absurd hcp (not_lt.mpr h.2.2)),
      he2 l c (by rw [hc1]; exact hcm), if_neg (fun h => absurd hcp (not_lt.mpr h.2.2)),
      he1]
  · rw [entry_dscal hw3 _ ho3 _ _ _ (by rw [hc3']; exact hp), if_pos ⟨rfl, Nat.le_refl _⟩,
      hv3]
    field_simp
  · intro l hl hlo
    rw [entry_dscal hw3 _ ho3 _ _ _ (by rw [hc3']; exact hp), if_neg (fun h => hlo h.1),
      he3 l p (by rw [hc2']; exact hp)]
    have h2lp : m2.entry l p = if l ∈ List.range o ∧ fabs (m1.entry l p) > tol then 0
        else m1.entry l p := by
      rw [he2 l p (by rw [hc1]; exact hp)]
      by_cases hcond : l ∈ List.range o ∧ fabs (m1.entry l p) > tol
      · rw [if_pos ⟨hcond.1, hcond.2, Nat.le_refl _⟩, if_pos hcond, hv1]
        exact cancel_pivot _ _ hvne
      · rw [if_neg (fun h => hcond ⟨h.1, h.2.1⟩), if_neg hcond]
    by_cases hlow : l < o
    · have hnot : l ∉ List.range' (o + 1) (m.rows - (o + 1)) := by
        intro h
        have := List.mem_range'_1.mp h
        omega
      rw [if_neg (fun h => hnot h.1), h2lp]
      by_cases hb1 : fabs (m1.entry l p) > tol
      · rw [if_pos ⟨List.mem_range.mpr hlow, hb1⟩]; exact fabs_zero_le
      · rw [if_neg (fun h => hb1 h.2)]; exact not_lt.mp hb1
    · have hmem : l ∈ List.range' (o + 1) (m.rows - (o + 1)) := by
        apply List.mem_range'_1.mpr
        omega
      by_cases hb2 : fabs (m2.entry l p) > tol
      · rw [if_pos ⟨hmem, hb2, Nat.le_refl _⟩, hv2]
        rw [cancel_pivot _ _ hvne]
        exact fabs_zero_le
      · rw [if_neg (fun h => hb2 h.2.1)]
        exact not_lt.mp hb2

/-! ## The staircase kept by the outer loop of `RREF` -/

theorem gaps_transfer {m m' : Matrix} (hr : m'.rows = m.rows)
    (hc : m'.columns = m.columns) (o c : Nat)
    (hlow : ∀ l j, l < o → j < c → m'.entry l j = m.entry l j)
    (hhigh : ∀ l j, o ≤ l → l < m.rows → j < c →
      ∃ l', o ≤ l' ∧ l' < m.rows ∧ m'.entry l j = m.entry l' j) :
    ∀ (P : List Nat) (i s : Nat), i + P.length ≤ o → Gaps m i s P c → Gaps m' i s P c := by
  have small : ∀ (i j : Nat), i ≤ o → j < c →
      (∀ l, i ≤ l → l < m.rows → fabs (m.entry l j) ≤ tol) →
      ∀ l, i ≤ l → l < m'.rows → fabs (m'.entry l j) ≤ tol := by
    intro i j hio hj h l hil hl
    rw [hr] at hl
    by_cases hlo : l < o
    · rw [hlow l j hlo hj]; exact h l hil hl
    · obtain ⟨l', h1, h2, h3⟩ := hhigh l j (not_lt.mp hlo) hl hj
      rw [h3]; exact h l' (le_trans hio h1) h2
  intro P
  induction P with
  | nil =>
    intro i s hio hg
    simp only [Gaps] at hg ⊢
    intro j hsj hjc l hil hl
    exact small i j (by simpa using hio) hjc (fun l h1 h2 => hg j hsj hjc l h1 h2) l hil hl
  | cons p ps ih =>
    intro i s hio hg
    simp only [Gaps] at hg ⊢
    simp only [List.length_cons] at hio
    obtain ⟨h1, h2, h3, h4, h5, h6, h7, h8⟩ := hg
    refine ⟨h1, h2, by rw [hc]; exact h3, ?_, by rw [hr]; exact h5, ?_, ?_, ?_⟩
    · intro j hsj hjp l hil hl
      exact small i j (by omega) (lt_trans hjp h2) (fun l a b => h4 j hsj hjp l a b) l hil hl
    · rw [hlow i p (by omega) h2]; exact h6
    · intro l hl hli
      rw [hr] at hl
      by_cases hlo : l < o
      · rw [hlow l p hlo h2]; exact h7 l hl hli
      · obtain ⟨l', a, b, e⟩ := hhigh l p (not_lt.mp hlo) hl h2
        rw [e]; exact h7 l' b (by omega)
    · exact ih (i + 1) (p + 1) (by omega) h8

theorem gaps_snoc (m : Matrix) (pnew : Nat) (hpn : pnew < m.columns) :
    ∀ (P : List Nat) (i s c o : Nat), i + P.length = o → s ≤ c → c ≤ pnew →
      (∀ j, c ≤ j → j < pnew → ∀ l, o ≤ l → l < m.rows → fabs (m.entry l j) ≤ tol) →
      o < m.rows → m.entry o pnew = 1 →
      (∀ l, l < m.rows → l ≠ o → fabs (m.entry l pnew) ≤ tol) →
      Gaps m i s P c → Gaps m i s (P ++ [pnew]) (pnew + 1) := by
  intro P
  induction P with
  | nil =>
    intro i s c o hio hsc hcp hgap ho hone hoth hg
    simp only [List.length_nil, Nat.add_zero] at hio
    subst hio
    simp only [Gaps, List.nil_append] at hg ⊢
    refine ⟨le_trans hsc hcp, Nat.lt_succ_self _, hpn, ?_, ho, hone, hoth, ?_⟩
    · intro j hsj hjp l hil hl
      by_cases hjc : j < c
      · exact hg j hsj hjc l hil hl
      · exact hgap j (not_lt.mp hjc) hjp l hil hl
    · intro j h1 h2
      omega
  | cons p ps ih =>
    intro i s c o hio hsc hcp hgap ho hone hoth hg
    simp only [List.length_cons] at hio
    simp only [Gaps, List.cons_append] at hg ⊢
    obtain ⟨h1, h2, h3, h4, h5, h6, h7, h8⟩ := hg
    exact ⟨h1, by omega, h3, h4, h5, h6, h7,
      ih (i + 1) (p + 1) c o (by omega) (by omega) hcp hgap ho hone hoth h8⟩

theorem gaps_extend (m : Matrix) (c c' : Nat) (hcc : c ≤ c') :
    ∀ (P : List Nat) (i s o : Nat), i + P.length = o →
      (∀ j, c ≤ j → j < c' → ∀ l, o ≤ l → l < m.rows → fabs (m.entry l j) ≤ tol) →
      Gaps m i s P c → Gaps m i s P c' := by
  intro P
  induction P with
  | nil =>
    intro i s o hio hgap hg
    simp only [List.length_nil, Nat.add_zero] at hio
    subst hio
    simp only [Gaps] at hg ⊢
    intro j hsj hjc l hil hl
    by_cases h : j < c
    · exact hg j hsj h l hil hl
    · exact hgap j (not_lt.mp h) hjc l hil hl
  | cons p ps ih =>
    intro i s o hio hgap hg
    simp only [List.length_cons] at hio
    simp only [Gaps] at hg ⊢
    obtain ⟨h1, h2, h3, h4, h5, h6, h7, h8⟩ := hg
    exact ⟨h1, lt_of_lt_of_le h2 hcc, h3, h4, h5, h6, h7,
      ih (i + 1) (p + 1) o (by omega) hgap h8⟩

theorem gaps_sorted (m : Matrix) (c : Nat) :
    ∀ (P : List Nat) (i s : Nat), Gaps m i s P c →
      P.Sorted (· < ·) ∧ ∀ p ∈ P, s ≤ p ∧ p < m.columns := by
  intro P
  induction P with
  | nil => intro i s _; exact ⟨List.sorted_nil, fun p hp => absurd hp (List.not_mem_nil p)⟩
  | cons p ps ih =>
    intro i s hg
    simp only [Gaps] at hg
    obtain ⟨h1, h2, h3, h4, h5, h6, h7, h8⟩ := hg
    obtain ⟨hs, hb⟩ := ih (i + 1) (p + 1) h8
    refine ⟨List.sorted_cons.mpr ⟨fun q hq => (hb q hq).1, hs⟩, ?_⟩
    intro q hq
    rcases List.mem_cons.mp hq with h | h
    · rw [h]; exact ⟨h1, h3⟩
    · exact ⟨le_trans h1 (le_trans (Nat.le_succ p) (hb q h).1), (hb q h).2⟩

theorem gaps_length (m : Matrix) (c : Nat) :
    ∀ (P : List Nat) (i s : Nat), i ≤ m.rows → Gaps m i s P c → i + P.length ≤ m.rows := by
  intro P
  induction P with
  | nil => intro i s hi _; simpa using hi
  | cons p ps ih =>
    intro i s hi hg
    simp only [Gaps] at hg
    obtain ⟨h1, h2, h3, h4, h5, h6, h7, h8⟩ := hg
    have := ih (i + 1) (p + 1) h5 h8
    simp only [List.length_cons]
    omega

theorem gaps_pivot (m : Matrix) (c : Nat) :
    ∀ (P : List Nat) (i s : Nat), Gaps m i s P c →
      (∀ j, j < s → ∀ l, i ≤ l → l < m.rows → fabs (m.entry l j) ≤ tol) →
      ∀ k, k < P.length →
        m.entry (i + k) (P.getD k 0) = 1 ∧
        (∀ l, l < m.rows → l ≠ i + k → fabs (m.entry l (P.getD k 0)) ≤ tol) ∧
        ∀ j, j < P.getD k 0 → fabs (m.entry (i + k) j) ≤ tol := by
  intro P
  induction P with
  | nil => intro i s _ _ k hk; simp at hk
  | cons p ps ih =>
    intro i s hg hleft k hk
    simp only [Gaps] at hg
    obtain ⟨h1, h2, h3, h4, h5, h6, h7, h8⟩ := hg
    cases k with
    | zero =>
      simp only [List.getD_cons_zero, Nat.add_zero]
      refine ⟨h6, h7, ?_⟩
      intro j hj
      by_cases hjs : j < s
      · exact hleft j hjs i (Nat.le_refl _) h5
      · exact h4 j (not_lt.mp hjs) hj i (Nat.le_refl _) h5
    | succ k =>
      simp only [List.length_cons] at hk
      simp only [List.getD_cons_succ]
      have hidx : i + (k + 1) = i + 1 + k := by omega
      rw [hidx]
      apply ih (i + 1) (p + 1) h8 _ k (by omega)
      intro j hj l hil hl
      by_cases hjs : j < s
      · exact hleft j hjs l (by omega) hl
      · by_cases hjp : j < p
        · exact h4 j (not_lt.mp hjs) hjp l (by omega) hl
        · have : j = p := by omega
          rw [this]
          exact h7 l hl (by omega)

/-! ## The two passes: `RREF` builds the staircase, and leaves a staircase alone -/

theorem rrefLoop_exit (fuel o c : Nat) (m : Matrix)
    (h : ¬ (o < m.rows ∧ c < m.columns)) : Matrix.rrefLoop fuel o c m = m := by
  cases fuel with
  | zero => rfl
  | succ n => rw [Matrix.rrefLoop, if_neg h]

theorem rrefLoop_step (n o c : Nat) (m : Matrix) (h : o < m.rows ∧ c < m.columns) :
    Matrix.rrefLoop (n + 1) o c m =
      Matrix.rrefLoop n (o + 1) ((m.findPivot o (m.rows * m.columns + 1) o c).2 + 1)
        (m.reduceAt o (m.findPivot o (m.rows * m.columns + 1) o c).1
          (m.findPivot o (m.rows * m.columns + 1) o c).2) := by
  rw [Matrix.rrefLoop, if_pos h]

theorem rrefPivots_exit (fuel o c : Nat) (m : Matrix)
    (h : ¬ (o < m.rows ∧ c < m.columns)) : rrefPivots fuel o c m = [] := by
  cases fuel with
  | zero => rfl
  | succ n => rw [rrefPivots, if_neg h]

theorem rrefPivots_found (n o c : Nat) (m : Matrix) (h : o < m.rows ∧ c < m.columns)
    (hf : (m.findPivot o (m.rows * m.columns + 1) o c).2 < m.columns) :
    rrefPivots (n + 1) o c m =
      (m.findPivot o (m.rows * m.columns + 1) o c).2 ::
        rrefPivots n (o + 1) ((m.findPivot o (m.rows * m.columns + 1) o c).2 + 1)
          (m.reduceAt o (m.findPivot o (m.rows * m.columns + 1) o c).1
            (m.findPivot o (m.rows * m.columns + 1) o c).2) := by
  rw [rrefPivots, if_pos h]
  simp only [if_pos hf]

theorem rrefPivots_none (n o c : Nat) (m : Matrix) (h : o < m.rows ∧ c < m.columns)
    (hf : ¬ (m.findPivot o (m.rows * m.columns + 1) o c).2 < m.columns) :
    rrefPivots (n + 1) o c m = [] := by
  rw [rrefPivots, if_pos h]
  simp only [if_neg hf]

theorem reduceAt_none (m : Matrix) (o i p : Nat) (hp : ¬ p < m.columns) :
    m.reduceAt o i p = m := by
  unfold Matrix.reduceAt
  rw [if_neg hp]

theorem reduceAt_id (m : Matrix) (hm : WellShaped m) (o p : Nat) (ho : o < m.rows)
    (hp : p < m.columns) (hone : m.entry o p = 1)
    (hoth : ∀ l, l < m.rows → l ≠ o → fabs (m.entry l p) ≤ tol) :
    m.reduceAt o o p = m := by
  rw [reduceAt_eq m o o p hp, if_neg (fun h => h rfl)]
  have h1 : m.eliminate o p (List.range o) = m :=
    eliminate_id o p _ m (fun l hl =>
      hoth l (lt_trans (List.mem_range.mp hl) ho) (Nat.ne_of_lt (List.mem_range.mp hl)))
  rw [h1]
  have h2 : m.eliminate o p (List.range' (o + 1) (m.rows - (o + 1))) = m :=
    eliminate_id o p _ m (fun l hl => by
      have := List.mem_range'_1.mp hl
      exact hoth l (by omega) (by omega))
  rw [h2, hone]
  norm_num
  exact dscal_one hm ho p

/-- Pass one: started from a staircase with `o` pivots, the outer loop of `RREF`
ends in a staircase whose pivot columns are the old ones followed by the ones the
loop chooses, and that either uses every row or covers every column. -/
theorem rrefLoop_gaps :
    ∀ (fuel o c : Nat) (m : Matrix) (P : List Nat), WellShaped m → P.length = o →
      o ≤ m.rows → Gaps m 0 0 P c → m.rows ≤ fuel + o →
      ∃ c', WellShaped (Matrix.rrefLoop fuel o c m) ∧
        Gaps (Matrix.rrefLoop fuel o c m) 0 0 (P ++ rrefPivots fuel o c m) c' ∧
        ((P ++ rrefPivots fuel o c m).length = m.rows ∨ m.columns ≤ c') := by
  intro fuel
  induction fuel with
  | zero =>
    intro o c m P hm hP ho hg hfuel
    refine ⟨c, hm, ?_, Or.inl ?_⟩
    · simpa [Matrix.rrefLoop, rrefPivots] using hg
    · simp only [rrefPivots, List.append_nil]; omega
  | succ n ih =>
    intro o c m P hm hP ho hg hfuel
    by_cases hcond : o < m.rows ∧ c < m.columns
    · obtain ⟨hsc, hlo, hhi, hcl, hcr, hbig, _⟩ :=
        findPivot_start m o c hcond.1 (le_of_lt hcond.2)
      by_cases hf : (m.findPivot o (m.rows * m.columns + 1) o c).2 < m.columns
      · rw [rrefLoop_step n o c m hcond, rrefPivots_found n o c m hcond hf]
        generalize (m.findPivot o (m.rows * m.columns + 1) o c).1 = i at *
        generalize (m.findPivot o (m.rows * m.columns + 1) o c).2 = p at *
        obtain ⟨hw, hform, hone, hoth⟩ := reduceAt_spec m hm o i p hcond.1 hhi hf (hbig hf)
        obtain ⟨hr, hcs⟩ := reduceAt_dims m o i p
        have hg1 : Gaps (m.reduceAt o i p) 0 0 P c := by
          apply gaps_transfer hr hcs o c _ _ P 0 0 (by omega) hg
          · intro l j hl hj
            rw [hform l j (lt_of_lt_of_le hj hcl), if_neg (by omega), if_neg (by omega)]
          · intro l j hol hl hj
            rw [hform l j (lt_of_lt_of_le hj hcl)]
            by_cases h1 : l = o
            · rw [if_pos h1]; exact ⟨i, hlo, hhi, rfl⟩
            · rw [if_neg h1]
              by_cases h2 : l = i
              · rw [if_pos h2]; exact ⟨o, Nat.le_refl _, hcond.1, rfl⟩
              · rw [if_neg h2]; exact ⟨l, hol, hl, rfl⟩
        have hg2 : Gaps (m.reduceAt o i p) 0 0 (P ++ [p]) (p + 1) := by
          apply gaps_snoc (m.reduceAt o i p) p (by rw [hcs]; exact hf) P 0 0 c o
            (by omega) (Nat.zero_le _) hcl _ (by rw [hr]; exact hcond.1) hone
            (by rw [hr]; exact hoth) hg1
          intro j hcj hjp l hol hl
          rw [hr] at hl
          rw [hform l j hjp]
          by_cases h1 : l = o
          · rw [if_pos h1]; exact hsc.1 j hcj hjp i hlo hhi
          · rw [if_neg h1]
            by_cases h2 : l = i
            · rw [if_pos h2]; exact hsc.1 j hcj hjp o (Nat.le_refl _) hcond.1
            · rw [if_neg h2]; exact hsc.1 j hcj hjp l hol hl
        obtain ⟨c', h1, h2, h3⟩ := ih (o + 1) (p + 1) (m.reduceAt o i p) (P ++ [p]) hw
          (by simp [hP]) (by rw [hr]; exact hcond.1) hg2 (by rw [hr]; omega)
        rw [List.append_assoc, List.singleton_append] at h2 h3
        rw [hr, hcs] at h3
        exact ⟨c', h1, h2, h3⟩
      · have hpe : (m.findPivot o (m.rows * m.columns + 1) o c).2 = m.columns := by omega
        rw [rrefLoop_step n o c m hcond, rrefPivots_none n o c m hcond hf,
          reduceAt_none m _ _ _ hf, rrefLoop_exit n _ _ m (by omega), List.append_nil]
        refine ⟨m.columns, hm, ?_, Or.inr (Nat.le_refl _)⟩
        apply gaps_extend m c m.columns (le_of_lt hcond.2) P 0 0 o (by omega) _ hg
        intro j hcj hjc l hol hl
        exact hsc.1 j hcj (by rw [hpe]; exact hjc) l hol hl
    · rw [rrefLoop_exit _ o c m hcond, rrefPivots_exit _ o c m hcond, List.append_nil]
      refine ⟨c, hm, hg, ?_⟩
      by_cases h : o < m.rows
      · exact Or.inr (not_lt.mp (fun hc => hcond ⟨h, hc⟩))
      · exact Or.inl (by omega)

/-- Pass two: on a staircase that uses every row or covers every column the outer
loop of `RREF` changes nothing. -/
theorem rrefLoop_fixed (m : Matrix) (hm : WellShaped m) (c : Nat) :
    ∀ (P : List Nat) (fuel i s : Nat), Gaps m i s P c →
      (i + P.length = m.rows ∨ m.columns ≤ c) → Matrix.rrefLoop fuel i s m = m := by
  intro P
  induction P with
  | nil =>
    intro fuel i s hg hend
    cases fuel with
    | zero => rfl
    | succ n =>
      by_cases hcond : i < m.rows ∧ s < m.columns
      · simp only [Gaps] at hg
        have hcc : m.columns ≤ c := by
          rcases hend with h | h
          · simp only [List.length_nil, Nat.add_zero] at h; omega
          · exact h
        have hfp := findPivot_none_eq m i s hcond.1 (le_of_lt hcond.2)
          (fun j hsj hj l hil hl => hg j hsj (lt_of_lt_of_le hj hcc) l hil hl)
        rw [rrefLoop_step n i s m hcond, hfp]
        simp only []
        rw [reduceAt_none m _ _ _ (lt_irrefl _), rrefLoop_exit n _ _ m (by omega)]
      · exact rrefLoop_exit _ i s m hcond
  | cons p ps ih =>
    intro fuel i s hg hend
    cases fuel with
    | zero => rfl
    | succ n =>
      simp only [Gaps] at hg
      obtain ⟨h1, h2, h3, h4, h5, h6, h7, h8⟩ := hg
      have hcond : i < m.rows ∧ s < m.columns := ⟨h5, lt_of_le_of_lt h1 h3⟩
      have hfp := findPivot_found_eq m i s p h5 h1 h3 h4 (by rw [h6]; exact fabs_one_gt)
      rw [rrefLoop_step n i s m hcond, hfp]
      simp only []
      rw [reduceAt_id m hm i p h5 h3 h6 h7]
      apply ih n (i + 1) (p + 1) h8
      rcases hend with h | h
      · left; simp only [List.length_cons] at h; omega
      · exact Or.inr h

/-! ## `RREF`: idempotence and the order of the pivot columns -/

theorem RREF_staircase (m : Matrix) (hm : WellShaped m) :
    ∃ c', WellShaped m.RREF ∧ Gaps m.RREF 0 0 (pivotColumns m) c' ∧
      ((pivotColumns m).length = m.rows ∨ m.columns ≤ c') := by
  have hg0 : Gaps m 0 0 [] 0 := by
    simp only [Gaps]
    intro j _ hj
    omega
  obtain ⟨c', h1, h2, h3⟩ :=
    rrefLoop_gaps m.rows 0 0 m [] hm rfl (Nat.zero_le _) hg0 (Nat.le_refl _)
  rw [List.nil_append] at h2 h3
  exact ⟨c', h1, h2, h3⟩

/-- C15: `RREF` is idempotent. For every matrix of `rows` rows of `columns` entries
each, over exact rational arithmetic with the fixed threshold `1e-9`, applying `RREF`
to the result of `RREF` gives the result back: no entry changes. -/
theorem C15_RREF_idempotent (m : Matrix) (hm : WellShaped m) :
    m.RREF.RREF = m.RREF ∧ ∀ r c, m.RREF.RREF.entry r c = m.RREF.entry r c := by
  have h : m.RREF.RREF = m.RREF := by
    obtain ⟨c', hw, hg, hend⟩ := RREF_staircase m hm
    have hr : m.RREF.rows = m.rows := RREF_rows m
    have hc : m.RREF.columns = m.columns := RREF_columns m
    show Matrix.rrefLoop m.RREF.rows 0 0 m.RREF = m.RREF
    apply rrefLoop_fixed m.RREF hw c' (pivotColumns m) _ 0 0 hg
    rw [hr, hc, Nat.zero_add]
    exact hend
  exact ⟨h, fun r c => by rw [h]⟩

theorem C15_RREF_idempotent_witness :
    WellShaped (Matrix.load [[0, 2, 4], [1, 1, 1], [3, 3, 4]] [] []) ∧
    (Matrix.load [[0, 2, 4], [1, 1, 1], [3, 3, 4]] [] []).RREF.RREF
      = (Matrix.load [[0, 2, 4], [1, 1, 1], [3, 3, 4]] [] []).RREF ∧
    ∀ r c, (Matrix.load [[0, 2, 4], [1, 1, 1], [3, 3, 4]] [] []).RREF.RREF.entry r c
      = (Matrix.load [[0, 2, 4], [1, 1, 1], [3, 3, 4]] [] []).RREF.entry r c :=
  ⟨by decide,
    C15_RREF_idempotent (Matrix.load [[0, 2, 4], [1, 1, 1], [3, 3, 4]] [] []) (by decide)⟩

/-! ## `RREF` in `double` -/

theorem rounded_axpyRow_id (s : ℚ) : ∀ (row src : List ℚ) (k : Nat),
    Rounded.axpyRow id s k row src = Matrix.axpyRow s k row src := by
  intro row
  induction row with
  | nil => intro src k; cases k <;> rfl
  | cons x xs ih =>
    intro src k
    cases k with
    | zero => simp only [Rounded.axpyRow, Matrix.axpyRow, ih, id]
    | succ k => simp only [Rounded.axpyRow, Matrix.axpyRow, ih]

theorem rounded_scalRow_id (s : ℚ) : ∀ (row : List ℚ) (k : Nat),
    Rounded.scalRow id s k row = Matrix.scalRow s k row := by
  intro row
  induction row with
  | nil => intro k; cases k <;> rfl
  | cons x xs ih =>
    intro k
    cases k with
    | zero => simp only [Rounded.scalRow, Matrix.scalRow, ih, id]
    | succ k => simp only [Rounded.scalRow, Matrix.scalRow, ih]

theorem rounded_findPivot_id (m : Matrix) (o : Nat) : ∀ (fuel i c : Nat),
    Rounded.findPivot tol m o fuel i c = m.findPivot o fuel i c := by
  intro fuel
  induction fuel with
  | zero => intro i c; rfl
  | succ n ih =>
    intro i c
    simp only [Rounded.findPivot, Matrix.findPivot, ih]

theorem rounded_eliminate_id (o p : Nat) : ∀ (which : List Nat) (m : Matrix),
    Rounded.eliminate id tol m o p which = m.eliminate o p which := by
  intro which
  induction which with
  | nil => intro m; rfl
  | cons x xs ih =>
    intro m
    have h := ih (if fabs (m.entry x p) > tol then
      m.daxpy (-(m.entry x p) / m.entry o p) x o p else m)
    simp only [Rounded.eliminate, Matrix.eliminate, List.foldl_cons] at h ⊢
    simp only [Rounded.daxpy, rounded_axpyRow_id, id] at h ⊢
    exact h

theorem rounded_reduceAt_id (m : Matrix) (o i p : Nat) :
    Rounded.reduceAt id tol m o i p = m.reduceAt o i p := by
  simp only [Rounded.reduceAt, Matrix.reduceAt, rounded_eliminate_id, Rounded.dscal,
    Matrix.dscal, rounded_scalRow_id, id]

theorem rounded_rrefLoop_id : ∀ (fuel o c : Nat) (m : Matrix),
    Rounded.rrefLoop id tol fuel o c m = Matrix.rrefLoop fuel o c m := by
  intro fuel
  induction fuel with
  | zero => intro o c m; rfl
  | succ n ih =>
    intro o c m
    simp only [Rounded.rrefLoop, Matrix.rrefLoop, rounded_findPivot_id, rounded_reduceAt_id, ih]

theorem rounded_rrefPivots_id : ∀ (fuel o c : Nat) (m : Matrix),
    Rounded.rrefPivots id tol fuel o c m = rrefPivots fuel o c m := by
  intro fuel
  induction fuel with
  | zero => intro o c m; rfl
  | succ n ih =>
    intro o c m
    simp only [Rounded.rrefPivots, rrefPivots, rounded_findPivot_id, rounded_reduceAt_id, ih]

theorem rounded_findPivot_ge (t : ℚ) (m : Matrix) (o : Nat) : ∀ (fuel i c : Nat),
    c ≤ (Rounded.findPivot t m o fuel i c).2 := by
  intro fuel
  induction fuel with
  | zero => intro i c; exact Nat.le_refl _
  | succ n ih =>
    intro i c
    simp only [Rounded.findPivot]
    split_ifs
    · exact Nat.le_refl _
    · exact le_trans (Nat.le_succ c) (ih _ _)
    · exact ih _ _
    · exact Nat.le_refl _

/-- Whatever the rounding and the threshold, the columns logged by the outer loop of
`RREF` are strictly increasing, and none is below the column the loop starts at. -/
theorem rounded_rrefPivots_sorted (fl : ℚ → ℚ) (t : ℚ) : ∀ (fuel o c : Nat) (m : Matrix),
    (Rounded.rrefPivots fl t fuel o c m).Sorted (· < ·) ∧
      ∀ x ∈ Rounded.rrefPivots fl t fuel o c m, c ≤ x := by
  intro fuel
  induction fuel with
  | zero =>
    intro o c m
    exact ⟨List.sorted_nil, fun x hx => absurd hx (List.not_mem_nil x)⟩
  | succ n ih =>
    intro o c m
    simp only [Rounded.rrefPivots]
    split_ifs with h1 h2
    · obtain ⟨hs, hb⟩ := ih (o + 1)
        ((Rounded.findPivot t m o (m.rows * m.columns + 1) o c).2 + 1)
        (Rounded.reduceAt fl t m o (Rounded.findPivot t m o (m.rows * m.columns + 1) o c).1
          (Rounded.findPivot t m o (m.rows * m.columns + 1) o c).2)
      have hge := rounded_findPivot_ge t m o (m.rows * m.columns + 1) o c
      constructor
      · apply List.sorted_cons.mpr
        refine ⟨?_, hs⟩
        intro x hx
        have := hb x hx
        omega
      · intro x hx
        rcases List.mem_cons.mp hx with h | h
        · rw [h]; exact hge
        · have := hb x h
          omega
    · exact ⟨List.sorted_nil, fun x hx => absurd hx (List.not_mem_nil x)⟩
    · exact ⟨List.sorted_nil, fun x hx => absurd hx (List.not_mem_nil x)⟩

/-- C16, an input on which the statement fails for the program, whose entries are
`double`. The 2 x 2 matrix with rows `[49, 0]` and `[134217728, 1]` holds numbers a
`double` holds exactly. `RREF` in `double` chooses column `0` for row `0` and column
`1` for row `1`. Eliminating column `0` from row `1` it rounds the quotient
`-134217728/49` and then the product of that with `49`, which leaves `2^-26`
(about `1.49e-8`) in row `1`, column `0`: an entry to the left of the pivot column of
row `1` and above `1e-9`. Over exact arithmetic the same entry is `0`. -/
theorem C16_counterexample_rounding_residue :
    WellShaped (Matrix.load [[49, 0], [134217728, 1]] [] []) ∧
    (∀ row ∈ (Matrix.load [[49, 0], [134217728, 1]] [] []).u, ∀ x ∈ row, binary64 x = x) ∧
    doublePivotColumns (Matrix.load [[49, 0], [134217728, 1]] [] []) = [0, 1] ∧
    (doubleRREF (Matrix.load [[49, 0], [134217728, 1]] [] [])).u
      = [[(2 ^ 53 - 1) / 2 ^ 53, 0], [1 / 2 ^ 26, 1]] ∧
    (0 : Nat) < (doublePivotColumns (Matrix.load [[49, 0], [134217728, 1]] [] [])).getD 1 0 ∧
    fabs ((doubleRREF (Matrix.load [[49, 0], [134217728, 1]] [] [])).entry 1 0) > tol ∧
    fabs ((doubleRREF (Matrix.load [[49, 0], [134217728, 1]] [] [])).entry 1 0)
      > binary64 tol ∧
    pivotColumns (Matrix.load [[49, 0], [134217728, 1]] [] []) = [0, 1] ∧
    (Matrix.load [[49, 0], [134217728, 1]] [] []).RREF.u = [[1, 0], [0, 1]] := by
  decide!

/-- C16, amended. The pivot columns `RREF` chooses increase strictly with the row
whatever the arithmetic: for every rounding `fl` of the arithmetic results and every
threshold `t`, in particular in `double`, the columns logged by the outer loop are
strictly increasing, so rows `r < r2` that both received a pivot have pivot columns in
the same strict order. With no rounding and the threshold `1e-9` the rounded loop is
the exact one, and over exact arithmetic, for every matrix of `rows` rows of
`columns` entries each: there are at most `rows` pivot columns, each a column of the
matrix, and in the result row `r` holds `1` at its pivot column and entries of
absolute value at most `1e-9` to the left of it. -/
theorem C16_pivot_columns_increase_left_small_when_exact (m : Matrix) (hm : WellShaped m) :
    (∀ (fl : ℚ → ℚ) (t : ℚ),
      (Rounded.pivotColumns fl t m).Sorted (· < ·) ∧
      ∀ r r2, r < r2 → r2 < (Rounded.pivotColumns fl t m).length →
        (Rounded.pivotColumns fl t m).getD r 0 < (Rounded.pivotColumns fl t m).getD r2 0) ∧
    (doublePivotColumns m).Sorted (· < ·) ∧
    Rounded.pivotColumns id tol m = pivotColumns m ∧
    Rounded.RREF id tol m = m.RREF ∧
    (pivotColumns m).Sorted (· < ·) ∧
    (pivotColumns m).length ≤ m.rows ∧
    (∀ r r2, r < r2 → r2 < (pivotColumns m).length →
      (pivotColumns m).getD r 0 < (pivotColumns m).getD r2 0) ∧
    ∀ r, r < (pivotColumns m).length →
      (pivotColumns m).getD r 0 < m.columns ∧
      m.RREF.entry r ((pivotColumns m).getD r 0) = 1 ∧
      ∀ j, j < (pivotColumns m).getD r 0 → fabs (m.RREF.entry r j) ≤ tol := by
  have hany : ∀ (fl : ℚ → ℚ) (t : ℚ), (Rounded.pivotColumns fl t m).Sorted (· < ·) :=
    fun fl t => (rounded_rrefPivots_sorted fl t m.rows 0 0 m).1
  obtain ⟨c', hw, hg, _⟩ := RREF_staircase m hm
  have hr : m.RREF.rows = m.rows := RREF_rows m
  have hc : m.RREF.columns = m.columns := RREF_columns m
  obtain ⟨hs, hb⟩ := gaps_sorted m.RREF c' (pivotColumns m) 0 0 hg
  have hlen := gaps_length m.RREF c' (pivotColumns m) 0 0 (Nat.zero_le _) hg
  rw [Nat.zero_add, hr] at hlen
  refine ⟨?_, hany _ _, rounded_rrefPivots_id m.rows 0 0 m, rounded_rrefLoop_id m.rows 0 0 m,
    hs, hlen, ?_, ?_⟩
  · intro fl t
    refine ⟨hany fl t, ?_⟩
    intro r r2 hrr hr2
    have hr1 : r < (Rounded.pivotColumns fl t m).length := lt_trans hrr hr2
    rw [List.getD_eq_getElem _ _ hr1, List.getD_eq_getElem _ _ hr2]
    exact List.pairwise_iff_getElem.mp (hany fl t) r r2 hr1 hr2 hrr
  · intro r r2 hrr hr2
    have hr1 : r < (pivotColumns m).length := lt_trans hrr hr2
    rw [List.getD_eq_getElem _ _ hr1, List.getD_eq_getElem _ _ hr2]
    exact List.pairwise_iff_getElem.mp hs r r2 hr1 hr2 hrr
  · intro r hrl
    obtain ⟨h1, _, h3⟩ := gaps_pivot m.RREF c' (pivotColumns m) 0 0 hg
      (fun j hj => absurd hj (Nat.not_lt_zero j)) r hrl
    rw [Nat.zero_add] at h1 h3
    refine ⟨?_, h1, h3⟩
    rw [List.getD_eq_getElem _ _ hrl, ← hc]
    exact (hb _ (List.getElem_mem _)).2

theorem C16_pivot_columns_increase_left_small_when_exact_witness :
    WellShaped exampleThreeByFour ∧
    doublePivotColumns exampleThreeByFour = [1, 2, 3] ∧
    pivotColumns exampleThreeByFour = [1, 2, 3] ∧
    ((∀ (fl : ℚ → ℚ) (t : ℚ),
      (Rounded.pivotColumns fl t exampleThreeByFour).Sorted (· < ·) ∧
      ∀ r r2, r < r2 → r2 < (Rounded.pivotColumns fl t exampleThreeByFour).length →
        (Rounded.pivotColumns fl t exampleThreeByFour).getD r 0
          < (Rounded.pivotColumns fl t exampleThreeByFour).getD r2 0) ∧
    (doublePivotColumns exampleThreeByFour).Sorted (· < ·) ∧
    Rounded.pivotColumns id tol exampleThreeByFour = pivotColumns exampleThreeByFour ∧
    Rounded.RREF id tol exampleThreeByFour = exampleThreeByFour.RREF ∧
    (pivotColumns exampleThreeByFour).Sorted (· < ·) ∧
    (pivotColumns exampleThreeByFour).length ≤ exampleThreeByFour.rows ∧
    (∀ r r2, r < r2 → r2 < (pivotColumns exampleThreeByFour).length →
      (pivotColumns exampleThreeByFour).getD r 0
        < (pivotColumns exampleThreeByFour).getD r2 0) ∧
    ∀ r, r < (pivotColumns exampleThreeByFour).length →
      (pivotColumns exampleThreeByFour).getD r 0 < exampleThreeByFour.columns ∧
      exampleThreeByFour.RREF.entry r ((pivotColumns exampleThreeByFour).getD r 0) = 1 ∧
      ∀ j, j < (pivotColumns exampleThreeByFour).getD r 0 →
        fabs (exampleThreeByFour.RREF.entry r j) ≤ tol) :=
  ⟨by decide, by decide!, by decide!,
    C16_pivot_columns_increase_left_small_when_exact exampleThreeByFour (by decide)⟩

/-! ## `copyColumnsToRows` and `match` -/

theorem entry_copyColumnsToRows (tb source : Matrix) (indicies : List Int) (row k : Nat)
    (hrow : row < tb.rows) (hk : k < tb.columns) :
    (SquareMatrix.copyColumnsToRows tb source indicies).entry row k
      = source.entry row (indicies.getD k 0).toNat := by
  unfold SquareMatrix.copyColumnsToRows Matrix.entry
  simp [List.getD_eq_getElem?_getD, hrow, hk]

/-- C21. For every source matrix and every index vector of `R` entries in
`[0, columns)`, `copyColumnsToRows` on a test matrix of `R` rows and columns leaves
an `R` by `R` buffer with entry `[row][k]` equal to `source[row][indicies[k]]` for
all `row, k < R`, the indices taken in the order given. The source is only read:
the function returns the target alone. -/
theorem C21_copyColumnsToRows_entries (tb source : Matrix) (indicies : List Int) (R : Nat)
    (hrows : tb.rows = R) (hcols : tb.columns = R) (hlen : indicies.length = R)
    (hrange : ∀ v ∈ indicies, 0 ≤ v ∧ v < (source.columns : Int)) :
    (SquareMatrix.copyColumnsToRows tb source indicies).rows = R ∧
    (SquareMatrix.copyColumnsToRows tb source indicies).columns = R ∧
    WellShaped (SquareMatrix.copyColumnsToRows tb source indicies) ∧
    ∀ row k, row < R → k < R →
      ∃ c : Nat, indicies[k]? = some (c : Int) ∧ c < source.columns ∧
        (SquareMatrix.copyColumnsToRows tb source indicies).entry row k
          = source.entry row c := by
  refine ⟨hrows, hcols, ?_, ?_⟩
  · constructor
    · simp [SquareMatrix.copyColumnsToRows]
    · intro row hrow
      simp only [SquareMatrix.copyColumnsToRows, List.mem_map] at hrow
      obtain ⟨r, _, rfl⟩ := hrow
      simp [SquareMatrix.copyColumnsToRows]
  · intro row k hrow hk
    have hkl : k < indicies.length := by rw [hlen]; exact hk
    obtain ⟨h0, h1⟩ := hrange indicies[k] (List.getElem_mem _)
    refine ⟨indicies[k].toNat, ?_, ?_, ?_⟩
    · rw [List.getElem?_eq_getElem hkl, Int.toNat_of_nonneg h0]
    · omega
    · rw [entry_copyColumnsToRows tb source indicies row k (by rw [hrows]; exact hrow)
        (by rw [hcols]; exact hk), List.getD_eq_getElem _ _ hkl]

theorem C21_copyColumnsToRows_entries_witness :
    (SquareMatrix.copyColumnsToRows (SquareMatrix.create 2 0)
        (Matrix.load [[1, 2, 3], [4, 5, 6]] [] []) [2, 0]).rows = 2 ∧
    (SquareMatrix.copyColumnsToRows (SquareMatrix.create 2 0)
        (Matrix.load [[1, 2, 3], [4, 5, 6]] [] []) [2, 0]).columns = 2 ∧
    WellShaped (SquareMatrix.copyColumnsToRows (SquareMatrix.create 2 0)
        (Matrix.load [[1, 2, 3], [4, 5, 6]] [] []) [2, 0]) ∧
    ∀ row k, row < 2 → k < 2 →
      ∃ c : Nat, ([2, 0] : List Int)[k]? = some (c : Int) ∧
        c < (Matrix.load [[1, 2, 3], [4, 5, 6]] [] []).columns ∧
        (SquareMatrix.copyColumnsToRows (SquareMatrix.create 2 0)
          (Matrix.load [[1, 2, 3], [4, 5, 6]] [] []) [2, 0]).entry row k
          = (Matrix.load [[1, 2, 3], [4, 5, 6]] [] []).entry row c :=
  C21_copyColumnsToRows_entries (SquareMatrix.create 2 0)
    (Matrix.load [[1, 2, 3], [4, 5, 6]] [] []) [2, 0] 2 rfl rfl rfl (by decide)

theorem matchLocate_true (value : Int) (l : List Int) :
    FoundFeasible.matchLocate value l true = true := by
  cases l <;> simp [FoundFeasible.matchLocate]

theorem matchLocate_eq_scan (value : Int) (l : List Int) :
    FoundFeasible.matchLocate value l false = FoundFeasible.scanColumn value l := by
  induction l with
  | nil => rfl
  | cons x xs ih =>
    simp only [FoundFeasible.matchLocate, FoundFeasible.scanColumn, Bool.not_false,
      Bool.true_and, Bool.false_or, decide_eq_true_eq]
    by_cases hx : x ≤ value
    · rw [if_pos hx, if_pos hx]
      by_cases he : x = value
      · rw [if_pos he, decide_eq_true he.symm, matchLocate_true]
      · rw [if_neg he, decide_eq_false (fun h => he h.symm), ih]
    · rw [if_neg hx, if_neg hx]

theorem matchLoop_eq (columns : List Int) :
    ∀ (indicies : List Int) (found : Bool),
      FoundFeasible.matchLoop columns indicies found
        = (found && indicies.all (fun v => FoundFeasible.scanColumn v columns)) := by
  intro indicies
  induction indicies with
  | nil => intro found; simp [FoundFeasible.matchLoop]
  | cons v rest ih =>
    intro found
    cases found with
    | false => simp [FoundFeasible.matchLoop]
    | true =>
      simp only [FoundFeasible.matchLoop, if_true, Bool.true_and, List.all_cons]
      rw [ih, matchLocate_eq_scan]

theorem matchColumns_iff (ff : FoundFeasible) (indicies : List Int)
    (hff : ff.columns.Sorted (· < ·)) (hs : indicies.Sorted (· < ·)) :
    ff.matchColumns indicies = true ↔ indicies = ff.columns := by
  unfold FoundFeasible.matchColumns
  rw [matchLoop_eq]
  have hle : ff.columns.Sorted (· ≤ ·) := hff.le_of_lt
  simp only [Bool.and_eq_true, decide_eq_true_eq, List.all_eq_true]
  constructor
  · rintro ⟨hlen, hall⟩
    have hsub : indicies ⊆ ff.columns := fun v hv =>
      (scanColumn_iff v ff.columns hle).mp (hall v hv)
    have hperm : indicies.Perm ff.columns :=
      (List.subperm_of_subset hs.nodup hsub).perm_of_length_le (le_of_eq hlen.symm)
    exact List.eq_of_perm_of_sorted hperm hs hff
  · intro h
    subst h
    exact ⟨rfl, fun v hv => (scanColumn_iff v _ hle).mpr hv⟩

/-- C22. For every `FoundFeasible` built by `addColumn` from distinct values and every
strictly ascending vector, `match` returns `true` exactly when the vector is the
stored list: the same length and the same entry at every position. -/
theorem C22_match_iff_same_sequence (values indicies : List Int) (hd : values.Nodup)
    (hs : indicies.Sorted (· < ·)) :
    ((values.foldl FoundFeasible.addColumn ⟨[]⟩).matchColumns indicies = true ↔
      indicies.length = (values.foldl FoundFeasible.addColumn ⟨[]⟩).columns.length ∧
      ∀ i : Nat, indicies[i]? = (values.foldl FoundFeasible.addColumn ⟨[]⟩).columns[i]?) ∧
    ((values.foldl FoundFeasible.addColumn ⟨[]⟩).matchColumns indicies = true ↔
      indicies = (values.foldl FoundFeasible.addColumn ⟨[]⟩).columns) := by
  have hiff := matchColumns_iff (values.foldl FoundFeasible.addColumn ⟨[]⟩) indicies
    (sortedKey_strict hd) hs
  refine ⟨?_, hiff⟩
  rw [hiff]
  constructor
  · intro h; rw [h]; exact ⟨rfl, fun _ => rfl⟩
  · intro h; exact List.ext_getElem? h.2

theorem C22_match_iff_same_sequence_witness :
    ([3, 1, 2] : List Int).Nodup ∧ ([1, 2, 3] : List Int).Sorted (· < ·) ∧
    (((([3, 1, 2] : List Int).foldl FoundFeasible.addColumn ⟨[]⟩).matchColumns [1, 2, 3] = true ↔
      ([1, 2, 3] : List Int).length
        = (([3, 1, 2] : List Int).foldl FoundFeasible.addColumn ⟨[]⟩).columns.length ∧
      ∀ i : Nat, ([1, 2, 3] : List Int)[i]?
        = (([3, 1, 2] : List Int).foldl FoundFeasible.addColumn ⟨[]⟩).columns[i]?) ∧
    ((([3, 1, 2] : List Int).foldl FoundFeasible.addColumn ⟨[]⟩).matchColumns [1, 2, 3] = true ↔
      ([1, 2, 3] : List Int)
        = (([3, 1, 2] : List Int).foldl FoundFeasible.addColumn ⟨[]⟩).columns)) ∧
    (([3, 1, 2] : List Int).foldl FoundFeasible.addColumn ⟨[]⟩).matchColumns [1, 2, 3] = true ∧
    (([3, 1, 2] : List Int).foldl FoundFeasible.addColumn ⟨[]⟩).matchColumns [1, 2, 4] = false :=
  ⟨by decide, by decide,
    C22_match_iff_same_sequence [3, 1, 2] [1, 2, 3] (by decide) (by decide),
    by decide, by decide⟩

/-! ## `RREF`: the pivot entries and the pivot columns -/

/-- C25. For every matrix of `rows` rows of `columns` entries each, after `RREF`
over exact arithmetic the entry at each pivot position, row `r` and the column the
outer loop chose for it, is exactly `1`. -/
theorem C25_pivot_entries_are_one (m : Matrix) (hm : WellShaped m) :
    ∀ r, r < (pivotColumns m).length →
      r < m.rows ∧ (pivotColumns m).getD r 0 < m.columns ∧
        m.RREF.entry r ((pivotColumns m).getD r 0) = 1 := by
  intro r hr
  obtain ⟨c', _, hg, _⟩ := RREF_staircase m hm
  have hrows : m.RREF.rows = m.rows := RREF_rows m
  have hcols : m.RREF.columns = m.columns := RREF_columns m
  have hlen := gaps_length m.RREF c' (pivotColumns m) 0 0 (Nat.zero_le _) hg
  obtain ⟨h1, _, _⟩ := gaps_pivot m.RREF c' (pivotColumns m) 0 0 hg
    (fun j hj => absurd hj (Nat.not_lt_zero j)) r hr
  obtain ⟨_, hb⟩ := gaps_sorted m.RREF c' (pivotColumns m) 0 0 hg
  rw [Nat.zero_add] at h1
  refine ⟨by omega, ?_, h1⟩
  rw [List.getD_eq_getElem _ _ hr, ← hcols]
  exact (hb _ (List.getElem_mem _)).2

theorem C25_pivot_entries_are_one_witness :
    WellShaped (Matrix.load [[0, 2, 4], [0, 1, 1], [0, 3, 4]] [] []) ∧
    pivotColumns (Matrix.load [[0, 2, 4], [0, 1, 1], [0, 3, 4]] [] []) = [1, 2] ∧
    ∀ r, r < (pivotColumns (Matrix.load [[0, 2, 4], [0, 1, 1], [0, 3, 4]] [] [])).length →
      r < (Matrix.load [[0, 2, 4], [0, 1, 1], [0, 3, 4]] [] []).rows ∧
      (pivotColumns (Matrix.load [[0, 2, 4], [0, 1, 1], [0, 3, 4]] [] [])).getD r 0
        < (Matrix.load [[0, 2, 4], [0, 1, 1], [0, 3, 4]] [] []).columns ∧
      (Matrix.load [[0, 2, 4], [0, 1, 1], [0, 3, 4]] [] []).RREF.entry r
        ((pivotColumns (Matrix.load [[0, 2, 4], [0, 1, 1], [0, 3, 4]] [] [])).getD r 0) = 1 :=
  ⟨by decide, by decide!,
    C25_pivot_entries_are_one (Matrix.load [[0, 2, 4], [0, 1, 1], [0, 3, 4]] [] [])
      (by decide)⟩

/-- C26, an input on which the statement fails. In the 2 x 2 matrix with rows
`[1, 1]` and `[1e-10, 1]` the outer loop of `RREF` chooses column `0` for row `0`
and column `1` for row `1`; the entry `1e-10` of row `1` in column `0` is not above
`1e-9`, so no `daxpy` is applied to it and it is still there in the result. -/
theorem C26_counterexample_small_entry_kept :
    WellShaped (Matrix.load [[1, 1], [1 / 10 ^ 10, 1]] [] []) ∧
    pivotColumns (Matrix.load [[1, 1], [1 / 10 ^ 10, 1]] [] []) = [0, 1] ∧
    (Matrix.load [[1, 1], [1 / 10 ^ 10, 1]] [] []).RREF.u = [[1, 0], [1 / 10 ^ 10, 1]] ∧
    (Matrix.load [[1, 1], [1 / 10 ^ 10, 1]] [] []).RREF.entry 1 0 ≠ 0 := by
  decide!

/-- One iteration of the outer loop of `RREF` with the pivot found at `(i, p)`: in
column `p` a row other than the pivot row ends with `0` when its entry after the
exchange of rows was above `1e-9` in absolute value, and with that entry otherwise. -/
theorem reduceAt_column (m : Matrix) (hm : WellShaped m) (o i p : Nat) (ho : o < m.rows)
    (hi : i < m.rows) (hp : p < m.columns) (hbig : fabs (m.entry i p) > tol) :
    ∀ l, l < m.rows → l ≠ o →
      (m.reduceAt o i p).entry l p
        = if fabs ((if i ≠ o then m.swapRows i o else m).entry l p) > tol then 0
          else (if i ≠ o then m.swapRows i o else m).entry l p := by
  rw [reduceAt_eq m o i p hp]
  obtain ⟨hw1, hr1, hc1, he1⟩ := swap_or_keep_spec m hm o i ho hi
  generalize (if i ≠ o then m.swapRows i o else m) = m1 at hw1 hr1 hc1 he1 ⊢
  have hv1 : m1.entry o p = m.entry i p := by rw [he1, if_pos rfl]
  obtain ⟨hw2, he2⟩ := eliminate_spec o p (List.range o) m1 hw1 (by rw [hc1]; exact hp)
    (List.nodup_range o) (by simp)
    (fun l hl => by rw [hr1]; exact lt_trans (List.mem_range.mp hl) ho)
  have hr2 := (eliminate_dims m1 o p (List.range o)).1
  have hc2 := (eliminate_dims m1 o p (List.range o)).2
  generalize m1.eliminate o p (List.range o) = m2 at hw2 he2 hr2 hc2 ⊢
  have hc2' : m2.columns = m.columns := by rw [hc2, hc1]
  have hr2' : m2.rows = m.rows := by rw [hr2, hr1]
  obtain ⟨hw3, he3⟩ := eliminate_spec o p (List.range' (o + 1) (m.rows - (o + 1))) m2 hw2
    (by rw [hc2']; exact hp) (List.nodup_range' _ _)
    (by simp)
    (fun l hl => by
      rw [hr2']
      have := List.mem_range'_1.mp hl
      omega)
  have hr3 := (eliminate_dims m2 o p (List.range' (o + 1) (m.rows - (o + 1)))).1
  have hc3 := (eliminate_dims m2 o p (List.range' (o + 1) (m.rows - (o + 1)))).2
  generalize m2.eliminate o p (List.range' (o + 1) (m.rows - (o + 1))) = m3
    at hw3 he3 hr3 hc3 ⊢
  have hc3' : m3.columns = m.columns := by rw [hc3, hc2']
  have hr3' : m3.rows = m.rows := by rw [hr3, hr2']
  have ho3 : o < m3.rows := by rw [hr3']; exact ho
  have hv2 : m2.entry o p = m.entry i p := by
    rw [he2 o p (by rw [hc1]; exact hp), if_neg (by simp), hv1]
  have hvne : m.entry i p ≠ 0 := ne_zero_of_big hbig
  intro l hl hlo
  rw [entry_dscal hw3 _ ho3 _ _ _ (by rw [hc3']; exact hp), if_neg (fun h => hlo h.1),
    he3 l p (by rw [hc2']; exact hp)]
  have h2lp : m2.entry l p = if l ∈ List.range o ∧ fabs (m1.entry l p) > tol then 0
      else m1.entry l p := by
    rw [he2 l p (by rw [hc1]; exact hp)]
    by_cases hcond : l ∈ List.range o ∧ fabs (m1.entry l p) > tol
    · rw [if_pos ⟨hcond.1, hcond.2, Nat.le_refl _⟩, if_pos hcond, hv1]
      exact cancel_pivot _ _ hvne
    · rw [if_neg (fun h => hcond ⟨h.1, h.2.1⟩), if_neg hcond]
  by_cases hlow : l < o
  · have hnot : l ∉ List.range' (o + 1) (m.rows - (o + 1)) := by
      intro h
      have := List.mem_range'_1.mp h
      omega
    rw [if_neg (fun h => hnot h.1), h2lp]
    by_cases hb1 : fabs (m1.entry l p) > tol
    · rw [if_pos ⟨List.mem_range.mpr hlow, hb1⟩, if_pos hb1]
    · rw [if_neg (fun h => hb1 h.2), if_neg hb1]
  · have hmem : l ∈ List.range' (o + 1) (m.rows - (o + 1)) := by
      apply List.mem_range'_1.mpr
      omega
    have hnr : l ∉ List.range o := by
      intro h
      exact hlow (List.mem_range.mp h)
    have h21 : m2.entry l p = m1.entry l p := by
      rw [h2lp, if_neg (fun h => hnr h.1)]
    rw [h21]
    by_cases hb2 : fabs (m1.entry l p) > tol
    · rw [if_pos ⟨hmem, hb2, Nat.le_refl _⟩, if_pos hb2, hv2]
      exact cancel_pivot _ _ hvne
    · rw [if_neg (fun h => hb2 h.2.1), if_neg hb2]

/-- The rows of the result of the outer loop of `RREF`, in the columns the loop has
already passed: they are the rows of the matrix it started from, those from
`outerLupe` on rearranged by the exchanges of rows. -/
theorem rrefLoop_rows :
    ∀ (fuel o c : Nat) (m : Matrix), WellShaped m →
      ∃ σ : Equiv.Perm Nat, (∀ l, l < o ∨ m.rows ≤ l → σ l = l) ∧
        ∀ l j, j < c → (Matrix.rrefLoop fuel o c m).entry l j = m.entry (σ l) j := by
  intro fuel
  induction fuel with
  | zero =>
    intro o c m _
    exact ⟨1, fun _ _ => rfl, fun _ _ _ => rfl⟩
  | succ n ih =>
    intro o c m hm
    by_cases hcond : o < m.rows ∧ c < m.columns
    · obtain ⟨_, hlo, hhi, hcl, _, hbig, _⟩ :=
        findPivot_start m o c hcond.1 (le_of_lt hcond.2)
      by_cases hf : (m.findPivot o (m.rows * m.columns + 1) o c).2 < m.columns
      · rw [rrefLoop_step n o c m hcond]
        generalize (m.findPivot o (m.rows * m.columns + 1) o c).1 = i at *
        generalize (m.findPivot o (m.rows * m.columns + 1) o c).2 = p at *
        obtain ⟨hw, hform, _, _⟩ := reduceAt_spec m hm o i p hcond.1 hhi hf (hbig hf)
        obtain ⟨hr, _⟩ := reduceAt_dims m o i p
        obtain ⟨σ, hfix, hent⟩ := ih (o + 1) (p + 1) (m.reduceAt o i p) hw
        refine ⟨σ.trans (Equiv.swap o i), ?_, ?_⟩
        · intro l hl
          have h1 : σ l = l := hfix l (by rw [hr]; omega)
          rw [Equiv.trans_apply, h1]
          exact Equiv.swap_apply_of_ne_of_ne (by omega) (by omega)
        · intro l j hj
          rw [hent l j (by omega), hform _ j (by omega), Equiv.trans_apply,
            Equiv.swap_apply_def]
          split_ifs <;> rfl
      · rw [rrefLoop_step n o c m hcond, reduceAt_none m _ _ _ hf,
          rrefLoop_exit n _ _ m (by omega)]
        exact ⟨1, fun _ _ => rfl, fun _ _ _ => rfl⟩
    · rw [rrefLoop_exit _ o c m hcond]
      exact ⟨1, fun _ _ => rfl, fun _ _ _ => rfl⟩

theorem rrefSwapped_found (n o c : Nat) (m : Matrix) (h : o < m.rows ∧ c < m.columns)
    (hf : (m.findPivot o (m.rows * m.columns + 1) o c).2 < m.columns) :
    rrefSwapped (n + 1) o c m =
      (if (m.findPivot o (m.rows * m.columns + 1) o c).1 ≠ o then
          m.swapRows (m.findPivot o (m.rows * m.columns + 1) o c).1 o else m) ::
        rrefSwapped n (o + 1) ((m.findPivot o (m.rows * m.columns + 1) o c).2 + 1)
          (m.reduceAt o (m.findPivot o (m.rows * m.columns + 1) o c).1
            (m.findPivot o (m.rows * m.columns + 1) o c).2) := by
  rw [rrefSwapped, if_pos h]
  simp only [if_pos hf]

theorem rrefSwapped_length :
    ∀ (fuel o c : Nat) (m : Matrix),
      (rrefSwapped fuel o c m).length = (rrefPivots fuel o c m).length := by
  intro fuel
  induction fuel with
  | zero => intro o c m; rfl
  | succ n ih =>
    intro o c m
    by_cases hcond : o < m.rows ∧ c < m.columns
    · by_cases hf : (m.findPivot o (m.rows * m.columns + 1) o c).2 < m.columns
      · rw [rrefPivots_found n o c m hcond hf, rrefSwapped_found n o c m hcond hf,
          List.length_cons, List.length_cons, ih]
      · rw [rrefPivots_none n o c m hcond hf, rrefSwapped, if_pos hcond]
        simp only [if_neg hf]
        rfl
    · rw [rrefPivots_exit _ o c m hcond, rrefSwapped, if_neg hcond]
      rfl

/-- A permutation that fixes the rows up to `k` and the indices from `R` on maps a
row other than `k` below `R` to a row other than `k` below `R`. -/
theorem perm_keeps_rows (σ : Equiv.Perm Nat) (k R : Nat)
    (hfix : ∀ l, l ≤ k ∨ R ≤ l → σ l = l) (l : Nat) (hl : l < R) (hlk : l ≠ k) :
    σ l < R ∧ σ l ≠ k := by
  constructor
  · by_contra h
    have h1 : σ (σ l) = σ l := hfix (σ l) (Or.inr (not_lt.mp h))
    have h2 : σ l = l := σ.injective h1
    omega
  · intro h
    have h1 : σ k = k := hfix k (Or.inl (Nat.le_refl _))
    have h2 : σ l = σ k := by rw [h, h1]
    exact hlk (σ.injective h2)

/-- The pivot column logged as entry `k` by the outer loop of `RREF`, in the result:
each row other than the pivot row holds `0` when the entry it held in the matrix
logged as entry `k` of `rrefSwapped` was above `1e-9`, and that entry otherwise; the
rows below the pivot row may since have been exchanged. -/
theorem rrefLoop_column :
    ∀ (fuel o c : Nat) (m : Matrix), WellShaped m →
      ∀ k, k < (rrefPivots fuel o c m).length →
        ∃ σ : Equiv.Perm Nat, (∀ l, l ≤ o + k ∨ m.rows ≤ l → σ l = l) ∧
          ∀ l, l < m.rows → l ≠ o + k →
            (Matrix.rrefLoop fuel o c m).entry l ((rrefPivots fuel o c m).getD k 0)
              = if fabs (((rrefSwapped fuel o c m).getD k m).entry (σ l)
                    ((rrefPivots fuel o c m).getD k 0)) > tol then 0
                else ((rrefSwapped fuel o c m).getD k m).entry (σ l)
                    ((rrefPivots fuel o c m).getD k 0) := by
  intro fuel
  induction fuel with
  | zero =>
    intro o c m _ k hk
    simp [rrefPivots] at hk
  | succ n ih =>
    intro o c m hm k hk
    by_cases hcond : o < m.rows ∧ c < m.columns
    · obtain ⟨_, hlo, hhi, hcl, _, hbig, _⟩ :=
        findPivot_start m o c hcond.1 (le_of_lt hcond.2)
      by_cases hf : (m.findPivot o (m.rows * m.columns + 1) o c).2 < m.columns
      · rw [rrefPivots_found n o c m hcond hf] at hk
        rw [rrefLoop_step n o c m hcond, rrefPivots_found n o c m hcond hf,
          rrefSwapped_found n o c m hcond hf]
        generalize (m.findPivot o (m.rows * m.columns + 1) o c).1 = i at *
        generalize (m.findPivot o (m.rows * m.columns + 1) o c).2 = p at *
        obtain ⟨hw, _, _, _⟩ := reduceAt_spec m hm o i p hcond.1 hhi hf (hbig hf)
        obtain ⟨hr, _⟩ := reduceAt_dims m o i p
        cases k with
        | zero =>
          obtain ⟨σ, hfix, hent⟩ := rrefLoop_rows n (o + 1) (p + 1) (m.reduceAt o i p) hw
          rw [hr] at hfix
          have hfix' : ∀ l, l ≤ o + 0 ∨ m.rows ≤ l → σ l = l := by
            intro l hl
            exact hfix l (by omega)
          refine ⟨σ, hfix', ?_⟩
          intro l hl hlo'
          obtain ⟨h1, h2⟩ := perm_keeps_rows σ (o + 0) m.rows hfix' l hl hlo'
          simp only [List.getD_cons_zero]
          rw [hent l p (by omega)]
          exact reduceAt_column m hm o i p hcond.1 hhi hf (hbig hf) (σ l) h1 (by omega)
        | succ k =>
          simp only [List.length_cons, Nat.add_lt_add_iff_right] at hk
          obtain ⟨σ, hfix, hent⟩ := ih (o + 1) (p + 1) (m.reduceAt o i p) hw k hk
          rw [hr] at hfix hent
          refine ⟨σ, ?_, ?_⟩
          · intro l hl
            exact hfix l (by omega)
          · intro l hl hlk
            have := hent l hl (by omega)
            simp only [List.getD_cons_succ]
            rw [this]
            have hlen : k < (rrefSwapped n (o + 1) (p + 1) (m.reduceAt o i p)).length := by
              rw [rrefSwapped_length]; exact hk
            rw [List.getD_eq_getElem _ _ hlen, List.getD_eq_getElem _ _ hlen]
      · rw [rrefPivots_none n o c m hcond hf] at hk
        simp at hk
    · rw [rrefPivots_exit _ o c m hcond] at hk
      simp at hk

/-- C26, amended. For every matrix of `rows` rows of `columns` entries each, after
`RREF` over exact arithmetic, take the pivot column `p` of row `r` and the matrix `S`
in which the outer loop eliminated that column (the matrix right after the exchange
of rows of that iteration). The rows of the result other than `r` are the rows of `S`
other than `r`, those below `r` possibly exchanged by later iterations (`σ`). In
column `p` each of them holds `0` when its entry in `S` was above `1e-9` in absolute
value, and holds that entry, unchanged, when it was not; so every such entry is at
most `1e-9` in absolute value, and every one is exactly `0` when no entry of
column `p` of `S` outside row `r` was non-zero and at most `1e-9`. -/
theorem C26_pivot_column_eliminated_or_kept (m : Matrix) (hm : WellShaped m) :
    ∀ r, r < (pivotColumns m).length →
      ∃ σ : Equiv.Perm Nat, (∀ l, l ≤ r ∨ m.rows ≤ l → σ l = l) ∧
        (∀ l, l < m.rows → l ≠ r →
          (σ l < m.rows ∧ σ l ≠ r) ∧
          m.RREF.entry l ((pivotColumns m).getD r 0)
            = (if fabs (((swappedStates m).getD r m).entry (σ l)
                  ((pivotColumns m).getD r 0)) > tol then 0
              else ((swappedStates m).getD r m).entry (σ l) ((pivotColumns m).getD r 0)) ∧
          fabs (m.RREF.entry l ((pivotColumns m).getD r 0)) ≤ tol) ∧
        ((∀ l, l < m.rows → l ≠ r →
            ((swappedStates m).getD r m).entry l ((pivotColumns m).getD r 0) = 0 ∨
            fabs (((swappedStates m).getD r m).entry l ((pivotColumns m).getD r 0)) > tol) →
          ∀ l, l < m.rows → l ≠ r → m.RREF.entry l ((pivotColumns m).getD r 0) = 0) := by
  intro r hr
  obtain ⟨σ, hfix, hent⟩ := rrefLoop_column m.rows 0 0 m hm r hr
  rw [Nat.zero_add] at hfix
  refine ⟨σ, hfix, ?_, ?_⟩
  · intro l hl hlr
    have h := hent l hl (by omega)
    refine ⟨perm_keeps_rows σ r m.rows hfix l hl hlr, h, ?_⟩
    unfold Matrix.RREF pivotColumns
    rw [h]
    split_ifs with hb
    · exact fabs_zero_le
    · exact not_lt.mp hb
  · intro hclean l hl hlr
    have h := hent l hl (by omega)
    obtain ⟨h1, h2⟩ := perm_keeps_rows σ r m.rows hfix l hl hlr
    unfold Matrix.RREF pivotColumns
    rw [h]
    split_ifs with hb
    · rfl
    · rcases hclean (σ l) h1 h2 with h0 | hbig
      · exact h0
      · exact absurd hbig hb

theorem C26_pivot_column_eliminated_or_kept_witness :
    WellShaped exampleThreeByTwo ∧
    (swappedStates exampleThreeByTwo).map (fun S => S.u)
      = [[[2, 1], [0, 1], [1 / 10 ^ 10, 1]], [[1, 1 / 2], [0, 1], [1 / 10 ^ 10, 1]]] ∧
    exampleThreeByTwo.RREF.u = [[1, 0], [0, 1], [1 / 10 ^ 10, 0]] ∧
    ∀ r, r < (pivotColumns exampleThreeByTwo).length →
      ∃ σ : Equiv.Perm Nat,
        (∀ l, l ≤ r ∨ exampleThreeByTwo.rows ≤ l → σ l = l) ∧
        (∀ l, l < exampleThreeByTwo.rows → l ≠ r →
          (σ l < exampleThreeByTwo.rows ∧ σ l ≠ r) ∧
          exampleThreeByTwo.RREF.entry l ((pivotColumns exampleThreeByTwo).getD r 0)
            = (if fabs (((swappedStates exampleThreeByTwo).getD r exampleThreeByTwo).entry
                  (σ l) ((pivotColumns exampleThreeByTwo).getD r 0)) > tol then 0
              else ((swappedStates exampleThreeByTwo).getD r exampleThreeByTwo).entry
                  (σ l) ((pivotColumns exampleThreeByTwo).getD r 0)) ∧
          fabs (exampleThreeByTwo.RREF.entry l
            ((pivotColumns exampleThreeByTwo).getD r 0)) ≤ tol) ∧
        ((∀ l, l < exampleThreeByTwo.rows → l ≠ r →
            ((swappedStates exampleThreeByTwo).getD r exampleThreeByTwo).entry l
              ((pivotColumns exampleThreeByTwo).getD r 0) = 0 ∨
            fabs (((swappedStates exampleThreeByTwo).getD r exampleThreeByTwo).entry l
              ((pivotColumns exampleThreeByTwo).getD r 0)) > tol) →
          ∀ l, l < exampleThreeByTwo.rows → l ≠ r →
            exampleThreeByTwo.RREF.entry l
              ((pivotColumns exampleThreeByTwo).getD r 0) = 0) :=
  ⟨by decide, by decide!, by decide!,
    C26_pivot_column_eliminated_or_kept exampleThreeByTwo (by decide)⟩

/-! ## `combinations`: the number of iterations of its loop -/

theorem combinationsLoopCount_eq (bound : Int) :
    ∀ (fuel : Nat) (lupe : Int),
      combinationsLoopCount bound fuel lupe = min fuel (lupe - bound).toNat := by
  intro fuel
  induction fuel with
  | zero => intro lupe; simp [combinationsLoopCount]
  | succ n ih =>
    intro lupe
    rw [combinationsLoopCount]
    by_cases h : lupe > bound
    · rw [if_pos h, ih]
      omega
    · rw [if_neg h]
      omega

theorem combinationsIterations_eq (k j : Nat) :
    combinationsIterations 2 ((k + j : Nat) : Int) (k : Int) = some (max k j) := by
  rw [combinationsIterations, if_neg (by push_cast; omega)]
  by_cases h : k < j
  · rw [if_pos (by push_cast; omega), combinationsIterations,
      if_neg (by push_cast; omega), if_neg (by push_cast; omega), combinationsLoopCount_eq]
    congr 1
    push_cast
    omega
  · rw [if_neg (by push_cast; omega), combinationsLoopCount_eq]
    congr 1
    push_cast
    omega

/-- C27. The loop of `combinations(n, k)` does not run over the smaller of `k` and
`n - k`. For `n = k + j` the call runs the loop `max k j` times: when `2*k < n` the
function calls itself with `n - k`, the larger of the two. For `n = 5`, `k = 1` the
loop runs `4` times (and returns `5`), while `min(k, n - k) = 1`. -/
theorem C27_loop_runs_over_the_larger (k j : Nat) :
    combinationsIterations 2 ((k + j : Nat) : Int) (k : Int) = some (max k j) ∧
    combinationsIterations 2 5 1 = some 4 ∧ min (1 : Nat) (5 - 1) = 1 ∧
    combinations 5 1 = some 5 :=
  ⟨combinationsIterations_eq k j, by decide, by decide, by decide⟩

/-! ## The index buffer below the current row -/

theorem keepsBelow_refl (r : Nat) (p : List Int × RunState) : KeepsBelow r p p :=
  ⟨rfl, rfl, [], by simp, fun b hb => absurd hb (List.not_mem_nil b)⟩

theorem keepsBelow_trans {r : Nat} {p q s : List Int × RunState}
    (h1 : KeepsBelow r p q) (h2 : KeepsBelow r q s) : KeepsBelow r p s := by
  obtain ⟨a1, b1, n1, c1, d1⟩ := h1
  obtain ⟨a2, b2, n2, c2, d2⟩ := h2
  refine ⟨a2.trans a1, b2.trans b1, n1 ++ n2, ?_, ?_⟩
  · rw [c2, c1, List.append_assoc]
  · intro b hb
    rcases List.mem_append.mp hb with h | h
    · exact d1 b h
    · rw [d2 b h, a1]

theorem take_of_take_succ {a b : List Int} {r : Nat} (h : a.take (r + 1) = b.take (r + 1)) :
    a.take r = b.take r := by
  have := congrArg (List.take r) h
  rwa [List.take_take, List.take_take, Nat.min_eq_left (Nat.le_succ r)] at this

theorem keepsBelow_weaken {r : Nat} {p q : List Int × RunState}
    (h : KeepsBelow (r + 1) p q) : KeepsBelow r p q := by
  obtain ⟨a, b, n, c, d⟩ := h
  exact ⟨take_of_take_succ a, b, n, c, fun x hx => take_of_take_succ (d x hx)⟩

theorem testFull_calls (K : Lapack) (orig : Matrix) (buf : List Int) (st : RunState)
    (r : Bool × RunState) (h : testFullColumnSet K orig buf st = some r) :
    r.2.calls = st.calls ++ [buf] := by
  unfold testFullColumnSet at h
  simp only [] at h
  split at h
  · exact absurd h (by simp)
  · simp only [Option.some.injEq] at h
    rw [← h]
  · split at h
    · simp only [Option.some.injEq] at h
      rw [← h]
      obtain ⟨f, sc, si, heq, _⟩ := tally_frame
        (SquareMatrix.dlange K (Matrix.copy
            (SquareMatrix.copyColumnsToRows st.testBasis orig buf))
          * SquareMatrix.dgecon K (SquareMatrix.dgetrf K
            (SquareMatrix.copyColumnsToRows st.testBasis orig buf)).1 false)
        (buf.foldl FoundFeasible.addColumn (FoundFeasible.clearList ⟨[]⟩)).columns _
      rw [heq]
      rfl
    · simp only [Option.some.injEq] at h
      rw [← h]

theorem checkColumnsStep_keeps (K : Lapack) (rref orig : Matrix)
    (recurse : List Int × RunState → Option (List Int × RunState)) (currentRow : Nat)
    (hrec : ∀ p q, recurse p = some q → KeepsBelow (currentRow + 1) p q)
    (p : List Int × RunState) (lupe : Nat) (q : List Int × RunState)
    (h : checkColumnsStep K rref orig recurse currentRow p lupe = some q) :
    KeepsBelow currentRow p q := by
  obtain ⟨buf, st⟩ := p
  have hset : KeepsBelow currentRow (buf, st) (buf.set currentRow (lupe : Int), st) :=
    ⟨take_set_self buf currentRow _, List.length_set _ _ _, [], by simp,
      fun b hb => absurd hb (List.not_mem_nil b)⟩
  rw [checkColumnsStep_eq] at h
  split at h
  · split at h
    · split at h
      · cases ht : testFullColumnSet K orig (buf.set currentRow (lupe : Int)) st with
        | none => rw [ht] at h; exact absurd h (by simp)
        | some r =>
          rw [ht] at h
          simp only [Option.map_some', Option.some.injEq] at h
          rw [← h]
          refine ⟨take_set_self buf currentRow _, List.length_set _ _ _,
            [buf.set currentRow (lupe : Int)], testFull_calls K orig _ st r ht, ?_⟩
          intro b hb
          rw [List.mem_singleton.mp hb]
          exact take_set_self buf currentRow _
      · simp only [Option.some.injEq] at h
        rw [← h]; exact hset
    · exact keepsBelow_trans hset (keepsBelow_weaken (hrec _ _ h))
  · simp only [Option.some.injEq] at h
    rw [← h]; exact hset

theorem foldlM_keeps {r : Nat}
    (step : List Int × RunState → Nat → Option (List Int × RunState))
    (hstep : ∀ p lupe q, step p lupe = some q → KeepsBelow r p q) :
    ∀ (cols : List Nat) (p q : List Int × RunState),
      cols.foldlM step p = some q → KeepsBelow r p q := by
  intro cols
  induction cols with
  | nil =>
    intro p q h
    simp only [List.foldlM_nil, Option.pure_def, Option.some.injEq] at h
    rw [← h]; exact keepsBelow_refl r p
  | cons c cs ih =>
    intro p q h
    rw [List.foldlM_cons] at h
    cases hs : step p c with
    | none => rw [hs] at h; exact absurd h (by simp)
    | some p1 =>
      rw [hs] at h
      exact keepsBelow_trans (hstep p c p1 hs) (ih p1 q h)

theorem checkColumns_keeps (K : Lapack) (rref orig : Matrix) :
    ∀ (fuel currentRow : Nat) (p q : List Int × RunState),
      checkColumns K rref orig fuel currentRow p = some q → KeepsBelow currentRow p q := by
  intro fuel
  induction fuel with
  | zero => intro r p q h; exact absurd h (by simp [checkColumns])
  | succ n ih =>
    intro r p q h
    rw [checkColumns] at h
    exact foldlM_keeps _ (fun p lupe q hq =>
      checkColumnsStep_keeps K rref orig _ r (ih (r + 1)) p lupe q hq) _ p q h

/-- C28. A call of `checkColumns` at `currentRow = r`, with all its nested calls,
returns the index buffer with the slots `0 .. r-1` as they were at entry and the
length unchanged; and every index buffer it hands to `testFullColumnSet` on the way
holds in the slots `0 .. r-1` the values the buffer had at entry. -/
theorem C28_checkColumns_keeps_lower_slots (K : Lapack) (rref orig : Matrix)
    (fuel r : Nat) (buf buf1 : List Int) (st st1 : RunState)
    (h : checkColumns K rref orig fuel r (buf, st) = some (buf1, st1)) :
    buf1.take r = buf.take r ∧ buf1.length = buf.length ∧
    (∀ i, i < r → buf1[i]? = buf[i]?) ∧
    ∃ added : List (List Int), st1.calls = st.calls ++ added ∧
      ∀ b ∈ added, b.take r = buf.take r := by
  obtain ⟨h1, h2, h3⟩ := checkColumns_keeps K rref orig fuel r (buf, st) (buf1, st1) h
  refine ⟨h1, h2, ?_, h3⟩
  intro i hi
  have := congrArg (fun l => l[i]?) h1
  simpa [List.getElem?_take, hi] using this

theorem C28_checkColumns_keeps_lower_slots_witness :
    ∃ buf1 st1,
      checkColumns exactLapack (Matrix.load [[1, 0, 1], [0, 1, 1]] [] []).RREF
        (Matrix.load [[1, 0, 1], [0, 1, 1]] [] []).copy 1 1
        ([2, -1], initialState (Matrix.load [[1, 0, 1], [0, 1, 1]] [] []))
        = some (buf1, st1) ∧
      (buf1.take 1 = ([2, -1] : List Int).take 1 ∧ buf1.length = ([2, -1] : List Int).length ∧
        (∀ i, i < 1 → buf1[i]? = ([2, -1] : List Int)[i]?) ∧
        ∃ added : List (List Int),
          st1.calls
            = (initialState (Matrix.load [[1, 0, 1], [0, 1, 1]] [] [])).calls ++ added ∧
          ∀ b ∈ added, b.take 1 = ([2, -1] : List Int).take 1) := by
  have hs : (checkColumns exactLapack (Matrix.load [[1, 0, 1], [0, 1, 1]] [] []).RREF
      (Matrix.load [[1, 0, 1], [0, 1, 1]] [] []).copy 1 1
      ([2, -1], initialState (Matrix.load [[1, 0, 1], [0, 1, 1]] [] []))).isSome = true := by
    decide!
  obtain ⟨⟨b, s⟩, hq⟩ := Option.isSome_iff_exists.mp hs
  exact ⟨b, s, hq, C28_checkColumns_keeps_lower_slots _ _ _ _ _ _ _ _ _ hq⟩

/-! ## Termination of the search and the depth of its recursion -/

theorem checkColumnsStep_last (K : Lapack) (rref orig : Matrix)
    (recurse1 recurse2 : List Int × RunState → Option (List Int × RunState))
    (currentRow : Nat) (p : List Int × RunState) (lupe : Nat)
    (hlast : rref.getNumberRows ≤ currentRow + 1) :
    checkColumnsStep K rref orig recurse1 currentRow p lupe
      = checkColumnsStep K rref orig recurse2 currentRow p lupe := by
  obtain ⟨buf, st⟩ := p
  rw [checkColumnsStep_eq, checkColumnsStep_eq]
  have h : currentRow + 1 ≥ rref.getNumberRows := hlast
  simp only [if_pos h]

theorem checkColumnsStep_mono (K : Lapack) (rref orig : Matrix)
    (f g : List Int × RunState → Option (List Int × RunState))
    (hfg : ∀ p q, f p = some q → g p = some q) (currentRow : Nat)
    (p : List Int × RunState) (lupe : Nat) (q : List Int × RunState)
    (h : checkColumnsStep K rref orig f currentRow p lupe = some q) :
    checkColumnsStep K rref orig g currentRow p lupe = some q := by
  obtain ⟨buf, st⟩ := p
  rw [checkColumnsStep_eq] at h ⊢
  split
  · rw [if_pos ‹_›] at h
    split
    · rw [if_pos ‹_›] at h; exact h
    · rw [if_neg ‹_›] at h; exact hfg _ _ h
  · rw [if_neg ‹_›] at h; exact h

theorem foldlM_mono (f g : List Int × RunState → Nat → Option (List Int × RunState))
    (hfg : ∀ p lupe q, f p lupe = some q → g p lupe = some q) :
    ∀ (cols : List Nat) (p q : List Int × RunState),
      cols.foldlM f p = some q → cols.foldlM g p = some q := by
  intro cols
  induction cols with
  | nil => intro p q h; exact h
  | cons c cs ih =>
    intro p q h
    rw [List.foldlM_cons] at h ⊢
    cases hs : f p c with
    | none => rw [hs] at h; exact absurd h (by simp)
    | some p1 =>
      rw [hs] at h
      rw [hfg p c p1 hs]
      exact ih p1 q h

theorem checkColumns_mono (K : Lapack) (rref orig : Matrix) :
    ∀ (fuel currentRow : Nat) (p q : List Int × RunState),
      checkColumns K rref orig fuel currentRow p = some q →
      checkColumns K rref orig (fuel + 1) currentRow p = some q := by
  intro fuel
  induction fuel with
  | zero => intro r p q h; exact absurd h (by simp [checkColumns])
  | succ n ih =>
    intro r p q h
    rw [checkColumns] at h ⊢
    exact foldlM_mono _ _ (fun p lupe q hq =>
      checkColumnsStep_mono K rref orig _ _ (ih (r + 1)) r p lupe q hq) _ p q h

theorem checkColumns_more_fuel (K : Lapack) (rref orig : Matrix) (fuel currentRow : Nat)
    (p q : List Int × RunState) (h : checkColumns K rref orig fuel currentRow p = some q) :
    ∀ extra, checkColumns K rref orig (fuel + extra) currentRow p = some q := by
  intro extra
  induction extra with
  | zero => exact h
  | succ e ih => exact checkColumns_mono K rref orig (fuel + e) currentRow p q ih

theorem checkColumns_returns (K : Lapack) (rref orig : Matrix)
    (hR : 1 ≤ rref.getNumberRows) (n : Nat) (st : RunState) (seen : List (List Int))
    (hinv : RunInv rref.getNumberColumns rref.getNumberRows n st seen) (buf : List Int)
    (hlen : buf.length = rref.getNumberRows) :
    ∃ q st1, checkColumns K rref orig rref.getNumberRows 0 (buf, st) = some (q, st1) ∧
      st1.calls = st.calls ++ candidates rref orig rref.getNumberRows 0 [] ∧
      RunInv rref.getNumberColumns rref.getNumberRows n st1
        (seen ++ (candidates rref orig rref.getNumberRows 0 []).map sortedKey) := by
  obtain ⟨buf1, _, _, hrun⟩ := checkColumns_eq_testAll K rref orig rref.getNumberRows 0
    buf hlen (by omega) (by omega)
  have hvalid : ∀ b ∈ candidates rref orig rref.getNumberRows 0 [],
      ValidKey rref.getNumberColumns rref.getNumberRows b ∧ b.Nodup := by
    intro b hb
    have hre : Reached rref orig b := (mem_candidates_top rref orig hR b).mp hb
    exact ⟨hre.validKey, hre.nodup⟩
  obtain ⟨st1, h1, hinv1, hcalls, _⟩ :=
    testAll_spec K orig hR (candidates rref orig rref.getNumberRows 0 []) hinv hvalid
  refine ⟨buf1, st1, ?_, hcalls, hinv1⟩
  have := hrun st
  simp only [List.take_zero] at this
  rw [this, h1]
  rfl

theorem checkColumns_fuel_irrelevant (K : Lapack) (rref orig : Matrix) :
    ∀ (fuel1 fuel2 currentRow : Nat) (p : List Int × RunState),
      currentRow < rref.getNumberRows → rref.getNumberRows ≤ fuel1 + currentRow →
      rref.getNumberRows ≤ fuel2 + currentRow →
      checkColumns K rref orig fuel1 currentRow p
        = checkColumns K rref orig fuel2 currentRow p := by
  intro fuel1
  induction fuel1 with
  | zero => intro fuel2 r p hr h1 _; omega
  | succ n ih =>
    intro fuel2 r p hr h1 h2
    cases fuel2 with
    | zero => omega
    | succ k =>
      rw [checkColumns, checkColumns]
      by_cases hlast : rref.getNumberRows ≤ r + 1
      · have hstep : checkColumnsStep K rref orig (checkColumns K rref orig n (r + 1)) r
            = checkColumnsStep K rref orig (checkColumns K rref orig k (r + 1)) r := by
          funext p lupe
          exact checkColumnsStep_last K rref orig _ _ r p lupe hlast
        rw [hstep]
      · have hrec : checkColumns K rref orig n (r + 1) = checkColumns K rref orig k (r + 1) := by
          funext p
          exact ih k (r + 1) p (by omega) (by omega) (by omega)
        rw [hrec]

/-- C29. For every reduced matrix with `R >= 1` rows (any number of columns), any
state of a run and any index buffer of `R` entries, `checkColumns` started at row
`0` returns, with `R` as the bound on the nesting of its calls; a larger bound gives
the same result. In the last row (`R <= currentRow + 1`) the body of the loop does
not depend on the recursive call, which is made only for `currentRow + 1 < R`: every
call has `currentRow` in `[0, R)`. -/
theorem C29_checkColumns_terminates_depth_R (K : Lapack) (rref orig : Matrix)
    (hR : 1 ≤ rref.getNumberRows) (n : Nat) (st : RunState) (seen : List (List Int))
    (hinv : RunInv rref.getNumberColumns rref.getNumberRows n st seen) (buf : List Int)
    (hlen : buf.length = rref.getNumberRows) :
    (∃ q, checkColumns K rref orig rref.getNumberRows 0 (buf, st) = some q ∧
      ∀ extra, checkColumns K rref orig (rref.getNumberRows + extra) 0 (buf, st) = some q) ∧
    (∀ (recurse1 recurse2 : List Int × RunState → Option (List Int × RunState))
      (currentRow : Nat) (p : List Int × RunState) (lupe : Nat),
      rref.getNumberRows ≤ currentRow + 1 →
      checkColumnsStep K rref orig recurse1 currentRow p lupe
        = checkColumnsStep K rref orig recurse2 currentRow p lupe) ∧
    (∀ (fuel currentRow : Nat) (p : List Int × RunState),
      currentRow < rref.getNumberRows → rref.getNumberRows ≤ fuel + currentRow →
      checkColumns K rref orig fuel currentRow p
        = checkColumns K rref orig (rref.getNumberRows - currentRow) currentRow p) := by
  obtain ⟨q, st1, hq, _⟩ := checkColumns_returns K rref orig hR n st seen hinv buf hlen
  refine ⟨⟨(q, st1), hq, checkColumns_more_fuel K rref orig _ 0 _ _ hq⟩,
    fun r1 r2 row p lupe h => checkColumnsStep_last K rref orig r1 r2 row p lupe h, ?_⟩
  intro fuel row p hrow hfuel
  exact checkColumns_fuel_irrelevant K rref orig fuel _ row p hrow hfuel (by omega)

theorem C29_checkColumns_terminates_depth_R_witness :
    (∃ q, checkColumns exactLapack (Matrix.load [[1, 0, 1], [0, 1, 1]] [] []).RREF
        (Matrix.load [[1, 0, 1], [0, 1, 1]] [] []).copy
        (Matrix.load [[1, 0, 1], [0, 1, 1]] [] []).RREF.getNumberRows 0
        ([-1, -1], initialState (Matrix.load [[1, 0, 1], [0, 1, 1]] [] [])) = some q ∧
      ∀ extra, checkColumns exactLapack (Matrix.load [[1, 0, 1], [0, 1, 1]] [] []).RREF
        (Matrix.load [[1, 0, 1], [0, 1, 1]] [] []).copy
        ((Matrix.load [[1, 0, 1], [0, 1, 1]] [] []).RREF.getNumberRows + extra) 0
        ([-1, -1], initialState (Matrix.load [[1, 0, 1], [0, 1, 1]] [] [])) = some q) ∧
    (∀ (recurse1 recurse2 : List Int × RunState → Option (List Int × RunState))
      (currentRow : Nat) (p : List Int × RunState) (lupe : Nat),
      (Matrix.load [[1, 0, 1], [0, 1, 1]] [] []).RREF.getNumberRows ≤ currentRow + 1 →
      checkColumnsStep exactLapack (Matrix.load [[1, 0, 1], [0, 1, 1]] [] []).RREF
          (Matrix.load [[1, 0, 1], [0, 1, 1]] [] []).copy recurse1 currentRow p lupe
        = checkColumnsStep exactLapack (Matrix.load [[1, 0, 1], [0, 1, 1]] [] []).RREF
          (Matrix.load [[1, 0, 1], [0, 1, 1]] [] []).copy recurse2 currentRow p lupe) ∧
    (∀ (fuel currentRow : Nat) (p : List Int × RunState),
      currentRow < (Matrix.load [[1, 0, 1], [0, 1, 1]] [] []).RREF.getNumberRows →
      (Matrix.load [[1, 0, 1], [0, 1, 1]] [] []).RREF.getNumberRows ≤ fuel + currentRow →
      checkColumns exactLapack (Matrix.load [[1, 0, 1], [0, 1, 1]] [] []).RREF
          (Matrix.load [[1, 0, 1], [0, 1, 1]] [] []).copy fuel currentRow p
        = checkColumns exactLapack (Matrix.load [[1, 0, 1], [0, 1, 1]] [] []).RREF
          (Matrix.load [[1, 0, 1], [0, 1, 1]] [] []).copy
          ((Matrix.load [[1, 0, 1], [0, 1, 1]] [] []).RREF.getNumberRows - currentRow)
          currentRow p) :=
  C29_checkColumns_terminates_depth_R exactLapack
    (Matrix.load [[1, 0, 1], [0, 1, 1]] [] []).RREF
    (Matrix.load [[1, 0, 1], [0, 1, 1]] [] []).copy (by decide!) 2
    (initialState (Matrix.load [[1, 0, 1], [0, 1, 1]] [] [])) []
    (by rw [RREF_rows, RREF_columns]
        exact runInv_initial (Matrix.load [[1, 0, 1], [0, 1, 1]] [] []))
    [-1, -1] (by decide!)

/-! ## The counters at the end of a run -/

theorem sum_map_set {α : Type} (f : α → Nat) (a : α) :
    ∀ (l : List α) (i : Nat) (b : α), l[i]? = some b →
      ((l.set i a).map f).sum + f b = (l.map f).sum + f a := by
  intro l
  induction l with
  | nil => intro i b h; simp at h
  | cons x xs ih =>
    intro i b h
    cases i with
    | zero =>
      simp only [List.getElem?_cons_zero, Option.some.injEq] at h
      subst h
      simp only [List.set_cons_zero, List.map_cons, List.sum_cons]
      omega
    | succ j =>
      simp only [List.getElem?_cons_succ] at h
      have := ih j b h
      simp only [List.set_cons_succ, List.map_cons, List.sum_cons]
      omega

theorem arrays_newBranch (width levels : Nat) : arrays levels (newBranch width) = 1 := by
  cases levels with
  | zero => rfl
  | succ n =>
    simp only [arrays, newBranch, List.map_replicate, List.sum_replicate, smul_eq_mul,
      Nat.mul_zero]

theorem branchAt_newBranch (width levels : Nat) (v : Int) (rest : List Int) :
    branchAt levels (newBranch width) (v :: rest) = false := by
  cases levels with
  | zero => rfl
  | succ n =>
    unfold branchAt
    split
    · next value branch heq => have := slotAt_newBranch heq; cases this
    · rfl

theorem branchAt_cons_some {levels : Nat} {current : List ColumnTree} {v : Int}
    {value : Bool} {branch : List ColumnTree}
    (hs : slotAt current v = some (ColumnTree.mk value (some branch))) (rest : List Int) :
    branchAt (levels + 1) current (v :: rest) = branchAt levels branch rest := by
  simp [branchAt, hs]

theorem branchAt_cons_none {levels : Nat} {current : List ColumnTree} {v : Int}
    {value : Bool} (hs : slotAt current v = some (ColumnTree.mk value none))
    (rest : List Int) :
    branchAt (levels + 1) current (v :: rest) = false := by
  simp [branchAt, hs]

theorem countP_range_shift (n : Nat) (P : Nat → Bool) :
    (List.range' 1 (n + 1)).countP P
      = (if P 1 then 1 else 0) + (List.range' 1 n).countP (fun j => P (j + 1)) := by
  rw [List.range'_succ, List.countP_cons]
  have h : List.range' (1 + 1) n = (List.range' 1 n).map (fun j => j + 1) := by
    have := List.map_add_range' 1 1 n 1
    rw [← this]
    apply List.map_congr_left
    intro a _
    omega
  rw [h, List.countP_map]
  rw [Nat.add_comm]
  rfl

theorem unbranched_cons (n : Nat) (current : List ColumnTree) (v : Int) (rest : List Int) :
    unbranched (n + 1) current (v :: rest)
      = (if !branchAt (n + 1) current [v] then 1 else 0)
        + (List.range' 1 n).countP
            (fun j => !branchAt (n + 1) current (v :: rest.take j)) := by
  unfold unbranched
  rw [countP_range_shift]
  rfl

theorem unbranched_fresh (width n : Nat) (rest : List Int) (hrl : rest.length = n + 1) :
    unbranched n (newBranch width) rest = n := by
  unfold unbranched
  have hall : ∀ j ∈ List.range' 1 n,
      (fun j => !branchAt n (newBranch width) (rest.take j)) j = true := by
    intro j hj
    have hj1 := List.mem_range'_1.mp hj
    match rest, hrl with
    | x :: xs, _ =>
      obtain ⟨i, rfl⟩ : ∃ i, j = i + 1 := ⟨j - 1, by omega⟩
      simp [List.take_succ_cons, branchAt_newBranch]
  rw [List.countP_eq_length.mpr hall, List.length_range']

theorem descend_alloc (width : Nat) :
    ∀ (levels : Nat) (current : List ColumnTree) (cursor : List Int) (ex : Bool),
      WellFormed width levels current → cursor.length = levels + 1 →
      (∀ v ∈ cursor, 0 ≤ v ∧ v < (width : Int)) →
      ∀ (r : Bool) (current1 : List ColumnTree),
        CheckedColumnsTree.descend width levels current cursor ex = some (r, current1) →
        arrays levels current1 = arrays levels current + unbranched levels current cursor ∧
        ∀ p : List Int, branchAt levels current1 p = true ↔
          branchAt levels current p = true ∨
            (p ≠ [] ∧ p.length ≤ levels ∧ p <+: cursor) := by
  intro levels
  induction levels with
  | zero =>
    intro current cursor ex hwf hlen hrange r current1 h
    refine ⟨by simp [arrays, unbranched], ?_⟩
    intro p
    cases p with
    | nil => simp [branchAt]
    | cons w q => simp [branchAt]
  | succ n ih =>
    intro current cursor ex hwf hlen hrange r current1 h
    match cursor, hlen with
    | v :: rest, hlen =>
      have hv := hrange v (by simp)
      have hrest : ∀ x ∈ rest, 0 ≤ x ∧ x < (width : Int) :=
        fun x hx => hrange x (List.mem_cons_of_mem _ hx)
      have hrl : rest.length = n + 1 := by simpa using hlen
      have hw : current.length = width := hwf.1
      have hvl : v < (current.length : Int) := by rw [hw]; exact hv.2
      obtain ⟨slot, hs, hg⟩ := slotAt_of_lt hv.1 hvl
      cases slot with
      | mk value next =>
        cases next with
        | none =>
          obtain ⟨b1, hd, _⟩ :=
            descend_spec width n (newBranch width) rest false (wellFormed_newBranch width n)
              hrl hrest
          obtain ⟨ha, hb⟩ := ih (newBranch width) rest false (wellFormed_newBranch width n)
            hrl hrest _ b1 hd
          have hc1 : current1 = current.set v.toNat (ColumnTree.mk value (some b1)) := by
            simp [CheckedColumnsTree.descend, hs, hd] at h
            exact h.2.symm
          rw [arrays_newBranch, unbranched_fresh width n rest hrl] at ha
          constructor
          · have hsum := sum_map_set (fun slot =>
              match slot with
              | ColumnTree.mk _ (some branch) => arrays n branch
              | ColumnTree.mk _ none => 0) (ColumnTree.mk value (some b1)) current v.toNat
              (ColumnTree.mk value none) hg
            simp only [] at hsum
            have hun : unbranched (n + 1) current (v :: rest) = n + 1 := by
              rw [unbranched_cons, branchAt_cons_none hs]
              have hall : ∀ j ∈ List.range' 1 n,
                  (fun j => !branchAt (n + 1) current (v :: rest.take j)) j = true := by
                intro j _
                simp [branchAt_cons_none hs]
              rw [List.countP_eq_length.mpr hall, List.length_range']
              simp
              omega
            rw [hun, hc1]
            simp only [arrays]
            omega
          · intro p
            cases p with
            | nil => simp [branchAt]
            | cons w q =>
              by_cases hwv : w = v
              · subst hwv
                rw [hc1, branchAt_cons_some (slotAt_set_self hv.1 hvl), hb q,
                  branchAt_cons_none hs]
                cases q with
                | nil => simp [branchAt]
                | cons x xs =>
                  simp [branchAt_newBranch, List.cons_prefix_cons]
              · have hne : ¬ (w :: q <+: v :: rest) := by
                  intro hp
                  exact hwv (List.cons_prefix_cons.mp hp).1
                rw [hc1]
                simp only [branchAt, slotAt_set_ne hv.1 hwv]
                simp [hne]
        | some branch =>
          have hbr : WellFormed width n branch := hwf.2 value branch (List.getElem?_mem hg)
          obtain ⟨b1, hd, _⟩ := descend_spec width n branch rest ex hbr hrl hrest
          obtain ⟨ha, hb⟩ := ih branch rest ex hbr hrl hrest _ b1 hd
          have hc1 : current1 = current.set v.toNat (ColumnTree.mk value (some b1)) := by
            simp [CheckedColumnsTree.descend, hs, hd] at h
            exact h.2.symm
          constructor
          · have hsum := sum_map_set (fun slot =>
              match slot with
              | ColumnTree.mk _ (some branch) => arrays n branch
              | ColumnTree.mk _ none => 0) (ColumnTree.mk value (some b1)) current v.toNat
              (ColumnTree.mk value (some branch)) hg
            simp only [] at hsum
            have hun : unbranched (n + 1) current (v :: rest) = unbranched n branch rest := by
              have h0 : branchAt n branch [] = true := by cases n <;> rfl
              rw [unbranched_cons, branchAt_cons_some hs, h0]
              simp only [Bool.not_true, Bool.false_eq_true, if_false, Nat.zero_add]
              unfold unbranched
              apply List.countP_congr
              intro j _
              simp only [branchAt_cons_some hs]
            rw [hun, hc1]
            simp only [arrays]
            omega
          · intro p
            cases p with
            | nil => simp [branchAt]
            | cons w q =>
              by_cases hwv : w = v
              · subst hwv
                rw [hc1, branchAt_cons_some (slotAt_set_self hv.1 hvl), hb q,
                  branchAt_cons_some hs]
                cases q with
                | nil => simp [branchAt]
                | cons x xs =>
                  simp [List.cons_prefix_cons]
              · have hne : ¬ (w :: q <+: v :: rest) := by
                  intro hp
                  exact hwv (List.cons_prefix_cons.mp hp).1
                rw [hc1]
                simp only [branchAt, slotAt_set_ne hv.1 hwv]
                simp [hne]

theorem unbranched_le (levels : Nat) (current : List ColumnTree) (cursor : List Int) :
    unbranched levels current cursor ≤ levels := by
  unfold unbranched
  have := List.countP_le_length (fun j => !branchAt levels current (cursor.take j))
    (l := List.range' 1 levels)
  rwa [List.length_range'] at this

theorem mem_prefixesUpTo {L : Nat} {keys : List (List Int)} {p : List Int} :
    p ∈ prefixesUpTo L keys ↔ ∃ k ∈ keys, ∃ j, 1 ≤ j ∧ j ≤ L ∧ k.take j = p := by
  unfold prefixesUpTo
  simp only [List.mem_flatMap, List.mem_map, List.mem_range'_1]
  constructor
  · rintro ⟨k, hk, j, ⟨h1, h2⟩, rfl⟩
    exact ⟨k, hk, j, h1, by omega, rfl⟩
  · rintro ⟨k, hk, j, h1, h2, rfl⟩
    exact ⟨k, hk, j, ⟨h1, by omega⟩, rfl⟩

theorem prefix_iff_take {L : Nat} {k p : List Int} (hk : k.length = L + 1) :
    (p ≠ [] ∧ p.length ≤ L ∧ p <+: k) ↔ ∃ j, 1 ≤ j ∧ j ≤ L ∧ k.take j = p := by
  constructor
  · rintro ⟨hne, hlen, hpre⟩
    refine ⟨p.length, ?_, hlen, (List.prefix_iff_eq_take.mp hpre).symm⟩
    cases p with
    | nil => exact absurd rfl hne
    | cons x xs => simp
  · rintro ⟨j, h1, h2, rfl⟩
    refine ⟨?_, ?_, List.take_prefix j k⟩
    · intro h
      have := congrArg List.length h
      simp only [List.length_take, List.length_nil] at this
      omega
    · simp only [List.length_take]
      omega

theorem card_prefixes_snoc (L : Nat) (seen : List (List Int)) (k : List Int)
    (hk : k.length = L + 1) :
    (prefixesUpTo L (seen ++ [k])).toFinset.card
      = (prefixesUpTo L seen).toFinset.card
        + (List.range' 1 L).countP (fun j => decide (k.take j ∉ prefixesUpTo L seen)) := by
  have hnd : (((List.range' 1 L).filter
      (fun j => decide (k.take j ∉ prefixesUpTo L seen))).map (fun j => k.take j)).Nodup := by
    apply List.Nodup.map_on
    · intro i hi j hj hij
      have hi1 := List.mem_range'_1.mp (List.mem_of_mem_filter hi)
      have hj1 := List.mem_range'_1.mp (List.mem_of_mem_filter hj)
      have := congrArg List.length hij
      simp only [List.length_take] at this
      omega
    · exact (List.nodup_range' 1 L).filter _
  have hset : (prefixesUpTo L (seen ++ [k])).toFinset
      = (prefixesUpTo L seen).toFinset ∪
        (((List.range' 1 L).filter
          (fun j => decide (k.take j ∉ prefixesUpTo L seen))).map
            (fun j => k.take j)).toFinset := by
    ext p
    simp only [Finset.mem_union, List.mem_toFinset, List.mem_map, List.mem_filter,
      decide_eq_true_eq, List.mem_range'_1]
    constructor
    · intro h
      obtain ⟨x, hx, j, h1, h2, rfl⟩ := mem_prefixesUpTo.mp h
      rcases List.mem_append.mp hx with hs | hs
      · exact Or.inl (mem_prefixesUpTo.mpr ⟨x, hs, j, h1, h2, rfl⟩)
      · rw [List.mem_singleton.mp hs]
        by_cases hin : k.take j ∈ prefixesUpTo L seen
        · exact Or.inl hin
        · exact Or.inr ⟨j, ⟨⟨h1, by omega⟩, hin⟩, rfl⟩
    · rintro (h | ⟨j, ⟨⟨h1, h2⟩, _⟩, rfl⟩)
      · obtain ⟨x, hx, j, h1, h2, rfl⟩ := mem_prefixesUpTo.mp h
        exact mem_prefixesUpTo.mpr ⟨x, List.mem_append_left _ hx, j, h1, h2, rfl⟩
      · exact mem_prefixesUpTo.mpr ⟨k, by simp, j, h1, by omega, rfl⟩
  have hdisj : Disjoint (prefixesUpTo L seen).toFinset
      (((List.range' 1 L).filter
        (fun j => decide (k.take j ∉ prefixesUpTo L seen))).map
          (fun j => k.take j)).toFinset := by
    rw [Finset.disjoint_left]
    intro p hp hq
    simp only [List.mem_toFinset, List.mem_map, List.mem_filter, decide_eq_true_eq] at hp hq
    obtain ⟨j, ⟨_, hnot⟩, rfl⟩ := hq
    exact hnot hp
  rw [hset, Finset.card_union_of_disjoint hdisj, List.toFinset_card_of_nodup hnd,
    List.length_map, List.countP_eq_length_filter]

theorem checkColumn_arrays {W D : Nat} {t : CheckedColumnsTree} {seen : List (List Int)}
    {k : List Int} (hD : 1 ≤ D) (ht : TreeHolds W D t seen) (hk : ValidKey W D k)
    (hcount : arrays (D - 1) t.checked = 1 + (prefixesUpTo (D - 1) seen).toFinset.card)
    (hpaths : ∀ p : List Int, p ≠ [] →
      (branchAt (D - 1) t.checked p = true ↔ p ∈ prefixesUpTo (D - 1) seen)) :
    ∃ r t1, t.checkColumn ⟨k⟩ = some (r, t1) ∧ TreeHolds W D t1 (seen ++ [k]) ∧
      (k ∈ seen → t1 = t) ∧
      arrays (D - 1) t1.checked ≤ arrays (D - 1) t.checked + (D - 1) ∧
      arrays (D - 1) t1.checked
        = 1 + (prefixesUpTo (D - 1) (seen ++ [k])).toFinset.card ∧
      ∀ p : List Int, p ≠ [] →
        (branchAt (D - 1) t1.checked p = true ↔ p ∈ prefixesUpTo (D - 1) (seen ++ [k])) := by
  obtain ⟨t1, hc, ht1, hsame⟩ := checkColumn_spec hD ht hk
  obtain ⟨hw, hd, hwf, _⟩ := ht
  have hlen : k.length = (D - 1) + 1 := by rw [hk.1]; omega
  have hwn : t.getWidth.toNat = W := by simp [CheckedColumnsTree.getWidth, hw]
  have hdn : (t.getDepth - 1).toNat = D - 1 := by
    simp [CheckedColumnsTree.getDepth, hd]
  obtain ⟨c1, hdesc, _⟩ := descend_spec W (D - 1) t.checked k true hwf hlen hk.2
  have ht1c : t1.checked = c1 := by
    unfold CheckedColumnsTree.checkColumn at hc
    rw [hwn, hdn] at hc
    have hc2 : (match CheckedColumnsTree.descend W (D - 1) t.checked k true with
      | none => none
      | some (r, root) => some (r, { t with checked := root }))
        = some (decide (k ∈ seen), t1) := hc
    rw [hdesc] at hc2
    simp only [Option.some.injEq, Prod.mk.injEq] at hc2
    rw [← hc2.2]
  obtain ⟨ha, hb⟩ := descend_alloc W (D - 1) t.checked k true hwf hlen hk.2 _ c1 hdesc
  have hun : unbranched (D - 1) t.checked k
      = (List.range' 1 (D - 1)).countP
          (fun j => decide (k.take j ∉ prefixesUpTo (D - 1) seen)) := by
    unfold unbranched
    apply List.countP_congr
    intro j hj
    have hj1 := List.mem_range'_1.mp hj
    have hne : k.take j ≠ [] := by
      intro h
      have := congrArg List.length h
      simp only [List.length_take, List.length_nil] at this
      omega
    have := hpaths (k.take j) hne
    simp only [Bool.not_eq_true', decide_eq_true_eq]
    rw [← this]
    simp
  refine ⟨_, t1, hc, ht1, hsame, ?_, ?_, ?_⟩
  · rw [ht1c, ha]
    have := unbranched_le (D - 1) t.checked k
    omega
  · rw [ht1c, ha, hcount, card_prefixes_snoc (D - 1) seen k hlen, hun]
    omega
  · intro p hp
    rw [ht1c, hb p, hpaths p hp, prefix_iff_take hlen, mem_prefixesUpTo, mem_prefixesUpTo]
    constructor
    · rintro (⟨x, hx, j, h1, h2, h3⟩ | ⟨j, h1, h2, h3⟩)
      · exact ⟨x, List.mem_append_left _ hx, j, h1, h2, h3⟩
      · exact ⟨k, by simp, j, h1, h2, h3⟩
    · rintro ⟨x, hx, j, h1, h2, h3⟩
      rcases List.mem_append.mp hx with h | h
      · exact Or.inl ⟨x, h, j, h1, h2, h3⟩
      · rw [List.mem_singleton.mp h] at h3
        exact Or.inr ⟨j, h1, h2, h3⟩

theorem checkAll_arrays {W D : Nat} (hD : 1 ≤ D) (keys : List (List Int)) :
    ∀ {t : CheckedColumnsTree} {seen : List (List Int)}, TreeHolds W D t seen →
      arrays (D - 1) t.checked = 1 + (prefixesUpTo (D - 1) seen).toFinset.card →
      (∀ p : List Int, p ≠ [] →
        (branchAt (D - 1) t.checked p = true ↔ p ∈ prefixesUpTo (D - 1) seen)) →
      (∀ k ∈ keys, ValidKey W D k) →
      ∃ t1, checkAll t keys = some t1 ∧ TreeHolds W D t1 (seen ++ keys) ∧
        arrays (D - 1) t1.checked
          = 1 + (prefixesUpTo (D - 1) (seen ++ keys)).toFinset.card ∧
        ∀ p : List Int, p ≠ [] →
          (branchAt (D - 1) t1.checked p = true ↔
            p ∈ prefixesUpTo (D - 1) (seen ++ keys)) := by
  induction keys with
  | nil =>
    intro t seen ht hc hp _
    exact ⟨t, rfl, by simpa using ht, by simpa using hc, by simpa using hp⟩
  | cons k ks ih =>
    intro t seen ht hc hp hk
    obtain ⟨r, t1, h1, ht1, _, _, hc1, hp1⟩ :=
      checkColumn_arrays hD ht (hk k (List.mem_cons_self _ _)) hc hp
    obtain ⟨t2, h2, ht2, hc2, hp2⟩ :=
      ih ht1 hc1 hp1 (fun x hx => hk x (List.mem_cons_of_mem _ hx))
    refine ⟨t2, ?_, by simpa using ht2, by simpa using hc2, by simpa using hp2⟩
    rw [checkAll_cons, h1]
    exact h2

/-- C23. For every trie of width `W` and depth `D >= 1` and every sequence of
`checkColumn` calls with sequences of `D` values in `[0, W)`, starting from the trie
the constructor builds, the number of arrays allocated (the root included) is `1`
plus the number of distinct non-empty prefixes of length at most `D - 1` of the
sequences passed; one more call allocates at most `D - 1` arrays, and none when its
sequence was passed before. -/
theorem C23_trie_arrays_count_prefixes (W D : Nat) (hD : 1 ≤ D) (keys : List (List Int))
    (hk : ∀ k ∈ keys, ValidKey W D k) :
    ∃ t, checkAll (CheckedColumnsTree.create (W : Int) (D : Int)) keys = some t ∧
      arrays (D - 1) t.checked = 1 + ((prefixesUpTo (D - 1) keys).dedup).length ∧
      ∀ k, ValidKey W D k →
        ∃ r t1, t.checkColumn ⟨k⟩ = some (r, t1) ∧
          arrays (D - 1) t1.checked ≤ arrays (D - 1) t.checked + (D - 1) ∧
          arrays (D - 1) t1.checked
            = 1 + ((prefixesUpTo (D - 1) (keys ++ [k])).dedup).length ∧
          (k ∈ keys → arrays (D - 1) t1.checked = arrays (D - 1) t.checked) := by
  have h0 : arrays (D - 1) (CheckedColumnsTree.create (W : Int) (D : Int)).checked
      = 1 + (prefixesUpTo (D - 1) []).toFinset.card := by
    simp [CheckedColumnsTree.create, arrays_newBranch, prefixesUpTo]
  have hp0 : ∀ p : List Int, p ≠ [] →
      (branchAt (D - 1) (CheckedColumnsTree.create (W : Int) (D : Int)).checked p = true ↔
        p ∈ prefixesUpTo (D - 1) []) := by
    intro p hp
    cases p with
    | nil => exact absurd rfl hp
    | cons v rest => simp [CheckedColumnsTree.create, branchAt_newBranch, prefixesUpTo]
  obtain ⟨t, h1, ht, hc, hp⟩ := checkAll_arrays hD keys (treeHolds_create W D) h0 hp0 hk
  rw [List.nil_append] at ht hc hp
  refine ⟨t, h1, by rw [hc, List.card_toFinset], ?_⟩
  intro k hkv
  obtain ⟨r, t1, h2, _, hsame, hle, hc1, _⟩ := checkColumn_arrays hD ht hkv hc hp
  exact ⟨r, t1, h2, hle, by rw [hc1, List.card_toFinset], fun hin => by rw [hsame hin]⟩

theorem C23_trie_arrays_count_prefixes_witness :
    ((prefixesUpTo (3 - 1) [[0, 1, 2], [0, 1, 1], [0, 2, 1], [1, 0, 2]]).dedup).length = 5 ∧
    ∃ t, checkAll (CheckedColumnsTree.create ((3 : Nat) : Int) ((3 : Nat) : Int))
        [[0, 1, 2], [0, 1, 1], [0, 2, 1], [1, 0, 2]] = some t ∧
      arrays (3 - 1) t.checked
        = 1 + ((prefixesUpTo (3 - 1) [[0, 1, 2], [0, 1, 1], [0, 2, 1], [1, 0, 2]]).dedup).length ∧
      ∀ k, ValidKey 3 3 k →
        ∃ r t1, t.checkColumn ⟨k⟩ = some (r, t1) ∧
          arrays (3 - 1) t1.checked ≤ arrays (3 - 1) t.checked + (3 - 1) ∧
          arrays (3 - 1) t1.checked
            = 1 + ((prefixesUpTo (3 - 1)
                ([[0, 1, 2], [0, 1, 1], [0, 2, 1], [1, 0, 2]] ++ [k])).dedup).length ∧
          (k ∈ [[0, 1, 2], [0, 1, 1], [0, 2, 1], [1, 0, 2]] →
            arrays (3 - 1) t1.checked = arrays (3 - 1) t.checked) :=
  ⟨by decide,
    C23_trie_arrays_count_prefixes 3 3 (by decide)
      [[0, 1, 2], [0, 1, 1], [0, 2, 1], [1, 0, 2]] (by decide)⟩

/-! ## The leaves of the search -/

theorem leaves_eq_candidates (rref orig : Matrix) :
    ∀ (fuel currentRow : Nat) (pre : List Int),
      leaves rref orig fuel currentRow pre
        = candidates rref (withoutUnknowable orig) fuel currentRow pre := by
  intro fuel
  induction fuel with
  | zero => intro r pre; rfl
  | succ n ih =>
    intro r pre
    rw [leaves, candidates]
    congr 1
    funext lupe
    unfold leavesStep candidatesStep
    have hadm : admissible rref (withoutUnknowable orig) r pre lupe
        = admissible rref orig r pre lupe := rfl
    have hall : (withoutUnknowable orig).allColumnsInUnknowable (pre ++ [(lupe : Int)]) (r + 1)
        = true := rfl
    rw [hadm, hall, ih]
    simp

theorem candidates_eq_filter (rref orig : Matrix) :
    ∀ (fuel currentRow : Nat) (pre : List Int), pre.length = currentRow →
      currentRow < rref.getNumberRows →
      candidates rref orig fuel currentRow pre
        = (leaves rref orig fuel currentRow pre).filter
            (fun b => orig.allColumnsInUnknowable b rref.getNumberRows) := by
  intro fuel
  induction fuel with
  | zero => intro r pre _ _; rfl
  | succ n ih =>
    intro r pre hpre hrow
    rw [leaves, candidates, List.filter_flatMap]
    congr 1
    funext lupe
    unfold leavesStep candidatesStep
    by_cases hadm : admissible rref orig r pre lupe = true
    · rw [if_pos hadm, if_pos hadm]
      by_cases hleaf : r + 1 ≥ rref.getNumberRows
      · rw [if_pos hleaf, if_pos hleaf]
        have hR : rref.getNumberRows = r + 1 := by omega
        rw [hR]
        by_cases hcov : orig.allColumnsInUnknowable (pre ++ [(lupe : Int)]) (r + 1) = true
        · rw [if_pos hcov]; simp [hcov]
        · rw [if_neg hcov]; simp [hcov]
      · rw [if_neg hleaf, if_neg hleaf]
        exact ih (r + 1) (pre ++ [(lupe : Int)]) (by simp [hpre]) (by omega)
    · rw [if_neg hadm, if_neg hadm]
      rfl

theorem mem_leaves (rref orig : Matrix) (fuel currentRow : Nat) (pre b : List Int)
    (hpre : pre.length = currentRow) (hrow : currentRow < rref.getNumberRows)
    (hfuel : rref.getNumberRows ≤ fuel + currentRow) :
    b ∈ leaves rref orig fuel currentRow pre ↔
      b.take currentRow = pre ∧ b.length = rref.getNumberRows ∧
      ∀ r, currentRow ≤ r → r < rref.getNumberRows → ChosenAt rref orig b r := by
  rw [leaves_eq_candidates,
    mem_candidates rref (withoutUnknowable orig) fuel currentRow pre b hpre hrow hfuel]
  have hall : (withoutUnknowable orig).allColumnsInUnknowable b rref.getNumberRows
      = true := rfl
  constructor
  · rintro ⟨h1, h2, h3, _⟩
    exact ⟨h1, h2, h3⟩
  · rintro ⟨h1, h2, h3⟩
    exact ⟨h1, h2, h3, hall⟩

theorem lex_append_left (pre : List Int) {x y : List Int}
    (h : List.Lex (· < ·) x y) : List.Lex (· < ·) (pre ++ x) (pre ++ y) := by
  induction pre with
  | nil => exact h
  | cons a t ih => exact List.Lex.cons ih

theorem lex_of_take {x y pre : List Int} {row : Nat} {a b : Int}
    (hx : x.take (row + 1) = pre ++ [a]) (hy : y.take (row + 1) = pre ++ [b])
    (hab : a < b) : List.Lex (· < ·) x y := by
  have h1 : x = pre ++ (a :: x.drop (row + 1)) := by
    conv_lhs => rw [← List.take_append_drop (row + 1) x, hx]
    simp
  have h2 : y = pre ++ (b :: y.drop (row + 1)) := by
    conv_lhs => rw [← List.take_append_drop (row + 1) y, hy]
    simp
  rw [h1, h2]
  exact lex_append_left pre (List.Lex.rel hab)

theorem leavesStep_take (rref orig : Matrix) (n currentRow : Nat) (pre : List Int)
    (hpre : pre.length = currentRow) (hfuel : rref.getNumberRows ≤ n + 1 + currentRow)
    (lupe : Nat) (x : List Int)
    (hx : x ∈ leavesStep rref orig (leaves rref orig n (currentRow + 1)) currentRow pre lupe) :
    x.take (currentRow + 1) = pre ++ [(lupe : Int)] := by
  unfold leavesStep at hx
  by_cases hadm : admissible rref orig currentRow pre lupe = true
  · rw [if_pos hadm] at hx
    by_cases hleaf : currentRow + 1 ≥ rref.getNumberRows
    · rw [if_pos hleaf] at hx
      rw [List.mem_singleton.mp hx]
      exact List.take_of_length_le (by simp [hpre])
    · rw [if_neg hleaf] at hx
      exact ((mem_leaves rref orig n (currentRow + 1) (pre ++ [(lupe : Int)]) x
        (by simp [hpre]) (by omega) (by omega)).mp hx).1
  · rw [if_neg hadm] at hx
    exact absurd hx (List.not_mem_nil x)

theorem leaves_sorted (rref orig : Matrix) :
    ∀ (fuel currentRow : Nat) (pre : List Int), pre.length = currentRow →
      rref.getNumberRows ≤ fuel + currentRow →
      (leaves rref orig fuel currentRow pre).Pairwise (List.Lex (· < ·)) := by
  intro fuel
  induction fuel with
  | zero => intro r pre _ _; exact List.Pairwise.nil
  | succ n ih =>
    intro r pre hpre hfuel
    rw [leaves, List.pairwise_flatMap]
    constructor
    · intro lupe _
      unfold leavesStep
      by_cases hadm : admissible rref orig r pre lupe = true
      · rw [if_pos hadm]
        by_cases hleaf : r + 1 ≥ rref.getNumberRows
        · rw [if_pos hleaf]; exact List.pairwise_singleton _ _
        · rw [if_neg hleaf]
          exact ih (r + 1) (pre ++ [(lupe : Int)]) (by simp [hpre]) (by omega)
      · rw [if_neg hadm]; exact List.Pairwise.nil
    · apply List.Pairwise.imp _ (List.pairwise_lt_range _)
      intro a b hab x hx y hy
      exact lex_of_take (leavesStep_take rref orig n r pre hpre hfuel a x hx)
        (leavesStep_take rref orig n r pre hpre hfuel b y hy) (by exact_mod_cast hab)

theorem lex_irrefl (x : List Int) : ¬ List.Lex (· < ·) x x := by
  induction x with
  | nil => intro h; cases h
  | cons a t ih =>
    intro h
    cases h with
    | cons h1 => exact ih h1
    | rel h1 => exact lt_irrefl a h1

theorem mem_leaves_top (rref m : Matrix) (hR : 1 ≤ rref.getNumberRows) (b : List Int) :
    b ∈ leaves rref m.copy rref.getNumberRows 0 [] ↔
      b.length = rref.getNumberRows ∧ b.Nodup ∧
      ∀ r, r < rref.getNumberRows →
        ∃ c : Nat, c < rref.getNumberColumns ∧ b[r]? = some (c : Int) ∧
          fabs (rref.entry r c) > tol ∧ (c : Int) ∉ m.knownColumns.columns := by
  rw [mem_leaves rref m.copy rref.getNumberRows 0 [] b rfl (by omega) (by omega)]
  have hknown : ∀ c : Nat, m.copy.columnEntryInKnown (c : Int) = false ↔
      (c : Int) ∉ m.knownColumns.columns := by
    intro c
    rw [← copy_columnEntryInKnown m (c : Int)]
    simp
  constructor
  · rintro ⟨_, hlen, hch⟩
    have hre : Reached rref (withoutUnknowable m.copy) b :=
      ⟨hlen, fun r hr => hch r (Nat.zero_le _) hr, rfl⟩
    refine ⟨hlen, hre.nodup, ?_⟩
    intro r hr
    obtain ⟨c, hc, hg, hadm⟩ := hch r (Nat.zero_le _) hr
    obtain ⟨h1, _, h3⟩ := (admissible_iff rref m.copy r (b.take r) c).mp hadm
    exact ⟨c, hc, hg, h1, (hknown c).mp h3⟩
  · rintro ⟨hlen, hnd, hall⟩
    refine ⟨by simp, hlen, ?_⟩
    intro r _ hr
    obtain ⟨c, hc, hg, h1, h3⟩ := hall r hr
    refine ⟨c, hc, hg, (admissible_iff rref m.copy r (b.take r) c).mpr
      ⟨h1, ?_, (hknown c).mpr h3⟩⟩
    intro hmem
    obtain ⟨i, hi⟩ := List.getElem?_of_mem hmem
    have hir : i < r := by
      by_contra hge
      simp [List.getElem?_take, hge] at hi
    rw [List.getElem?_take_of_lt hir] at hi
    exact (List.nodup_iff_getElem?_ne_getElem?.mp hnd) i r hir (by rw [hlen]; exact hr)
      (by rw [hi, hg])

/-- C24. For every reduced matrix with `R >= 1` rows and every known list, the index
buffers that `checkColumns` from row `0` brings to a leaf are exactly the lists of
`R` columns `c_0, ..., c_(R-1) < C` with `|rref[r][c_r]| > 1e-9` for every row `r`,
pairwise distinct, none of them a known column. Each is reached once, and they are
reached in lexicographic order. The buffers handed to `testFullColumnSet` are the
leaves that pass the unknowable check, in the same order. -/
theorem C24_leaves_are_the_admissible_tuples (rref m : Matrix)
    (hR : 1 ≤ rref.getNumberRows) :
    (∀ b : List Int, b ∈ leaves rref m.copy rref.getNumberRows 0 [] ↔
      b.length = rref.getNumberRows ∧ b.Nodup ∧
      ∀ r, r < rref.getNumberRows →
        ∃ c : Nat, c < rref.getNumberColumns ∧ b[r]? = some (c : Int) ∧
          fabs (rref.entry r c) > tol ∧ (c : Int) ∉ m.knownColumns.columns) ∧
    (leaves rref m.copy rref.getNumberRows 0 []).Nodup ∧
    (leaves rref m.copy rref.getNumberRows 0 []).Pairwise (List.Lex (· < ·)) ∧
    candidates rref m.copy rref.getNumberRows 0 []
      = (leaves rref m.copy rref.getNumberRows 0 []).filter
          (fun b => m.copy.allColumnsInUnknowable b rref.getNumberRows) ∧
    ∀ (K : Lapack) (buf : List Int), buf.length = rref.getNumberRows →
      ∃ buf1 : List Int, ∀ st, checkColumns K rref m.copy rref.getNumberRows 0 (buf, st)
        = (testAll K m.copy
            ((leaves rref m.copy rref.getNumberRows 0 []).filter
              (fun b => m.copy.allColumnsInUnknowable b rref.getNumberRows)) st).map
            (fun s => (buf1, s)) := by
  have hsorted := leaves_sorted rref m.copy rref.getNumberRows 0 [] rfl (by omega)
  have hfilter := candidates_eq_filter rref m.copy rref.getNumberRows 0 [] rfl (by omega)
  refine ⟨mem_leaves_top rref m hR, ?_, hsorted, hfilter, ?_⟩
  · apply List.Pairwise.imp _ hsorted
    intro a b h hab
    subst hab
    exact lex_irrefl a h
  · intro K buf hlen
    obtain ⟨buf1, _, _, hrun⟩ := checkColumns_eq_testAll K rref m.copy rref.getNumberRows 0
      buf hlen (by omega) (by omega)
    refine ⟨buf1, fun st => ?_⟩
    rw [hrun st, List.take_zero, hfilter]

theorem C24_leaves_are_the_admissible_tuples_witness :
    leaves (Matrix.load [[1, 0, 1], [0, 1, 1]] [] []).RREF
      (Matrix.load [[1, 0, 1], [0, 1, 1]] [] []).copy
      (Matrix.load [[1, 0, 1], [0, 1, 1]] [] []).RREF.getNumberRows 0 []
      = [[0, 1], [0, 2], [2, 1]] ∧
    ((∀ b : List Int, b ∈ leaves (Matrix.load [[1, 0, 1], [0, 1, 1]] [] []).RREF
        (Matrix.load [[1, 0, 1], [0, 1, 1]] [] []).copy
        (Matrix.load [[1, 0, 1], [0, 1, 1]] [] []).RREF.getNumberRows 0 [] ↔
      b.length = (Matrix.load [[1, 0, 1], [0, 1, 1]] [] []).RREF.getNumberRows ∧ b.Nodup ∧
      ∀ r, r < (Matrix.load [[1, 0, 1], [0, 1, 1]] [] []).RREF.getNumberRows →
        ∃ c : Nat, c < (Matrix.load [[1, 0, 1], [0, 1, 1]] [] []).RREF.getNumberColumns ∧
          b[r]? = some (c : Int) ∧
          fabs ((Matrix.load [[1, 0, 1], [0, 1, 1]] [] []).RREF.entry r c) > tol ∧
          (c : Int) ∉ (Matrix.load [[1, 0, 1], [0, 1, 1]] [] []).knownColumns.columns) ∧
    (leaves (Matrix.load [[1, 0, 1], [0, 1, 1]] [] []).RREF
      (Matrix.load [[1, 0, 1], [0, 1, 1]] [] []).copy
      (Matrix.load [[1, 0, 1], [0, 1, 1]] [] []).RREF.getNumberRows 0 []).Nodup ∧
    (leaves (Matrix.load [[1, 0, 1], [0, 1, 1]] [] []).RREF
      (Matrix.load [[1, 0, 1], [0, 1, 1]] [] []).copy
      (Matrix.load [[1, 0, 1], [0, 1, 1]] [] []).RREF.getNumberRows 0 []).Pairwise
        (List.Lex (· < ·)) ∧
    candidates (Matrix.load [[1, 0, 1], [0, 1, 1]] [] []).RREF
        (Matrix.load [[1, 0, 1], [0, 1, 1]] [] []).copy
        (Matrix.load [[1, 0, 1], [0, 1, 1]] [] []).RREF.getNumberRows 0 []
      = (leaves (Matrix.load [[1, 0, 1], [0, 1, 1]] [] []).RREF
          (Matrix.load [[1, 0, 1], [0, 1, 1]] [] []).copy
          (Matrix.load [[1, 0, 1], [0, 1, 1]] [] []).RREF.getNumberRows 0 []).filter
          (fun b => (Matrix.load [[1, 0, 1], [0, 1, 1]] [] []).copy.allColumnsInUnknowable b
            (Matrix.load [[1, 0, 1], [0, 1, 1]] [] []).RREF.getNumberRows) ∧
    ∀ (K : Lapack) (buf : List Int),
      buf.length = (Matrix.load [[1, 0, 1], [0, 1, 1]] [] []).RREF.getNumberRows →
      ∃ buf1 : List Int, ∀ st,
        checkColumns K (Matrix.load [[1, 0, 1], [0, 1, 1]] [] []).RREF
          (Matrix.load [[1, 0, 1], [0, 1, 1]] [] []).copy
          (Matrix.load [[1, 0, 1], [0, 1, 1]] [] []).RREF.getNumberRows 0 (buf, st)
        = (testAll K (Matrix.load [[1, 0, 1], [0, 1, 1]] [] []).copy
            ((leaves (Matrix.load [[1, 0, 1], [0, 1, 1]] [] []).RREF
              (Matrix.load [[1, 0, 1], [0, 1, 1]] [] []).copy
              (Matrix.load [[1, 0, 1], [0, 1, 1]] [] []).RREF.getNumberRows 0 []).filter
              (fun b => (Matrix.load [[1, 0, 1], [0, 1, 1]] [] []).copy.allColumnsInUnknowable b
                (Matrix.load [[1, 0, 1], [0, 1, 1]] [] []).RREF.getNumberRows)) st).map
            (fun s => (buf1, s))) :=
  ⟨by decide!,
    C24_leaves_are_the_admissible_tuples (Matrix.load [[1, 0, 1], [0, 1, 1]] [] []).RREF
      (Matrix.load [[1, 0, 1], [0, 1, 1]] [] []) (by decide!)⟩

/-! ## `combinations`: the running value -/

theorem choose_step (n i : Nat) (hi : i ≤ n) :
    (Nat.choose n i : Int) * ((n : Int) - i) = (Nat.choose n (i + 1) : Int) * ((i : Int) + 1) := by
  have h := Nat.choose_succ_right_eq n i
  have h2 : ((Nat.choose n (i + 1) * (i + 1) : Nat) : Int)
      = ((Nat.choose n i * (n - i) : Nat) : Int) := by rw [h]
  have hsub : ((n - i : Nat) : Int) = (n : Int) - i := by omega
  push_cast at h2
  rw [hsub] at h2
  exact h2.symm

theorem combinationsSteps_choose (n k : Nat) (hk : k ≤ n) :
    ∀ (fuel i : Nat), i + fuel = k →
      combinationsSteps ((n : Int) - k) fuel ((n : Int) - i) (Nat.choose n i) ((i : Int) + 1)
        = (List.range' i fuel).map (fun j =>
            ((Nat.choose n j : Int) * ((n : Int) - j), (j : Int) + 1,
              (Nat.choose n (j + 1) : Int))) := by
  intro fuel
  induction fuel with
  | zero => intro i _; rfl
  | succ f ih =>
    intro i hi
    unfold combinationsSteps
    rw [if_pos (by omega)]
    have hstep : Int.tdiv ((Nat.choose n i : Int) * ((n : Int) - i)) ((i : Int) + 1)
        = (Nat.choose n (i + 1) : Int) := by
      rw [choose_step n i (by omega)]
      exact Int.mul_tdiv_cancel _ (by omega)
    rw [hstep, List.range'_succ, List.map_cons]
    have := ih (i + 1) (by omega)
    have e1 : (n : Int) - i - 1 = (n : Int) - ((i + 1 : Nat) : Int) := by push_cast; ring
    have e2 : (i : Int) + 1 + 1 = ((i + 1 : Nat) : Int) + 1 := by push_cast; ring
    rw [e1, e2, this]

theorem combinationsLoop_prefix (n k : Nat) (hk : k ≤ n) :
    ∀ (fuel i : Nat), i + fuel ≤ k →
      combinationsLoop ((n : Int) - k) fuel ((n : Int) - i) (Nat.choose n i) ((i : Int) + 1)
        = (Nat.choose n (i + fuel) : Int) := by
  intro fuel
  induction fuel with
  | zero => intro i _; rfl
  | succ f ih =>
    intro i hi
    unfold combinationsLoop
    rw [if_pos (by omega)]
    have hstep : Int.tdiv ((Nat.choose n i : Int) * ((n : Int) - i)) ((i : Int) + 1)
        = (Nat.choose n (i + 1) : Int) := by
      rw [choose_step n i (by omega)]
      exact Int.mul_tdiv_cancel _ (by omega)
    rw [hstep]
    have := ih (i + 1) (by omega)
    have e1 : (n : Int) - i - 1 = (n : Int) - ((i + 1 : Nat) : Int) := by push_cast; ring
    have e2 : (i : Int) + 1 + 1 = ((i + 1 : Nat) : Int) + 1 := by push_cast; ring
    have e3 : i + (f + 1) = i + 1 + f := by omega
    rw [e1, e2, e3]
    exact this

theorem wrapLong_eq (x : Int) (h0 : 0 ≤ x) (h1 : x < 2 ^ 63) : wrapLong x = x := by
  unfold wrapLong
  norm_num at h1 ⊢
  omega

theorem combinationsStepsLong_choose (n k : Nat) (hk : k ≤ n)
    (hfit : ∀ j : Nat, j < k → (Nat.choose n j : Int) * ((n : Int) - j) < 2 ^ 63) :
    ∀ (fuel i : Nat), i + fuel = k →
      combinationsStepsLong ((n : Int) - k) fuel ((n : Int) - i) (Nat.choose n i)
          ((i : Int) + 1)
        = (List.range' i fuel).map (fun j =>
            ((Nat.choose n j : Int) * ((n : Int) - j), (j : Int) + 1,
              (Nat.choose n (j + 1) : Int))) := by
  intro fuel
  induction fuel with
  | zero => intro i _; rfl
  | succ f ih =>
    intro i hi
    unfold combinationsStepsLong
    rw [if_pos (by omega)]
    have hw : wrapLong ((Nat.choose n i : Int) * ((n : Int) - i))
        = (Nat.choose n i : Int) * ((n : Int) - i) :=
      wrapLong_eq _ (mul_nonneg (by positivity) (by omega)) (hfit i (by omega))
    have hstep : Int.tdiv ((Nat.choose n i : Int) * ((n : Int) - i)) ((i : Int) + 1)
        = (Nat.choose n (i + 1) : Int) := by
      rw [choose_step n i (by omega)]
      exact Int.mul_tdiv_cancel _ (by omega)
    rw [hw, hstep, List.range'_succ, List.map_cons]
    have := ih (i + 1) (by omega)
    have e1 : (n : Int) - i - 1 = (n : Int) - ((i + 1 : Nat) : Int) := by push_cast; ring
    have e2 : (i : Int) + 1 + 1 = ((i + 1 : Nat) : Int) + 1 := by push_cast; ring
    rw [e1, e2, this]

theorem combinationsLoopLong_prefix (n k : Nat) (hk : k ≤ n)
    (hfit : ∀ j : Nat, j < k → (Nat.choose n j : Int) * ((n : Int) - j) < 2 ^ 63) :
    ∀ (fuel i : Nat), i + fuel ≤ k →
      combinationsLoopLong ((n : Int) - k) fuel ((n : Int) - i) (Nat.choose n i)
          ((i : Int) + 1)
        = (Nat.choose n (i + fuel) : Int) := by
  intro fuel
  induction fuel with
  | zero => intro i _; rfl
  | succ f ih =>
    intro i hi
    unfold combinationsLoopLong
    rw [if_pos (by omega)]
    have hw : wrapLong ((Nat.choose n i : Int) * ((n : Int) - i))
        = (Nat.choose n i : Int) * ((n : Int) - i) :=
      wrapLong_eq _ (mul_nonneg (by positivity) (by omega)) (hfit i (by omega))
    have hstep : Int.tdiv ((Nat.choose n i : Int) * ((n : Int) - i)) ((i : Int) + 1)
        = (Nat.choose n (i + 1) : Int) := by
      rw [choose_step n i (by omega)]
      exact Int.mul_tdiv_cancel _ (by omega)
    rw [hw, hstep]
    have := ih (i + 1) (by omega)
    have e1 : (n : Int) - i - 1 = (n : Int) - ((i + 1 : Nat) : Int) := by push_cast; ring
    have e2 : (i : Int) + 1 + 1 = ((i + 1 : Nat) : Int) + 1 := by push_cast; ring
    have e3 : i + (f + 1) = i + 1 + f := by omega
    rw [e1, e2, e3]
    exact this

theorem choose_62_28 : (Nat.choose 62 28 : Int) = 349615716557887465 := by
  have := combinationsLoop_prefix 62 31 (by decide) 28 0 (by decide)
  rw [← this]
  decide!

theorem choose_62_31 : (Nat.choose 62 31 : Int) = 465428353255261088 := by
  have := combinationsLoop_prefix 62 31 (by decide) 31 0 (by decide)
  rw [← this]
  decide!

/-- C32 (counterexample). With `long` of 64 bits `combinations(62, 31)` is inside the
branch that runs the loop (`31 <= 62 <= 2*31`). The first 27 iterations hold
`C(62, i)`; in iteration 28 the product `C(62, 27) * 35 = 9789240063620849020` is
above `2^63 - 1`, the `long` holds `-8657504010088702596`, which `28` does not
divide, and the value stored is `-309196571788882235`, not `C(62, 28)`. The function
returns `-284401161134521734`, not `C(62, 31) = 465428353255261088`. -/
theorem C32_counterexample_overflow_at_62_31 :
    (31 : Int) ≤ 62 ∧ (62 : Int) ≤ 2 * 31 ∧
    combinationsLong 62 31 = some (-284401161134521734) ∧
    (Nat.choose 62 31 : Int) = 465428353255261088 ∧
    combinationsLoopLong (62 - 31) 27 62 1 1 = 279692573246309972 ∧
    (279692573246309972 : Int) * 35 = 9789240063620849020 ∧
    (2 : Int) ^ 63 - 1 < 9789240063620849020 ∧
    (combinationsStepsLong (62 - 31) 31 62 1 1).getD 27 (0, 0, 0)
      = (-8657504010088702596, 28, -309196571788882235) ∧
    ¬ ((28 : Int) ∣ -8657504010088702596) ∧
    Int.tdiv (-8657504010088702596) 28 * 28 ≠ -8657504010088702596 ∧
    (Nat.choose 62 28 : Int) = 349615716557887465 := by
  refine ⟨by decide, by decide, by decide!, choose_62_31, by decide!, by decide,
    by decide, by decide!, by decide, by decide, choose_62_28⟩

/-- C32 (amended). With `long` of 64 bits, in `combinations(n, k)` with
`0 <= k <= n` and `2k >= n`, provided no product formed by the loop reaches `2^63`
(`C(n, j) * (n - j) < 2^63` for every `j < k`): the loop runs, and it runs `k` times;
in iteration `i` (counted from `1`) the dividend held by the `long` is
`C(n, i-1) * (n - i + 1)`, the divisor is `i`, the divisor divides the dividend, and
the value stored is `C(n, i)`; the truncating division loses nothing. Cut after `i`
iterations (`i <= k`) the loop holds `C(n, i)`. -/
theorem C32_running_value_is_binomial_without_overflow (n k : Nat) (hk : k ≤ n)
    (h2 : n ≤ 2 * k)
    (hfit : ∀ j : Nat, j < k → (Nat.choose n j : Int) * ((n : Int) - j) < 2 ^ 63) :
    combinationsLong (n : Int) (k : Int)
      = some (combinationsLoopLong ((n : Int) - k) k (n : Int) 1 1) ∧
    combinationsStepsLong ((n : Int) - k) k (n : Int) 1 1
      = (List.range k).map (fun j =>
          ((Nat.choose n j : Int) * ((n : Int) - j), (j : Int) + 1,
            (Nat.choose n (j + 1) : Int))) ∧
    (∀ i : Nat, i ≤ k →
      combinationsLoopLong ((n : Int) - k) i (n : Int) 1 1 = (Nat.choose n i : Int)) ∧
    (∀ d ∈ combinationsStepsLong ((n : Int) - k) k (n : Int) 1 1,
      d.2.1 ∣ d.1 ∧ d.2.2 * d.2.1 = d.1) := by
  have hsteps : combinationsStepsLong ((n : Int) - k) k (n : Int) 1 1
      = (List.range k).map (fun j =>
          ((Nat.choose n j : Int) * ((n : Int) - j), (j : Int) + 1,
            (Nat.choose n (j + 1) : Int))) := by
    have := combinationsStepsLong_choose n k hk hfit k 0 (by omega)
    simpa [List.range_eq_range'] using this
  refine ⟨?_, hsteps, ?_, ?_⟩
  · unfold combinationsLong
    rw [combinationsDepthLong, if_neg (by omega), if_neg (by omega)]
    simp
  · intro i hi
    have := combinationsLoopLong_prefix n k hk hfit i 0 (by omega)
    simpa using this
  · intro d hd
    rw [hsteps, List.mem_map] at hd
    obtain ⟨j, hj, rfl⟩ := hd
    rw [List.mem_range] at hj
    have hs := choose_step n j (by omega)
    constructor
    · show ((j : Int) + 1) ∣ (Nat.choose n j : Int) * ((n : Int) - j)
      rw [hs]; exact Dvd.intro_left _ rfl
    · show (Nat.choose n (j + 1) : Int) * ((j : Int) + 1)
        = (Nat.choose n j : Int) * ((n : Int) - j)
      exact hs.symm

theorem C32_running_value_is_binomial_without_overflow_witness :
    (∀ j : Nat, j < 3 → (Nat.choose 5 j : Int) * (((5 : Nat) : Int) - j) < 2 ^ 63) ∧
    combinationsLong ((5 : Nat) : Int) ((3 : Nat) : Int)
      = some (combinationsLoopLong (((5 : Nat) : Int) - (3 : Nat)) 3 ((5 : Nat) : Int) 1 1) ∧
    combinationsStepsLong (((5 : Nat) : Int) - (3 : Nat)) 3 ((5 : Nat) : Int) 1 1
      = (List.range 3).map (fun j =>
          ((Nat.choose 5 j : Int) * (((5 : Nat) : Int) - j), (j : Int) + 1,
            (Nat.choose 5 (j + 1) : Int))) ∧
    (∀ i : Nat, i ≤ 3 →
      combinationsLoopLong (((5 : Nat) : Int) - (3 : Nat)) i ((5 : Nat) : Int) 1 1
        = (Nat.choose 5 i : Int)) ∧
    (∀ d ∈ combinationsStepsLong (((5 : Nat) : Int) - (3 : Nat)) 3 ((5 : Nat) : Int) 1 1,
      d.2.1 ∣ d.1 ∧ d.2.2 * d.2.1 = d.1) :=
  ⟨by decide, C32_running_value_is_binomial_without_overflow 5 3 (by decide) (by decide)
    (by decide)⟩

/-! ## The cursor of `FoundFeasible` -/

theorem iterate_spec {σ : Type} (body : Int → σ → σ) (columns : List Int) :
    ∀ (fuel pos : Nat) (s : σ), pos ≤ columns.length → columns.length < fuel + pos →
      Cursor.iterate body fuel ⟨columns, pos⟩ s
        = some ((columns.drop pos).foldl (fun s v => body v s) s) := by
  intro fuel
  induction fuel with
  | zero => intro pos s h1 h2; omega
  | succ n ih =>
    intro pos s h1 h2
    unfold Cursor.iterate
    by_cases hend : pos = columns.length
    · have hd : (⟨columns, pos⟩ : Cursor).iterationDone = false := by
        simp [Cursor.iterationDone, hend]
      rw [hd]
      simp [hend]
    · have hlt : pos < columns.length := by omega
      have hd : (⟨columns, pos⟩ : Cursor).iterationDone = true := by
        simp [Cursor.iterationDone, hend]
      have hv : (⟨columns, pos⟩ : Cursor).currentValue = some columns[pos] := by
        simp [Cursor.currentValue, hlt]
      rw [hd, hv]
      simp only [if_true, Cursor.next]
      rw [ih (pos + 1) _ (by omega) (by omega), List.drop_eq_getElem_cons hlt]
      rfl

/-- C35. `iterationDone()` returns `true` exactly while the cursor is before the end of
the list and `false` at the end. The loop `for(startIteration(); iterationDone();
next())` on a list built by `addColumn` returns (one test more than the list has
entries is enough), and its body sees every stored value once, in the order of the
list, which is ascending; every value inserted is stored. -/
theorem C35_iteration_visits_each_value_once (values : List Int) :
    (∀ c : Cursor, c.currentPos ≤ c.columns.length →
      (c.iterationDone = true ↔ c.currentPos < c.columns.length) ∧
      (c.iterationDone = false ↔ c.currentPos = c.columns.length)) ∧
    (∀ extra : Nat,
      Cursor.iterate (fun v seen => seen ++ [v])
        ((values.foldl FoundFeasible.addColumn ⟨[]⟩).columns.length + 1 + extra)
        (values.foldl FoundFeasible.addColumn ⟨[]⟩).startIteration []
        = some (values.foldl FoundFeasible.addColumn ⟨[]⟩).columns) ∧
    (values.foldl FoundFeasible.addColumn ⟨[]⟩).columns.Sorted (· ≤ ·) ∧
    (values.foldl FoundFeasible.addColumn ⟨[]⟩).columns.Perm values ∧
    ∀ (σ : Type) (body : Int → σ → σ) (s : σ),
      Cursor.iterate body ((values.foldl FoundFeasible.addColumn ⟨[]⟩).columns.length + 1)
        (values.foldl FoundFeasible.addColumn ⟨[]⟩).startIteration s
        = some ((values.foldl FoundFeasible.addColumn ⟨[]⟩).columns.foldl
            (fun s v => body v s) s) := by
  obtain ⟨hs, hp⟩ := foldl_addColumn_spec values ⟨[]⟩ (by simp)
  refine ⟨?_, ?_, hs, by simpa using hp, ?_⟩
  · intro c hc
    constructor
    · simp only [Cursor.iterationDone, decide_eq_true_eq]
      constructor
      · intro h; omega
      · intro h; omega
    · simp [Cursor.iterationDone]
  · intro extra
    unfold FoundFeasible.startIteration
    rw [iterate_spec _ _ _ 0 [] (Nat.zero_le _) (by omega), List.drop_zero]
    congr 1
    generalize (values.foldl FoundFeasible.addColumn ⟨[]⟩).columns = l
    have : ∀ (acc : List Int), l.foldl (fun s v => s ++ [v]) acc = acc ++ l := by
      induction l with
      | nil => intro acc; simp
      | cons x xs ih => intro acc; simp [ih]
    simpa using this []
  · intro σ body s
    unfold FoundFeasible.startIteration
    rw [iterate_spec _ _ _ 0 s (Nat.zero_le _) (by omega), List.drop_zero]

/-! ## `checkColumn` stays inside the trie -/

/-- C36. For a trie built with width `W` and depth `D >= 1`, after any sequence of
`checkColumn` calls with sequences of `D` values in `[0, W)`, a call with such a
sequence returns: no slot outside an array is read, no null branch is followed, and
the cursor is not read at the end of the sequence. It returns whether the sequence
was passed before. -/
theorem C36_checkColumn_never_fails (W D : Nat) (hD : 1 ≤ D) (keys : List (List Int))
    (hk : ∀ k ∈ keys, ValidKey W D k) (s : List Int) (hs : ValidKey W D s) :
    ∃ t t1, checkAll (CheckedColumnsTree.create (W : Int) (D : Int)) keys = some t ∧
      t.checkColumn ⟨s⟩ = some (decide (s ∈ keys), t1) ∧
      ∀ (levels : Nat) (current : List ColumnTree) (cursor : List Int) (ex : Bool),
        WellFormed W levels current → cursor.length = levels + 1 →
        (∀ v ∈ cursor, 0 ≤ v ∧ v < (W : Int)) →
        (CheckedColumnsTree.descend W levels current cursor ex).isSome = true := by
  obtain ⟨t, h1, ht⟩ := checkAll_spec hD keys (treeHolds_create W D) hk
  rw [List.nil_append] at ht
  obtain ⟨t1, h2, _⟩ := checkColumn_spec hD ht hs
  refine ⟨t, t1, h1, h2, ?_⟩
  intro levels current cursor ex hwf hlen hrange
  obtain ⟨c1, hd, _⟩ := descend_spec W levels current cursor ex hwf hlen hrange
  rw [hd]
  rfl

theorem C36_checkColumn_never_fails_witness :
    ∃ t t1, checkAll (CheckedColumnsTree.create ((3 : Nat) : Int) ((2 : Nat) : Int))
        [[0, 1], [2, 1]] = some t ∧
      t.checkColumn ⟨[2, 1]⟩ = some (decide (([2, 1] : List Int) ∈ [[0, 1], [2, 1]]), t1) ∧
      ∀ (levels : Nat) (current : List ColumnTree) (cursor : List Int) (ex : Bool),
        WellFormed 3 levels current → cursor.length = levels + 1 →
        (∀ v ∈ cursor, 0 ≤ v ∧ v < ((3 : Nat) : Int)) →
        (CheckedColumnsTree.descend 3 levels current cursor ex).isSome = true :=
  C36_checkColumn_never_fails 3 2 (by decide) [[0, 1], [2, 1]] (by decide) [2, 1] (by decide)

/-! ## `match` on a vector in any order -/

/-- C37. For every `FoundFeasible` built by `addColumn` and every vector, in any order
and with repeats allowed, `match` returns `true` exactly when the vector has as many
entries as the list and each of its entries is in the list. So every permutation of
the values inserted is accepted; and for the list `1, 2` the vector `1, 1` is
accepted although it differs from the list. -/
theorem C37_match_accepts_same_length_members (values indicies : List Int) :
    ((values.foldl FoundFeasible.addColumn ⟨[]⟩).matchColumns indicies = true ↔
      indicies.length = (values.foldl FoundFeasible.addColumn ⟨[]⟩).columns.length ∧
      ∀ v ∈ indicies, v ∈ (values.foldl FoundFeasible.addColumn ⟨[]⟩).columns) ∧
    ((values.foldl FoundFeasible.addColumn ⟨[]⟩).matchColumns indicies = true ↔
      indicies.length = values.length ∧ ∀ v ∈ indicies, v ∈ values) ∧
    (indicies.Perm values →
      (values.foldl FoundFeasible.addColumn ⟨[]⟩).matchColumns indicies = true) ∧
    ((([1, 2] : List Int).foldl FoundFeasible.addColumn ⟨[]⟩).matchColumns [1, 1] = true ∧
      ([1, 1] : List Int) ≠ (([1, 2] : List Int).foldl FoundFeasible.addColumn ⟨[]⟩).columns) := by
  obtain ⟨hs, hp⟩ := foldl_addColumn_spec values ⟨[]⟩ (by simp)
  have hp2 : (values.foldl FoundFeasible.addColumn ⟨[]⟩).columns.Perm values := by
    simpa using hp
  have h1 : (values.foldl FoundFeasible.addColumn ⟨[]⟩).matchColumns indicies = true ↔
      indicies.length = (values.foldl FoundFeasible.addColumn ⟨[]⟩).columns.length ∧
      ∀ v ∈ indicies, v ∈ (values.foldl FoundFeasible.addColumn ⟨[]⟩).columns := by
    unfold FoundFeasible.matchColumns
    rw [matchLoop_eq]
    simp only [Bool.and_eq_true, decide_eq_true_eq, List.all_eq_true]
    constructor
    · rintro ⟨hl, hall⟩
      exact ⟨hl, fun v hv => (scanColumn_iff v _ hs).mp (hall v hv)⟩
    · rintro ⟨hl, hall⟩
      exact ⟨hl, fun v hv => (scanColumn_iff v _ hs).mpr (hall v hv)⟩
  have h2 : (values.foldl FoundFeasible.addColumn ⟨[]⟩).matchColumns indicies = true ↔
      indicies.length = values.length ∧ ∀ v ∈ indicies, v ∈ values := by
    rw [h1, hp2.length_eq]
    constructor
    · rintro ⟨hl, hall⟩
      exact ⟨hl, fun v hv => hp2.mem_iff.mp (hall v hv)⟩
    · rintro ⟨hl, hall⟩
      exact ⟨hl, fun v hv => hp2.mem_iff.mpr (hall v hv)⟩
  refine ⟨h1, h2, ?_, by decide, by decide⟩
  intro hperm
  exact h2.mpr ⟨hperm.length_eq, fun v hv => hperm.mem_iff.mp hv⟩

/-! ## A column both known and unknowable -/

theorem candidates_nil_of_known_unknowable (m : Matrix) (hR : 1 ≤ m.rows) (v : Int)
    (hk : v ∈ m.knownColumns.columns) (hu : v ∈ m.unknowableColumns.columns) :
    candidates m.RREF m.copy m.rows 0 [] = [] := by
  rw [List.eq_nil_iff_forall_not_mem]
  intro b hb
  rw [← RREF_rows m] at hb
  have hre := (mem_candidates_top m.RREF m.copy (by rw [RREF_rows]; exact hR) b).mp hb
  have hall := (allColumnsInUnknowable_iff m.copy b m.RREF.getNumberRows).mp hre.2.2
  have hvb : v ∈ b := List.mem_of_mem_take (hall v ((copy_unknowable_mem m v).mpr hu))
  have hnk := hre.not_known v hvb
  rw [(copy_columnEntryInKnown m v).mpr hk] at hnk
  exact absurd hnk (by simp)

/-- C34. When some column is both in the known list and in the unknowable list of a
matrix with at least one row, the run of `main` returns without one call of
`testFullColumnSet`: the state is the initial one, so the trie is the one the
constructor built, `numberFeasible` and `numberRepeats` are `0`, the per-column
vectors hold `0` everywhere and `conditionNumbers` is empty. -/
theorem C34_known_and_unknowable_never_tests (K : Lapack) (m : Matrix) (hR : 1 ≤ m.rows)
    (v : Int) (hk : v ∈ m.knownColumns.columns) (hu : v ∈ m.unknowableColumns.columns) :
    candidates m.RREF m.copy m.rows 0 [] = [] ∧
    ∃ buf st, main K m = some (buf, st) ∧ st = initialState m ∧
      st.calls = [] ∧ st.factored = [] ∧
      st.previouslyChecked = CheckedColumnsTree.create m.columns m.rows ∧
      st.numberFeasible = 0 ∧ st.numberRepeats = 0 ∧
      st.feasibleByColumn = List.replicate m.columns 0 ∧
      st.sumConditionNumbers = List.replicate m.columns 0 ∧
      st.sumInvConditionNumbers = List.replicate m.columns 0 ∧
      st.conditionNumbers = [] := by
  have hnil := candidates_nil_of_known_unknowable m hR v hk hu
  refine ⟨hnil, ?_⟩
  obtain ⟨buf1, _, _, hrun⟩ := checkColumns_eq_testAll K m.RREF m.copy m.rows 0
    (List.replicate m.rows (-1)) (by simp [RREF_rows m]) (by rw [RREF_rows]; omega)
    (by rw [RREF_rows]; omega)
  refine ⟨buf1, initialState m, ?_, rfl, rfl, rfl, rfl, rfl, rfl, rfl, rfl, rfl, rfl⟩
  unfold main
  have := hrun (initialState m)
  simp only [List.take_zero] at this
  simp only [Matrix.getNumberRows] at this ⊢
  rw [this, hnil]
  rfl

theorem C34_known_and_unknowable_never_tests_witness :
    candidates (Matrix.load [[1, 0, 1], [0, 1, 1]] [2] [2]).RREF
      (Matrix.load [[1, 0, 1], [0, 1, 1]] [2] [2]).copy
      (Matrix.load [[1, 0, 1], [0, 1, 1]] [2] [2]).rows 0 [] = [] ∧
    ∃ buf st, main exactLapack (Matrix.load [[1, 0, 1], [0, 1, 1]] [2] [2]) = some (buf, st) ∧
      st = initialState (Matrix.load [[1, 0, 1], [0, 1, 1]] [2] [2]) ∧
      st.calls = [] ∧ st.factored = [] ∧
      st.previouslyChecked = CheckedColumnsTree.create
        (Matrix.load [[1, 0, 1], [0, 1, 1]] [2] [2]).columns
        (Matrix.load [[1, 0, 1], [0, 1, 1]] [2] [2]).rows ∧
      st.numberFeasible = 0 ∧ st.numberRepeats = 0 ∧
      st.feasibleByColumn
        = List.replicate (Matrix.load [[1, 0, 1], [0, 1, 1]] [2] [2]).columns 0 ∧
      st.sumConditionNumbers
        = List.replicate (Matrix.load [[1, 0, 1], [0, 1, 1]] [2] [2]).columns 0 ∧
      st.sumInvConditionNumbers
        = List.replicate (Matrix.load [[1, 0, 1], [0, 1, 1]] [2] [2]).columns 0 ∧
      st.conditionNumbers = [] :=
  C34_known_and_unknowable_never_tests exactLapack
    (Matrix.load [[1, 0, 1], [0, 1, 1]] [2] [2]) (by decide) 2 (by decide) (by decide)

/-! ## The per-column counts never exceed `numberFeasible` -/

theorem bumped_refl (lo hi : Nat) (f : List Int) : Bumped lo hi f f :=
  ⟨rfl, fun _ _ => rfl, fun c => ⟨le_refl _, by omega⟩⟩

theorem bumped_trans {lo hi lo1 hi1 : Nat} {f0 f1 f2 : List Int} (hlo : lo ≤ lo1)
    (hhi : hi ≤ lo1) (hle : lo1 ≤ hi1) (h1 : Bumped lo hi f0 f1) (h2 : Bumped lo1 hi1 f1 f2) :
    Bumped lo hi1 f0 f2 := by
  obtain ⟨l1, u1, b1⟩ := h1
  obtain ⟨l2, u2, b2⟩ := h2
  refine ⟨l2.trans l1, ?_, ?_⟩
  · intro c hc
    rcases hc with hc | hc
    · rw [u2 c (Or.inl (by omega)), u1 c (Or.inl hc)]
    · rw [u2 c (Or.inr hc), u1 c (Or.inr (by omega))]
  · intro c
    by_cases h : c < lo1
    · rw [u2 c (Or.inl h)]; exact b1 c
    · have := b2 c
      rw [u1 c (Or.inr (by omega))] at this
      exact this

theorem bumped_bump {lupe hi : Nat} {f0 f : List Int} (hl : lupe < f0.length)
    (hhi : lupe + 1 ≤ hi)
    (h : Bumped (lupe + 1) hi (f0.set lupe (f0.getD lupe 0 + 1)) f) : Bumped lupe hi f0 f := by
  obtain ⟨l1, u1, b1⟩ := h
  refine ⟨by rw [l1, List.length_set], ?_, ?_⟩
  · intro c hc
    have : f.getD c 0 = (f0.set lupe (f0.getD lupe 0 + 1)).getD c 0 :=
      u1 c (by omega)
    rw [this, getD_set_eq, if_neg (by omega)]
  · intro c
    have hb := b1 c
    rw [getD_set_eq] at hb
    by_cases hc : c = lupe
    · subst hc
      have := u1 c (Or.inl (Nat.lt_succ_self c))
      rw [getD_set_eq, if_pos ⟨rfl, hl⟩] at this
      rw [this]
      omega
    · rw [if_neg (fun h => hc h.1)] at hb
      exact hb

theorem tallyBelow_bumped (cn : ℚ) (cur : Int) :
    ∀ (fuel lupe : Nat) (st : RunState),
      ∃ f sc si, (tallyBelow cn cur fuel lupe st).2 = withStats st f sc si ∧
        lupe ≤ (tallyBelow cn cur fuel lupe st).1 ∧
        Bumped lupe (tallyBelow cn cur fuel lupe st).1 st.feasibleByColumn f := by
  intro fuel
  induction fuel with
  | zero =>
    intro lupe st
    exact ⟨st.feasibleByColumn, st.sumConditionNumbers, st.sumInvConditionNumbers, rfl,
      le_refl _, bumped_refl _ _ _⟩
  | succ n ih =>
    intro lupe st
    unfold tallyBelow
    by_cases hg : lupe < st.feasibleByColumn.length ∧ (lupe : Int) < cur
    · rw [if_pos hg]
      obtain ⟨f, sc, si, he, hle, hb⟩ := ih (lupe + 1) (bumpColumn cn lupe st)
      refine ⟨f, sc, si, by rw [he]; rfl, by omega, ?_⟩
      exact bumped_bump hg.1 hle hb
    · rw [if_neg hg]
      exact ⟨st.feasibleByColumn, st.sumConditionNumbers, st.sumInvConditionNumbers, rfl,
        le_refl _, bumped_refl _ _ _⟩

theorem tallyFor_bumped (cn : ℚ) :
    ∀ (rest : List Int) (lupe : Nat) (st : RunState),
      ∃ f sc si, (tallyFor cn rest lupe st).2 = withStats st f sc si ∧
        lupe ≤ (tallyFor cn rest lupe st).1 ∧
        Bumped lupe (tallyFor cn rest lupe st).1 st.feasibleByColumn f := by
  intro rest
  induction rest with
  | nil =>
    intro lupe st
    exact ⟨st.feasibleByColumn, st.sumConditionNumbers, st.sumInvConditionNumbers, rfl,
      le_refl _, bumped_refl _ _ _⟩
  | cons c rest ih =>
    intro lupe st
    obtain ⟨f1, sc1, si1, he1, hle1, hb1⟩ :=
      tallyBelow_bumped cn c st.feasibleByColumn.length lupe st
    obtain ⟨f2, sc2, si2, he2, hle2, hb2⟩ :=
      ih ((tallyBelow cn c st.feasibleByColumn.length lupe st).1 + 1)
        (tallyBelow cn c st.feasibleByColumn.length lupe st).2
    have hstep : tallyFor cn (c :: rest) lupe st
        = tallyFor cn rest ((tallyBelow cn c st.feasibleByColumn.length lupe st).1 + 1)
            (tallyBelow cn c st.feasibleByColumn.length lupe st).2 := rfl
    rw [hstep]
    refine ⟨f2, sc2, si2, ?_, by omega, ?_⟩
    · rw [he2, he1]; rfl
    · have hf : (tallyBelow cn c st.feasibleByColumn.length lupe st).2.feasibleByColumn = f1 := by
        rw [he1]; rfl
      rw [hf] at hb2
      exact bumped_trans (by omega) (by omega) hle2 hb1 hb2

theorem tallyRest_bumped (cn : ℚ) :
    ∀ (fuel lupe : Nat) (st : RunState),
      ∃ f sc si hi, tallyRest cn fuel lupe st = withStats st f sc si ∧ lupe ≤ hi ∧
        Bumped lupe hi st.feasibleByColumn f := by
  intro fuel
  induction fuel with
  | zero =>
    intro lupe st
    exact ⟨st.feasibleByColumn, st.sumConditionNumbers, st.sumInvConditionNumbers, lupe,
      rfl, le_refl _, bumped_refl _ _ _⟩
  | succ n ih =>
    intro lupe st
    unfold tallyRest
    by_cases hg : lupe < st.feasibleByColumn.length
    · rw [if_pos hg]
      obtain ⟨f, sc, si, hi, he, hle, hb⟩ := ih (lupe + 1) (bumpColumn cn lupe st)
      exact ⟨f, sc, si, hi, by rw [he]; rfl, by omega, bumped_bump hg hle hb⟩
    · rw [if_neg hg]
      exact ⟨st.feasibleByColumn, st.sumConditionNumbers, st.sumInvConditionNumbers, lupe,
        rfl, le_refl _, bumped_refl _ _ _⟩

theorem tally_bumped (cn : ℚ) (key : List Int) (fuel : Nat) (st : RunState) :
    ∃ f sc si,
      tallyRest cn fuel (tallyFor cn key 0 st).1 (tallyFor cn key 0 st).2
        = withStats st f sc si ∧
      f.length = st.feasibleByColumn.length ∧
      ∀ c, st.feasibleByColumn.getD c 0 ≤ f.getD c 0 ∧
        f.getD c 0 ≤ st.feasibleByColumn.getD c 0 + 1 := by
  obtain ⟨f1, sc1, si1, he1, hle1, hb1⟩ := tallyFor_bumped cn key 0 st
  obtain ⟨f2, sc2, si2, hi, he2, hle2, hb2⟩ :=
    tallyRest_bumped cn fuel (tallyFor cn key 0 st).1 (tallyFor cn key 0 st).2
  rw [he1] at hb2
  have hb := bumped_trans (Nat.zero_le _) (le_refl _) hle2 hb1 hb2
  exact ⟨f2, sc2, si2, by rw [he2, he1]; rfl, hb.1, hb.2.2⟩

theorem testFull_bounds (K : Lapack) (orig : Matrix) (buf : List Int) (st : RunState)
    (r : Bool × RunState) (h : testFullColumnSet K orig buf st = some r) :
    (r.2.numberFeasible = st.numberFeasible ∧ r.2.feasibleByColumn = st.feasibleByColumn) ∨
    (r.2.numberFeasible = st.numberFeasible + 1 ∧
      r.2.feasibleByColumn.length = st.feasibleByColumn.length ∧
      ∀ c, st.feasibleByColumn.getD c 0 ≤ r.2.feasibleByColumn.getD c 0 ∧
        r.2.feasibleByColumn.getD c 0 ≤ st.feasibleByColumn.getD c 0 + 1) := by
  unfold testFullColumnSet at h
  simp only [] at h
  split at h
  · exact absurd h (by simp)
  · simp only [Option.some.injEq] at h
    rw [← h]
    exact Or.inl ⟨rfl, rfl⟩
  · split at h
    · simp only [Option.some.injEq] at h
      rw [← h]
      obtain ⟨f, sc, si, heq, hlen, hb⟩ := tally_bumped
        (SquareMatrix.dlange K (Matrix.copy
            (SquareMatrix.copyColumnsToRows st.testBasis orig buf))
          * SquareMatrix.dgecon K (SquareMatrix.dgetrf K
            (SquareMatrix.copyColumnsToRows st.testBasis orig buf)).1 false)
        (buf.foldl FoundFeasible.addColumn (FoundFeasible.clearList ⟨[]⟩)).columns _ _
      rw [heq]
      exact Or.inr ⟨rfl, hlen, hb⟩
    · simp only [Option.some.injEq] at h
      rw [← h]
      exact Or.inl ⟨rfl, rfl⟩

theorem testAll_bounds (K : Lapack) (orig : Matrix) (bufs : List (List Int)) :
    ∀ (st st1 : RunState), testAll K orig bufs st = some st1 →
      (∀ c, 0 ≤ st.feasibleByColumn.getD c 0 ∧
        st.feasibleByColumn.getD c 0 ≤ st.numberFeasible) →
      ∀ c, 0 ≤ st1.feasibleByColumn.getD c 0 ∧
        st1.feasibleByColumn.getD c 0 ≤ st1.numberFeasible := by
  induction bufs with
  | nil =>
    intro st st1 h hinv
    rw [testAll_nil] at h
    cases h
    exact hinv
  | cons b bs ih =>
    intro st st1 h hinv
    rw [testAll_cons] at h
    cases hb : testFullColumnSet K orig b st with
    | none => rw [hb] at h; exact absurd h (by simp)
    | some r =>
      rw [hb] at h
      apply ih r.2 st1 h
      intro c
      rcases testFull_bounds K orig b st r hb with ⟨h1, h2⟩ | ⟨h1, _, h3⟩
      · rw [h1, h2]; exact hinv c
      · have := h3 c
        have := hinv c
        omega

/-- C33. In the run of `main` on a matrix with at least one row, after every call of
`testFullColumnSet` (after the calls `pre`, for every split `pre ++ rest` of the calls
of the run) and at the end, every entry of `feasibleByColumn` is between `0` and
`numberFeasible`; so whenever `feasibleByColumn[c] > 0` the denominator
`feasibleByColumn[c] * numberFeasible` of the report is not zero. -/
theorem C33_column_counts_bounded_by_feasible (K : Lapack) (m : Matrix) (hR : 1 ≤ m.rows) :
    ∃ buf st, main K m = some (buf, st) ∧
      (∀ c, 0 ≤ st.feasibleByColumn.getD c 0 ∧
        st.feasibleByColumn.getD c 0 ≤ st.numberFeasible) ∧
      (∀ c, st.feasibleByColumn.getD c 0 > 0 →
        ((st.feasibleByColumn.getD c 0 : Int) : ℚ) * ((st.numberFeasible : Int) : ℚ) ≠ 0) ∧
      ∀ pre rest : List (List Int), st.calls = pre ++ rest →
        ∃ st1, testAll K m.copy pre (initialState m) = some st1 ∧
          (∀ c, 0 ≤ st1.feasibleByColumn.getD c 0 ∧
            st1.feasibleByColumn.getD c 0 ≤ st1.numberFeasible) ∧
          ∀ c, st1.feasibleByColumn.getD c 0 > 0 →
            ((st1.feasibleByColumn.getD c 0 : Int) : ℚ) * ((st1.numberFeasible : Int) : ℚ)
              ≠ 0 := by
  have hinit : ∀ c, 0 ≤ (initialState m).feasibleByColumn.getD c 0 ∧
      (initialState m).feasibleByColumn.getD c 0 ≤ (initialState m).numberFeasible := by
    intro c
    simp only [initialState, List.getD_eq_getElem?_getD, List.getElem?_replicate]
    split <;> simp
  have hne : ∀ (f n : Int), 0 ≤ f → f ≤ n → f > 0 → ((f : Int) : ℚ) * ((n : Int) : ℚ) ≠ 0 := by
    intro f n _ h2 h3
    have hf : ((f : Int) : ℚ) ≠ 0 := by exact_mod_cast (ne_of_gt h3)
    have hn : ((n : Int) : ℚ) ≠ 0 := by
      have : n ≠ 0 := by omega
      exact_mod_cast this
    exact mul_ne_zero hf hn
  obtain ⟨buf1, _, _, hrun⟩ := checkColumns_eq_testAll K m.RREF m.copy m.rows 0
    (List.replicate m.rows (-1)) (by simp [RREF_rows m]) (by rw [RREF_rows]; omega)
    (by rw [RREF_rows]; omega)
  obtain ⟨buf, st, hmain, hcalls, _⟩ := main_spec K m hR
  have hall : testAll K m.copy (candidates m.RREF m.copy m.rows 0 []) (initialState m)
      = some st := by
    have h1 := hrun (initialState m)
    simp only [List.take_zero] at h1
    unfold main at hmain
    simp only [Matrix.getNumberRows] at h1 hmain
    rw [h1] at hmain
    cases ht : testAll K m.copy (candidates m.RREF m.copy m.rows 0 []) (initialState m) with
    | none => rw [ht] at hmain; exact absurd hmain (by simp)
    | some s =>
      rw [ht] at hmain
      simp only [Option.map_some', Option.some.injEq, Prod.mk.injEq] at hmain
      rw [hmain.2]
  have hend := testAll_bounds K m.copy _ _ _ hall hinit
  refine ⟨buf, st, hmain, hend, fun c hc => hne _ _ (hend c).1 (hend c).2 hc, ?_⟩
  intro pre rest hsplit
  rw [hcalls] at hsplit
  rw [hsplit, testAll_append] at hall
  cases hp : testAll K m.copy pre (initialState m) with
  | none => rw [hp] at hall; exact absurd hall (by simp)
  | some s1 =>
    have hb := testAll_bounds K m.copy pre _ _ hp hinit
    exact ⟨s1, rfl, hb, fun c hc => hne _ _ (hb c).1 (hb c).2 hc⟩

theorem C33_column_counts_bounded_by_feasible_witness :
    ∃ buf st, main exactLapack (Matrix.load [[1, 0, 1], [0, 1, 1]] [] []) = some (buf, st) ∧
      (∀ c, 0 ≤ st.feasibleByColumn.getD c 0 ∧
        st.feasibleByColumn.getD c 0 ≤ st.numberFeasible) ∧
      (∀ c, st.feasibleByColumn.getD c 0 > 0 →
        ((st.feasibleByColumn.getD c 0 : Int) : ℚ) * ((st.numberFeasible : Int) : ℚ) ≠ 0) ∧
      ∀ pre rest : List (List Int), st.calls = pre ++ rest →
        ∃ st1, testAll exactLapack (Matrix.load [[1, 0, 1], [0, 1, 1]] [] []).copy pre
            (initialState (Matrix.load [[1, 0, 1], [0, 1, 1]] [] [])) = some st1 ∧
          (∀ c, 0 ≤ st1.feasibleByColumn.getD c 0 ∧
            st1.feasibleByColumn.getD c 0 ≤ st1.numberFeasible) ∧
          ∀ c, st1.feasibleByColumn.getD c 0 > 0 →
            ((st1.feasibleByColumn.getD c 0 : Int) : ℚ) * ((st1.numberFeasible : Int) : ℚ)
              ≠ 0 :=
  C33_column_counts_bounded_by_feasible exactLapack
    (Matrix.load [[1, 0, 1], [0, 1, 1]] [] []) (by decide)

/-! ## `RREF` and row equivalence -/

theorem rowEquivalent_refl {R C : Nat} (A : RatMatrix R C) : RowEquivalent A A :=
  ⟨1, 1, by simp, by simp, by simp⟩

theorem rowEquivalent_trans {R C : Nat} {A B D : RatMatrix R C}
    (h1 : RowEquivalent A B) (h2 : RowEquivalent B D) : RowEquivalent A D := by
  obtain ⟨E1, F1, a1, b1, c1⟩ := h1
  obtain ⟨E2, F2, a2, b2, c2⟩ := h2
  refine ⟨E2 * E1, F1 * F2, ?_, ?_, ?_⟩
  · rw [Matrix.mul_assoc, ← Matrix.mul_assoc E1, a1, Matrix.one_mul, a2]
  · rw [Matrix.mul_assoc, ← Matrix.mul_assoc F2, b2, Matrix.one_mul, b1]
  · rw [c2, c1, Matrix.mul_assoc]

theorem rowEquivalent_of_eq {R C : Nat} {A B : RatMatrix R C} (h : A = B) :
    RowEquivalent A B := h ▸ rowEquivalent_refl A

theorem rowEquivalent_swap {R C : Nat} (A B : RatMatrix R C) (a b : Fin R)
    (h : ∀ r c, B r c = A (Equiv.swap a b r) c) : RowEquivalent A B := by
  refine ⟨fun r k => if k = Equiv.swap a b r then 1 else 0,
    fun r k => if k = Equiv.swap a b r then 1 else 0, ?_, ?_, ?_⟩
  · ext r k
    simp only [Matrix.mul_apply, Matrix.one_apply]
    simp only [ite_mul, one_mul, zero_mul, Finset.sum_ite_eq', Finset.mem_univ, if_true]
    simp only [Equiv.swap_apply_self]
    by_cases hrk : r = k
    · simp [hrk]
    · simp [hrk, Ne.symm hrk]
  · ext r k
    simp only [Matrix.mul_apply, Matrix.one_apply]
    simp only [ite_mul, one_mul, zero_mul, Finset.sum_ite_eq', Finset.mem_univ, if_true]
    simp only [Equiv.swap_apply_self]
    by_cases hrk : r = k
    · simp [hrk]
    · simp [hrk, Ne.symm hrk]
  · ext r c
    simp only [Matrix.mul_apply]
    simp only [ite_mul, one_mul, zero_mul, Finset.sum_ite_eq', Finset.mem_univ, if_true]
    exact h r c

theorem rowEquivalent_add {R C : Nat} (A B : RatMatrix R C) (l o : Fin R) (hlo : l ≠ o)
    (s : ℚ) (h : ∀ r c, B r c = A r c + (if r = l then s * A o c else 0)) :
    RowEquivalent A B := by
  refine ⟨Matrix.transvection l o s, Matrix.transvection l o (-s), ?_, ?_, ?_⟩
  · rw [Matrix.transvection_mul_transvection_same l o hlo, add_neg_cancel,
      Matrix.transvection_zero]
  · rw [Matrix.transvection_mul_transvection_same l o hlo, neg_add_cancel,
      Matrix.transvection_zero]
  · ext r c
    rw [h r c]
    unfold Matrix.transvection
    rw [Matrix.add_mul, Matrix.one_mul, Matrix.add_apply]
    congr 1
    rw [Matrix.mul_apply]
    by_cases hr : r = l
    · subst hr
      simp [Matrix.stdBasisMatrix, Finset.sum_ite_eq]
    · have : ∀ k : Fin R, ¬ (l = r ∧ o = k) := fun k hk => hr hk.1.symm
      simp [Matrix.stdBasisMatrix, hr, this]

theorem rowEquivalent_scale {R C : Nat} (A B : RatMatrix R C) (o : Fin R) (s : ℚ)
    (hs : s ≠ 0) (h : ∀ r c, B r c = (if r = o then s else 1) * A r c) :
    RowEquivalent A B := by
  refine ⟨Matrix.diagonal (fun r => if r = o then s else 1),
    Matrix.diagonal (fun r => if r = o then 1 / s else 1), ?_, ?_, ?_⟩
  · have hfun : (fun i : Fin R => (if i = o then s else 1) * (if i = o then 1 / s else 1))
        = fun _ => 1 := by
      funext i
      by_cases hi : i = o <;> simp [hi, hs]
    rw [Matrix.diagonal_mul_diagonal, hfun, Matrix.diagonal_one]
  · have hfun : (fun i : Fin R => (if i = o then 1 / s else 1) * (if i = o then s else 1))
        = fun _ => 1 := by
      funext i
      by_cases hi : i = o <;> simp [hi, hs]
    rw [Matrix.diagonal_mul_diagonal, hfun, Matrix.diagonal_one]
  · ext r c
    rw [Matrix.diagonal_mul, h r c]

theorem rowEquivalent_daxpy {R C : Nat} {m : Matrix} (hm : WellShaped m) (hR : m.rows = R)
    (hC : m.columns = C) (s : ℚ) {l o p : Nat} (hl : l < R) (ho : o < R) (hlo : l ≠ o)
    (hclean : ∀ c, c < p → m.entry o c = 0) :
    RowEquivalent (toEntries R C m) (toEntries R C (m.daxpy s l o p)) := by
  apply rowEquivalent_add _ _ ⟨l, hl⟩ ⟨o, ho⟩ (fun h => hlo (Fin.mk.inj_iff.mp h)) s
  intro r c
  show (m.daxpy s l o p).entry r.val c.val
    = m.entry r.val c.val + (if r = ⟨l, hl⟩ then s * m.entry o c.val else 0)
  rw [entry_daxpy hm s (by rw [hR]; exact hl) o p r.val c.val (by rw [hC]; exact c.isLt)]
  by_cases hr : r.val = l
  · have hr2 : r = ⟨l, hl⟩ := Fin.ext hr
    rw [if_pos hr2]
    by_cases hp : p ≤ c.val
    · rw [if_pos ⟨hr, hp⟩, hr]
    · rw [if_neg (fun h => hp h.2), hclean c.val (by omega)]
      ring
  · have hr2 : ¬ r = ⟨l, hl⟩ := fun h => hr (by rw [h])
    rw [if_neg hr2, if_neg (fun h => hr h.1)]
    ring

theorem rowEquivalent_dscal {R C : Nat} {m : Matrix} (hm : WellShaped m) (hR : m.rows = R)
    (hC : m.columns = C) (s : ℚ) (hs : s ≠ 0) {o p : Nat} (ho : o < R)
    (hclean : ∀ c, c < p → m.entry o c = 0) :
    RowEquivalent (toEntries R C m) (toEntries R C (m.dscal s o p)) := by
  apply rowEquivalent_scale _ _ ⟨o, ho⟩ s hs
  intro r c
  show (m.dscal s o p).entry r.val c.val
    = (if r = ⟨o, ho⟩ then s else 1) * m.entry r.val c.val
  rw [entry_dscal hm s (by rw [hR]; exact ho) p r.val c.val (by rw [hC]; exact c.isLt)]
  by_cases hr : r.val = o
  · have hr2 : r = ⟨o, ho⟩ := Fin.ext hr
    rw [if_pos hr2]
    by_cases hp : p ≤ c.val
    · rw [if_pos ⟨hr, hp⟩, hr]
      ring
    · rw [if_neg (fun h => hp h.2), hr, hclean c.val (by omega)]
      ring
  · have hr2 : ¬ r = ⟨o, ho⟩ := fun h => hr (by rw [h])
    rw [if_neg hr2, if_neg (fun h => hr h.1)]
    ring

theorem rowEquivalent_eliminate {R C : Nat} (o p : Nat) (ho : o < R) (hp : p < C) :
    ∀ (which : List Nat) (m : Matrix), WellShaped m → m.rows = R → m.columns = C →
      (∀ l ∈ which, l < R ∧ l ≠ o) → (∀ c, c < p → m.entry o c = 0) →
      RowEquivalent (toEntries R C m) (toEntries R C (m.eliminate o p which)) := by
  intro which
  induction which with
  | nil => intro m _ _ _ _ _; exact rowEquivalent_refl _
  | cons x xs ih =>
    intro m hm hR hC hw hclean
    have hx := hw x (List.mem_cons_self _ _)
    have hstep : m.eliminate o p (x :: xs)
        = (if fabs (m.entry x p) > tol then
            m.daxpy (-(m.entry x p) / m.entry o p) x o p else m).eliminate o p xs := rfl
    rw [hstep]
    by_cases hbig : fabs (m.entry x p) > tol
    · rw [if_pos hbig]
      have hm1 := wellShaped_daxpy hm (-(m.entry x p) / m.entry o p)
        (by rw [hR]; exact hx.1) o p
      have hclean1 : ∀ c, c < p →
          (m.daxpy (-(m.entry x p) / m.entry o p) x o p).entry o c = 0 := by
        intro c hc
        rw [entry_daxpy hm _ (by rw [hR]; exact hx.1) o p o c (by rw [hC]; omega),
          if_neg (fun h => hx.2 h.1.symm)]
        exact hclean c hc
      exact rowEquivalent_trans
        (rowEquivalent_daxpy hm hR hC _ hx.1 ho hx.2 hclean)
        (ih _ hm1 hR hC (fun l hl => hw l (List.mem_cons_of_mem _ hl)) hclean1)
    · rw [if_neg hbig]
      exact ih m hm hR hC (fun l hl => hw l (List.mem_cons_of_mem _ hl)) hclean

theorem eliminate_pivot_row (o p : Nat) (which : List Nat) (m : Matrix) (hm : WellShaped m)
    (hp : p < m.columns) (hnd : which.Nodup) (ho : o ∉ which)
    (hw : ∀ l ∈ which, l < m.rows) :
    WellShaped (m.eliminate o p which) ∧
      ∀ c, c < m.columns → (m.eliminate o p which).entry o c = m.entry o c := by
  obtain ⟨h1, h2⟩ := eliminate_spec o p which m hm hp hnd ho hw
  refine ⟨h1, fun c hc => ?_⟩
  rw [h2 o c hc, if_neg (fun h => ho h.1)]

theorem rowEquivalent_reduceAt {R C : Nat} (m : Matrix) (hm : WellShaped m) (hR : m.rows = R)
    (hC : m.columns = C) (o i p : Nat) (ho : o < R) (hi : i < R) (hp : p < C)
    (hbig : fabs (m.entry i p) > tol) (hclean : ∀ c, c < p → m.entry i c = 0) :
    RowEquivalent (toEntries R C m) (toEntries R C (m.reduceAt o i p)) := by
  have ho' : o < m.rows := by rw [hR]; exact ho
  have hi' : i < m.rows := by rw [hR]; exact hi
  have hp' : p < m.columns := by rw [hC]; exact hp
  rw [reduceAt_eq m o i p hp']
  obtain ⟨hw1, hr1, hc1, he1⟩ := swap_or_keep_spec m hm o i ho' hi'
  have hq1 : RowEquivalent (toEntries R C m)
      (toEntries R C (if i ≠ o then m.swapRows i o else m)) := by
    apply rowEquivalent_swap _ _ ⟨i, hi⟩ ⟨o, ho⟩
    intro r c
    show (if i ≠ o then m.swapRows i o else m).entry r.val c.val
      = m.entry (Equiv.swap (⟨i, hi⟩ : Fin R) ⟨o, ho⟩ r).val c.val
    rw [he1, Equiv.swap_apply_def]
    by_cases h1 : r.val = o
    · have h1' : r = ⟨o, ho⟩ := Fin.ext h1
      rw [if_pos h1]
      by_cases h2 : r = ⟨i, hi⟩
      · rw [if_pos h2]
        have : i = o := by
          have := congrArg Fin.val h2
          simp only at this
          omega
        simp [this]
      · rw [if_neg h2, if_pos h1']
    · have h1' : ¬ r = ⟨o, ho⟩ := fun h => h1 (by rw [h])
      rw [if_neg h1]
      by_cases h2 : r.val = i
      · have h2' : r = ⟨i, hi⟩ := Fin.ext h2
        rw [if_pos h2, if_pos h2']
      · have h2' : ¬ r = ⟨i, hi⟩ := fun h => h2 (by rw [h])
        rw [if_neg h2, if_neg h2', if_neg h1']
  generalize (if i ≠ o then m.swapRows i o else m) = m1 at hw1 hr1 hc1 he1 hq1 ⊢
  have hR1 : m1.rows = R := by rw [hr1, hR]
  have hC1 : m1.columns = C := by rw [hc1, hC]
  have hclean1 : ∀ c, c < p → m1.entry o c = 0 := by
    intro c hc
    rw [he1, if_pos rfl]
    exact hclean c hc
  have hv1 : m1.entry o p = m.entry i p := by rw [he1, if_pos rfl]
  have hq2 := rowEquivalent_eliminate o p ho hp (List.range o) m1 hw1 hR1 hC1
    (fun l hl => ⟨lt_trans (List.mem_range.mp hl) ho, Nat.ne_of_lt (List.mem_range.mp hl)⟩)
    hclean1
  obtain ⟨hw2, hrow2⟩ := eliminate_pivot_row o p (List.range o) m1 hw1
    (by rw [hC1]; exact hp) (List.nodup_range o) (by simp)
    (fun l hl => by rw [hR1]; exact lt_trans (List.mem_range.mp hl) ho)
  have hr2 := (eliminate_dims m1 o p (List.range o)).1
  have hc2 := (eliminate_dims m1 o p (List.range o)).2
  generalize m1.eliminate o p (List.range o) = m2 at hw2 hrow2 hr2 hc2 hq2 ⊢
  have hR2 : m2.rows = R := by rw [hr2, hR1]
  have hC2 : m2.columns = C := by rw [hc2, hC1]
  have hclean2 : ∀ c, c < p → m2.entry o c = 0 := by
    intro c hc
    rw [hrow2 c (by rw [hC1]; omega)]
    exact hclean1 c hc
  have hq3 := rowEquivalent_eliminate o p ho hp (List.range' (o + 1) (m.rows - (o + 1))) m2
    hw2 hR2 hC2
    (fun l hl => by
      have := List.mem_range'_1.mp hl
      constructor <;> omega)
    hclean2
  obtain ⟨hw3, hrow3⟩ := eliminate_pivot_row o p (List.range' (o + 1) (m.rows - (o + 1))) m2
    hw2 (by rw [hC2]; exact hp) (List.nodup_range' _ _) (by simp)
    (fun l hl => by
      have := List.mem_range'_1.mp hl
      omega)
  have hr3 := (eliminate_dims m2 o p (List.range' (o + 1) (m.rows - (o + 1)))).1
  have hc3 := (eliminate_dims m2 o p (List.range' (o + 1) (m.rows - (o + 1)))).2
  generalize m2.eliminate o p (List.range' (o + 1) (m.rows - (o + 1))) = m3
    at hw3 hrow3 hr3 hc3 hq3 ⊢
  have hR3 : m3.rows = R := by rw [hr3, hR2]
  have hC3 : m3.columns = C := by rw [hc3, hC2]
  have hclean3 : ∀ c, c < p → m3.entry o c = 0 := by
    intro c hc
    rw [hrow3 c (by rw [hC2]; omega)]
    exact hclean2 c hc
  have hv3 : m3.entry o p = m.entry i p := by
    rw [hrow3 p (by rw [hC2]; exact hp), hrow2 p (by rw [hC1]; exact hp), hv1]
  have hs : (1 : ℚ) / m3.entry o p ≠ 0 := by
    rw [hv3]
    exact one_div_ne_zero (ne_zero_of_big hbig)
  have hq4 := rowEquivalent_dscal hw3 hR3 hC3 (1 / m3.entry o p) hs ho hclean3
  exact rowEquivalent_trans hq1 (rowEquivalent_trans hq2 (rowEquivalent_trans hq3 hq4))

theorem pivotRowsClean_step (n o c : Nat) (m : Matrix) (h : o < m.rows ∧ c < m.columns)
    (hclean : pivotRowsClean (n + 1) o c m = true) :
    ((m.findPivot o (m.rows * m.columns + 1) o c).2 < m.columns →
      ∀ j, j < (m.findPivot o (m.rows * m.columns + 1) o c).2 →
        m.entry (m.findPivot o (m.rows * m.columns + 1) o c).1 j = 0) ∧
    pivotRowsClean n (o + 1) ((m.findPivot o (m.rows * m.columns + 1) o c).2 + 1)
      (m.reduceAt o (m.findPivot o (m.rows * m.columns + 1) o c).1
        (m.findPivot o (m.rows * m.columns + 1) o c).2) = true := by
  rw [pivotRowsClean, if_pos h] at hclean
  simp only [Bool.and_eq_true, Bool.or_eq_true, Bool.not_eq_true', decide_eq_false_iff_not,
    List.all_eq_true, List.mem_range, decide_eq_true_eq] at hclean
  refine ⟨fun hf j hj => ?_, hclean.2⟩
  rcases hclean.1 with h1 | h1
  · exact absurd hf h1
  · exact h1 j hj

theorem rowEquivalent_rrefLoop {R C : Nat} :
    ∀ (fuel o c : Nat) (m : Matrix), WellShaped m → m.rows = R → m.columns = C →
      pivotRowsClean fuel o c m = true →
      RowEquivalent (toEntries R C m) (toEntries R C (Matrix.rrefLoop fuel o c m)) := by
  intro fuel
  induction fuel with
  | zero => intro o c m _ _ _ _; exact rowEquivalent_refl _
  | succ n ih =>
    intro o c m hm hR hC hclean
    by_cases hcond : o < m.rows ∧ c < m.columns
    · obtain ⟨_, _, hhi, _, _, hbig, _⟩ := findPivot_start m o c hcond.1 (le_of_lt hcond.2)
      obtain ⟨hrow, hrest⟩ := pivotRowsClean_step n o c m hcond hclean
      rw [rrefLoop_step n o c m hcond]
      by_cases hf : (m.findPivot o (m.rows * m.columns + 1) o c).2 < m.columns
      · generalize (m.findPivot o (m.rows * m.columns + 1) o c).1 = i at *
        generalize (m.findPivot o (m.rows * m.columns + 1) o c).2 = p at *
        obtain ⟨hw, _⟩ := reduceAt_spec m hm o i p hcond.1 hhi hf (hbig hf)
        obtain ⟨hr, hcs⟩ := reduceAt_dims m o i p
        exact rowEquivalent_trans
          (rowEquivalent_reduceAt m hm hR hC o i p (by rw [← hR]; exact hcond.1)
            (by rw [← hR]; exact hhi) (by rw [← hC]; exact hf) (hbig hf) (hrow hf))
          (ih (o + 1) (p + 1) _ hw (by rw [hr, hR]) (by rw [hcs, hC]) hrest)
      · rw [reduceAt_none m _ _ _ hf, rrefLoop_exit n _ _ m (by omega)]
        exact rowEquivalent_refl _
    · rw [rrefLoop_exit _ o c m hcond]
      exact rowEquivalent_refl _

/-- C31, an input on which the statement fails. For the 2 x 3 matrix with rows
`[1, 1, 5]` and `[1e-10, 1, 7]` the result of `RREF` has rows `[1, 0, -2]` and
`[1e-10, 1, 7]`: the entry `1e-10` is not above `1e-9`, so row `1` keeps it, and the
`daxpy` that clears column `1` of row `0` starts at column `1` and leaves the `1` of
column `0` as it is. No matrix `E` gives this result as `E * A`, invertible or not. -/
theorem C31_counterexample_not_row_equivalent :
    WellShaped (Matrix.load [[1, 1, 5], [1 / 10 ^ 10, 1, 7]] [] []) ∧
    (Matrix.load [[1, 1, 5], [1 / 10 ^ 10, 1, 7]] [] []).RREF.u
      = [[1, 0, -2], [1 / 10 ^ 10, 1, 7]] ∧
    ¬ ∃ E : RatMatrix 2 2,
      toEntries 2 3 (Matrix.load [[1, 1, 5], [1 / 10 ^ 10, 1, 7]] [] []).RREF
        = E * toEntries 2 3 (Matrix.load [[1, 1, 5], [1 / 10 ^ 10, 1, 7]] [] []) := by
  refine ⟨by decide, by decide!, ?_⟩
  rintro ⟨E, hE⟩
  have h00 := congrFun (congrFun hE 0) 0
  have h01 := congrFun (congrFun hE 0) 1
  have h02 := congrFun (congrFun hE 0) 2
  have a00 : (Matrix.load [[1, 1, 5], [1 / 10 ^ 10, 1, 7]] [] []).RREF.entry 0 0 = 1 := by
    decide!
  have a01 : (Matrix.load [[1, 1, 5], [1 / 10 ^ 10, 1, 7]] [] []).RREF.entry 0 1 = 0 := by
    decide!
  have a02 : (Matrix.load [[1, 1, 5], [1 / 10 ^ 10, 1, 7]] [] []).RREF.entry 0 2 = -2 := by
    decide!
  have b00 : (Matrix.load [[1, 1, 5], [1 / 10 ^ 10, 1, 7]] [] []).entry 0 0 = 1 := by decide!
  have b01 : (Matrix.load [[1, 1, 5], [1 / 10 ^ 10, 1, 7]] [] []).entry 0 1 = 1 := by decide!
  have b02 : (Matrix.load [[1, 1, 5], [1 / 10 ^ 10, 1, 7]] [] []).entry 0 2 = 5 := by decide!
  have b10 : (Matrix.load [[1, 1, 5], [1 / 10 ^ 10, 1, 7]] [] []).entry 1 0 = 1 / 10 ^ 10 := by
    decide!
  have b11 : (Matrix.load [[1, 1, 5], [1 / 10 ^ 10, 1, 7]] [] []).entry 1 1 = 1 := by decide!
  have b12 : (Matrix.load [[1, 1, 5], [1 / 10 ^ 10, 1, 7]] [] []).entry 1 2 = 7 := by decide!
  simp only [Matrix.mul_apply, Fin.sum_univ_two, toEntries, Fin.val_zero, Fin.val_one,
    Fin.val_two] at h00 h01 h02
  rw [a00, b00, b10] at h00
  rw [a01, b01, b11] at h01
  rw [a02, b02, b12] at h02
  have e1 : E 0 1 = -1 := by linarith
  have e0 : E 0 0 = 1 := by linarith
  rw [e0, e1] at h00
  norm_num at h00

/-- C31, amended. For every matrix of `rows` rows of `columns` entries each such that,
at each iteration of the outer loop of `RREF` that finds a pivot, the row the pivot is
found in holds `0` in every column to the left of the pivot column, the result of
`RREF` is `E * A` for an invertible `E`. -/
theorem C31_row_equivalent_when_pivot_rows_clean (m : Matrix) (hm : WellShaped m)
    (hclean : pivotRowsClean m.rows 0 0 m = true) :
    ∃ E F : RatMatrix m.rows m.rows, E * F = 1 ∧ F * E = 1 ∧
      toEntries m.rows m.columns m.RREF = E * toEntries m.rows m.columns m :=
  rowEquivalent_rrefLoop m.rows 0 0 m hm rfl rfl hclean

theorem C31_row_equivalent_when_pivot_rows_clean_witness :
    WellShaped (Matrix.load [[0, 2, 4], [1, 1, 1], [3, 3, 4]] [] []) ∧
    pivotRowsClean (Matrix.load [[0, 2, 4], [1, 1, 1], [3, 3, 4]] [] []).rows 0 0
      (Matrix.load [[0, 2, 4], [1, 1, 1], [3, 3, 4]] [] []) = true ∧
    ∃ E F : RatMatrix (Matrix.load [[0, 2, 4], [1, 1, 1], [3, 3, 4]] [] []).rows
        (Matrix.load [[0, 2, 4], [1, 1, 1], [3, 3, 4]] [] []).rows,
      E * F = 1 ∧ F * E = 1 ∧
      toEntries (Matrix.load [[0, 2, 4], [1, 1, 1], [3, 3, 4]] [] []).rows
          (Matrix.load [[0, 2, 4], [1, 1, 1], [3, 3, 4]] [] []).columns
          (Matrix.load [[0, 2, 4], [1, 1, 1], [3, 3, 4]] [] []).RREF
        = E * toEntries (Matrix.load [[0, 2, 4], [1, 1, 1], [3, 3, 4]] [] []).rows
          (Matrix.load [[0, 2, 4], [1, 1, 1], [3, 3, 4]] [] []).columns
          (Matrix.load [[0, 2, 4], [1, 1, 1], [3, 3, 4]] [] []) :=
  ⟨by decide, by decide!,
    C31_row_equivalent_when_pivot_rows_clean
      (Matrix.load [[0, 2, 4], [1, 1, 1], [3, 3, 4]] [] []) (by decide) (by decide!)⟩

/-! ## The count of the whole run when no reduced entry is small -/

/-- Below a staircase every entry in the columns the staircase covers is at most
`1e-9` in absolute value. -/
theorem gaps_below (m : Matrix) (c : Nat) :
    ∀ (P : List Nat) (i s : Nat), Gaps m i s P c →
      ∀ j, s ≤ j → j < c → ∀ l, i + P.length ≤ l → l < m.rows → fabs (m.entry l j) ≤ tol := by
  intro P
  induction P with
  | nil =>
    intro i s hg j hsj hjc l hil hl
    simp only [Gaps] at hg
    exact hg j hsj hjc l (by simpa using hil) hl
  | cons p ps ih =>
    intro i s hg j hsj hjc l hil hl
    simp only [Gaps] at hg
    obtain ⟨h1, h2, h3, h4, h5, h6, h7, h8⟩ := hg
    simp only [List.length_cons] at hil
    rcases Nat.lt_trichotomy j p with h | h | h
    · exact h4 j hsj h l (by omega) hl
    · rw [h]; exact h7 l hl (by omega)
    · exact ih (i + 1) (p + 1) h8 j (by omega) hjc l (by omega) hl

/-- One iteration of the outer loop of `RREF` that finds a pivot extends the
staircase by the pivot column. -/
theorem gaps_reduceAt (m : Matrix) (hm : WellShaped m) (P : List Nat) (o c i p : Nat)
    (hP : P.length = o) (ho : o < m.rows) (hg : Gaps m 0 0 P c) (hsc : Scanned m o c i p)
    (hlo : o ≤ i) (hhi : i < m.rows) (hcl : c ≤ p) (hf : p < m.columns)
    (hbig : fabs (m.entry i p) > tol) :
    Gaps (m.reduceAt o i p) 0 0 (P ++ [p]) (p + 1) := by
  obtain ⟨hw, hform, hone, hoth⟩ := reduceAt_spec m hm o i p ho hhi hf hbig
  obtain ⟨hr, hcs⟩ := reduceAt_dims m o i p
  have hg1 : Gaps (m.reduceAt o i p) 0 0 P c := by
    apply gaps_transfer hr hcs o c _ _ P 0 0 (by omega) hg
    · intro l j hl hj
      rw [hform l j (lt_of_lt_of_le hj hcl), if_neg (by omega), if_neg (by omega)]
    · intro l j hol hl hj
      rw [hform l j (lt_of_lt_of_le hj hcl)]
      by_cases h1 : l = o
      · rw [if_pos h1]; exact ⟨i, hlo, hhi, rfl⟩
      · rw [if_neg h1]
        by_cases h2 : l = i
        · rw [if_pos h2]; exact ⟨o, Nat.le_refl _, ho, rfl⟩
        · rw [if_neg h2]; exact ⟨l, hol, hl, rfl⟩
  apply gaps_snoc (m.reduceAt o i p) p (by rw [hcs]; exact hf) P 0 0 c o
    (by omega) (Nat.zero_le _) hcl _ (by rw [hr]; exact ho) hone
    (by rw [hr]; exact hoth) hg1
  intro j hcj hjp l hol hl
  rw [hr] at hl
  rw [hform l j hjp]
  by_cases h1 : l = o
  · rw [if_pos h1]; exact hsc.1 j hcj hjp i hlo hhi
  · rw [if_neg h1]
    by_cases h2 : l = i
    · rw [if_pos h2]; exact hsc.1 j hcj hjp o (Nat.le_refl _) ho
    · rw [if_neg h2]; exact hsc.1 j hcj hjp l hol hl

theorem pivotRowsClean_exit (fuel o c : Nat) (m : Matrix)
    (h : ¬ (o < m.rows ∧ c < m.columns)) : pivotRowsClean fuel o c m = true := by
  cases fuel with
  | zero => rfl
  | succ n => rw [pivotRowsClean, if_neg h]

theorem pivotRowsClean_intro (n o c : Nat) (m : Matrix) (h : o < m.rows ∧ c < m.columns)
    (hrow : (m.findPivot o (m.rows * m.columns + 1) o c).2 < m.columns →
      ∀ j, j < (m.findPivot o (m.rows * m.columns + 1) o c).2 →
        m.entry (m.findPivot o (m.rows * m.columns + 1) o c).1 j = 0)
    (hrest : pivotRowsClean n (o + 1) ((m.findPivot o (m.rows * m.columns + 1) o c).2 + 1)
      (m.reduceAt o (m.findPivot o (m.rows * m.columns + 1) o c).1
        (m.findPivot o (m.rows * m.columns + 1) o c).2) = true) :
    pivotRowsClean (n + 1) o c m = true := by
  rw [pivotRowsClean, if_pos h]
  simp only [Bool.and_eq_true, Bool.or_eq_true, Bool.not_eq_true', decide_eq_false_iff_not,
    List.all_eq_true, List.mem_range, decide_eq_true_eq]
  refine ⟨?_, hrest⟩
  by_cases hf : (m.findPivot o (m.rows * m.columns + 1) o c).2 < m.columns
  · exact Or.inr (hrow hf)
  · exact Or.inl hf

/-- When the result of the outer loop of `RREF` has no entry that is non-zero and at
most `1e-9` in absolute value, every row in which the loop found a pivot held exact
zeros to the left of the pivot column. -/
theorem pivotRowsClean_of_gapless :
    ∀ (fuel o c : Nat) (m : Matrix) (P : List Nat), WellShaped m → P.length = o →
      Gaps m 0 0 P c →
      (∀ r j, r < m.rows → j < m.columns →
        (Matrix.rrefLoop fuel o c m).entry r j = 0 ∨
          fabs ((Matrix.rrefLoop fuel o c m).entry r j) > tol) →
      pivotRowsClean fuel o c m = true := by
  intro fuel
  induction fuel with
  | zero => intro o c m P _ _ _ _; rfl
  | succ n ih =>
    intro o c m P hm hP hg hgap
    by_cases hcond : o < m.rows ∧ c < m.columns
    · obtain ⟨hsc, hlo, hhi, hcl, _, hbig, _⟩ :=
        findPivot_start m o c hcond.1 (le_of_lt hcond.2)
      apply pivotRowsClean_intro n o c m hcond
      · intro hf j hj
        rw [rrefLoop_step n o c m hcond] at hgap
        generalize (m.findPivot o (m.rows * m.columns + 1) o c).1 = i at *
        generalize (m.findPivot o (m.rows * m.columns + 1) o c).2 = p at *
        obtain ⟨hw, hform, _, _⟩ := reduceAt_spec m hm o i p hcond.1 hhi hf (hbig hf)
        obtain ⟨σ, hfix, hent⟩ := rrefLoop_rows n (o + 1) (p + 1) (m.reduceAt o i p) hw
        have h1 : (Matrix.rrefLoop n (o + 1) (p + 1) (m.reduceAt o i p)).entry o j
            = m.entry i j := by
          rw [hent o j (by omega), hfix o (Or.inl (Nat.lt_succ_self o)), hform o j hj,
            if_pos rfl]
        have h2 : fabs (m.entry i j) ≤ tol := by
          by_cases hcj : c ≤ j
          · exact hsc.1 j hcj hj i hlo hhi
          · exact gaps_below m c P 0 0 hg j (Nat.zero_le _) (by omega) i (by omega) hhi
        rcases hgap o j hcond.1 (by omega) with h3 | h3
        · rw [← h1]; exact h3
        · rw [h1] at h3
          exact absurd h3 (not_lt.mpr h2)
      · by_cases hf : (m.findPivot o (m.rows * m.columns + 1) o c).2 < m.columns
        · rw [rrefLoop_step n o c m hcond] at hgap
          generalize (m.findPivot o (m.rows * m.columns + 1) o c).1 = i at *
          generalize (m.findPivot o (m.rows * m.columns + 1) o c).2 = p at *
          obtain ⟨hw, _, _, _⟩ := reduceAt_spec m hm o i p hcond.1 hhi hf (hbig hf)
          obtain ⟨hr, hcs⟩ := reduceAt_dims m o i p
          apply ih (o + 1) (p + 1) (m.reduceAt o i p) (P ++ [p]) hw (by simp [hP])
            (gaps_reduceAt m hm P o c i p hP hcond.1 hg hsc hlo hhi hcl hf (hbig hf))
          intro r j hr' hj'
          rw [hr] at hr'
          rw [hcs] at hj'
          exact hgap r j hr' hj'
        · rw [reduceAt_none m _ _ _ hf]
          exact pivotRowsClean_exit n _ _ m (by omega)
    · exact pivotRowsClean_exit _ o c m hcond

/-- When the reduced matrix has no entry that is non-zero and at most `1e-9` in
absolute value, it is `E * A` for an invertible `E`. -/
theorem rowEquivalent_of_gapless (m : Matrix) (hm : WellShaped m)
    (hgap : ∀ r j, r < m.rows → j < m.columns →
      m.RREF.entry r j = 0 ∨ fabs (m.RREF.entry r j) > tol) :
    RowEquivalent (toEntries m.rows m.columns m) (toEntries m.rows m.columns m.RREF) := by
  have hg0 : Gaps m 0 0 [] 0 := by
    simp only [Gaps]
    intro j _ hj
    omega
  exact rowEquivalent_rrefLoop m.rows 0 0 m hm rfl rfl
    (pivotRowsClean_of_gapless m.rows 0 0 m [] hm rfl hg0 hgap)

/-- A square array with a non-zero determinant has a transversal of non-zero
entries. -/
theorem transversal_of_det_ne_zero {R : Nat} (M : RatMatrix R R) (h : Matrix.det M ≠ 0) :
    ∃ σ : Equiv.Perm (Fin R), ∀ i, M (σ i) i ≠ 0 := by
  by_contra hno
  push_neg at hno
  apply h
  rw [Matrix.det_apply]
  apply Finset.sum_eq_zero
  intro σ _
  obtain ⟨i, hi⟩ := hno σ
  have hp : ∏ k : Fin R, M (σ k) k = 0 := Finset.prod_eq_zero (Finset.mem_univ i) hi
  rw [hp, smul_zero]

theorem selectColumns_mul {R C : Nat} (A B : Matrix) (E : RatMatrix R R) (S : List Int)
    (hS : ∀ j, j < R → (S.getD j 0).toNat < C)
    (h : toEntries R C B = E * toEntries R C A) :
    selectColumns R B S = E * selectColumns R A S := by
  funext i j
  have := congrFun (congrFun h i) ⟨(S.getD j.val 0).toNat, hS j.val j.isLt⟩
  simp only [toEntries, Matrix.mul_apply] at this
  simp only [selectColumns, Matrix.mul_apply]
  exact this

/-- Row equivalence keeps the determinant of a choice of columns away from zero. -/
theorem det_selectColumns_ne_zero {R C : Nat} (A B : Matrix) (S : List Int)
    (hS : ∀ j, j < R → (S.getD j 0).toNat < C)
    (hrow : RowEquivalent (toEntries R C A) (toEntries R C B))
    (hdet : Matrix.det (selectColumns R A S) ≠ 0) :
    Matrix.det (selectColumns R B S) ≠ 0 := by
  obtain ⟨E, F, hEF, _, hB⟩ := hrow
  rw [selectColumns_mul A B E S hS hB, Matrix.det_mul]
  have hE : Matrix.det E ≠ 0 := by
    intro h0
    have h1 : Matrix.det (E * F) = 1 := by rw [hEF, Matrix.det_one]
    rw [Matrix.det_mul, h0, zero_mul] at h1
    exact zero_ne_one h1
  exact mul_ne_zero hE hdet

/-- A transversal of entries above `1e-9` in the columns `S` of the reduced matrix is
an assignment of the columns to the rows that the search follows. -/
theorem thresholdReachable_of_transversal (rref : Matrix) (S : List Int)
    (σ : Equiv.Perm (Fin rref.getNumberRows)) (hlen : S.length = rref.getNumberRows)
    (hbig : ∀ i, fabs (selectColumns rref.getNumberRows rref S (σ i) i) > tol) :
    ThresholdReachable rref S := by
  have hS : S = List.ofFn (fun j : Fin rref.getNumberRows => S.getD j.val 0) := by
    apply List.ext_getElem
    · rw [List.length_ofFn, hlen]
    · intro n h1 h2
      rw [List.getElem_ofFn, List.getD_eq_getElem _ _ h1]
  refine ⟨List.ofFn ((fun j : Fin rref.getNumberRows => S.getD j.val 0) ∘ σ.symm), ?_, ?_⟩
  · rw [List.mem_permutations]
    have := Equiv.Perm.ofFn_comp_perm σ.symm (fun j : Fin rref.getNumberRows => S.getD j.val 0)
    rw [← hS] at this
    exact this
  · intro r hr
    have h1 : (List.ofFn ((fun j : Fin rref.getNumberRows => S.getD j.val 0) ∘ σ.symm)).getD r 0
        = S.getD (σ.symm ⟨r, hr⟩).val 0 := by
      rw [List.getD_eq_getElem _ _ (by rw [List.length_ofFn]; exact hr), List.getElem_ofFn]
      rfl
    rw [h1]
    have := hbig (σ.symm ⟨r, hr⟩)
    rw [Equiv.apply_symm_apply] at this
    exact this

theorem copy_entry (m : Matrix) (r c : Nat) : m.copy.entry r c = m.entry r c := rfl

/-- When `dgetrf` reports success only for a submatrix with a non-zero determinant
and the reduced matrix has no entry that is non-zero and at most `1e-9` in absolute
value, every column subset reported of full rank is one the search can reach. -/
theorem reachable_of_fullRank (K : Lapack) (m : Matrix) (hm : WellShaped m)
    (hsound : ∀ S ∈ List.sublistsLen m.rows (columnList m.columns),
      fullRank K m.rows m.copy S = true → Matrix.det (selectColumns m.rows m S) ≠ 0)
    (hgap : ∀ r j, r < m.rows → j < m.columns →
      m.RREF.entry r j = 0 ∨ fabs (m.RREF.entry r j) > tol)
    (S : List Int) (hS : S ∈ List.sublistsLen m.rows (columnList m.columns))
    (hfull : fullRank K m.rows m.copy S = true) :
    ThresholdReachable m.RREF S := by
  obtain ⟨_, hlen, hrange⟩ := (mem_sublistsLen_columnList m.rows m.columns S).mp hS
  have hcol : ∀ j, j < m.rows → (S.getD j 0).toNat < m.columns := by
    intro j hj
    have hj' : j < S.length := by rw [hlen]; exact hj
    rw [List.getD_eq_getElem _ _ hj']
    have := hrange _ (List.getElem_mem hj')
    omega
  have hdet := det_selectColumns_ne_zero m m.RREF S hcol (rowEquivalent_of_gapless m hm hgap)
    (hsound S hS hfull)
  obtain ⟨σ, hσ⟩ := transversal_of_det_ne_zero _ hdet
  have hrr : m.RREF.getNumberRows = m.rows := RREF_rows m
  have key : ∀ (R : Nat) (hR : R = m.rows) (τ : Equiv.Perm (Fin R)),
      (∀ i, selectColumns R m.RREF S (τ i) i ≠ 0) → S.length = R →
      ∀ i, fabs (selectColumns R m.RREF S (τ i) i) > tol := by
    intro R hR τ hτ _ i
    rcases hgap (τ i).val (S.getD i.val 0).toNat (by rw [← hR]; exact (τ i).isLt)
      (hcol i.val (by rw [← hR]; exact i.isLt)) with h0 | hb
    · exact absurd h0 (hτ i)
    · exact hb
  have hbig := key m.rows rfl σ hσ hlen
  revert hbig σ
  rw [← hrr] at hlen
  rw [← hrr]
  intro σ _ hbig
  exact thresholdReachable_of_transversal m.RREF S σ hlen hbig

theorem claimed_eq_reached (K : Lapack) (m : Matrix) (hm : WellShaped m)
    (hsound : ∀ S ∈ List.sublistsLen m.rows (columnList m.columns),
      fullRank K m.rows m.copy S = true → Matrix.det (selectColumns m.rows m S) ≠ 0)
    (hgap : ∀ r j, r < m.rows → j < m.columns →
      m.RREF.entry r j = 0 ∨ fabs (m.RREF.entry r j) > tol) :
    reachedFeasible K m = claimedFeasible K m := by
  unfold reachedFeasible claimedFeasible
  congr 1
  apply List.filter_congr
  intro S hS
  by_cases hfull : fullRank K m.rows m.copy S = true
  · have := reachable_of_fullRank K m hm hsound hgap S hS hfull
    simp [hfull, this]
  · simp [hfull]

/-- The exact arithmetic of `RREF` matters for the count. The 2 x 2 matrix with rows
`[3, 2^30]` and `[1, d]`, `d` the `double` nearest to `2^30/3`, holds numbers a
`double` holds exactly and has determinant `-2^-24`. Over exact arithmetic `RREF`
gives the identity and the run counts the subset `{0, 1}`. In `double` the
elimination of column `0` leaves row `1` zero, no candidate is formed and the run
counts nothing. -/
theorem mainDouble_misses_full_rank_subset :
    WellShaped (Matrix.load [[3, 2 ^ 30], [1, 6004799503160661 / 2 ^ 24]] [] []) ∧
    (∀ row ∈ (Matrix.load [[3, 2 ^ 30], [1, 6004799503160661 / 2 ^ 24]] [] []).u,
      ∀ x ∈ row, binary64 x = x) ∧
    (Matrix.load [[3, 2 ^ 30], [1, 6004799503160661 / 2 ^ 24]] [] []).RREF.u
      = [[1, 0], [0, 1]] ∧
    (doubleRREF (Matrix.load [[3, 2 ^ 30], [1, 6004799503160661 / 2 ^ 24]] [] [])).u
      = [[1, 6004799503160661 / 2 ^ 24], [0, 0]] ∧
    claimedFeasible exactLapack
      (Matrix.load [[3, 2 ^ 30], [1, 6004799503160661 / 2 ^ 24]] [] []) = 1 ∧
    (main exactLapack (Matrix.load [[3, 2 ^ 30], [1, 6004799503160661 / 2 ^ 24]] [] [])).map
      (fun p => p.2.numberFeasible) = some 1 ∧
    (mainDouble exactLapack
      (Matrix.load [[3, 2 ^ 30], [1, 6004799503160661 / 2 ^ 24]] [] [])).map
      (fun p => p.2.numberFeasible) = some 0 := by
  decide!

/-- The verdict of `dgetrf` needs to be sound for the count. With a `dgetrf` that
always reports success the 1 x 1 zero matrix has one subset reported invertible,
and the run, which finds no entry above `1e-9`, counts nothing. -/
theorem unsound_dgetrf_is_not_followed :
    claimedFeasible { exactLapack with dgetrf_ := fun a => (a, 0) }
      (Matrix.load [[0]] [] []) = 1 ∧
    (main { exactLapack with dgetrf_ := fun a => (a, 0) } (Matrix.load [[0]] [] [])).map
      (fun p => p.2.numberFeasible) = some 0 := by
  decide!

/-- The keys of a trie of width 3 and depth 2 and their rearrangements: on the
2 x 3 matrix with rows `[1, 2, 1]` and `[1, 2, 3]` the exact reading of `dgetrf`
gives the same verdict for a pair of columns in either order. -/
theorem exact_order_free_twoByThree :
    ∀ a ∈ ([[0, 0], [0, 1], [0, 2], [1, 0], [1, 1], [1, 2], [2, 0], [2, 1], [2, 2]] :
        List (List Int)),
      ∀ b ∈ a.permutations,
        fullRank exactLapack 2 exampleTwoByThree.copy a
          = fullRank exactLapack 2 exampleTwoByThree.copy b := by
  decide!

/-- On the 2 x 3 matrix with rows `[1, 2, 1]` and `[1, 2, 3]` the exact reading of
`dgetrf` reports success only for a pair of columns with a non-zero determinant. -/
theorem exact_sound_twoByThree :
    ∀ S ∈ List.sublistsLen exampleTwoByThree.rows (columnList exampleTwoByThree.columns),
      fullRank exactLapack exampleTwoByThree.rows exampleTwoByThree.copy S = true →
        Matrix.det (selectColumns exampleTwoByThree.rows exampleTwoByThree S) ≠ 0 := by
  intro S hS hfull
  have hlist : List.sublistsLen exampleTwoByThree.rows
      (columnList exampleTwoByThree.columns) = [[1, 2], [0, 2], [0, 1]] := by decide!
  have hmem : S ∈ ([[1, 2], [0, 2], [0, 1]] : List (List Int)) := by
    rw [← hlist]; exact hS
  change Matrix.det (selectColumns 2 exampleTwoByThree S) ≠ 0
  rw [Matrix.det_fin_two]
  simp only [List.mem_cons, List.mem_singleton, List.not_mem_nil, or_false] at hmem
  rcases hmem with h | h | h
  · subst h
    decide!
  · subst h
    decide!
  · subst h
    exact absurd hfull (by decide!)

theorem gapless_twoByThree :
    ∀ r j, r < exampleTwoByThree.rows → j < exampleTwoByThree.columns →
      exampleTwoByThree.RREF.entry r j = 0 ∨
        fabs (exampleTwoByThree.RREF.entry r j) > tol := by
  intro r j hr hj
  have hr2 : r < 2 := hr
  have hj3 : j < 3 := hj
  interval_cases r <;> interval_cases j <;> decide!

/-- C1, amended. For every matrix of `rows >= 1` rows of `columns` entries each and
every known and unknowable list, with `RREF` over exact arithmetic, provided
(1) the verdict of `dgetrf` does not depend on the order in which the columns of a
candidate are copied, (2) `dgetrf` reports success only for a submatrix with a
non-zero determinant, and (3) no entry of the reduced matrix is non-zero and at most
`1e-9` in absolute value: the run of `main` returns, and it ends with `numberFeasible`
equal to the number of `rows`-element column subsets `S` that contain no known
column, contain every unknowable column and have a submatrix of the original matrix
that `dgetrf` reports invertible. The search misses no such subset. -/
theorem C1_feasible_count_when_no_small_reduced_entry (K : Lapack) (m : Matrix)
    (hm : WellShaped m) (hR : 1 ≤ m.rows)
    (hK : ∀ a b : List Int, a.Perm b → ValidKey m.columns m.rows a →
      fullRank K m.rows m.copy a = fullRank K m.rows m.copy b)
    (hsound : ∀ S ∈ List.sublistsLen m.rows (columnList m.columns),
      fullRank K m.rows m.copy S = true → Matrix.det (selectColumns m.rows m S) ≠ 0)
    (hgap : ∀ r j, r < m.rows → j < m.columns →
      m.RREF.entry r j = 0 ∨ fabs (m.RREF.entry r j) > tol) :
    ∃ buf st, main K m = some (buf, st) ∧
      st.numberFeasible = (claimedFeasible K m : Int) := by
  obtain ⟨buf, st, hmain, _, _, hnf, _⟩ := main_spec K m hR
  refine ⟨buf, st, hmain, ?_⟩
  rw [hnf, firsts_count_eq_reached K m hR hK, claimed_eq_reached K m hm hsound hgap]

theorem C1_feasible_count_when_no_small_reduced_entry_witness :
    WellShaped exampleTwoByThree ∧
    exampleTwoByThree.RREF.u = [[1, 2, 0], [0, 0, 1]] ∧
    claimedFeasible exactLapack exampleTwoByThree = 2 ∧
    ∃ buf st, main exactLapack exampleTwoByThree = some (buf, st) ∧
      st.numberFeasible = (claimedFeasible exactLapack exampleTwoByThree : Int) :=
  ⟨by decide, by decide!, by decide!,
    C1_feasible_count_when_no_small_reduced_entry exactLapack exampleTwoByThree
      (by decide) (by decide)
      (fun a b hperm hv =>
        exact_order_free_twoByThree a (validKey_3_2_cases a hv) b
          (List.mem_permutations.mpr hperm.symm))
      exact_sound_twoByThree gapless_twoByThree⟩

end FlowImportance
